import Mathlib

/-!
# Logic circuit simulator (`truthtable.c`): embedding and verified properties

The C program reads a netlist, interns every wire label in a fixed 256-slot
open-addressing table, links the gates into a graph through the wires they
share, sorts the gates by a depth-first postorder and replays them once per
input assignment to print a truth table.

Conventions of the embedding.

* The input is the sequence of whitespace-separated words of the file.
* Pointers to wires and gate nodes are replaced by the record they point to
  (wires are never modified after creation) or by the index of the node.
* A result of type `Option` is `none` exactly when the C program has no
  defined result: a loop that never exits, a null dereference, or an array
  access outside the allocated block.
* `malloc`ed blocks start with arbitrary contents, which are parameters.
* `int` is 32 bits wide. C defines `a << k` and `a >> k` only for a count in
  0..31 and a result that fits; the model takes the mathematical value and
  keeps its low 32 bits, which agrees with C wherever C defines the shift.

The namespace `CacheSim` embeds the head of `main` of the cache simulator
(`cachesim.c`): the check of the argument count, the conversion of the sizes
and the test of the sizes.
-/

namespace TruthTable

/-! ## Machine arithmetic -/

/-- Two's complement reading of an integer as a 32-bit `int`. -/
def wrap32 (x : Int) : Int := (x + 2147483648) % 4294967296 - 2147483648

/-- The C expression `a << k` on 32-bit ints. -/
def shl32 (a k : Int) : Int := wrap32 (a * 2 ^ k.toNat)

/-- The C expression `a >> k` on 32-bit ints (arithmetic shift). -/
def shr32 (a k : Int) : Int := a / 2 ^ k.toNat

/-- A bounds-checked read of a `malloc`ed int block of `size` cells. -/
def rd (size : Int) (a : Int → Int) (i : Int) : Option Int :=
  if 0 ≤ i ∧ i < size then some (a i) else none

/-- A bounds-checked write to a `malloc`ed int block of `size` cells. -/
def wr (size : Int) (a : Int → Int) (i v : Int) : Option (Int → Int) :=
  if 0 ≤ i ∧ i < size then some (fun k => if k = i then v else a k) else none

/-! ## Wires and the symbol table -/

/-- Number of slots of the label table. -/
def MAX_VARS : Nat := 256

/-- Kind of a wire. -/
inductive var_type_t where
  | INPUT
  | OUTPUT
  | TEMP
  | CONSTANT
  | DISCARDED
deriving DecidableEq, Repr

/-- A wire: label, identity and kind (the list links are the list order). -/
structure wire_t where
  key : String
  id : Nat
  type : var_type_t
deriving DecidableEq, Repr

/-- The wire list (head to tail), its size field, and the slot table. -/
structure wirelist_t where
  list : List wire_t
  size : Nat
  map : Nat → Option wire_t

/-- Source: `hash`. Characters are taken from the last to the first. -/
def hash (key : String) : Nat :=
  key.data.reverse.foldl (fun h c => (h * 31 + c.toNat) % MAX_VARS) 0

/-- Source: `init_wirelist`. -/
def init_wirelist : wirelist_t := { list := [], size := 0, map := fun _ => none }

/-- Source: `add_wire`; returns the list and the new node. -/
def add_wire (list : wirelist_t) (key : String) (id : Nat) (type : var_type_t) :
    wirelist_t × wire_t :=
  let node : wire_t := { key := key, id := id, type := type }
  ({ list with list := list.list ++ [node], size := list.size + 1 }, node)

/-- Slot probed at step `i` of the quadratic probe from home slot `h`. -/
def probe (h i : Nat) : Nat := (h + i * i) % MAX_VARS

/-- Assignment `list->map[slot] = node`. -/
def set_slot (list : wirelist_t) (slot : Nat) (node : wire_t) : wirelist_t :=
  { list with map := fun k => if k = slot then some node else list.map k }

/-- The loop `while (map[(h + i*i) % 256] != NULL) i++` of `hashtable_add`, started at
`i = 1`: the least `i` with an empty slot. The probed slot depends only on `i mod 128`
(see `probe_periodic`), so the loop exits iff it exits within the first 128 steps;
`none` stands for the loop that never exits. -/
def find_free (map : Nat → Option wire_t) (h : Nat) : Option Nat :=
  (List.range' 1 128).find? (fun i => (map (probe h i)).isNone)

/-- Source: `hashtable_add`. -/
def hashtable_add (list : wirelist_t) (key : String) (id : Nat) (type : var_type_t) :
    Option wirelist_t :=
  let hash_value := hash key
  match list.map hash_value with
  | none =>
    let r := add_wire list key id type
    some (set_slot r.1 hash_value r.2)
  | some w =>
    if w.key ≠ key then
      match find_free list.map hash_value with
      | none => none
      | some i =>
        let r := add_wire list key id type
        some (set_slot r.1 (probe hash_value i) r.2)
    else some list

/-- Source: `hashtable_get`: the first slot, in slot order, holding a wire with this id. -/
def hashtable_get (list : wirelist_t) (id : Nat) : Option wire_t :=
  (List.range MAX_VARS).findSome? (fun i =>
    match list.map i with
    | some w => if w.id = id then some w else none
    | none => none)

/-- The probe loop of `hashtable_get_by_key`: the least `i ≥ 1` whose slot is empty or
holds `key`; `none` when the loop never exits. -/
def find_key (map : Nat → Option wire_t) (h : Nat) (key : String) : Option Nat :=
  (List.range' 1 128).find? (fun i =>
    match map (probe h i) with
    | none => true
    | some w => decide (w.key = key))

/-- Source: `hashtable_get_by_key`. The outer `Option` is termination, the inner one is
the returned pointer (`none` for `NULL`). -/
def hashtable_get_by_key (list : wirelist_t) (key : String) : Option (Option wire_t) :=
  let hash_value := hash key
  match list.map hash_value with
  | none => some none
  | some w =>
    if w.key = key then some (some w)
    else
      match find_key list.map hash_value key with
      | none => none
      | some i => some (list.map (probe hash_value i))

/-- The probe loop of `hashtable_contains` over the remaining values of `i`. -/
def contains_loop (map : Nat → Option wire_t) (h : Nat) (key : String) : List Nat → Bool
  | [] => false
  | i :: rest =>
    match map (probe h i) with
    | none => false
    | some w => if w.key = key then true else contains_loop map h key rest

/-- Source: `hashtable_contains` (the loop runs while `i < MAX_VARS + 1`). -/
def hashtable_contains (list : wirelist_t) (key : String) : Bool :=
  let hash_value := hash key
  match list.map hash_value with
  | none => false
  | some w =>
    if w.key = key then true
    else contains_loop list.map hash_value key (List.range' 1 MAX_VARS)

/-- Source: `check_type`. -/
def check_type (param : String) (fallback_type : var_type_t) : var_type_t :=
  if param = "0" then var_type_t.CONSTANT
  else if param = "1" then var_type_t.CONSTANT
  else if param = "_" then var_type_t.DISCARDED
  else fallback_type

/-! ## Gates -/

/-- Operation of a gate. -/
inductive type_t where
  | AND
  | OR
  | NAND
  | NOR
  | XOR
  | NOT
  | PASS
  | DECODER
  | MULTIPLEXER
deriving DecidableEq, Repr

/-- A gate record; `params` lists the input slots, then the output slots. -/
structure gate_t where
  type : type_t
  size : Int
  params : List Nat
  id : Nat
deriving DecidableEq, Repr

/-- The gate list, head to tail; the field `nGates` of the source is its length. -/
abbrev gatelist_t := List gate_t

/-- Source: `add_gate`. -/
def add_gate (gates : gatelist_t) (type : type_t) (size : Int) (params : List Nat)
    (id : Nat) : gatelist_t :=
  gates ++ [{ type := type, size := size, params := params, id := id }]

/-- Source: `calc_gate_in_size`. -/
def calc_gate_in_size (gate : gate_t) : Int :=
  if gate.type = type_t.MULTIPLEXER then wrap32 (shl32 1 gate.size + gate.size)
  else gate.size

/-- Source: `calc_gate_out_size`. -/
def calc_gate_out_size (gate : gate_t) : Int :=
  if gate.type = type_t.DECODER then shl32 1 gate.size else 1

/-- Read of `params[i]` for an `int` index. -/
def param (gate : gate_t) (i : Int) : Option Nat :=
  if 0 ≤ i then gate.params[i.toNat]? else none

/-! ## The parser -/

/-- State of `parse_circuit`: the unread words of the file, the buffer `token`, and the
objects reached through its pointer arguments. -/
structure pstate where
  input : List String
  token : String
  wires : wirelist_t
  gates : gatelist_t
  nInputs : Int
  nOutputs : Int
  gateId : Nat
  wireId : Nat

/-- The call `fscanf(fp, " %16s", token)`: `none` at end of input (the buffer keeps its
old contents), otherwise the next word, cut after 16 characters. -/
def read_token (s : pstate) : Option pstate :=
  match s.input with
  | [] => none
  | t :: rest =>
    if t.length ≤ 16 then some { s with token := t, input := rest }
    else some { s with token := String.mk (t.data.take 16),
                       input := String.mk (t.data.drop 16) :: rest }

/-- The word read by `fscanf(fp, " %16s", token)` whose result is ignored. -/
def next_token (s : pstate) : pstate :=
  match read_token s with
  | none => s
  | some s1 => s1

/-- Value of a run of decimal digits. -/
def digits_value (ds : List Char) : Int :=
  ds.foldl (fun acc c => acc * 10 + ((c.toNat : Int) - 48)) 0

/-- Conversion done by `strtol` followed by the cast to `int`: clamp to 64 bits, then
keep the low 32 bits. -/
def to_int (neg : Bool) (ds : List Char) : Int :=
  let v := if neg then - digits_value ds else digits_value ds
  wrap32 (max (-9223372036854775808) (min v 9223372036854775807))

/-- The conversion `%d` on the characters of the next word: the value, if any, and the
characters left unread. A sign not followed by a digit is consumed and fails. -/
def scan_int (cs : List Char) : Option Int × List Char :=
  let neg := cs.head? = some '-'
  let body := if cs.head? = some '-' ∨ cs.head? = some '+' then cs.drop 1 else cs
  let ds := body.takeWhile Char.isDigit
  if ds = [] then (none, body) else (some (to_int neg ds), body.dropWhile Char.isDigit)

/-- The call `fscanf(fp, " %d", p)`: the new value of `*p` and the unread input. -/
def fscanf_int (old : Int) (input : List String) : Int × List String :=
  match input with
  | [] => (old, [])
  | t :: rest =>
    let r := scan_int t.data
    ((r.1).getD old, if r.2 = [] then rest else String.mk r.2 :: rest)

/-- Source: `atoi`. -/
def atoi (t : String) : Int :=
  let cs := t.data
  let neg := cs.head? = some '-'
  let body := if cs.head? = some '-' ∨ cs.head? = some '+' then cs.drop 1 else cs
  to_int neg (body.takeWhile Char.isDigit)

/-- The statement
`if (!hashtable_contains(wires, token)) hashtable_add(wires, token, (*wireId)++, type);`. -/
def declare (s : pstate) (type : var_type_t) : Option pstate :=
  if hashtable_contains s.wires s.token then some s
  else
    match hashtable_add s.wires s.token s.wireId type with
    | none => none
    | some w => some { s with wires := w, wireId := s.wireId + 1 }

/-- The expression `hashtable_get_by_key(wires, token)->id`. -/
def lookup_id (s : pstate) : Option Nat :=
  match hashtable_get_by_key s.wires s.token with
  | some (some w) => some w.id
  | _ => none

/-- One gate parameter: read a word, declare it with fallback kind `TEMP`, and fetch
its identity. -/
def read_param (s : pstate) : Option (pstate × Nat) :=
  match declare (next_token s) (check_type (next_token s).token var_type_t.TEMP) with
  | none => none
  | some s1 =>
    match lookup_id s1 with
    | none => none
    | some id => some (s1, id)

/-- The parameters `params[0..n-1]`, read in order. -/
def read_params : Nat → pstate → Option (pstate × List Nat)
  | 0, s => some (s, [])
  | n + 1, s =>
    match read_param s with
    | none => none
    | some (s1, id) =>
      match read_params n s1 with
      | none => none
      | some (s2, ids) => some (s2, id :: ids)

/-- The loop of the `INPUT` statement. -/
def read_inputs : Nat → pstate → Option pstate
  | 0, s => some s
  | n + 1, s =>
    match declare (next_token s) (check_type (next_token s).token var_type_t.INPUT) with
    | none => none
    | some s1 => read_inputs n s1

/-- The loop of the `OUTPUT` statement (no `check_type` here). -/
def read_outputs : Nat → pstate → Option pstate
  | 0, s => some s
  | n + 1, s =>
    match declare (next_token s) var_type_t.OUTPUT with
    | none => none
    | some s1 => read_outputs n s1

/-- A gate statement with a fixed number of parameters, ended by `add_gate`. -/
def read_gate (s : pstate) (type : type_t) (size : Int) (count : Nat) : Option pstate :=
  match read_params count s with
  | none => none
  | some (s1, params) =>
    some { s1 with gates := add_gate s1.gates type size params s1.gateId,
                   gateId := s1.gateId + 1 }

/-- The body of the `DECODER` branch. The second loop stores to `params[i + n]`, which
lies before the block when `n < 0`; and when the `int` count `(1 << n) + n` is negative
the size passed to `malloc` is above 2^63 bytes, `params` is `NULL`, and the first store
faults. -/
def read_decoder (s : pstate) : Option pstate :=
  let s1 := next_token s
  let n := atoi s1.token
  if n < 0 ∧ 0 < shl32 1 n then none
  else if wrap32 (shl32 1 n + n) < 0 ∧ 0 < n.toNat + (shl32 1 n).toNat then none
  else read_gate s1 type_t.DECODER n (n.toNat + (shl32 1 n).toNat)

/-- The body of the `MULTIPLEXER` branch. When the count `(1 << n) + n + 1` is negative
the loop body never runs, so the `NULL` block is not written to. -/
def read_multiplexer (s : pstate) : Option pstate :=
  let s1 := next_token s
  let n := atoi s1.token
  read_gate s1 type_t.MULTIPLEXER n (wrap32 (wrap32 (shl32 1 n + n) + 1)).toNat

/-- One statement whose leading word is already in `token`; `none` inside the outer
`Option` is the branch `Unknown token`. -/
def statement (s : pstate) : Option (Option pstate) :=
  if s.token = "INPUT" then
    let r := fscanf_int s.nInputs s.input
    (read_inputs r.1.toNat { s with nInputs := r.1, input := r.2 }).map some
  else if s.token = "OUTPUT" then
    let r := fscanf_int s.nOutputs s.input
    (read_outputs r.1.toNat { s with nOutputs := r.1, input := r.2 }).map some
  else if s.token = "AND" then (read_gate s type_t.AND 2 3).map some
  else if s.token = "OR" then (read_gate s type_t.OR 2 3).map some
  else if s.token = "NAND" then (read_gate s type_t.NAND 2 3).map some
  else if s.token = "NOR" then (read_gate s type_t.NOR 2 3).map some
  else if s.token = "XOR" then (read_gate s type_t.XOR 2 3).map some
  else if s.token = "NOT" then (read_gate s type_t.NOT 1 2).map some
  else if s.token = "PASS" then (read_gate s type_t.PASS 1 2).map some
  else if s.token = "DECODER" then (read_decoder s).map some
  else if s.token = "MULTIPLEXER" then (read_multiplexer s).map some
  else some none

/-- The `while` loop of `parse_circuit`, with a bound on the number of statements. -/
def parse_loop : Nat → pstate → Option (Int × pstate)
  | 0, _ => none
  | fuel + 1, s =>
    match read_token s with
    | none => some (0, s)
    | some s1 =>
      if s1.token = "END" then some (0, s1)
      else
        match statement s1 with
        | none => none
        | some none => some (1, s1)
        | some (some s2) => parse_loop fuel s2

/-- Number of characters and words left in the input; every `%16s` that succeeds
lowers it. -/
def input_measure (input : List String) : Nat :=
  (input.map (fun t => t.length + 1)).sum

/-- Source: `parse_circuit`: the returned code and the final state. -/
def parse_circuit (s : pstate) : Option (Int × pstate) :=
  parse_loop (input_measure s.input + 1) s

/-- The state in which `main` calls `parse_circuit`; the two counters and the token
buffer are uninitialised there. -/
def main_state (input : List String) (nInputs nOutputs : Int) (token : String) : pstate :=
  { input := input, token := token, wires := init_wirelist, gates := [],
    nInputs := nInputs, nOutputs := nOutputs, gateId := 0, wireId := 0 }

/-! ## The gate graph -/

/-- The scan `for (i = lo; ...; i++) if (gate->params[i] == wireId) return ...` over
`count` consecutive slots: `some true` when the wire is found. -/
def slot_scan (gate : gate_t) (wireId : Nat) : Int → Nat → Option Bool
  | _, 0 => some false
  | i, n + 1 =>
    match param gate i with
    | none => none
    | some p => if p = wireId then some true else slot_scan gate wireId (i + 1) n

/-- Source: `get_gate_out_id`: the id of the first gate with the wire among its output
slots, or `-1`. -/
def get_gate_out_id : gatelist_t → Nat → Option Int
  | [], _ => some (-1)
  | gate :: rest, wireId =>
    match slot_scan gate wireId (calc_gate_in_size gate)
        (wrap32 (calc_gate_in_size gate + calc_gate_out_size gate)
          - calc_gate_in_size gate).toNat with
    | none => none
    | some true => some gate.id
    | some false => get_gate_out_id rest wireId

/-- Source: `get_gate_in_id`: the id of the first gate with the wire among its input
slots, or `-1`. -/
def get_gate_in_id : gatelist_t → Nat → Option Int
  | [], _ => some (-1)
  | gate :: rest, wireId =>
    match slot_scan gate wireId 0 (calc_gate_in_size gate).toNat with
    | none => none
    | some true => some gate.id
    | some false => get_gate_in_id rest wireId

/-- Source: `get_gate`. -/
def get_gate (gates : gatelist_t) (id : Nat) : Option gate_t :=
  gates.find? (fun gate => gate.id = id)

/-- A node of the gate graph. A pointer to the node `gatenodes[k]` is the index `k`;
`none` is `NULL`. -/
structure gatenode_t where
  id : Nat
  type : type_t
  size : Int
  in_ : List (Option Nat)
  out : List (Option Nat)
deriving DecidableEq, Repr

/-- The pointer `builder->gatenodes[id]` for an `int` index, in a block of `nGates`
cells. -/
def node_ptr (nGates : Nat) (id : Int) : Option (Option Nat) :=
  if 0 ≤ id ∧ id < nGates then some (some id.toNat) else none

/-- Map a fallible function over a list, in order. -/
def opt_map {α β : Type} (f : α → Option β) : List α → Option (List β)
  | [] => some []
  | a :: rest =>
    match f a with
    | none => none
    | some b =>
      match opt_map f rest with
      | none => none
      | some bs => some (b :: bs)

/-- The value stored to `node->in[i]` by `build_circuit`. -/
def node_in (wires : wirelist_t) (gates : gatelist_t) (gate : gate_t) (i : Nat) :
    Option (Option Nat) :=
  match param gate i with
  | none => none
  | some wire_id =>
    match hashtable_get wires wire_id with
    | none => none
    | some wire =>
      if wire.type ≠ var_type_t.CONSTANT ∧ wire.type ≠ var_type_t.INPUT then
        match get_gate_out_id gates wire_id with
        | none => none
        | some id => node_ptr gates.length id
      else some none

/-- The value stored to `node->out[i]` by `build_circuit`. -/
def node_out (wires : wirelist_t) (gates : gatelist_t) (gate : gate_t) (i : Nat) :
    Option (Option Nat) :=
  match param gate (calc_gate_in_size gate + i) with
  | none => none
  | some wire_id =>
    match hashtable_get wires wire_id with
    | none => none
    | some wire =>
      match get_gate_in_id gates wire_id with
      | none => none
      | some id =>
        if wire.type ≠ var_type_t.DISCARDED ∧ wire.type ≠ var_type_t.OUTPUT ∧ id ≠ -1 then
          node_ptr gates.length id
        else some none

/-- The node built for one gate by the first two loops of `build_circuit`. -/
def build_node (wires : wirelist_t) (gates : gatelist_t) (gate : gate_t) :
    Option gatenode_t :=
  match opt_map (node_in wires gates gate) (List.range (calc_gate_in_size gate).toNat) with
  | none => none
  | some ins =>
    match opt_map (node_out wires gates gate)
        (List.range (calc_gate_out_size gate).toNat) with
    | none => none
    | some outs =>
      some { id := gate.id, type := gate.type, size := gate.size, in_ := ins, out := outs }

/-- The array `builder->gatenodes` after the first two loops of `build_circuit`. The
source stores the node of a gate at index `gate->id`; the parser numbers the gates
0, 1, 2, ... in list order, so that index is the position in the list. -/
def build_graph (wires : wirelist_t) (gates : gatelist_t) : Option (List gatenode_t) :=
  opt_map (build_node wires gates) gates

/-! ## The depth-first sort -/

/-- The array `visited` and the stack (bottom first; `top` is its length). -/
abbrev sort_state := (Nat → Bool) × List Nat

/-- The statement `if (!visited[next]) dfs(next, ...)` over a list of candidate
pointers, `NULL` ones being skipped; `call` is `dfs`. -/
def dfs_loop (call : Nat → sort_state → Option sort_state) :
    List (Option Nat) → sort_state → Option sort_state
  | [], st => some st
  | none :: rest, st => dfs_loop call rest st
  | some next :: rest, st =>
    if st.1 next then dfs_loop call rest st
    else
      match call next st with
      | none => none
      | some st1 => dfs_loop call rest st1

/-- Source: `dfs`, with a bound on the recursion depth. The loop runs over the
`calc_gate_out_size` entries of `gatenodes[curr]->out`, which is the whole list `out`
of the node. -/
def dfs (nodes : List gatenode_t) : Nat → Nat → sort_state → Option sort_state
  | 0, _, _ => none
  | fuel + 1, curr, st =>
    match nodes[curr]? with
    | none => none
    | some node =>
      match dfs_loop (dfs nodes fuel) node.out
          (fun k => if k = curr then true else st.1 k, st.2) with
      | none => none
      | some st1 => some (st1.1, st1.2 ++ [curr])

/-- The sorting loop of `build_circuit`:
`for (i = nGates - 1; i >= 0; i--) if (!visited[i]) dfs(i, ...)`. -/
def toposort (nodes : List gatenode_t) (nGates : Nat) : Option sort_state :=
  dfs_loop (dfs nodes nGates) ((List.range nGates).reverse.map some) (fun _ => false, [])

/-! ## The evaluator -/

/-- What one row needs besides the two stores. -/
structure row_env where
  wires : wirelist_t
  nInputs : Int
  nOutputs : Int
  nWires : Int
  inputs : Int → Int

/-- The blocks `all_wires` and `outputs` during a row. -/
structure row_state where
  all_wires : Int → Int
  outputs : Int → Int

/-- The C expression `!a`. -/
def lnot (a : Int) : Int := if a = 0 then 1 else 0

/-- The C expression `a & 1`. -/
def land1 (a : Int) : Int := a % 2

/-- The refresh of one input slot, repeated in every branch of the evaluator:
`wire = hashtable_get(wires, p); if (wire->type == INPUT) all_wires[wire->id] =
inputs[wire->id]; else if (wire->type == CONSTANT) ...`. -/
def load_wire (e : row_env) (aw : Int → Int) (p : Nat) : Option (Int → Int) :=
  match hashtable_get e.wires p with
  | none => none
  | some wire =>
    if wire.type = var_type_t.INPUT then
      match rd e.nInputs e.inputs wire.id with
      | none => none
      | some v => wr e.nWires aw wire.id v
    else if wire.type = var_type_t.CONSTANT then
      if wire.key = "0" then wr e.nWires aw wire.id 0
      else if wire.key = "1" then wr e.nWires aw wire.id 1
      else some aw
    else some aw

/-- The two statements `wire = hashtable_get(wires, p); if (wire->type == OUTPUT)
outputs[wire->id - nInputs] = all_wires[p];`. -/
def store_output (e : row_env) (st : row_state) (p : Nat) : Option row_state :=
  match hashtable_get e.wires p with
  | none => none
  | some wire =>
    if wire.type = var_type_t.OUTPUT then
      match rd e.nWires st.all_wires p with
      | none => none
      | some v =>
        match wr e.nOutputs st.outputs (wire.id - e.nInputs) v with
        | none => none
        | some o => some { st with outputs := o }
    else some st

/-- One round of the loop `for (j = 0; j < 2; j++)` of a two-input gate: refresh slot
`j`, then `all_wires[params[2]] op= all_wires[params[j]]`. -/
def binary_step (e : row_env) (gate : gate_t) (op : Int → Int → Int) (aw : Int → Int)
    (j : Nat) : Option (Int → Int) := do
  let pj ← param gate (j : Int)
  let aw1 ← load_wire e aw pj
  let p2 ← param gate 2
  let a ← rd e.nWires aw1 p2
  let b ← rd e.nWires aw1 pj
  wr e.nWires aw1 p2 (op a b)

/-- The branches `AND`, `OR`, `NAND`, `NOR`, `XOR`: start value, operator, and whether
the result is negated at the end. -/
def eval_binary (e : row_env) (gate : gate_t) (st : row_state) (start : Int)
    (op : Int → Int → Int) (negate : Bool) : Option row_state := do
  let p2 ← param gate 2
  let aw0 ← wr e.nWires st.all_wires p2 start
  let aw1 ← binary_step e gate op aw0 0
  let aw2 ← binary_step e gate op aw1 1
  let aw3 ← if negate then (rd e.nWires aw2 p2).bind (fun a => wr e.nWires aw2 p2 (lnot a))
            else some aw2
  store_output e { st with all_wires := aw3 } p2

/-- The branches `NOT` (`negate = true`) and `PASS`. -/
def eval_unary (e : row_env) (gate : gate_t) (st : row_state) (negate : Bool) :
    Option row_state := do
  let p0 ← param gate 0
  let aw1 ← load_wire e st.all_wires p0
  let p1 ← param gate 1
  let a ← rd e.nWires aw1 p0
  let aw2 ← wr e.nWires aw1 p1 (if negate then lnot a else a)
  store_output e { st with all_wires := aw2 } p1

/-- One round of a selector loop: refresh slot `i`, then
`acc |= all_wires[params[i]] << shift`. -/
def select_step (e : row_env) (gate : gate_t) (last : Int) (s : (Int → Int) × Int)
    (i : Int) : Option ((Int → Int) × Int) := do
  let p ← param gate i
  let aw1 ← load_wire e s.1 p
  let a ← rd e.nWires aw1 p
  some (aw1, Int.lor s.2 (shl32 a (last - i - 1)))

/-- One round of the output loop of `DECODER`; `j` is the slot index. -/
def decoder_out_step (e : row_env) (gate : gate_t) (decoder_output : Int) (st : row_state)
    (j : Int) : Option row_state := do
  let p ← param gate j
  let _ ← hashtable_get e.wires p
  let aw1 ← wr e.nWires st.all_wires p
    (if j - calc_gate_in_size gate = decoder_output then 1 else 0)
  store_output e { st with all_wires := aw1 } p

/-- The branch `DECODER`. -/
def eval_decoder (e : row_env) (gate : gate_t) (st : row_state) : Option row_state := do
  let s ← (List.range gate.size.toNat).foldlM
    (fun s (j : Nat) => select_step e gate gate.size s (j : Int)) (st.all_wires, 0)
  (List.range (wrap32 (calc_gate_in_size gate + calc_gate_out_size gate)
      - calc_gate_in_size gate).toNat).foldlM
    (fun st1 (k : Nat) => decoder_out_step e gate s.2 st1 (calc_gate_in_size gate + (k : Int)))
    { st with all_wires := s.1 }

/-- The branch `MULTIPLEXER`. -/
def eval_multiplexer (e : row_env) (gate : gate_t) (st : row_state) :
    Option row_state := do
  let aw1 ← (List.range (shl32 1 gate.size).toNat).foldlM
    (fun aw (i : Nat) => (param gate (i : Int)).bind (load_wire e aw)) st.all_wires
  let s ← (List.range (calc_gate_in_size gate - shl32 1 gate.size).toNat).foldlM
    (fun s (k : Nat) =>
      select_step e gate (calc_gate_in_size gate) s (shl32 1 gate.size + (k : Int)))
    (aw1, 0)
  let pout ← param gate (calc_gate_in_size gate)
  let psel ← param gate s.2
  let a ← rd e.nWires s.1 psel
  let aw2 ← wr e.nWires s.1 pout a
  store_output e { st with all_wires := aw2 } pout

/-- The body of the gate loop of `build_circuit` for one gate. -/
def eval_gate (e : row_env) (gate : gate_t) (st : row_state) : Option row_state :=
  match gate.type with
  | type_t.AND => eval_binary e gate st 1 Int.land false
  | type_t.OR => eval_binary e gate st 0 Int.lor false
  | type_t.NOT => eval_unary e gate st true
  | type_t.NAND => eval_binary e gate st 1 Int.land true
  | type_t.NOR => eval_binary e gate st 0 Int.lor true
  | type_t.XOR => eval_binary e gate st 0 Int.xor false
  | type_t.PASS => eval_unary e gate st false
  | type_t.DECODER => eval_decoder e gate st
  | type_t.MULTIPLEXER => eval_multiplexer e gate st

/-- The loop `for (i = 0; i < nInputs; i++) inputs[nInputs - i - 1] = (in >> i) & 1`. -/
def fill_inputs (nInputs : Int) (v : Int) (mem : Int → Int) : Option (Int → Int) :=
  (List.range nInputs.toNat).foldlM
    (fun a (i : Nat) => wr nInputs a (nInputs - (i : Int) - 1) (land1 (shr32 v (i : Int)))) mem

/-- Initial contents of the three blocks allocated for a row. -/
structure row_mem where
  inputs : Int → Int
  outputs : Int → Int
  all_wires : Int → Int

/-- The gate loop of a row: `for (i = nGates - 1; i >= 0; i--)` over `stack->stack[i]`. -/
def eval_gates (e : row_env) (gates : gatelist_t) (stack : List Nat) (st : row_state) :
    Option row_state :=
  (List.range gates.length).reverse.foldlM
    (fun st1 (i : Nat) => do
      let id ← stack[i]?
      let gate ← get_gate gates id
      eval_gate e gate st1) st

/-- A printed row: the input bits and the output bits. -/
abbrev row_t := List Int × List Int

/-- One round of the row loop of `build_circuit`, for the assignment `v`. -/
def eval_row (wires : wirelist_t) (gates : gatelist_t) (stack : List Nat)
    (nInputs nOutputs nWires : Int) (mem : row_mem) (v : Int) : Option row_t := do
  let inputs ← fill_inputs nInputs v mem.inputs
  let st ← eval_gates
    { wires := wires, nInputs := nInputs, nOutputs := nOutputs, nWires := nWires,
      inputs := inputs } gates stack
    { all_wires := mem.all_wires, outputs := mem.outputs }
  some ((List.range nInputs.toNat).map (fun (i : Nat) => inputs (i : Int)),
        (List.range nOutputs.toNat).map (fun (i : Nat) => st.outputs (i : Int)))

/-- Source: `build_circuit`: the rows printed, in order. `mem v` is the initial
content of the blocks allocated in round `v`. -/
def build_circuit (wires : wirelist_t) (gates : gatelist_t)
    (nInputs nOutputs nWires : Int) (mem : Nat → row_mem) : Option (List row_t) := do
  let nodes ← build_graph wires gates
  let sorted ← toposort nodes gates.length
  opt_map (fun (v : Nat) => eval_row wires gates sorted.2 nInputs nOutputs nWires (mem v) (v : Int))
    (List.range (shl32 1 nInputs).toNat)

/-- The truth table printed by `main` when `parse_circuit` returns 0 (`none` inside the
outer `Option` when it returns 1 and nothing is evaluated). -/
def run (s : pstate) (mem : Nat → row_mem) : Option (Option (List row_t)) :=
  match parse_circuit s with
  | none => none
  | some (res, s1) =>
    if res ≠ 0 then some none
    else (build_circuit s1.wires s1.gates s1.nInputs s1.nOutputs s1.wireId mem).map some

/-! ## Vocabulary of the statements -/

/-- Recorded edge of the gate graph: node `x` has a non-null `out` pointer to node `y`. -/
def edge (nodes : List gatenode_t) (x y : Nat) : Prop :=
  ∃ node, nodes[x]? = some node ∧ some y ∈ node.out

/-- No gate reaches itself along recorded edges. -/
def acyclic (nodes : List gatenode_t) : Prop :=
  ∀ x, ¬ Relation.TransGen (edge nodes) x x

/-- Every recorded pointer designates one of the nodes. -/
def closed_graph (nodes : List gatenode_t) : Prop :=
  ∀ x y, edge nodes x y → y < nodes.length

/-- Every gate of the stack has all its recorded consumers below it. -/
def topo (nodes : List gatenode_t) (S : List Nat) : Prop :=
  ∀ A x B, S = A ++ x :: B → ∀ y, edge nodes x y → y ∈ A

/-- Number of gates not yet visited. -/
def unvisited (n : Nat) (V : Nat → Bool) : Nat :=
  ((Finset.range n).filter (fun k => V k = false)).card

/-- Postcondition of a run of `dfs_loop` (and of `dfs`) from `(V, S)` to `r`: `N` is the
list of gates pushed. -/
def pushed (n : Nat) (V : Nat → Bool) (S : List Nat) (r : Option sort_state)
    (N : List Nat) : Prop :=
  ∃ V', r = some (V', S ++ N) ∧ N.Nodup ∧ (∀ x ∈ N, V x = false ∧ x < n) ∧
    (∀ k, V' k = true ↔ (V k = true ∨ k ∈ N))

/-- Well-formedness of one gate record as the parser builds it. -/
def arity_ok (g : gate_t) : Prop :=
  match g.type with
  | type_t.DECODER =>
    g.params.length = g.size.toNat + (shl32 1 g.size).toNat ∧ ¬ (g.size < 0 ∧ 0 < shl32 1 g.size)
  | type_t.MULTIPLEXER =>
    g.params.length = (wrap32 (wrap32 (shl32 1 g.size + g.size) + 1)).toNat
  | type_t.NOT => g.size = 1 ∧ g.params.length = 2
  | type_t.PASS => g.size = 1 ∧ g.params.length = 2
  | _ => g.size = 2 ∧ g.params.length = 3

/-- What every state reached by the parser satisfies. -/
structure parsed_ok (s : pstate) : Prop where
  ids : s.gates.map (fun g => g.id) = List.range s.gates.length
  next_id : s.gateId = s.gates.length
  slots : ∀ slot w, s.wires.map slot = some w →
    w.id < s.wireId ∧ (w.type = var_type_t.CONSTANT → w.key = "0" ∨ w.key = "1")
  params : ∀ g ∈ s.gates, ∀ p ∈ g.params, ∃ w, hashtable_get s.wires p = some w
  arity : ∀ g ∈ s.gates, arity_ok g

/-- The table only grows from `s` to `s1`. -/
def grows (s s1 : pstate) : Prop :=
  ∀ slot w, s.wires.map slot = some w → s1.wires.map slot = some w

/-- The slot table `m1` keeps every entry of `m`. -/
def extends_map (m m1 : Nat → Option wire_t) : Prop :=
  ∀ slot w, m slot = some w → m1 slot = some w

/-- What every wire table built by the parser satisfies: the wires in the list carry the
identities 0, 1, 2, ... in list order, `next` is the next free identity, labels do not
repeat, the slots hold wires of the list, and each wire of the list is found under its
label by `hashtable_contains` and by `hashtable_get_by_key`. -/
structure table_ok (l : wirelist_t) (next : Nat) : Prop where
  ids : l.list.map (fun w => w.id) = List.range next
  size : l.size = next
  keys : (l.list.map (fun w => w.key)).Nodup
  slots : ∀ slot w, l.map slot = some w → w ∈ l.list
  found : ∀ w ∈ l.list,
    hashtable_contains l w.key = true ∧ hashtable_get_by_key l w.key = some (some w)

/-- The sequence `if (!hashtable_contains(wires, token)) hashtable_add(wires, token,
(*wireId)++, kind); ... = hashtable_get_by_key(wires, token)->id` of the gate branches,
for the label in the buffer `token`. -/
def resolve (s : pstate) (kind : var_type_t) : Option (pstate × Nat) :=
  match declare s kind with
  | none => none
  | some s1 =>
    match lookup_id s1 with
    | none => none
    | some id => some (s1, id)

/-- The tables the parser can build: the declarations of a list of labels, each with
some kind, one after the other. -/
def declare_all : List (String × var_type_t) → pstate → Option pstate
  | [], s => some s
  | d :: rest, s =>
    match declare { s with token := d.1 } d.2 with
    | none => none
    | some s1 => declare_all rest s1

/-- The state after the declarations of `A` as an input and `B` as a temporary. -/
def two_wires : pstate :=
  match declare_all [("A", var_type_t.INPUT), ("B", var_type_t.TEMP)] (main_state [] 0 0 "") with
  | some s => s
  | none => main_state [] 0 0 ""

/-- Forty-five labels with the same hash value, declared as inputs. -/
def crowded : List String :=
  ["INPUT", "45", "A", "CB", "KJ", "SR", "AHH", "APP", "AXX", "BBA", "BJI", "BRQ", "BZY", "CDB",
   "CLJ", "CTR", "DFC", "DNK", "DVS", "EHD", "EPL", "EXT", "FJE", "FRM", "FZU", "GLF", "GTN",
   "HNG", "HVO", "IAY", "IPH", "IXP", "JCZ", "JJA", "JRI", "JZQ", "KLB", "KTJ", "LNC", "LVK",
   "MAU", "MPD", "MXL", "NCV", "NRE", "NZM", "OEW", "END"]

/-- The statement keywords. -/
def keywords : List String :=
  ["INPUT", "OUTPUT", "AND", "OR", "NAND", "NOR", "XOR", "NOT", "PASS", "DECODER", "MULTIPLEXER"]

/-- The wires appended for a list of labels none of which is known yet, numbered from
`k`, with the kind `kindf` gives to each label. -/
def fresh_wires (kindf : String → var_type_t) : List String → Nat → List wire_t
  | [], _ => []
  | t :: ts, k => { key := t, id := k, type := kindf t } :: fresh_wires kindf ts (k + 1)

/-- The state of the gate phase after a header that left the wires `H`: the table is
well formed, the unread words are short and none is `INPUT` or `OUTPUT`, the wires after
`H` have the kind `check_type` gives with fallback `TEMP`, and the counters are set. -/
def gate_phase (H : List wire_t) (n m : Int) (s : pstate) : Prop :=
  table_ok s.wires s.wireId ∧
  (∀ t ∈ s.input, t.length ≤ 16 ∧ t ≠ "INPUT" ∧ t ≠ "OUTPUT") ∧
  (∃ L, s.wires.list = H ++ L ∧ ∀ w ∈ L, w.type = check_type w.key var_type_t.TEMP) ∧
  s.nInputs = n ∧ s.nOutputs = m

/-- Wire `w` occupies one of the input slots of gate `g`. -/
def in_slot (g : gate_t) (w : Nat) : Prop :=
  ∃ j ∈ List.range (calc_gate_in_size g).toNat, param g (j : Nat) = some w

/-- Wire `w` occupies one of the output slots of gate `g`. -/
def out_slot (g : gate_t) (w : Nat) : Prop :=
  ∃ i ∈ List.range (calc_gate_out_size g).toNat, param g (calc_gate_in_size g + (i : Nat)) = some w

/-- Gate `p` is replayed before gate `g`: the replay runs from the top of the stack down
to index 0, so `p` sits at a higher index than `g`. -/
def evaluated_before (stack : List Nat) (p g : Nat) : Prop :=
  ∃ i ∈ List.range stack.length, ∃ j ∈ List.range i, stack[i]? = some p ∧ stack[j]? = some g

instance (stack : List Nat) (p g : Nat) : Decidable (evaluated_before stack p g) := by
  unfold evaluated_before; infer_instance

/-- The netlist of the C1 counterexample: wire `T` feeds two gates. -/
def fanout_netlist : List String :=
  ["INPUT", "2", "A", "B", "OUTPUT", "2", "X", "Y", "OR", "T", "B", "Y",
   "AND", "T", "A", "X", "NOT", "A", "T", "END"]

instance (g : gate_t) (w : Nat) : Decidable (in_slot g w) := by
  unfold in_slot; infer_instance

instance (g : gate_t) (w : Nat) : Decidable (out_slot g w) := by
  unfold out_slot; infer_instance

/-- The final state of `parse_circuit` on `input`, as `main` calls it with both counters
zero (the initial state again if the parser does not return). -/
def parsed (input : List String) : pstate :=
  match parse_circuit (main_state input 0 0 "") with
  | some (_, s) => s
  | none => main_state input 0 0 ""

/-- A two-gate chain: `NOT` produces `T`, `PASS` consumes it. -/
def chain_netlist : List String :=
  ["INPUT", "1", "A", "OUTPUT", "1", "O", "NOT", "A", "T", "PASS", "T", "O", "END"]

/-- The 0/1 integer of a boolean. -/
def bit (b : Bool) : Int := if b then 1 else 0

/-- The netlist `INPUT 2 A B / OUTPUT 1 O / op A B O`. -/
def binary_netlist (op : String) : List String :=
  ["INPUT", "2", "A", "B", "OUTPUT", "1", "O", op, "A", "B", "O"]

/-- The standard boolean operator named by a gate keyword. -/
def bool_op (op : String) (a b : Bool) : Bool :=
  if op = "AND" then a && b
  else if op = "OR" then a || b
  else if op = "NAND" then !(a && b)
  else if op = "NOR" then !(a || b)
  else xor a b

/-- The truth table of a two-input boolean function, rows in ascending order of the
assignment, first input most significant. -/
def table2 (f : Bool → Bool → Bool) : List row_t :=
  [(false, false), (false, true), (true, false), (true, true)].map
    (fun ab => ([bit ab.1, bit ab.2], [bit (f ab.1 ab.2)]))

/-- The netlist `INPUT 1 A / OUTPUT 1 O / op A O`. -/
def unary_netlist (op : String) : List String :=
  ["INPUT", "1", "A", "OUTPUT", "1", "O", op, "A", "O"]

/-- The truth table of a one-input boolean function. -/
def table1 (f : Bool → Bool) : List row_t :=
  [false, true].map (fun a => ([bit a], [bit (f a)]))

/-- The half adder of the specification. -/
def half_adder : List String :=
  ["INPUT", "2", "A", "B", "OUTPUT", "2", "S", "C", "XOR", "A", "B", "S",
   "AND", "A", "B", "C", "END"]

/-- The 1-to-2 decoder netlist. -/
def decoder_1to2 : List String :=
  ["INPUT", "1", "A", "OUTPUT", "2", "O0", "O1", "DECODER", "1", "A", "O0", "O1", "END"]

/-- The 2-to-1 multiplexer netlist. -/
def mux_2to1 : List String :=
  ["INPUT", "3", "D0", "D1", "S", "OUTPUT", "1", "O", "MULTIPLEXER", "1", "D0", "D1", "S", "O",
   "END"]

/-- The input bits of assignment `v` over `n` inputs, first input most significant:
bit `i` is `(v >> (n - 1 - i)) & 1`. -/
def input_bits (n v : Nat) : List Int :=
  (List.range n).map (fun i => ((v / 2 ^ (n - 1 - i) % 2 : Nat) : Int))

/-- The unsigned integer formed by a list of bits, most significant first. -/
def decode (bits : List Int) : Int := bits.foldl (fun acc b => 2 * acc + b) 0

/-- A netlist with 31 declared inputs. -/
def wide_netlist : List String :=
  ["INPUT", "31", "a0", "a1", "a2", "a3", "a4", "a5", "a6", "a7", "a8", "a9", "a10", "a11",
   "a12", "a13", "a14", "a15", "a16", "a17", "a18", "a19", "a20", "a21", "a22", "a23", "a24",
   "a25", "a26", "a27", "a28", "a29", "a30", "OUTPUT", "1", "O", "PASS", "a0", "O"]

/-- Blocks whose cells all hold 0. -/
def zero_mem : Nat → row_mem := fun _ => ⟨fun _ => 0, fun _ => 0, fun _ => 0⟩

/-- The store `a` with cell `i` set to `v`. -/
def upd (a : Int → Int) (i v : Int) : Int → Int := fun k => if k = i then v else a k

/-- The value the evaluator loads for a wire before reading it: the assignment bit of
an `INPUT` wire, the literal of a `CONSTANT` wire named `0` or `1`, nothing otherwise. -/
def canon (e : row_env) (w : wire_t) : Option Int :=
  if w.type = var_type_t.INPUT then some (e.inputs w.id)
  else if w.type = var_type_t.CONSTANT then
    (if w.key = "0" then some 0 else if w.key = "1" then some 1 else none)
  else none

/-- The store after the refresh of wire `w`. -/
def loadf (e : row_env) (w : wire_t) (aw : Int → Int) : Int → Int :=
  match canon e w with
  | some c => upd aw w.id c
  | none => aw

/-- The value read from an input-slot wire `p` right after its refresh, when the store
held `x` in its cell before. -/
def in_val (e : row_env) (p : Nat) (x : Int) : Int :=
  match hashtable_get e.wires p with
  | some w => (canon e w).getD x
  | none => x

/-- A value that is 0 or 1. -/
def is01 (x : Int) : Prop := x = 0 ∨ x = 1

instance (x : Int) : Decidable (is01 x) := by
  unfold is01; infer_instance

/-- Result of a two-input gate on the loaded values `c0`, `c1`. -/
def binary_result (start : Int) (op : Int → Int → Int) (negate : Bool) (c0 c1 : Int) : Int :=
  if negate then lnot (op (op start c0) c1) else op (op start c0) c1

/-- The wire `p` is not the discarded wire. -/
def live (e : row_env) (p : Nat) : Prop :=
  ∀ w, hashtable_get e.wires p = some w → w.type ≠ var_type_t.DISCARDED

/-- Truth value of a C integer. -/
def bval (x : Int) : Bool := decide (x ≠ 0)

/-- The selector value of a list of slots: their stored bits, first slot most
significant. -/
def slots_value (aw : Int → Int) (slots : List Nat) : Int :=
  decode (slots.map (fun (q : Nat) => aw (q : Int)))

/-- The equation of gate `g` on the wire store `aw`, following the gate table of the
specification; an output slot wired to the discarded wire is not constrained. -/
def gate_holds (e : row_env) (g : gate_t) (aw : Int → Int) : Prop :=
  match g.type with
  | type_t.AND => ∀ a b o, g.params = [a, b, o] → live e o →
      aw o = bit (bval (aw a) && bval (aw b))
  | type_t.OR => ∀ a b o, g.params = [a, b, o] → live e o →
      aw o = bit (bval (aw a) || bval (aw b))
  | type_t.NAND => ∀ a b o, g.params = [a, b, o] → live e o →
      aw o = bit (!(bval (aw a) && bval (aw b)))
  | type_t.NOR => ∀ a b o, g.params = [a, b, o] → live e o →
      aw o = bit (!(bval (aw a) || bval (aw b)))
  | type_t.XOR => ∀ a b o, g.params = [a, b, o] → live e o →
      aw o = bit (xor (bval (aw a)) (bval (aw b)))
  | type_t.NOT => ∀ a o, g.params = [a, o] → live e o → aw o = bit (!bval (aw a))
  | type_t.PASS => ∀ a o, g.params = [a, o] → live e o → aw o = aw a
  | type_t.DECODER => ∀ (k o : Nat), k < 2 ^ g.size.toNat →
      g.params[g.size.toNat + k]? = some o → live e o →
      aw o = bit (decide ((k : Int) = slots_value aw (g.params.take g.size.toNat)))
  | type_t.MULTIPLEXER => ∀ o, g.params[2 ^ g.size.toNat + g.size.toNat]? = some o →
      live e o →
      ∃ d, g.params[(slots_value aw
          ((g.params.drop (2 ^ g.size.toNat)).take g.size.toNat)).toNat]? = some d ∧
        aw o = aw d

/-- What the replay of gate `g` needs from the circuit and from the store `aw` it
starts in. -/
structure gate_ready (e : row_env) (g : gate_t) (aw : Int → Int) : Prop where
  arity : arity_ok g
  size_ok : g.type = type_t.DECODER ∨ g.type = type_t.MULTIPLEXER → 0 ≤ g.size ∧ g.size ≤ 30
  wires : ∀ p ∈ g.params, ∃ w, hashtable_get e.wires p = some w ∧ (p : Int) < e.nWires
  ins : ∀ p w, in_slot g p → hashtable_get e.wires p = some w →
    w.type = var_type_t.INPUT → (p : Int) < e.nInputs
  ins_bool : ∀ p, in_slot g p → is01 (in_val e p (aw p))
  outs : ∀ p w, out_slot g p → hashtable_get e.wires p = some w →
    w.type = var_type_t.OUTPUT → e.nInputs ≤ (p : Int) ∧ (p : Int) < e.nInputs + e.nOutputs
  apart : ∀ p, in_slot g p → ¬ out_slot g p
  distinct : ∀ i j : Nat, i ≠ j → ∀ p,
    param g (calc_gate_in_size g + (i : Int)) = some p → i < (calc_gate_out_size g).toNat →
    param g (calc_gate_in_size g + (j : Int)) = some p → j < (calc_gate_out_size g).toNat →
    ¬ live e p

/-- What the replay of gate `g` establishes, from state `st` to state `st1`. -/
structure gate_done (e : row_env) (g : gate_t) (st st1 : row_state) : Prop where
  frame : ∀ k : Int, (∀ p, out_slot g p → (p : Int) ≠ k) → (∀ p, in_slot g p → (p : Int) ≠ k) →
    st1.all_wires k = st.all_wires k
  ins_val : ∀ p, in_slot g p → st1.all_wires p = in_val e p (st.all_wires p)
  outs_bool : ∀ p, out_slot g p → is01 (st1.all_wires p)
  holds : gate_holds e g st1.all_wires
  out_frame : ∀ k : Int,
    (∀ p w, out_slot g p → hashtable_get e.wires p = some w → w.type = var_type_t.OUTPUT →
      (p : Int) - e.nInputs ≠ k) → st1.outputs k = st.outputs k
  out_val : ∀ p w, out_slot g p → hashtable_get e.wires p = some w →
    w.type = var_type_t.OUTPUT → st1.outputs ((p : Int) - e.nInputs) = st1.all_wires p

/-- The store after the refresh of every wire of `ps`. -/
def loaded (e : row_env) (ps : List Nat) (aw : Int → Int) : Int → Int :=
  fun k => if k ∈ ps.map (fun p : Nat => (p : Int)) then in_val e k.toNat (aw k) else aw k

/-- The slots `base`, ..., `base + m - 1` of a gate. -/
def slot_list (g : gate_t) (base m : Nat) : List Nat := (g.params.drop base).take m

/-- State of the output loop of `DECODER` after its first `j` rounds, started in `st`:
`b` is the index of the first output slot and `dec` the selector value. -/
structure decoder_outs (e : row_env) (g : gate_t) (b : Nat) (dec : Int) (st st1 : row_state)
    (j : Nat) : Prop where
  frame : ∀ x : Int, (∀ i p, i < j → g.params[b + i]? = some p → (p : Int) ≠ x) →
    st1.all_wires x = st.all_wires x
  value : ∀ i p, i < j → g.params[b + i]? = some p → live e p →
    st1.all_wires p = bit (decide ((i : Int) = dec))
  bool : ∀ i p, i < j → g.params[b + i]? = some p → is01 (st1.all_wires p)
  out_frame : ∀ x : Int, (∀ i p w, i < j → g.params[b + i]? = some p →
      hashtable_get e.wires p = some w → w.type = var_type_t.OUTPUT →
      (p : Int) - e.nInputs ≠ x) → st1.outputs x = st.outputs x
  out_val : ∀ i p w, i < j → g.params[b + i]? = some p →
    hashtable_get e.wires p = some w → w.type = var_type_t.OUTPUT →
    st1.outputs ((p : Int) - e.nInputs) = st1.all_wires p

/-- What the replay needs from a gate of the circuit, whatever the store. -/
structure gate_static (e : row_env) (g : gate_t) : Prop where
  arity : arity_ok g
  size_ok : g.type = type_t.DECODER ∨ g.type = type_t.MULTIPLEXER → 0 ≤ g.size ∧ g.size ≤ 30
  wires : ∀ p ∈ g.params, ∃ w, hashtable_get e.wires p = some w ∧ (p : Int) < e.nWires
  ins : ∀ p w, in_slot g p → hashtable_get e.wires p = some w →
    w.type = var_type_t.INPUT → (p : Int) < e.nInputs
  outs : ∀ p w, out_slot g p → hashtable_get e.wires p = some w →
    w.type = var_type_t.OUTPUT → e.nInputs ≤ (p : Int) ∧ (p : Int) < e.nInputs + e.nOutputs
  apart : ∀ p, in_slot g p → ¬ out_slot g p
  distinct : ∀ i j : Nat, i ≠ j → ∀ p,
    param g (calc_gate_in_size g + (i : Int)) = some p → i < (calc_gate_out_size g).toNat →
    param g (calc_gate_in_size g + (j : Int)) = some p → j < (calc_gate_out_size g).toNat →
    ¬ live e p
  in_types : ∀ p w, in_slot g p → hashtable_get e.wires p = some w →
    w.type = var_type_t.INPUT ∨ w.type = var_type_t.CONSTANT ∨ w.type = var_type_t.TEMP
  out_types : ∀ p w, out_slot g p → hashtable_get e.wires p = some w →
    w.type = var_type_t.TEMP ∨ w.type = var_type_t.OUTPUT ∨ w.type = var_type_t.DISCARDED

/-- What holds of the gates replayed so far, the first `k` of the list `L`. -/
structure replay_inv (e : row_env) (L : List gate_t) (k : Nat) (st : row_state) : Prop where
  holds : ∀ (i : Nat) g, i < k → L[i]? = some g → gate_holds e g st.all_wires
  ins : ∀ (i : Nat) g p, i < k → L[i]? = some g → in_slot g p →
    in_val e p (st.all_wires p) = st.all_wires p
  outs_bool : ∀ (i : Nat) g p, i < k → L[i]? = some g → out_slot g p → live e p →
    is01 (st.all_wires p)
  out_val : ∀ (i : Nat) g p w, i < k → L[i]? = some g → out_slot g p →
    hashtable_get e.wires p = some w → w.type = var_type_t.OUTPUT →
    st.outputs ((p : Int) - e.nInputs) = st.all_wires p

/-- The wiring discipline under which the replay of the gates is sound: decoder and
multiplexer sizes between 0 and 30; every input-slot wire is a declared input, a
constant or a temporary produced by some gate; every output-slot wire is a temporary, a
declared output or the discarded wire; a wire other than the discarded one is driven
from one output slot of one gate only; a temporary feeds one gate only. -/
def well_wired (wires : wirelist_t) (gates : gatelist_t) (nI nO : Int) : Prop :=
  (∀ g ∈ gates, g.type = type_t.DECODER ∨ g.type = type_t.MULTIPLEXER →
      0 ≤ g.size ∧ g.size ≤ 30) ∧
  (∀ g ∈ gates, ∀ p ∈ g.params, in_slot g p → ∀ w ∈ hashtable_get wires p,
      (w.type = var_type_t.INPUT ∧ (p : Int) < nI) ∨ w.type = var_type_t.CONSTANT ∨
      (w.type = var_type_t.TEMP ∧ ∃ q ∈ gates, out_slot q p)) ∧
  (∀ g ∈ gates, ∀ p ∈ g.params, out_slot g p → ∀ w ∈ hashtable_get wires p,
      w.type = var_type_t.TEMP ∨
      (w.type = var_type_t.OUTPUT ∧ nI ≤ (p : Int) ∧ (p : Int) < nI + nO) ∨
      w.type = var_type_t.DISCARDED) ∧
  (∀ g ∈ gates, ∀ q ∈ gates, ∀ p ∈ g.params, out_slot g p → out_slot q p →
      ∀ w ∈ hashtable_get wires p, w.type ≠ var_type_t.DISCARDED → g.id = q.id) ∧
  (∀ g ∈ gates, ∀ i ∈ List.range (calc_gate_out_size g).toNat,
      ∀ j ∈ List.range (calc_gate_out_size g).toNat, ∀ p ∈ g.params,
      param g (calc_gate_in_size g + (i : Int)) = some p →
      param g (calc_gate_in_size g + (j : Int)) = some p →
      ∀ w ∈ hashtable_get wires p, w.type ≠ var_type_t.DISCARDED → i = j) ∧
  (∀ g ∈ gates, ∀ q ∈ gates, ∀ p ∈ g.params, in_slot g p → in_slot q p →
      ∀ w ∈ hashtable_get wires p, w.type = var_type_t.TEMP → g.id = q.id)

instance (wires : wirelist_t) (gates : gatelist_t) (nI nO : Int) :
    Decidable (well_wired wires gates nI nO) := by
  unfold well_wired; infer_instance

/-- The environment of a row of the parsed circuit `s` under the assignment `inputs`. -/
def row_env_of (s : pstate) (inputs : Int → Int) : row_env :=
  { wires := s.wires, nInputs := s.nInputs, nOutputs := s.nOutputs, nWires := s.wireId,
    inputs := inputs }

/-- The wiring hypotheses in the words of the specification: every gate-input wire is a
declared input, a constant, or a temporary that is the output of exactly one gate, and a
wire that is not a declared input feeds at most one gate. -/
def claimed_wiring (wires : wirelist_t) (gates : gatelist_t) : Prop :=
  (∀ g ∈ gates, ∀ p ∈ g.params, in_slot g p → ∀ w ∈ hashtable_get wires p,
      w.type = var_type_t.INPUT ∨ w.type = var_type_t.CONSTANT ∨
      (w.type = var_type_t.TEMP ∧ ∃ q ∈ gates, out_slot q p ∧
        ∀ r ∈ gates, out_slot r p → r.id = q.id)) ∧
  (∀ g ∈ gates, ∀ q ∈ gates, ∀ p ∈ g.params, in_slot g p → in_slot q p →
      ∀ w ∈ hashtable_get wires p, w.type ≠ var_type_t.INPUT → g.id = q.id)

instance (wires : wirelist_t) (gates : gatelist_t) : Decidable (claimed_wiring wires gates) := by
  unfold claimed_wiring; infer_instance

/-- One declared output driven by two gates. -/
def two_drivers : List String :=
  ["INPUT", "2", "A", "B", "OUTPUT", "1", "O", "AND", "A", "B", "O", "OR", "A", "B", "O"]

/-- The discarded wire driven by two gates: `NOT A _`, `PASS A _`, then `PASS A O`. -/
def discarded_twice : List String :=
  ["INPUT", "1", "A", "OUTPUT", "1", "O", "NOT", "A", "_", "PASS", "A", "_",
   "PASS", "A", "O", "END"]

/-- The arity table of the specification: input and output slot counts of a gate of the
given operation and size. -/
def arity_table (type : type_t) (n : Int) : Int × Int :=
  match type with
  | type_t.NOT => (1, 1)
  | type_t.PASS => (1, 1)
  | type_t.DECODER => (n, 2 ^ n.toNat)
  | type_t.MULTIPLEXER => (2 ^ n.toNat + n, 1)
  | _ => (2, 1)

/-- Kinds of the wires of a circuit whose first `n` identities are its declared inputs
and whose next `m` are its declared outputs. -/
def direct_wires (wires : wirelist_t) (n m : Nat) : Prop :=
  ∀ i ∈ List.range (n + m), (hashtable_get wires i).map (fun w => w.type)
    = some (if i < n then var_type_t.INPUT else var_type_t.OUTPUT)

instance (wires : wirelist_t) (n m : Nat) : Decidable (direct_wires wires n m) := by
  unfold direct_wires; infer_instance

/-- Every pointer stored in an `out` array designates one of the nodes (the bounded form
of `closed_graph`). -/
def closed_nodes (nodes : List gatenode_t) : Prop :=
  ∀ node ∈ nodes, ∀ o ∈ node.out, ∀ y ∈ o, y < nodes.length

instance (nodes : List gatenode_t) : Decidable (closed_nodes nodes) := by
  unfold closed_nodes; infer_instance

/-- Two gates that are each other's recorded consumer. -/
def cyclic_nodes : List gatenode_t :=
  [⟨0, type_t.NOT, 1, [some 1], [some 1]⟩, ⟨1, type_t.NOT, 1, [some 0], [some 0]⟩]

/-- The graph of the chain netlist: gate 0 has gate 1 as its recorded consumer. -/
def chain_nodes : List gatenode_t :=
  [⟨0, type_t.NOT, 1, [none], [some 1]⟩, ⟨1, type_t.PASS, 1, [some 0], [none]⟩]

/-- The netlist `INPUT 1 A / OUTPUT 1 O / op A c O`. -/
def constant_netlist (op c : String) : List String :=
  ["INPUT", "1", "A", "OUTPUT", "1", "O", op, "A", c, "O"]

/-- The state after `A` is declared as an input and then `CB`, a label with the same
hash value, as a temporary. -/
def collided : pstate :=
  match declare_all [("A", var_type_t.INPUT), ("CB", var_type_t.TEMP)] (main_state [] 0 0 "") with
  | some s => s
  | none => main_state [] 0 0 ""

/-- The state `collided` after `KJ`, a third label with that hash value, is declared
and `A` is resolved again. -/
def collided_more : pstate :=
  match declare_all [("KJ", var_type_t.OUTPUT), ("A", var_type_t.TEMP)] collided with
  | some s => s
  | none => collided

/-- The loop `i = 1; while (list->map[(hash_value + i * i) % MAX_VARS] != NULL) i++;` of
`hashtable_add`, from the value `i` of the counter, with a bound on the number of
tests: the value of `i` at which the loop exits, `none` when it has not exited within
the bound. -/
def add_probe (map : Nat → Option wire_t) (h : Nat) : Nat → Nat → Option Nat
  | 0, _ => none
  | fuel + 1, i =>
    if (map (probe h i)).isNone then some i else add_probe map h fuel (i + 1)

/-- The first forty-four labels of `crowded`, which share one hash value. -/
def crowded_labels : List (String × var_type_t) :=
  (((crowded.drop 2).take 44).map (fun k => (k, var_type_t.INPUT)))

/-- The table after the forty-four labels of `crowded_labels` are declared. -/
def crowded_table : wirelist_t :=
  match declare_all crowded_labels (main_state [] 0 0 "") with
  | some s => s.wires
  | none => init_wirelist

/-- Wire `w` is met by the scan of `get_gate_out_id` over the slots of gate `g`:
`for (i = in; i < in + out; i++) if (gate->params[i] == wireId)`. -/
def out_scan (g : gate_t) (w : Nat) : Prop :=
  ∃ k : Nat, k < (wrap32 (calc_gate_in_size g + calc_gate_out_size g)
      - calc_gate_in_size g).toNat ∧ param g (calc_gate_in_size g + (k : Int)) = some w

/-- A netlist in which the `NOT` gate drives the declared input `B`, which the `PASS`
gate reads. -/
def driven_input : List String :=
  ["INPUT", "2", "A", "B", "OUTPUT", "1", "O", "NOT", "A", "B", "PASS", "B", "O", "END"]

/-- A netlist in which the `PASS` gate reads the discarded wire `_`, written by the `NOT`
gate declared after it. -/
def discarded_feed : List String :=
  ["INPUT", "1", "A", "OUTPUT", "1", "O", "PASS", "_", "O", "NOT", "A", "_", "END"]

/-- Blocks whose cells all hold 1 when they are allocated. -/
def ones_mem : Nat → row_mem := fun _ => ⟨fun _ => 1, fun _ => 1, fun _ => 1⟩

/-- A gate with its parameters read as wire labels. -/
def labelled (wires : wirelist_t) (g : gate_t) : type_t × Int × List (Option String) :=
  (g.type, g.size, g.params.map (fun p => (hashtable_get wires p).map (fun w => w.key)))

/-- Wires of two tables under the same label have the same kind, and the same identity
when they are declared inputs or outputs. -/
def kinds_agree (l1 l2 : wirelist_t) : Prop :=
  ∀ w1 ∈ l1.list, ∀ w2 ∈ l2.list, w1.key = w2.key →
    w1.type = w2.type ∧
    ((w1.type = var_type_t.INPUT ∨ w1.type = var_type_t.OUTPUT) → w1.id = w2.id)

instance (l1 l2 : wirelist_t) : Decidable (kinds_agree l1 l2) := by
  unfold kinds_agree; infer_instance

/-- Identity `p1` in the first table and `p2` in the second stand for the same label. -/
def same_label (l1 l2 : wirelist_t) (p1 p2 : Nat) : Prop :=
  ∃ w1 w2, hashtable_get l1 p1 = some w1 ∧ hashtable_get l2 p2 = some w2 ∧ w1.key = w2.key

/-- The half adder with its two gate statements exchanged. -/
def half_adder_swapped : List String :=
  ["INPUT", "2", "A", "B", "OUTPUT", "2", "S", "C", "AND", "A", "B", "C",
   "XOR", "A", "B", "S", "END"]

/-- The gate that a well-formed gate statement stands for: its operation, its size and
the labels of its parameters. The seven fixed gates take three or two labels; `DECODER`
and `MULTIPLEXER` take a size `n` in `0..30` followed by `n + 2^n`, respectively
`2^n + n + 1`, labels. -/
def gate_of_stmt (t : List String) : Option (type_t × Int × List String) :=
  match t with
  | [] => none
  | kw :: r =>
    if kw = "AND" then (if r.length = 3 then some (type_t.AND, 2, r) else none)
    else if kw = "OR" then (if r.length = 3 then some (type_t.OR, 2, r) else none)
    else if kw = "NAND" then (if r.length = 3 then some (type_t.NAND, 2, r) else none)
    else if kw = "NOR" then (if r.length = 3 then some (type_t.NOR, 2, r) else none)
    else if kw = "XOR" then (if r.length = 3 then some (type_t.XOR, 2, r) else none)
    else if kw = "NOT" then (if r.length = 2 then some (type_t.NOT, 1, r) else none)
    else if kw = "PASS" then (if r.length = 2 then some (type_t.PASS, 1, r) else none)
    else if kw = "DECODER" then
      match r with
      | [] => none
      | n :: args =>
        if 0 ≤ atoi n ∧ atoi n ≤ 30 ∧ args.length = (atoi n).toNat + 2 ^ (atoi n).toNat then
          some (type_t.DECODER, atoi n, args)
        else none
    else if kw = "MULTIPLEXER" then
      match r with
      | [] => none
      | n :: args =>
        if 0 ≤ atoi n ∧ atoi n ≤ 30 ∧
            args.length = 2 ^ (atoi n).toNat + (atoi n).toNat + 1 then
          some (type_t.MULTIPLEXER, atoi n, args)
        else none
    else none

/-- The labelled form of the gate a statement stands for. -/
def stmt_label (t : List String) : Option (type_t × Int × List (Option String)) :=
  (gate_of_stmt t).map (fun g => (g.1, g.2.1, g.2.2.map some))

/-- A gate statement the parser reads as one gate: it stands for a gate, and its words
have at most 16 characters. -/
def stmt_ok (t : List String) : Prop :=
  (gate_of_stmt t).isSome = true ∧ ∀ tok ∈ t, tok.length ≤ 16

instance (t : List String) : Decidable (stmt_ok t) := by
  unfold stmt_ok; infer_instance

/-- A netlist: the `INPUT` statement, the `OUTPUT` statement, the gate statements in
their order, and `END`. -/
def gate_netlist (cI cO : String) (ins outs : List String) (stmts : List (List String)) :
    List String :=
  "INPUT" :: cI :: (ins ++ "OUTPUT" :: cO :: (outs ++ (stmts.flatten ++ ["END"])))

/-- One declared output driven by two gates: `AND A B O` then `OR A B O`. -/
def and_then_or : List String :=
  gate_netlist "2" "1" ["A", "B"] ["O"] [["AND", "A", "B", "O"], ["OR", "A", "B", "O"]]

/-- The same statements in the other order: `OR A B O` then `AND A B O`. -/
def or_then_and : List String :=
  gate_netlist "2" "1" ["A", "B"] ["O"] [["OR", "A", "B", "O"], ["AND", "A", "B", "O"]]

/-- Source: the loop of `hash` in `int` arithmetic, over the `char` values of the key:
`for (i = strlen(key) - 1; i >= 0; i--) hash = (hash * x + key[i]) % MAX_VARS` with
`x = 31`. The first argument is `i + 1`, the number of characters still to be read; the
remainder is the remainder of C, which has the sign of the dividend. -/
def hash_loop (key : List Int) : Nat → Int → Int
  | 0, h => h
  | i + 1, h =>
    hash_loop key i (Int.tmod (wrap32 (wrap32 (h * 31) + key.getD i 0)) (MAX_VARS : Nat))

/-- Source: `hash`, on the `char` values of the key. -/
def hash_int (key : List Int) : Int := hash_loop key key.length 0

/-- The index expression `(hash_value + i * i) % MAX_VARS` of the probe loop, in `int`
arithmetic. -/
def probe_int (h i : Int) : Int := Int.tmod (wrap32 (h + wrap32 (i * i))) (MAX_VARS : Nat)

/-- How the probe loop of `hashtable_add` ends: it exits with the counter at `i`, or it
reads `map[idx]` with `idx` outside `0..255`. -/
inductive probe_end where
  | exits (i : Int)
  | out_of_bounds (idx : Int)
deriving DecidableEq, Repr

/-- Source: the loop `i = 1; while (list->map[(hash_value + i * i) % MAX_VARS] != NULL)
i++;` of `hashtable_add` with its `int` counter, from the value `i` of the counter and
with a bound on the number of tests; the product keeps its low 32 bits. `none`: the loop
has neither exited nor left the array within the bound. -/
def add_probe_int (map : Nat → Option wire_t) (h : Int) : Nat → Int → Option probe_end
  | 0, _ => none
  | fuel + 1, i =>
    if probe_int h i < 0 ∨ (MAX_VARS : Nat) ≤ probe_int h i then
      some (probe_end.out_of_bounds (probe_int h i))
    else if (map (probe_int h i).toNat).isNone then some (probe_end.exits i)
    else add_probe_int map h fuel (i + 1)

/-- A label joins the labels seen so far, at the end, when it is not among them. -/
def see_label (acc : List String) (x : String) : List String :=
  if x ∈ acc then acc else acc ++ [x]

/-- The distinct labels of a sequence, in the order of their first appearance. -/
def first_seen (labels : List String) : List String := labels.foldl see_label []

/-- The labels that the loop `read_params n s` passes to `declare`, in the order of the
calls: the word read at each round, for as long as the loop runs. -/
def read_params_seen : Nat → pstate → List String
  | 0, _ => []
  | n + 1, s =>
    (next_token s).token ::
      match read_param s with
      | none => []
      | some (s1, _) => read_params_seen n s1

/-- The labels that the loop of the `INPUT` statement passes to `declare`, in order. -/
def read_inputs_seen : Nat → pstate → List String
  | 0, _ => []
  | n + 1, s =>
    (next_token s).token ::
      match declare (next_token s) (check_type (next_token s).token var_type_t.INPUT) with
      | none => []
      | some s1 => read_inputs_seen n s1

/-- The labels that the loop of the `OUTPUT` statement passes to `declare`, in order. -/
def read_outputs_seen : Nat → pstate → List String
  | 0, _ => []
  | n + 1, s =>
    (next_token s).token ::
      match declare (next_token s) var_type_t.OUTPUT with
      | none => []
      | some s1 => read_outputs_seen n s1

/-- The labels declared by the `DECODER` branch: the word after the keyword is the size,
the words after it are the parameters. -/
def read_decoder_seen (s : pstate) : List String :=
  let s1 := next_token s
  let n := atoi s1.token
  if n < 0 ∧ 0 < shl32 1 n then []
  else if wrap32 (shl32 1 n + n) < 0 ∧ 0 < n.toNat + (shl32 1 n).toNat then []
  else read_params_seen (n.toNat + (shl32 1 n).toNat) s1

/-- The labels declared by the `MULTIPLEXER` branch. -/
def read_multiplexer_seen (s : pstate) : List String :=
  let s1 := next_token s
  let n := atoi s1.token
  read_params_seen (wrap32 (wrap32 (shl32 1 n + n) + 1)).toNat s1

/-- The labels declared by one statement whose leading word is in `token`. -/
def statement_seen (s : pstate) : List String :=
  if s.token = "INPUT" then
    let r := fscanf_int s.nInputs s.input
    read_inputs_seen r.1.toNat { s with nInputs := r.1, input := r.2 }
  else if s.token = "OUTPUT" then
    let r := fscanf_int s.nOutputs s.input
    read_outputs_seen r.1.toNat { s with nOutputs := r.1, input := r.2 }
  else if s.token = "AND" then read_params_seen 3 s
  else if s.token = "OR" then read_params_seen 3 s
  else if s.token = "NAND" then read_params_seen 3 s
  else if s.token = "NOR" then read_params_seen 3 s
  else if s.token = "XOR" then read_params_seen 3 s
  else if s.token = "NOT" then read_params_seen 2 s
  else if s.token = "PASS" then read_params_seen 2 s
  else if s.token = "DECODER" then read_decoder_seen s
  else if s.token = "MULTIPLEXER" then read_multiplexer_seen s
  else []

/-- The labels declared by the loop of `parse_circuit`, statement after statement. -/
def parse_loop_seen : Nat → pstate → List String
  | 0, _ => []
  | fuel + 1, s =>
    match read_token s with
    | none => []
    | some s1 =>
      if s1.token = "END" then []
      else
        statement_seen s1 ++
          match statement s1 with
          | some (some s2) => parse_loop_seen fuel s2
          | _ => []

/-- The labels read by `parse_circuit` from the state `s`, in the order in which they
are read: every word that the parser passes to `hashtable_contains` and
`hashtable_add`, repetitions included. -/
def labels_seen (s : pstate) : List String := parse_loop_seen (input_measure s.input + 1) s

end TruthTable

namespace CacheSim

/-! ## Cache simulator (cachesim.c): the argument checks of main -/

/-- The C predicate `isspace` in the default locale: space and the characters 9 to 13. -/
def isspace (c : Char) : Bool := c.toNat = 32 || (9 ≤ c.toNat && c.toNat ≤ 13)

/-- Source: `atoi` on a command-line argument: leading white space is skipped, then an
optional sign and the digits are converted. -/
def atoi (arg : String) : Int := TruthTable.atoi (String.mk (arg.data.dropWhile isspace))

/-- The C expression `!x`. -/
def lnot (x : Int) : Int := if x = 0 then 1 else 0

/-- The C expression `a / b` on 32-bit ints: no value for a zero divisor or when the
quotient does not fit. -/
def div32 (a b : Int) : Option Int :=
  if b = 0 then none
  else if a = -2147483648 ∧ b = -1 then none
  else some (Int.tdiv a b)

/-- The C expression `x - 1` on 32-bit ints: no value when it overflows. -/
def pred32 (x : Int) : Option Int :=
  if x = -2147483648 then none else some (x - 1)

/-- The operand `x & !x & (x - 1)` of the test of `main`; `&` associates to the left and
evaluates both sides. -/
def size_test (x : Int) : Option Int :=
  match pred32 x with
  | none => none
  | some y => some (Int.land (Int.land x (lnot x)) y)

/-- The text printed when the size test fires. -/
def pow2_msg : String := "Cache size and block size must be powers of 2\n"

/-- The text printed for a wrong number of arguments. -/
def usage_msg (argv0 : String) : String :=
  "Usage: " ++ argv0
    ++ " <cache size> <associativity> <replacement policy> <block size> <trace file>\n"

/-- How the argument checks at the head of `main` end: `main` returns `code` after
printing `out`, or execution continues past the size test with the three locals. -/
inductive outcome where
  | returned (out : String) (code : Int)
  | continues (cacheSize blockSize associativity : Int)
  deriving DecidableEq, Repr

/-- Source: `main`, from its entry to the end of the size test: the check of `argc`, the
conversions of `argv[1]` and `argv[4]`, the division that initialises `associativity`,
and the test `cacheSize & !cacheSize & (cacheSize - 1) || blockSize & !blockSize &
(blockSize - 1)`, whose right operand is evaluated only when the left one is zero.
`argc` is the length of `argv`. -/
def main (argv : List String) : Option outcome :=
  match argv with
  | [] => none
  | argv0 :: _ =>
    if argv.length ≠ 6 then some (outcome.returned (usage_msg argv0) 1)
    else
      let cacheSize := atoi (argv.getD 1 "")
      let blockSize := atoi (argv.getD 4 "")
      match div32 cacheSize blockSize with
      | none => none
      | some associativity =>
        match size_test cacheSize with
        | none => none
        | some t1 =>
          if t1 ≠ 0 then some (outcome.returned pow2_msg 1)
          else
            match size_test blockSize with
            | none => none
            | some t2 =>
              if t2 ≠ 0 then some (outcome.returned pow2_msg 1)
              else some (outcome.continues cacheSize blockSize associativity)

/-- A power of 2 that fits a 32-bit int. -/
def is_pow2 (x : Int) : Prop := ∃ k ∈ List.range 31, x = 2 ^ k

instance (x : Int) : Decidable (is_pow2 x) := by
  unfold is_pow2; infer_instance

end CacheSim

namespace TruthTable

/-! ## Theorems -/

theorem unvisited_mono {n : Nat} {V W : Nat → Bool} (h : ∀ k, V k = true → W k = true) :
    unvisited n W ≤ unvisited n V := by
  unfold unvisited
  apply Finset.card_le_card
  intro k hk
  simp only [Finset.mem_filter, Finset.mem_range] at hk ⊢
  refine ⟨hk.1, ?_⟩
  cases hv : V k
  · rfl
  · rw [h k hv] at hk; exact absurd hk.2 (by simp)

theorem unvisited_mark {n : Nat} {V W : Nat → Bool} {c : Nat} (hc : c < n) (hv : V c = false)
    (hw : W c = true) (h : ∀ k, V k = true → W k = true) :
    unvisited n W + 1 ≤ unvisited n V := by
  unfold unvisited
  apply Nat.succ_le_of_lt
  apply Finset.card_lt_card
  constructor
  · intro k hk
    simp only [Finset.mem_filter, Finset.mem_range] at hk ⊢
    refine ⟨hk.1, ?_⟩
    cases hv : V k
    · rfl
    · rw [h k hv] at hk; exact absurd hk.2 (by simp)
  · intro hsub
    have : c ∈ (Finset.range n).filter (fun k => W k = false) :=
      hsub (by simp [hc, hv])
    simp [hw] at this

theorem topo_snoc {nodes : List gatenode_t} {S : List Nat} {c : Nat} (h : topo nodes S)
    (hc : ∀ y, edge nodes c y → y ∈ S) : topo nodes (S ++ [c]) := by
  intro A x B heq y hy
  rcases List.eq_nil_or_concat B with hB | ⟨B', b, hB⟩
  · subst hB
    have h1 : S ++ [c] = A ++ [x] := heq
    have := List.append_inj' h1 rfl
    obtain ⟨hA, hx⟩ := this
    simp at hx
    subst hA; subst hx
    exact hc y hy
  · subst hB
    have h1 : S ++ [c] = (A ++ x :: B') ++ [b] := by simp [heq]
    have := List.append_inj' h1 rfl
    exact h A x B' this.1 y hy

theorem dfs_loop_spec (nodes : List gatenode_t) (fuel : Nat)
    (call : Nat → sort_state → Option sort_state)
    (hcall : ∀ y V S, y < nodes.length → V y = false → unvisited nodes.length V ≤ fuel →
      ∃ N, pushed nodes.length V S (call y (V, S)) N ∧ y ∈ N ∧
        (acyclic nodes → (∀ g, V g = true → g ∈ S ∨ Relation.ReflTransGen (edge nodes) g y) →
          topo nodes S → topo nodes (S ++ N)))
    (P : Nat → Prop) :
    ∀ (os : List (Option Nat)) (V : Nat → Bool) (S : List Nat),
      (∀ y, some y ∈ os → y < nodes.length) →
      unvisited nodes.length V ≤ fuel →
      ∃ N, pushed nodes.length V S (dfs_loop call os (V, S)) N ∧
        (∀ y, some y ∈ os → (V y = true ∨ y ∈ N)) ∧
        (acyclic nodes →
          (∀ y, some y ∈ os → ∀ g, P g → Relation.ReflTransGen (edge nodes) g y) →
          (∀ y, some y ∈ os → ¬ P y) →
          (∀ g, V g = true → g ∈ S ∨ P g) →
          topo nodes S → topo nodes (S ++ N) ∧ ∀ y, some y ∈ os → y ∈ S ++ N) := by
  intro os
  induction os with
  | nil =>
    intro V S _ _
    refine ⟨[], ⟨V, by simp [dfs_loop], List.nodup_nil, by simp, by simp⟩, by simp, ?_⟩
    intro _ _ _ _ ht
    simpa using ht
  | cons o rest ih =>
    intro V S hlt hfuel
    have hrest : ∀ y, some y ∈ rest → y < nodes.length :=
      fun y hy => hlt y (List.mem_cons_of_mem _ hy)
    cases o with
    | none =>
      obtain ⟨N, hN, hvis, htopo⟩ := ih V S hrest hfuel
      refine ⟨N, by simpa [dfs_loop] using hN, ?_, ?_⟩
      · intro y hy
        simp at hy
        exact hvis y hy
      · intro hac h2 h3 hG ht
        have := htopo hac (fun y hy => h2 y (List.mem_cons_of_mem _ hy))
          (fun y hy => h3 y (List.mem_cons_of_mem _ hy)) hG ht
        refine ⟨this.1, ?_⟩
        intro y hy
        simp at hy
        exact this.2 y hy
    | some y =>
      have hy : y < nodes.length := hlt y (List.mem_cons_self _ _)
      by_cases hv : V y = true
      · obtain ⟨N, hN, hvis, htopo⟩ := ih V S hrest hfuel
        refine ⟨N, by simpa [dfs_loop, hv] using hN, ?_, ?_⟩
        · intro z hz
          simp at hz
          rcases hz with hz | hz
          · subst hz; exact Or.inl hv
          · exact hvis z hz
        · intro hac h2 h3 hG ht
          have := htopo hac (fun y hy => h2 y (List.mem_cons_of_mem _ hy))
            (fun y hy => h3 y (List.mem_cons_of_mem _ hy)) hG ht
          refine ⟨this.1, ?_⟩
          intro z hz
          simp at hz
          rcases hz with hz | hz
          · subst hz
            rcases hG z hv with h | h
            · exact List.mem_append_left _ h
            · exact absurd h (h3 z (List.mem_cons_self _ _))
          · exact this.2 z hz
      · have hv' : V y = false := by simpa using hv
        obtain ⟨N1, ⟨V1, hr1, hnd1, hnew1, hV1⟩, hyN1, htopo1⟩ := hcall y V S hy hv' hfuel
        have hfuel1 : unvisited nodes.length V1 ≤ fuel :=
          le_trans (unvisited_mono (fun k hk => (hV1 k).2 (Or.inl hk))) hfuel
        obtain ⟨N2, ⟨V2, hr2, hnd2, hnew2, hV2⟩, hvis2, htopo2⟩ :=
          ih V1 (S ++ N1) hrest hfuel1
        refine ⟨N1 ++ N2, ⟨V2, ?_, ?_, ?_, ?_⟩, ?_, ?_⟩
        · simp [dfs_loop, hv', hr1, hr2]
        · rw [List.nodup_append]
          refine ⟨hnd1, hnd2, ?_⟩
          intro a ha1 ha2
          have := (hnew2 a ha2).1
          rw [(hV1 a).2 (Or.inr ha1)] at this
          exact absurd this (by simp)
        · intro x hx
          rcases List.mem_append.1 hx with h | h
          · exact hnew1 x h
          · refine ⟨?_, (hnew2 x h).2⟩
            have := (hnew2 x h).1
            cases hvx : V x
            · rfl
            · rw [(hV1 x).2 (Or.inl hvx)] at this; exact absurd this (by simp)
        · intro k
          rw [hV2 k, hV1 k, List.mem_append]
          tauto
        · intro z hz
          simp at hz
          rcases hz with hz | hz
          · subst hz; exact Or.inr (List.mem_append_left _ hyN1)
          · rcases hvis2 z hz with h | h
            · rcases (hV1 z).1 h with h' | h'
              · exact Or.inl h'
              · exact Or.inr (List.mem_append_left _ h')
            · exact Or.inr (List.mem_append_right _ h)
        · intro hac h2 h3 hG ht
          have ht1 : topo nodes (S ++ N1) := by
            apply htopo1 hac _ ht
            intro g hg
            rcases hG g hg with h | h
            · exact Or.inl h
            · exact Or.inr (h2 y (List.mem_cons_self _ _) g h)
          have hG1 : ∀ g, V1 g = true → g ∈ S ++ N1 ∨ P g := by
            intro g hg
            rcases (hV1 g).1 hg with h | h
            · rcases hG g h with h' | h'
              · exact Or.inl (List.mem_append_left _ h')
              · exact Or.inr h'
            · exact Or.inl (List.mem_append_right _ h)
          have := htopo2 hac (fun y hy => h2 y (List.mem_cons_of_mem _ hy))
            (fun y hy => h3 y (List.mem_cons_of_mem _ hy)) hG1 ht1
          rw [List.append_assoc] at this
          refine ⟨this.1, ?_⟩
          intro z hz
          simp at hz
          rcases hz with hz | hz
          · subst hz
            exact List.mem_append.2 (Or.inr (List.mem_append_left _ hyN1))
          · exact this.2 z hz

theorem dfs_spec (nodes : List gatenode_t) (hcl : closed_graph nodes) :
    ∀ (fuel y : Nat) (V : Nat → Bool) (S : List Nat),
      y < nodes.length → V y = false → unvisited nodes.length V ≤ fuel →
      ∃ N, pushed nodes.length V S (dfs nodes fuel y (V, S)) N ∧ y ∈ N ∧
        (acyclic nodes → (∀ g, V g = true → g ∈ S ∨ Relation.ReflTransGen (edge nodes) g y) →
          topo nodes S → topo nodes (S ++ N)) := by
  intro fuel
  induction fuel with
  | zero =>
    intro y V S hy hv hfuel
    exfalso
    have := unvisited_mark (W := fun _ => true) hy hv rfl (fun _ _ => rfl)
    omega
  | succ fuel ih =>
    intro y V S hy hv hfuel
    obtain ⟨node, hnode⟩ : ∃ node, nodes[y]? = some node :=
      ⟨nodes[y], List.getElem?_eq_getElem hy⟩
    have hedge : ∀ z, some z ∈ node.out → edge nodes y z := fun z hz => ⟨node, hnode, hz⟩
    have hV1 : ∀ k, V k = true → (fun k => if k = y then true else V k) k = true := by
      intro k hk; simp [hk]
    have hfuel1 : unvisited nodes.length (fun k => if k = y then true else V k) ≤ fuel := by
      have := unvisited_mark (W := fun k => if k = y then true else V k) hy hv (by simp) hV1
      omega
    obtain ⟨M, ⟨V2, hr, hnd, hnew, hV2⟩, hvis, htopo⟩ :=
      dfs_loop_spec nodes fuel (dfs nodes fuel) ih
        (fun g => Relation.ReflTransGen (edge nodes) g y) node.out
        (fun k => if k = y then true else V k) S
        (fun z hz => hcl y z (hedge z hz)) hfuel1
    have hyM : y ∉ M := by
      intro h
      have := (hnew y h).1
      simp at this
    refine ⟨M ++ [y], ⟨V2, ?_, ?_, ?_, ?_⟩, by simp, ?_⟩
    · simp only [dfs, hnode, hr, List.append_assoc]
    · rw [List.nodup_append]
      refine ⟨hnd, by simp, ?_⟩
      intro a ha hb
      simp at hb
      subst hb
      exact hyM ha
    · intro x hx
      rcases List.mem_append.1 hx with h | h
      · refine ⟨?_, (hnew x h).2⟩
        have := (hnew x h).1
        by_cases hxy : x = y
        · subst hxy; exact hv
        · simpa [hxy] using this
      · simp at h; subst h; exact ⟨hv, hy⟩
    · intro k
      rw [hV2 k]
      by_cases hky : k = y
      · subst hky; simp
      · simp [hky]
    · intro hac hG ht
      have hcyc : ∀ z, some z ∈ node.out →
          ¬ Relation.ReflTransGen (edge nodes) z y := by
        intro z hz hreach
        exact hac y (Relation.TransGen.head' (hedge z hz) hreach)
      have hG1 : ∀ g, (fun k => if k = y then true else V k) g = true →
          g ∈ S ∨ Relation.ReflTransGen (edge nodes) g y := by
        intro g hg
        by_cases hgy : g = y
        · subst hgy; exact Or.inr Relation.ReflTransGen.refl
        · simp [hgy] at hg; exact hG g hg
      have := htopo hac
        (fun z hz g hg => Relation.ReflTransGen.tail hg (hedge z hz)) hcyc hG1 ht
      rw [← List.append_assoc]
      apply topo_snoc this.1
      intro z hz
      obtain ⟨node', hn', hz'⟩ := hz
      rw [hnode] at hn'
      cases hn'
      exact this.2 z hz'

/-- The sort visits every gate exactly once, and on an acyclic graph puts every gate
above all its recorded consumers. -/
theorem toposort_spec (nodes : List gatenode_t) (hcl : closed_graph nodes) :
    ∃ V S, toposort nodes nodes.length = some (V, S) ∧ S.Nodup ∧
      (∀ k, k ∈ S ↔ k < nodes.length) ∧ S.length = nodes.length ∧
      (acyclic nodes → topo nodes S) := by
  obtain ⟨N, ⟨V, hr, hnd, hnew, hV⟩, hvis, htopo⟩ :=
    dfs_loop_spec nodes nodes.length (dfs nodes nodes.length) (dfs_spec nodes hcl nodes.length)
      (fun _ => False) ((List.range nodes.length).reverse.map some) (fun _ => false) []
      (by intro y hy; simp at hy; exact hy)
      (by unfold unvisited; simpa using Finset.card_filter_le (Finset.range nodes.length) _)
  have hmem : ∀ k, k ∈ N ↔ k < nodes.length := by
    intro k
    constructor
    · intro h; exact (hnew k h).2
    · intro h
      have := hvis k (by simpa using h)
      simpa using this
  refine ⟨V, N, by simpa [toposort] using hr, hnd, hmem, ?_, ?_⟩
  · have h1 : N.toFinset = Finset.range nodes.length := by
      ext k; simp [hmem]
    have h2 := List.toFinset_card_of_nodup hnd
    rw [h1] at h2
    simpa using h2.symm
  · intro hac
    have := htopo hac (by intro _ _ g hg; exact absurd hg id) (by intro _ _ h; exact h)
      (by intro g hg; simp at hg) (by intro A x B h; simp at h)
    simpa using this.1

theorem hashtable_add_spec {l l' : wirelist_t} {key : String} {id : Nat} {ty : var_type_t}
    (h : hashtable_add l key id ty = some l') :
    (∀ slot w, l.map slot = some w → l'.map slot = some w) ∧
    (∀ slot w, l'.map slot = some w →
      l.map slot = some w ∨ w = { key := key, id := id, type := ty }) := by
  unfold hashtable_add at h
  simp only at h
  split at h
  · rename_i hnone
    cases h
    simp only [set_slot, add_wire]
    constructor
    · intro slot w hw
      have : slot ≠ hash key := by
        intro he; rw [he, hnone] at hw; cases hw
      simp [this, hw]
    · intro slot w hw
      by_cases he : slot = hash key
      · simp [he] at hw; exact Or.inr hw.symm
      · simp [he] at hw; exact Or.inl hw
  · rename_i w0 hsome
    split at h
    · split at h
      · cases h
      · rename_i i hfree
        cases h
        have hi := List.find?_some hfree
        simp only [set_slot, add_wire]
        constructor
        · intro slot w hw
          have : slot ≠ probe (hash key) i := by
            intro he; rw [he] at hw; rw [hw] at hi; simp at hi
          simp [this, hw]
        · intro slot w hw
          by_cases he : slot = probe (hash key) i
          · simp [he] at hw; exact Or.inr hw.symm
          · simp [he] at hw; exact Or.inl hw
    · cases h
      exact ⟨fun _ _ h => h, fun _ _ h => Or.inl h⟩

theorem declare_spec {s s1 : pstate} {ty : var_type_t} (h : declare s ty = some s1) :
    s1.gates = s.gates ∧ s1.gateId = s.gateId ∧ s1.token = s.token ∧ s1.input = s.input ∧
    s1.nInputs = s.nInputs ∧ s1.nOutputs = s.nOutputs ∧
    s.wireId ≤ s1.wireId ∧
    (∀ slot w, s.wires.map slot = some w → s1.wires.map slot = some w) ∧
    (∀ slot w, s1.wires.map slot = some w →
      s.wires.map slot = some w ∨
        (w = { key := s.token, id := s.wireId, type := ty } ∧ s1.wireId = s.wireId + 1)) := by
  unfold declare at h
  split at h
  · cases h
    exact ⟨rfl, rfl, rfl, rfl, rfl, rfl, le_refl _, fun _ _ h => h, fun _ _ h => Or.inl h⟩
  · split at h
    · cases h
    · rename_i w hadd
      cases h
      have := hashtable_add_spec hadd
      refine ⟨rfl, rfl, rfl, rfl, rfl, rfl, Nat.le_succ _, this.1, ?_⟩
      intro slot w' hw'
      rcases this.2 slot w' hw' with h | h
      · exact Or.inl h
      · exact Or.inr ⟨h, rfl⟩

theorem hashtable_get_some_iff (l : wirelist_t) (id : Nat) :
    (∃ w, hashtable_get l id = some w) ↔
      ∃ slot w, slot < MAX_VARS ∧ l.map slot = some w ∧ w.id = id := by
  unfold hashtable_get
  constructor
  · rintro ⟨w, hw⟩
    obtain ⟨slot, hslot, hf⟩ := List.exists_of_findSome?_eq_some hw
    refine ⟨slot, w, List.mem_range.1 hslot, ?_⟩
    split at hf
    · rename_i w' hw'
      split at hf
      · cases hf; exact ⟨hw', by assumption⟩
      · cases hf
    · cases hf
  · rintro ⟨slot, w, hslot, hw, hid⟩
    rw [← Option.isSome_iff_exists, List.findSome?_isSome_iff]
    exact ⟨slot, List.mem_range.2 hslot, by simp [hw, hid]⟩

theorem hashtable_get_id {l : wirelist_t} {id : Nat} {w : wire_t}
    (h : hashtable_get l id = some w) : w.id = id ∧ ∃ slot, l.map slot = some w := by
  unfold hashtable_get at h
  obtain ⟨slot, _, hf⟩ := List.exists_of_findSome?_eq_some h
  split at hf
  · rename_i w' hw'
    split at hf
    · cases hf; exact ⟨by assumption, slot, hw'⟩
    · cases hf
  · cases hf

theorem hash_lt (key : String) : hash key < MAX_VARS := by
  unfold hash
  generalize key.data.reverse = cs
  have : ∀ (cs : List Char) (a : Nat), a < MAX_VARS →
      cs.foldl (fun h c => (h * 31 + c.toNat) % MAX_VARS) a < MAX_VARS := by
    intro cs
    induction cs with
    | nil => intro a ha; simpa using ha
    | cons c cs ih =>
      intro a _
      simp only [List.foldl_cons]
      exact ih _ (Nat.mod_lt _ (by decide))
  exact this cs 0 (by decide)

theorem probe_lt (h i : Nat) : probe h i < MAX_VARS := Nat.mod_lt _ (by decide)

theorem lookup_id_spec {s : pstate} {id : Nat} (h : lookup_id s = some id) :
    ∃ w, hashtable_get s.wires id = some w := by
  unfold lookup_id at h
  split at h
  · rename_i w hk
    cases h
    rw [hashtable_get_some_iff]
    unfold hashtable_get_by_key at hk
    simp only at hk
    split at hk
    · cases hk
    · rename_i w0 h0
      split at hk
      · cases hk
        exact ⟨_, _, hash_lt _, h0, rfl⟩
      · split at hk
        · cases hk
        · rename_i i _
          simp only [Option.some.injEq] at hk
          exact ⟨_, _, probe_lt _ _, hk, rfl⟩
  · cases h

theorem parsed_ok_congr {s s1 : pstate} (hw : s1.wires = s.wires) (hg : s1.gates = s.gates)
    (hgi : s1.gateId = s.gateId) (hwi : s1.wireId = s.wireId) (h : parsed_ok s) :
    parsed_ok s1 := by
  obtain ⟨h1, h2, h3, h4, h5⟩ := h
  constructor
  · rw [hg]; exact h1
  · rw [hg, hgi]; exact h2
  · rw [hw, hwi]; exact h3
  · rw [hw, hg]; exact h4
  · rw [hg]; exact h5

theorem read_token_fields {s s1 : pstate} (h : read_token s = some s1) :
    s1.wires = s.wires ∧ s1.gates = s.gates ∧ s1.gateId = s.gateId ∧ s1.wireId = s.wireId ∧
    s1.nInputs = s.nInputs ∧ s1.nOutputs = s.nOutputs := by
  unfold read_token at h
  split at h
  · cases h
  · split at h <;> cases h <;> exact ⟨rfl, rfl, rfl, rfl, rfl, rfl⟩

theorem next_token_fields (s : pstate) :
    (next_token s).wires = s.wires ∧ (next_token s).gates = s.gates ∧
    (next_token s).gateId = s.gateId ∧ (next_token s).wireId = s.wireId ∧
    (next_token s).nInputs = s.nInputs ∧ (next_token s).nOutputs = s.nOutputs := by
  unfold next_token
  split
  · exact ⟨rfl, rfl, rfl, rfl, rfl, rfl⟩
  · rename_i s1 h; exact read_token_fields h

theorem parsed_ok_next_token {s : pstate} (h : parsed_ok s) : parsed_ok (next_token s) := by
  have := next_token_fields s
  exact parsed_ok_congr this.1 this.2.1 this.2.2.1 this.2.2.2.1 h

theorem check_type_constant {tok : String} {fb : var_type_t}
    (h : check_type tok fb = var_type_t.CONSTANT) (hfb : fb ≠ var_type_t.CONSTANT) :
    tok = "0" ∨ tok = "1" := by
  unfold check_type at h
  split at h
  · left; assumption
  · split at h
    · right; assumption
    · split at h
      · cases h
      · exact absurd h hfb

theorem grows_resolves {s s1 : pstate} (h : grows s s1) {id : Nat}
    (hr : ∃ w, hashtable_get s.wires id = some w) : ∃ w, hashtable_get s1.wires id = some w := by
  rw [hashtable_get_some_iff] at hr ⊢
  obtain ⟨slot, w, h1, h2, h3⟩ := hr
  exact ⟨slot, w, h1, h slot w h2, h3⟩

theorem parsed_ok_declare {s s1 : pstate} {ty : var_type_t} (h : parsed_ok s)
    (hty : ty = var_type_t.CONSTANT → s.token = "0" ∨ s.token = "1")
    (hd : declare s ty = some s1) : parsed_ok s1 ∧ grows s s1 := by
  obtain ⟨hg, hgi, _, _, _, _, hle, hgrow, hnew⟩ := declare_spec hd
  obtain ⟨h1, h2, h3, h4, h5⟩ := h
  refine ⟨⟨by rw [hg]; exact h1, by rw [hg, hgi]; exact h2, ?_, ?_, by rw [hg]; exact h5⟩, hgrow⟩
  · intro slot w hw
    rcases hnew slot w hw with h | ⟨h, hid⟩
    · exact ⟨lt_of_lt_of_le (h3 slot w h).1 hle, (h3 slot w h).2⟩
    · subst h
      exact ⟨by simp [hid], fun hc => hty hc⟩
  · intro g hgm p hp
    rw [hg] at hgm
    exact grows_resolves hgrow (h4 g hgm p hp)

theorem read_param_ok {s s1 : pstate} {id : Nat} (h : parsed_ok s)
    (hr : read_param s = some (s1, id)) :
    parsed_ok s1 ∧ grows s s1 ∧ ∃ w, hashtable_get s1.wires id = some w := by
  unfold read_param at hr
  split at hr
  · cases hr
  · rename_i s2 hd
    split at hr
    · cases hr
    · rename_i id' hl
      cases hr
      have := parsed_ok_declare (parsed_ok_next_token h)
        (fun hc => check_type_constant hc (by decide)) hd
      refine ⟨this.1, ?_, lookup_id_spec hl⟩
      intro slot w hw
      apply this.2
      rw [(next_token_fields s).1]
      exact hw

theorem read_params_ok : ∀ (n : Nat) {s s1 : pstate} {ids : List Nat}, parsed_ok s →
    read_params n s = some (s1, ids) →
    parsed_ok s1 ∧ grows s s1 ∧ ids.length = n ∧
      ∀ id ∈ ids, ∃ w, hashtable_get s1.wires id = some w := by
  intro n
  induction n with
  | zero =>
    intro s s1 ids h hr
    simp only [read_params] at hr
    cases hr
    exact ⟨h, fun _ _ h => h, rfl, by simp⟩
  | succ n ih =>
    intro s s1 ids h hr
    simp only [read_params] at hr
    split at hr
    · cases hr
    · rename_i s2 id hp
      split at hr
      · cases hr
      · rename_i s3 ids' hps
        cases hr
        obtain ⟨a1, a2, a3⟩ := read_param_ok h hp
        obtain ⟨b1, b2, b3, b4⟩ := ih a1 hps
        refine ⟨b1, fun slot w hw => b2 slot w (a2 slot w hw), by simp [b3], ?_⟩
        intro x hx
        rcases List.mem_cons.1 hx with hx | hx
        · subst hx; exact grows_resolves b2 a3
        · exact b4 x hx

theorem read_inputs_ok : ∀ (n : Nat) {s s1 : pstate}, parsed_ok s →
    read_inputs n s = some s1 → parsed_ok s1 := by
  intro n
  induction n with
  | zero => intro s s1 h hr; simp only [read_inputs] at hr; cases hr; exact h
  | succ n ih =>
    intro s s1 h hr
    simp only [read_inputs] at hr
    split at hr
    · cases hr
    · rename_i s2 hd
      exact ih (parsed_ok_declare (parsed_ok_next_token h)
        (fun hc => check_type_constant hc (by decide)) hd).1 hr

theorem read_outputs_ok : ∀ (n : Nat) {s s1 : pstate}, parsed_ok s →
    read_outputs n s = some s1 → parsed_ok s1 := by
  intro n
  induction n with
  | zero => intro s s1 h hr; simp only [read_outputs] at hr; cases hr; exact h
  | succ n ih =>
    intro s s1 h hr
    simp only [read_outputs] at hr
    split at hr
    · cases hr
    · rename_i s2 hd
      exact ih (parsed_ok_declare (parsed_ok_next_token h) (fun hc => by cases hc) hd).1 hr

theorem read_gate_ok {s s1 : pstate} {type : type_t} {size : Int} {count : Nat}
    (h : parsed_ok s)
    (har : ∀ params : List Nat, params.length = count →
      arity_ok { type := type, size := size, params := params, id := 0 })
    (hr : read_gate s type size count = some s1) : parsed_ok s1 := by
  unfold read_gate at hr
  split at hr
  · cases hr
  · rename_i s2 params hps
    cases hr
    obtain ⟨⟨h1, h2, h3, h4, h5⟩, _, hlen, hres⟩ := read_params_ok count h hps
    constructor
    · simp only [add_gate, List.map_append, List.map_cons, List.map_nil, List.length_append,
        List.length_singleton, List.range_succ, h1, h2]
    · simp [add_gate, h2]
    · exact h3
    · intro g hg p hp
      simp only [add_gate, List.mem_append, List.mem_singleton] at hg
      rcases hg with hg | hg
      · exact h4 g hg p hp
      · subst hg; exact hres p hp
    · intro g hg
      simp only [add_gate, List.mem_append, List.mem_singleton] at hg
      rcases hg with hg | hg
      · exact h5 g hg
      · subst hg
        have := har params hlen
        unfold arity_ok at this ⊢
        exact this

theorem statement_ok {s s1 : pstate} (h : parsed_ok s)
    (hr : statement s = some (some s1)) : parsed_ok s1 := by
  have hmap : ∀ {o : Option pstate}, o.map some = some (some s1) → o = some s1 := by
    intro o ho; cases o <;> simp at ho; simpa using ho
  unfold statement at hr
  by_cases h0 : s.token = "INPUT"
  · rw [if_pos h0] at hr
    refine read_inputs_ok _ ?_ (hmap hr)
    exact parsed_ok_congr (s := s) rfl rfl rfl rfl h
  rw [if_neg h0] at hr
  by_cases h1 : s.token = "OUTPUT"
  · rw [if_pos h1] at hr
    refine read_outputs_ok _ ?_ (hmap hr)
    exact parsed_ok_congr (s := s) rfl rfl rfl rfl h
  rw [if_neg h1] at hr
  by_cases h2 : s.token = "AND"
  · rw [if_pos h2] at hr
    refine read_gate_ok h ?_ (hmap hr)
    intro p hp
    exact ⟨rfl, hp⟩
  rw [if_neg h2] at hr
  by_cases h3 : s.token = "OR"
  · rw [if_pos h3] at hr
    refine read_gate_ok h ?_ (hmap hr)
    intro p hp
    exact ⟨rfl, hp⟩
  rw [if_neg h3] at hr
  by_cases h4 : s.token = "NAND"
  · rw [if_pos h4] at hr
    refine read_gate_ok h ?_ (hmap hr)
    intro p hp
    exact ⟨rfl, hp⟩
  rw [if_neg h4] at hr
  by_cases h5 : s.token = "NOR"
  · rw [if_pos h5] at hr
    refine read_gate_ok h ?_ (hmap hr)
    intro p hp
    exact ⟨rfl, hp⟩
  rw [if_neg h5] at hr
  by_cases h6 : s.token = "XOR"
  · rw [if_pos h6] at hr
    refine read_gate_ok h ?_ (hmap hr)
    intro p hp
    exact ⟨rfl, hp⟩
  rw [if_neg h6] at hr
  by_cases h7 : s.token = "NOT"
  · rw [if_pos h7] at hr
    refine read_gate_ok h ?_ (hmap hr)
    intro p hp
    exact ⟨rfl, hp⟩
  rw [if_neg h7] at hr
  by_cases h8 : s.token = "PASS"
  · rw [if_pos h8] at hr
    refine read_gate_ok h ?_ (hmap hr)
    intro p hp
    exact ⟨rfl, hp⟩
  rw [if_neg h8] at hr
  by_cases h9 : s.token = "DECODER"
  · rw [if_pos h9] at hr
    have hr' := hmap hr
    unfold read_decoder at hr'
    simp only at hr'
    split at hr'
    · cases hr'
    · rename_i hnot
      split at hr'
      · cases hr'
      · refine read_gate_ok (parsed_ok_next_token h) ?_ hr'
        intro p hp
        exact ⟨hp, hnot⟩
  rw [if_neg h9] at hr
  by_cases h10 : s.token = "MULTIPLEXER"
  · rw [if_pos h10] at hr
    have hr' := hmap hr
    unfold read_multiplexer at hr'
    refine read_gate_ok (parsed_ok_next_token h) ?_ hr'
    intro p hp
    exact hp
  rw [if_neg h10] at hr
  cases hr

theorem parse_loop_ok : ∀ (fuel : Nat) {s s1 : pstate} {res : Int}, parsed_ok s →
    parse_loop fuel s = some (res, s1) → parsed_ok s1 := by
  intro fuel
  induction fuel with
  | zero => intro s s1 res _ hr; simp [parse_loop] at hr
  | succ fuel ih =>
    intro s s1 res h hr
    simp only [parse_loop] at hr
    split at hr
    · cases hr; exact h
    · rename_i s2 ht
      have h2 : parsed_ok s2 := by
        have := read_token_fields ht
        exact parsed_ok_congr this.1 this.2.1 this.2.2.1 this.2.2.2.1 h
      split at hr
      · cases hr; exact h2
      · split at hr
        · cases hr
        · cases hr; exact h2
        · rename_i s3 hs
          exact ih (statement_ok h2 hs) hr

/-- Every state returned by `parse_circuit`, started as `main` starts it, is well formed. -/
theorem parse_circuit_ok {input : List String} {nI nO : Int} {tok : String} {res : Int}
    {s : pstate} (h : parse_circuit (main_state input nI nO tok) = some (res, s)) :
    parsed_ok s := by
  apply parse_loop_ok _ _ h
  constructor
  · rfl
  · rfl
  · intro slot w hw; simp [main_state, init_wirelist] at hw
  · intro g hg; simp [main_state] at hg
  · intro g hg; simp [main_state] at hg

theorem contains_loop_ext {m m1 : Nat → Option wire_t} (hext : extends_map m m1)
    (h : Nat) (key : String) :
    ∀ L, contains_loop m h key L = true → contains_loop m1 h key L = true := by
  intro L
  induction L with
  | nil => intro hc; simp [contains_loop] at hc
  | cons i rest ih =>
    intro hc
    unfold contains_loop at hc ⊢
    cases hm : m (probe h i) with
    | none => rw [hm] at hc; simp at hc
    | some w =>
      rw [hm] at hc
      rw [hext _ _ hm]
      simp only at hc ⊢
      by_cases hk : w.key = key
      · rw [if_pos hk]
      · rw [if_neg hk] at hc ⊢
        exact ih hc

theorem contains_loop_skip {m : Nat → Option wire_t} {h : Nat} {key : String} :
    ∀ (front rest : List Nat),
      (∀ a ∈ front, ∃ w, m (probe h a) = some w ∧ w.key ≠ key) →
      contains_loop m h key (front ++ rest) = contains_loop m h key rest := by
  intro front
  induction front with
  | nil => intro rest _; rfl
  | cons a front ih =>
    intro rest hf
    obtain ⟨w, hw, hk⟩ := hf a (List.mem_cons_self _ _)
    rw [List.cons_append]
    conv_lhs => unfold contains_loop
    rw [hw]
    simp only [if_neg hk]
    exact ih rest (fun x hx => hf x (List.mem_cons_of_mem _ hx))

theorem contains_loop_false {m : Nat → Option wire_t} {h : Nat} {key : String} :
    ∀ (front rest : List Nat), contains_loop m h key (front ++ rest) = false →
      (∀ a ∈ front, m (probe h a) ≠ none) →
      ∀ a ∈ front, ∃ w, m (probe h a) = some w ∧ w.key ≠ key := by
  intro front
  induction front with
  | nil => intro rest _ _ a ha; cases ha
  | cons b front ih =>
    intro rest hc hn a ha
    rw [List.cons_append] at hc
    unfold contains_loop at hc
    cases hm : m (probe h b) with
    | none => exact absurd hm (hn b (List.mem_cons_self _ _))
    | some w =>
      rw [hm] at hc
      simp only at hc
      by_cases hk : w.key = key
      · rw [if_pos hk] at hc; cases hc
      · rw [if_neg hk] at hc
        rcases List.mem_cons.1 ha with ha | ha
        · subst ha; exact ⟨w, hm, hk⟩
        · exact ih rest hc (fun x hx => hn x (List.mem_cons_of_mem _ hx)) a ha

theorem contains_loop_slot {m : Nat → Option wire_t} {h : Nat} {key : String} :
    ∀ L, contains_loop m h key L = true → ∃ slot w, m slot = some w ∧ w.key = key := by
  intro L
  induction L with
  | nil => intro hc; simp [contains_loop] at hc
  | cons i rest ih =>
    intro hc
    unfold contains_loop at hc
    cases hm : m (probe h i) with
    | none => rw [hm] at hc; simp at hc
    | some w =>
      rw [hm] at hc
      simp only at hc
      by_cases hk : w.key = key
      · exact ⟨_, w, hm, hk⟩
      · rw [if_neg hk] at hc
        exact ih hc

/-- A label reported by `hashtable_contains` sits in some slot. -/
theorem contains_slot {l : wirelist_t} {key : String} (h : hashtable_contains l key = true) :
    ∃ slot w, l.map slot = some w ∧ w.key = key := by
  unfold hashtable_contains at h
  simp only at h
  cases hm : l.map (hash key) with
  | none => rw [hm] at h; simp at h
  | some w =>
    rw [hm] at h
    simp only at h
    by_cases hk : w.key = key
    · exact ⟨_, w, hm, hk⟩
    · rw [if_neg hk] at h
      exact contains_loop_slot _ h

theorem contains_ext {l l1 : wirelist_t} (hext : extends_map l.map l1.map) {key : String}
    (h : hashtable_contains l key = true) : hashtable_contains l1 key = true := by
  unfold hashtable_contains at h ⊢
  simp only at h ⊢
  cases hm : l.map (hash key) with
  | none => rw [hm] at h; simp at h
  | some w =>
    rw [hm] at h
    rw [hext _ _ hm]
    simp only at h ⊢
    by_cases hk : w.key = key
    · rw [if_pos hk]
    · rw [if_neg hk] at h ⊢
      exact contains_loop_ext hext _ _ _ h

theorem get_by_key_ext {l l1 : wirelist_t} (hext : extends_map l.map l1.map) {key : String}
    {w : wire_t} (h : hashtable_get_by_key l key = some (some w)) :
    hashtable_get_by_key l1 key = some (some w) := by
  unfold hashtable_get_by_key at h ⊢
  simp only at h ⊢
  cases hm : l.map (hash key) with
  | none => rw [hm] at h; simp at h
  | some w0 =>
    rw [hm] at h
    rw [hext _ _ hm]
    simp only at h ⊢
    by_cases hk : w0.key = key
    · rw [if_pos hk] at h ⊢; exact h
    · rw [if_neg hk] at h ⊢
      cases hf : find_key l.map (hash key) key with
      | none => rw [hf] at h; cases h
      | some i =>
        rw [hf] at h
        simp only [Option.some.injEq] at h
        have hf1 : find_key l1.map (hash key) key = some i := by
          unfold find_key at hf ⊢
          rw [List.find?_eq_some] at hf ⊢
          obtain ⟨hp, front, back, hsplit, hfront⟩ := hf
          refine ⟨?_, front, back, hsplit, ?_⟩
          · rw [hext _ _ h]
            rw [h] at hp
            exact hp
          · intro a ha
            have := hfront a ha
            cases hma : l.map (probe (hash key) a) with
            | none => rw [hma] at this; simp at this
            | some wa =>
              rw [hma] at this
              rw [hext _ _ hma]
              exact this
        rw [hf1]
        simp only [Option.some.injEq]
        exact hext _ _ h

theorem range_256 : List.range' 1 MAX_VARS = List.range' 1 128 ++ List.range' 129 128 :=
  (List.range'_append 1 128 128 1).symm

/-- Insertion of a label that `hashtable_contains` does not report: the wire goes to the
tail of the list and into a slot that was empty, and both lookups by label find it. -/
theorem hashtable_add_new {l l1 : wirelist_t} {key : String} {id : Nat} {ty : var_type_t}
    (hc : hashtable_contains l key = false) (h : hashtable_add l key id ty = some l1) :
    ∃ p, l.map p = none ∧
      l1 = set_slot (add_wire l key id ty).1 p { key := key, id := id, type := ty } ∧
      hashtable_contains l1 key = true ∧
      hashtable_get_by_key l1 key = some (some { key := key, id := id, type := ty }) := by
  unfold hashtable_add at h
  simp only at h
  cases hm : l.map (hash key) with
  | none =>
    rw [hm] at h
    simp only [Option.some.injEq] at h
    refine ⟨hash key, hm, h.symm, ?_, ?_⟩
    · rw [← h]
      unfold hashtable_contains
      simp [set_slot, add_wire]
    · rw [← h]
      unfold hashtable_get_by_key
      simp [set_slot, add_wire]
  | some w0 =>
    rw [hm] at h
    simp only at h
    by_cases hk : w0.key = key
    · exfalso
      unfold hashtable_contains at hc
      simp only [hm, if_pos hk] at hc
      cases hc
    · rw [if_pos hk] at h
      cases hf : find_free l.map (hash key) with
      | none => rw [hf] at h; cases h
      | some i =>
        rw [hf] at h
        simp only [Option.some.injEq] at h
        unfold find_free at hf
        rw [List.find?_eq_some] at hf
        obtain ⟨hp, front, back, hsplit, hfront⟩ := hf
        have hpn : l.map (probe (hash key) i) = none := by
          simpa using hp
        have hnn : ∀ a ∈ front, l.map (probe (hash key) a) ≠ none := by
          intro a ha hna
          have := hfront a ha
          rw [hna] at this
          simp at this
        have hloop : contains_loop l.map (hash key) key
            (front ++ (i :: back ++ List.range' 129 128)) = false := by
          unfold hashtable_contains at hc
          simp only [hm, if_neg hk] at hc
          rw [range_256, hsplit, List.append_assoc] at hc
          exact hc
        have hkeys := contains_loop_false front _ hloop hnn
        have hne : ∀ a ∈ front, probe (hash key) a ≠ probe (hash key) i := by
          intro a ha he
          exact hnn a ha (he ▸ hpn)
        have hhome : hash key ≠ probe (hash key) i := by
          intro he
          rw [← he, hm] at hpn
          cases hpn
        have hmap : l1.map = fun k => if k = probe (hash key) i
            then some { key := key, id := id, type := ty } else l.map k := by
          rw [← h]; rfl
        have hkeys1 : ∀ a ∈ front, ∃ w, l1.map (probe (hash key) a) = some w ∧ w.key ≠ key := by
          intro a ha
          obtain ⟨w, hw, hwk⟩ := hkeys a ha
          refine ⟨w, ?_, hwk⟩
          rw [hmap]
          simp only [if_neg (hne a ha)]
          exact hw
        have hhome1 : l1.map (hash key) = some w0 := by
          rw [hmap]
          simp only [if_neg hhome]
          exact hm
        have hslot1 : l1.map (probe (hash key) i)
            = some { key := key, id := id, type := ty } := by
          rw [hmap]
          simp only [if_true]
        refine ⟨probe (hash key) i, hpn, h.symm, ?_, ?_⟩
        · unfold hashtable_contains
          simp only [hhome1, if_neg hk]
          rw [range_256, hsplit, List.append_assoc, contains_loop_skip front _ hkeys1]
          rw [List.cons_append]
          unfold contains_loop
          rw [hslot1]
          simp only [if_true]
        · unfold hashtable_get_by_key
          simp only [hhome1, if_neg hk]
          have hf1 : find_key l1.map (hash key) key = some i := by
            unfold find_key
            rw [List.find?_eq_some]
            refine ⟨by rw [hslot1]; simp, front, back, hsplit, ?_⟩
            intro a ha
            obtain ⟨w, hw, hwk⟩ := hkeys1 a ha
            rw [hw]
            simp [hwk]
          rw [hf1]
          simp only [hslot1]

theorem table_ok_init : table_ok init_wirelist 0 := by
  constructor
  · rfl
  · rfl
  · simp [init_wirelist]
  · intro slot w h; simp [init_wirelist] at h
  · intro w h; simp [init_wirelist] at h

/-- One execution of `if (!hashtable_contains(...)) hashtable_add(...)`: either the label
is known and nothing changes, or a wire with the next identity is appended. -/
theorem declare_table {s s1 : pstate} {ty : var_type_t} (hok : table_ok s.wires s.wireId)
    (h : declare s ty = some s1) :
    table_ok s1.wires s1.wireId ∧ extends_map s.wires.map s1.wires.map ∧
    s1.gates = s.gates ∧ s1.gateId = s.gateId ∧ s1.token = s.token ∧ s1.input = s.input ∧
    s1.nInputs = s.nInputs ∧ s1.nOutputs = s.nOutputs ∧
    ((hashtable_contains s.wires s.token = true ∧ s1 = s) ∨
     (hashtable_contains s.wires s.token = false ∧
      s1.wires.list = s.wires.list ++ [{ key := s.token, id := s.wireId, type := ty }] ∧
      s1.wireId = s.wireId + 1)) := by
  unfold declare at h
  by_cases hc : hashtable_contains s.wires s.token = true
  · rw [if_pos hc] at h
    cases h
    exact ⟨hok, fun _ _ h => h, rfl, rfl, rfl, rfl, rfl, rfl, Or.inl ⟨hc, rfl⟩⟩
  · rw [if_neg hc] at h
    have hc0 : hashtable_contains s.wires s.token = false := by
      simpa using hc
    cases ha : hashtable_add s.wires s.token s.wireId ty with
    | none => rw [ha] at h; cases h
    | some l1 =>
      rw [ha] at h
      simp only [Option.some.injEq] at h
      obtain ⟨p, hp, hl1, hcon, hget⟩ := hashtable_add_new hc0 ha
      have hlist : l1.list = s.wires.list ++ [{ key := s.token, id := s.wireId, type := ty }] := by
        rw [hl1]; rfl
      have hmap : l1.map = fun k => if k = p
          then some { key := s.token, id := s.wireId, type := ty } else s.wires.map k := by
        rw [hl1]; rfl
      have hext : extends_map s.wires.map l1.map := by
        intro slot w hw
        rw [hmap]
        have : slot ≠ p := by
          intro he; rw [he, hp] at hw; cases hw
        simp only [if_neg this]
        exact hw
      subst h
      refine ⟨?_, hext, rfl, rfl, rfl, rfl, rfl, rfl, Or.inr ⟨hc0, hlist, rfl⟩⟩
      constructor
      · show l1.list.map (fun w => w.id) = List.range (s.wireId + 1)
        rw [hlist, List.map_append, hok.ids, List.range_succ]
        rfl
      · show l1.size = s.wireId + 1
        rw [hl1]
        show s.wires.size + 1 = s.wireId + 1
        rw [hok.size]
      · show (l1.list.map (fun w => w.key)).Nodup
        rw [hlist, List.map_append, List.nodup_append]
        refine ⟨hok.keys, by simp, ?_⟩
        intro a ha hb
        simp only [List.map_cons, List.map_nil, List.mem_singleton] at hb
        obtain ⟨w, hw, hwk⟩ := List.mem_map.1 ha
        have := (hok.found w hw).1
        rw [hwk, hb, hc0] at this
        cases this
      · intro slot w hw
        show w ∈ l1.list
        rw [hlist]
        have hw1 : l1.map slot = some w := hw
        rw [hmap] at hw1
        by_cases hs : slot = p
        · simp only [if_pos hs, Option.some.injEq] at hw1
          rw [← hw1]
          simp
        · simp only [if_neg hs] at hw1
          exact List.mem_append_left _ (hok.slots slot w hw1)
      · intro w hw
        have hw1 : w ∈ l1.list := hw
        rw [hlist, List.mem_append, List.mem_singleton] at hw1
        rcases hw1 with hw1 | hw1
        · exact ⟨contains_ext hext (hok.found w hw1).1, get_by_key_ext hext (hok.found w hw1).2⟩
        · subst hw1
          exact ⟨hcon, hget⟩

theorem read_params_lift (P : pstate → Prop)
    (hdecl : ∀ s ty s1, P s → declare s ty = some s1 → P s1)
    (hnext : ∀ s, P s → P (next_token s)) :
    ∀ (n : Nat) (s s1 : pstate) (ids : List Nat), P s → read_params n s = some (s1, ids) →
      P s1 := by
  intro n
  induction n with
  | zero =>
    intro s s1 ids h hr
    simp only [read_params] at hr
    cases hr
    exact h
  | succ n ih =>
    intro s s1 ids h hr
    simp only [read_params] at hr
    split at hr
    · cases hr
    · rename_i s2 id hp
      split at hr
      · cases hr
      · rename_i s3 ids1 hps
        cases hr
        refine ih s2 _ ids1 ?_ hps
        unfold read_param at hp
        split at hp
        · cases hp
        · rename_i s4 hd
          split at hp
          · cases hp
          · cases hp
            exact hdecl _ _ _ (hnext s h) hd

theorem read_inputs_lift (P : pstate → Prop)
    (hdecl : ∀ s ty s1, P s → declare s ty = some s1 → P s1)
    (hnext : ∀ s, P s → P (next_token s)) :
    ∀ (n : Nat) (s s1 : pstate), P s → read_inputs n s = some s1 → P s1 := by
  intro n
  induction n with
  | zero => intro s s1 h hr; simp only [read_inputs] at hr; cases hr; exact h
  | succ n ih =>
    intro s s1 h hr
    simp only [read_inputs] at hr
    split at hr
    · cases hr
    · rename_i s2 hd
      exact ih s2 s1 (hdecl _ _ _ (hnext s h) hd) hr

theorem read_outputs_lift (P : pstate → Prop)
    (hdecl : ∀ s ty s1, P s → declare s ty = some s1 → P s1)
    (hnext : ∀ s, P s → P (next_token s)) :
    ∀ (n : Nat) (s s1 : pstate), P s → read_outputs n s = some s1 → P s1 := by
  intro n
  induction n with
  | zero => intro s s1 h hr; simp only [read_outputs] at hr; cases hr; exact h
  | succ n ih =>
    intro s s1 h hr
    simp only [read_outputs] at hr
    split at hr
    · cases hr
    · rename_i s2 hd
      exact ih s2 s1 (hdecl _ _ _ (hnext s h) hd) hr

theorem read_gate_lift (P : pstate → Prop)
    (hdecl : ∀ s ty s1, P s → declare s ty = some s1 → P s1)
    (hnext : ∀ s, P s → P (next_token s))
    (hgate : ∀ (s : pstate) gs gi, P s → P { s with gates := gs, gateId := gi })
    {s s1 : pstate} {type : type_t} {size : Int} {count : Nat}
    (h : P s) (hr : read_gate s type size count = some s1) : P s1 := by
  unfold read_gate at hr
  split at hr
  · cases hr
  · rename_i s2 params hps
    cases hr
    exact hgate _ _ _ (read_params_lift P hdecl hnext count s s2 params h hps)

/-- A property of the parser state that survives reading a word, declaring a wire,
setting a counter and appending a gate holds after every statement. -/
theorem statement_lift (P : pstate → Prop)
    (hdecl : ∀ s ty s1, P s → declare s ty = some s1 → P s1)
    (hnext : ∀ s, P s → P (next_token s))
    (hgate : ∀ (s : pstate) gs gi, P s → P { s with gates := gs, gateId := gi })
    (hin : ∀ (s : pstate) n inp, P s → P { s with nInputs := n, input := inp })
    (hout : ∀ (s : pstate) n inp, P s → P { s with nOutputs := n, input := inp })
    {s s1 : pstate} (h : P s) (hr : statement s = some (some s1)) : P s1 := by
  have hmap : ∀ {o : Option pstate}, o.map some = some (some s1) → o = some s1 := by
    intro o ho
    cases o with
    | none => cases ho
    | some x => simp only [Option.map_some', Option.some.injEq] at ho; rw [ho]
  unfold statement at hr
  by_cases h0 : s.token = "INPUT"
  · rw [if_pos h0] at hr
    exact read_inputs_lift P hdecl hnext _ _ _ (hin s _ _ h) (hmap hr)
  rw [if_neg h0] at hr
  by_cases h1 : s.token = "OUTPUT"
  · rw [if_pos h1] at hr
    exact read_outputs_lift P hdecl hnext _ _ _ (hout s _ _ h) (hmap hr)
  rw [if_neg h1] at hr
  by_cases h2 : s.token = "AND"
  · rw [if_pos h2] at hr
    exact read_gate_lift P hdecl hnext hgate h (hmap hr)
  rw [if_neg h2] at hr
  by_cases h3 : s.token = "OR"
  · rw [if_pos h3] at hr
    exact read_gate_lift P hdecl hnext hgate h (hmap hr)
  rw [if_neg h3] at hr
  by_cases h4 : s.token = "NAND"
  · rw [if_pos h4] at hr
    exact read_gate_lift P hdecl hnext hgate h (hmap hr)
  rw [if_neg h4] at hr
  by_cases h5 : s.token = "NOR"
  · rw [if_pos h5] at hr
    exact read_gate_lift P hdecl hnext hgate h (hmap hr)
  rw [if_neg h5] at hr
  by_cases h6 : s.token = "XOR"
  · rw [if_pos h6] at hr
    exact read_gate_lift P hdecl hnext hgate h (hmap hr)
  rw [if_neg h6] at hr
  by_cases h7 : s.token = "NOT"
  · rw [if_pos h7] at hr
    exact read_gate_lift P hdecl hnext hgate h (hmap hr)
  rw [if_neg h7] at hr
  by_cases h8 : s.token = "PASS"
  · rw [if_pos h8] at hr
    exact read_gate_lift P hdecl hnext hgate h (hmap hr)
  rw [if_neg h8] at hr
  by_cases h9 : s.token = "DECODER"
  · rw [if_pos h9] at hr
    have hr1 := hmap hr
    unfold read_decoder at hr1
    simp only at hr1
    split at hr1
    · cases hr1
    · split at hr1
      · cases hr1
      · exact read_gate_lift P hdecl hnext hgate (hnext s h) hr1
  rw [if_neg h9] at hr
  by_cases h10 : s.token = "MULTIPLEXER"
  · rw [if_pos h10] at hr
    have hr1 := hmap hr
    unfold read_multiplexer at hr1
    exact read_gate_lift P hdecl hnext hgate (hnext s h) hr1
  rw [if_neg h10] at hr
  cases hr

theorem parse_loop_lift (P : pstate → Prop)
    (hdecl : ∀ s ty s1, P s → declare s ty = some s1 → P s1)
    (hnext : ∀ s, P s → P (next_token s))
    (hgate : ∀ (s : pstate) gs gi, P s → P { s with gates := gs, gateId := gi })
    (hin : ∀ (s : pstate) n inp, P s → P { s with nInputs := n, input := inp })
    (hout : ∀ (s : pstate) n inp, P s → P { s with nOutputs := n, input := inp }) :
    ∀ (fuel : Nat) (s s1 : pstate) (res : Int), P s → parse_loop fuel s = some (res, s1) →
      P s1 := by
  intro fuel
  induction fuel with
  | zero => intro s s1 res _ hr; simp [parse_loop] at hr
  | succ fuel ih =>
    intro s s1 res h hr
    simp only [parse_loop] at hr
    have hnt : ∀ s2, read_token s = some s2 → P s2 := by
      intro s2 h2
      have := hnext s h
      unfold next_token at this
      rw [h2] at this
      exact this
    split at hr
    · cases hr; exact h
    · rename_i s2 hrt
      split at hr
      · cases hr; exact hnt _ hrt
      · split at hr
        · cases hr
        · cases hr; exact hnt _ hrt
        · rename_i s3 hst
          exact ih s3 s1 res (statement_lift P hdecl hnext hgate hin hout (hnt _ hrt) hst) hr

/-- The wire table of every state the parser reaches is well formed. -/
theorem parse_table_ok {input : List String} {nI nO : Int} {tok : String} {res : Int}
    {s : pstate} (h : parse_circuit (main_state input nI nO tok) = some (res, s)) :
    table_ok s.wires s.wireId := by
  refine parse_loop_lift (fun s => table_ok s.wires s.wireId) ?_ ?_ ?_ ?_ ?_ _ _ _ _ ?_ h
  · intro s ty s1 hs hd
    exact (declare_table hs hd).1
  · intro s hs
    have := next_token_fields s
    show table_ok (next_token s).wires (next_token s).wireId
    rw [this.1, this.2.2.2.1]
    exact hs
  · intro s gs gi hs; exact hs
  · intro s n inp hs; exact hs
  · intro s n inp hs; exact hs
  · exact table_ok_init

theorem read_param_resolve (s : pstate) :
    read_param s = resolve (next_token s) (check_type (next_token s).token var_type_t.TEMP) :=
  rfl

theorem declare_all_table : ∀ (ds : List (String × var_type_t)) (s s1 : pstate),
    table_ok s.wires s.wireId → declare_all ds s = some s1 → table_ok s1.wires s1.wireId := by
  intro ds
  induction ds with
  | nil => intro s s1 h hr; simp only [declare_all] at hr; cases hr; exact h
  | cons d rest ih =>
    intro s s1 h hr
    simp only [declare_all] at hr
    split at hr
    · cases hr
    · rename_i s2 hd
      exact ih s2 s1 (declare_table (s := { s with token := d.1 }) h hd).1 hr

theorem resolve_known {s : pstate} (hok : table_ok s.wires s.wireId) {w : wire_t}
    (hw : w ∈ s.wires.list) (hk : s.token = w.key) (kind : var_type_t) :
    resolve s kind = some (s, w.id) := by
  obtain ⟨hc, hg⟩ := hok.found w hw
  unfold resolve declare
  rw [hk, if_pos hc]
  simp only
  unfold lookup_id
  rw [hk, hg]

/-- C13: in every table built by declarations from the empty table, resolving the label
of a wire `w` already present, with any fallback kind, returns the identity of `w` and
leaves the whole parser state as it is: no wire is added, no stored kind changes and
no identity is consumed. -/
theorem resolve_idempotent (ds : List (String × var_type_t)) (nI nO : Int) (tok : String)
    (s : pstate) (h : declare_all ds (main_state [] nI nO tok) = some s)
    (w : wire_t) (hw : w ∈ s.wires.list) (kind : var_type_t) :
    hashtable_contains s.wires w.key = true ∧
    hashtable_get_by_key s.wires w.key = some (some w) ∧
    resolve { s with token := w.key } kind = some ({ s with token := w.key }, w.id) := by
  have hok := declare_all_table ds _ _ table_ok_init h
  exact ⟨(hok.found w hw).1, (hok.found w hw).2,
    resolve_known (s := { s with token := w.key }) hok hw rfl kind⟩

/-- C13 (witness): after `A` (input) and `B` (temporary) are declared, resolving `A`
as an output gives identity 0 again and the state as it was. -/
theorem resolve_idempotent_witness :
    hashtable_contains two_wires.wires "A" = true ∧
    hashtable_get_by_key two_wires.wires "A" = some (some ⟨"A", 0, var_type_t.INPUT⟩) ∧
    resolve { two_wires with token := "A" } var_type_t.OUTPUT
      = some ({ two_wires with token := "A" }, 0) :=
  resolve_idempotent [("A", var_type_t.INPUT), ("B", var_type_t.TEMP)] 0 0 "" two_wires rfl
    ⟨"A", 0, var_type_t.INPUT⟩ (by decide!) var_type_t.OUTPUT

theorem map_some_ne {o : Option pstate} : o.map some ≠ some none := by
  cases o <;> simp

theorem statement_unknown (s : pstate) : statement s = some none ↔ s.token ∉ keywords := by
  unfold statement keywords
  simp only [List.mem_cons, List.mem_singleton, List.not_mem_nil, or_false, not_or]
  by_cases h0 : s.token = "INPUT"
  · rw [if_pos h0]; exact ⟨fun h => absurd h map_some_ne, fun h => absurd h0 h.1⟩
  rw [if_neg h0]
  by_cases h1 : s.token = "OUTPUT"
  · rw [if_pos h1]; exact ⟨fun h => absurd h map_some_ne, fun h => absurd h1 h.2.1⟩
  rw [if_neg h1]
  by_cases h2 : s.token = "AND"
  · rw [if_pos h2]; exact ⟨fun h => absurd h map_some_ne, fun h => absurd h2 h.2.2.1⟩
  rw [if_neg h2]
  by_cases h3 : s.token = "OR"
  · rw [if_pos h3]; exact ⟨fun h => absurd h map_some_ne, fun h => absurd h3 h.2.2.2.1⟩
  rw [if_neg h3]
  by_cases h4 : s.token = "NAND"
  · rw [if_pos h4]; exact ⟨fun h => absurd h map_some_ne, fun h => absurd h4 h.2.2.2.2.1⟩
  rw [if_neg h4]
  by_cases h5 : s.token = "NOR"
  · rw [if_pos h5]; exact ⟨fun h => absurd h map_some_ne, fun h => absurd h5 h.2.2.2.2.2.1⟩
  rw [if_neg h5]
  by_cases h6 : s.token = "XOR"
  · rw [if_pos h6]; exact ⟨fun h => absurd h map_some_ne, fun h => absurd h6 h.2.2.2.2.2.2.1⟩
  rw [if_neg h6]
  by_cases h7 : s.token = "NOT"
  · rw [if_pos h7]; exact ⟨fun h => absurd h map_some_ne, fun h => absurd h7 h.2.2.2.2.2.2.2.1⟩
  rw [if_neg h7]
  by_cases h8 : s.token = "PASS"
  · rw [if_pos h8]
    exact ⟨fun h => absurd h map_some_ne, fun h => absurd h8 h.2.2.2.2.2.2.2.2.1⟩
  rw [if_neg h8]
  by_cases h9 : s.token = "DECODER"
  · rw [if_pos h9]
    exact ⟨fun h => absurd h map_some_ne, fun h => absurd h9 h.2.2.2.2.2.2.2.2.2.1⟩
  rw [if_neg h9]
  by_cases h10 : s.token = "MULTIPLEXER"
  · rw [if_pos h10]
    exact ⟨fun h => absurd h map_some_ne, fun h => absurd h10 h.2.2.2.2.2.2.2.2.2.2⟩
  rw [if_neg h10]
  exact ⟨fun _ => ⟨h0, h1, h2, h3, h4, h5, h6, h7, h8, h9, h10⟩, fun _ => rfl⟩

theorem parse_loop_result : ∀ (fuel : Nat) (s s1 : pstate) (res : Int),
    parse_loop fuel s = some (res, s1) →
    (res = 1 ∧ s1.token ∉ keywords ∧ s1.token ≠ "END") ∨
    (res = 0 ∧ (s1.token = "END" ∨ s1.input = [])) := by
  intro fuel
  induction fuel with
  | zero => intro s s1 res hr; simp [parse_loop] at hr
  | succ fuel ih =>
    intro s s1 res hr
    simp only [parse_loop] at hr
    split at hr
    · rename_i hrt
      cases hr
      right
      refine ⟨rfl, Or.inr ?_⟩
      unfold read_token at hrt
      split at hrt
      · assumption
      · split at hrt <;> cases hrt
    · rename_i s2 hrt
      split at hr
      · rename_i hend
        cases hr
        exact Or.inr ⟨rfl, Or.inl hend⟩
      · rename_i hend
        split at hr
        · cases hr
        · rename_i hst
          cases hr
          exact Or.inl ⟨rfl, (statement_unknown _).1 hst, hend⟩
        · exact ih _ _ _ hr

/-- C18 (counterexample): the stream `INPUT 45 A CB KJ ...` of forty-five labels with
one hash value has `INPUT` as its only statement keyword, and `parse_circuit` returns
neither 0 nor 1 on it: the probe loop of `hashtable_add` finds no empty slot for the
last label. -/
theorem unknown_keyword_counterexample :
    (parse_circuit (main_state crowded 0 0 "")).isNone = true ∧
    (next_token (main_state crowded 0 0 "")).token = "INPUT" ∧
    (statement (next_token (main_state crowded 0 0 ""))).isNone = true :=
  ⟨by decide!, by decide!, by decide!⟩

/-- C18 (amended): whenever `parse_circuit` returns, it returns 1 with the buffer
holding a statement-leading word that is neither a keyword nor `END`, or it returns 0
after reading `END` or exhausting the input; the error branch of a statement is taken
exactly for the words that are not keywords, and then `parse_circuit` returns 1 at
once. -/
theorem unknown_keyword (s : pstate) (res : Int) (s1 : pstate)
    (h : parse_circuit s = some (res, s1)) :
    ((res = 1 ∧ s1.token ∉ keywords ∧ s1.token ≠ "END") ∨
     (res = 0 ∧ (s1.token = "END" ∨ s1.input = []))) ∧
    (∀ s2 : pstate, statement s2 = some none ↔ s2.token ∉ keywords) ∧
    (∀ (fuel : Nat) (s2 s3 : pstate), read_token s2 = some s3 → s3.token ≠ "END" →
      s3.token ∉ keywords → parse_loop (fuel + 1) s2 = some (1, s3)) := by
  refine ⟨parse_loop_result _ _ _ _ h, statement_unknown, ?_⟩
  intro fuel s2 s3 hrt hend hkw
  simp only [parse_loop, hrt, if_neg hend, (statement_unknown s3).2 hkw]

/-- C18 (witness): the stream `INPUT 1 A FOO` is answered with 1, the buffer holding
`FOO`. -/
theorem unknown_keyword_witness :
    (((1 : Int) = 1 ∧ (parsed ["INPUT", "1", "A", "FOO"]).token ∉ keywords ∧
        (parsed ["INPUT", "1", "A", "FOO"]).token ≠ "END") ∨
     ((1 : Int) = 0 ∧ ((parsed ["INPUT", "1", "A", "FOO"]).token = "END" ∨
        (parsed ["INPUT", "1", "A", "FOO"]).input = []))) ∧
    (∀ s2 : pstate, statement s2 = some none ↔ s2.token ∉ keywords) ∧
    (∀ (fuel : Nat) (s2 s3 : pstate), read_token s2 = some s3 → s3.token ≠ "END" →
      s3.token ∉ keywords → parse_loop (fuel + 1) s2 = some (1, s3)) :=
  unknown_keyword (main_state ["INPUT", "1", "A", "FOO"] 0 0 "") 1
    (parsed ["INPUT", "1", "A", "FOO"]) rfl

/-- C14 (failing input): in the `OUTPUT` list the word `0` is stored with kind `OUTPUT`,
whereas the `INPUT` list, which passes its fallback kind through `check_type`, stores
it with kind `CONSTANT`. -/
theorem output_list_kind :
    parse_circuit (main_state ["OUTPUT", "1", "0", "END"] 0 0 "")
      = some (0, parsed ["OUTPUT", "1", "0", "END"]) ∧
    (parsed ["OUTPUT", "1", "0", "END"]).wires.list = [⟨"0", 0, var_type_t.OUTPUT⟩] ∧
    (parsed ["INPUT", "1", "0", "END"]).wires.list = [⟨"0", 0, var_type_t.CONSTANT⟩] ∧
    check_type "0" var_type_t.OUTPUT = var_type_t.CONSTANT :=
  ⟨rfl, by decide!, by decide!, by decide⟩

theorem read_params_length : ∀ (n : Nat) (s s1 : pstate) (ids : List Nat),
    read_params n s = some (s1, ids) → ids.length = n ∧ s1.gates = s.gates ∧
      s1.gateId = s.gateId := by
  intro n
  induction n with
  | zero =>
    intro s s1 ids hr
    simp only [read_params] at hr
    cases hr
    exact ⟨rfl, rfl, rfl⟩
  | succ n ih =>
    intro s s1 ids hr
    simp only [read_params] at hr
    split at hr
    · cases hr
    · rename_i s2 id hp
      split at hr
      · cases hr
      · rename_i s3 ids1 hps
        cases hr
        obtain ⟨h1, h2, h3⟩ := ih _ _ _ hps
        unfold read_param at hp
        split at hp
        · cases hp
        · rename_i s4 hd
          split at hp
          · cases hp
          · cases hp
            obtain ⟨hg, hgi, _⟩ := declare_spec hd
            have hn := next_token_fields s
            exact ⟨by simp [h1], by rw [h2, hg, hn.2.1], by rw [h3, hgi, hn.2.2.1]⟩

theorem read_gate_gates {s s1 : pstate} {type : type_t} {size : Int} {count : Nat}
    (h : read_gate s type size count = some s1) :
    ∃ ps : List Nat, ps.length = count ∧
      s1.gates = s.gates ++ [{ type := type, size := size, params := ps, id := s.gateId }] := by
  unfold read_gate at h
  split at h
  · cases h
  · rename_i s2 ps hps
    cases h
    obtain ⟨h1, h2, h3⟩ := read_params_length _ _ _ _ hps
    exact ⟨ps, h1, by simp only [add_gate, h2, h3]⟩

theorem to_int_nil (neg : Bool) : to_int neg [] = 0 := by
  cases neg <;> decide

theorem atoi_malformed {t : String} (h : (scan_int t.data).1 = none) : atoi t = 0 := by
  unfold scan_int at h
  simp only at h
  unfold atoi
  simp only
  generalize (if t.data.head? = some '-' ∨ t.data.head? = some '+' then t.data.drop 1
    else t.data) = body at h ⊢
  by_cases hds : body.takeWhile Char.isDigit = []
  · rw [hds]
    exact to_int_nil _
  · rw [if_neg hds] at h
    cases h

theorem fscanf_malformed {old : Int} {t : String} {rest : List String}
    (h : (scan_int t.data).1 = none) : (fscanf_int old (t :: rest)).1 = old := by
  unfold fscanf_int
  simp only [h, Option.getD_none]

theorem statement_decoder {s : pstate} (h : s.token = "DECODER") :
    statement s = (read_decoder s).map some := by
  unfold statement
  rw [if_neg (by rw [h]; decide), if_neg (by rw [h]; decide), if_neg (by rw [h]; decide),
    if_neg (by rw [h]; decide), if_neg (by rw [h]; decide), if_neg (by rw [h]; decide),
    if_neg (by rw [h]; decide), if_neg (by rw [h]; decide), if_neg (by rw [h]; decide),
    if_pos h]

theorem statement_multiplexer {s : pstate} (h : s.token = "MULTIPLEXER") :
    statement s = (read_multiplexer s).map some := by
  unfold statement
  rw [if_neg (by rw [h]; decide), if_neg (by rw [h]; decide), if_neg (by rw [h]; decide),
    if_neg (by rw [h]; decide), if_neg (by rw [h]; decide), if_neg (by rw [h]; decide),
    if_neg (by rw [h]; decide), if_neg (by rw [h]; decide), if_neg (by rw [h]; decide),
    if_neg (by rw [h]; decide), if_pos h]

theorem statement_input {s : pstate} (h : s.token = "INPUT") :
    statement s = (read_inputs (fscanf_int s.nInputs s.input).1.toNat
      { s with nInputs := (fscanf_int s.nInputs s.input).1,
               input := (fscanf_int s.nInputs s.input).2 }).map some := by
  unfold statement
  rw [if_pos h]

theorem statement_output {s : pstate} (h : s.token = "OUTPUT") :
    statement s = (read_outputs (fscanf_int s.nOutputs s.input).1.toNat
      { s with nOutputs := (fscanf_int s.nOutputs s.input).1,
               input := (fscanf_int s.nOutputs s.input).2 }).map some := by
  unfold statement
  rw [if_neg (by rw [h]; decide), if_pos h]

theorem next_token_word {s : pstate} {t : String} {rest : List String}
    (hin : s.input = t :: rest) (hlen : t.length ≤ 16) :
    next_token s = { s with token := t, input := rest } := by
  unfold next_token read_token
  rw [hin]
  simp only [if_pos hlen]

/-- C19 (counterexample): the size word `x` after `DECODER` is not rejected: the stream
is parsed with result 0 and a decoder of size 0 is added. -/
theorem malformed_numeric_counterexample :
    parse_circuit (main_state ["INPUT", "1", "A", "OUTPUT", "1", "O", "DECODER", "x", "O", "END"]
        0 0 "")
      = some (0, parsed ["INPUT", "1", "A", "OUTPUT", "1", "O", "DECODER", "x", "O", "END"]) ∧
    (parsed ["INPUT", "1", "A", "OUTPUT", "1", "O", "DECODER", "x", "O", "END"]).gates
      = [⟨type_t.DECODER, 0, [1], 0⟩] ∧
    (scan_int "x".data).1 = none :=
  ⟨rfl, by decide!, by decide!⟩

/-- C19 (amended): a numeric field from which `%d` can read no integer is not rejected.
After `DECODER` or `MULTIPLEXER` it is taken as size 0 and the statement is the reading
of a gate of size 0 with 1, respectively 2, parameters, which is added to the gate list
whenever the reading succeeds; after `INPUT` or `OUTPUT` the counter keeps its value and
that many labels are read. -/
theorem malformed_numeric_accepted (s : pstate) (t : String) (rest : List String)
    (hin : s.input = t :: rest) (hlen : t.length ≤ 16) (hbad : (scan_int t.data).1 = none) :
    (s.token = "DECODER" →
      statement s = (read_gate (next_token s) type_t.DECODER 0 1).map some) ∧
    (s.token = "MULTIPLEXER" →
      statement s = (read_gate (next_token s) type_t.MULTIPLEXER 0 2).map some) ∧
    (s.token = "INPUT" →
      statement s = (read_inputs s.nInputs.toNat
        { s with input := (fscanf_int s.nInputs s.input).2 }).map some) ∧
    (s.token = "OUTPUT" →
      statement s = (read_outputs s.nOutputs.toNat
        { s with input := (fscanf_int s.nOutputs s.input).2 }).map some) ∧
    (∀ ty n c s1, read_gate (next_token s) ty n c = some s1 →
      ∃ ps : List Nat, ps.length = c ∧ s1.gates = s.gates ++ [⟨ty, n, ps, s.gateId⟩]) := by
  have htok : (next_token s).token = t := by rw [next_token_word hin hlen]
  have hat : atoi (next_token s).token = 0 := by rw [htok]; exact atoi_malformed hbad
  refine ⟨?_, ?_, ?_, ?_, ?_⟩
  · intro h
    rw [statement_decoder h]
    unfold read_decoder
    simp only [hat]
    rfl
  · intro h
    rw [statement_multiplexer h]
    unfold read_multiplexer
    simp only [hat]
    rfl
  · intro h
    rw [statement_input h]
    have : (fscanf_int s.nInputs s.input).1 = s.nInputs := by
      rw [hin]; exact fscanf_malformed hbad
    rw [this]
  · intro h
    rw [statement_output h]
    have : (fscanf_int s.nOutputs s.input).1 = s.nOutputs := by
      rw [hin]; exact fscanf_malformed hbad
    rw [this]
  · intro ty n c s1 h
    obtain ⟨ps, h1, h2⟩ := read_gate_gates h
    have hn := next_token_fields s
    exact ⟨ps, h1, by rw [h2, hn.2.1, hn.2.2.1]⟩

/-- C19 (witness): the state that has just read `DECODER` in front of `x O END`. -/
theorem malformed_numeric_accepted_witness :
    (("DECODER" : String) = "DECODER" →
      statement (main_state ["x", "O", "END"] 0 0 "DECODER")
        = (read_gate (next_token (main_state ["x", "O", "END"] 0 0 "DECODER"))
            type_t.DECODER 0 1).map some) ∧
    (("DECODER" : String) = "MULTIPLEXER" →
      statement (main_state ["x", "O", "END"] 0 0 "DECODER")
        = (read_gate (next_token (main_state ["x", "O", "END"] 0 0 "DECODER"))
            type_t.MULTIPLEXER 0 2).map some) ∧
    (("DECODER" : String) = "INPUT" →
      statement (main_state ["x", "O", "END"] 0 0 "DECODER")
        = (read_inputs (0 : Int).toNat
            { main_state ["x", "O", "END"] 0 0 "DECODER" with
              input := (fscanf_int 0 ["x", "O", "END"]).2 }).map some) ∧
    (("DECODER" : String) = "OUTPUT" →
      statement (main_state ["x", "O", "END"] 0 0 "DECODER")
        = (read_outputs (0 : Int).toNat
            { main_state ["x", "O", "END"] 0 0 "DECODER" with
              input := (fscanf_int 0 ["x", "O", "END"]).2 }).map some) ∧
    (∀ ty n c s1, read_gate (next_token (main_state ["x", "O", "END"] 0 0 "DECODER")) ty n c
        = some s1 →
      ∃ ps : List Nat, ps.length = c ∧ s1.gates = [] ++ [⟨ty, n, ps, 0⟩]) :=
  malformed_numeric_accepted (main_state ["x", "O", "END"] 0 0 "DECODER") "x" ["O", "END"] rfl
    (by decide) (by decide!)

theorem fresh_wires_length (kindf : String → var_type_t) :
    ∀ (ts : List String) (k : Nat), (fresh_wires kindf ts k).length = ts.length := by
  intro ts
  induction ts with
  | nil => intro k; rfl
  | cons t ts ih => intro k; simp [fresh_wires, ih]

theorem fresh_wires_get (kindf : String → var_type_t) :
    ∀ (ts : List String) (k i : Nat) (t : String), ts[i]? = some t →
      (fresh_wires kindf ts k)[i]? = some { key := t, id := k + i, type := kindf t } := by
  intro ts
  induction ts with
  | nil => intro k i t h; simp at h
  | cons a ts ih =>
    intro k i t h
    cases i with
    | zero =>
      simp only [List.getElem?_cons_zero, Option.some.injEq] at h
      subst h
      simp [fresh_wires]
    | succ i =>
      simp only [List.getElem?_cons_succ] at h
      simp only [fresh_wires, List.getElem?_cons_succ]
      rw [ih (k + 1) i t h]
      congr 2
      omega

theorem known_of_contains {l : wirelist_t} {next : Nat} (hok : table_ok l next) {key : String}
    (h : hashtable_contains l key = true) : key ∈ l.list.map (fun w => w.key) := by
  obtain ⟨slot, w, hw, hk⟩ := contains_slot h
  exact List.mem_map.2 ⟨w, hok.slots slot w hw, hk⟩

/-- The loops of the `INPUT` and `OUTPUT` statements, read as one loop `R` that declares
the next word with the kind `kindf` gives it: the words are consumed, the wires appended
have those kinds, and words that are new and pairwise distinct are appended one by one
with consecutive identities. -/
theorem declare_loop (kindf : String → var_type_t) (R : Nat → pstate → Option pstate)
    (h0 : ∀ s, R 0 s = some s)
    (hS : ∀ n s, R (n + 1) s =
      match declare (next_token s) (kindf (next_token s).token) with
      | none => none
      | some s1 => R n s1) :
    ∀ (ts : List String) (s s1 : pstate) (X : List String), s.input = ts ++ X →
      (∀ t ∈ ts, t.length ≤ 16) → table_ok s.wires s.wireId → R ts.length s = some s1 →
      s1.input = X ∧ table_ok s1.wires s1.wireId ∧ s1.gates = s.gates ∧
      s1.gateId = s.gateId ∧ s1.nInputs = s.nInputs ∧ s1.nOutputs = s.nOutputs ∧
      (∃ L, s1.wires.list = s.wires.list ++ L ∧ ∀ w ∈ L, w.type = kindf w.key ∧ w.key ∈ ts) ∧
      (ts.Nodup → (∀ t ∈ ts, t ∉ s.wires.list.map (fun w => w.key)) →
        s1.wires.list = s.wires.list ++ fresh_wires kindf ts s.wireId ∧
        s1.wireId = s.wireId + ts.length) := by
  intro ts
  induction ts with
  | nil =>
    intro s s1 X hin _ hok hr
    rw [List.length_nil, h0] at hr
    cases hr
    exact ⟨by simpa using hin, hok, rfl, rfl, rfl, rfl, ⟨[], by simp, by simp⟩,
      fun _ _ => ⟨by simp [fresh_wires], rfl⟩⟩
  | cons t ts ih =>
    intro s s1 X hin hlen hok hr
    have hnt : next_token s = { s with token := t, input := ts ++ X } :=
      next_token_word (by rw [hin]; rfl) (hlen t (List.mem_cons_self _ _))
    rw [List.length_cons, hS, hnt] at hr
    simp only at hr
    cases hd : declare { s with token := t, input := ts ++ X } (kindf t) with
    | none => rw [hd] at hr; cases hr
    | some s2 =>
      rw [hd] at hr
      simp only at hr
      obtain ⟨hok2, _, hg2, hgi2, _, hin2, hnI2, hnO2, hcase⟩ :=
        declare_table (s := { s with token := t, input := ts ++ X }) hok hd
      obtain ⟨a1, a2, a3, a4, a5, a6, ⟨L, a7, a8⟩, a9⟩ :=
        ih s2 s1 X hin2 (fun x hx => hlen x (List.mem_cons_of_mem _ hx)) hok2 hr
      refine ⟨a1, a2, by rw [a3, hg2], by rw [a4, hgi2], by rw [a5, hnI2], by rw [a6, hnO2],
        ?_, ?_⟩
      · rcases hcase with ⟨_, hsame⟩ | ⟨_, hlist, _⟩
        · refine ⟨L, ?_, fun w hw => ⟨(a8 w hw).1, List.mem_cons_of_mem _ (a8 w hw).2⟩⟩
          rw [a7, hsame]
        · refine ⟨{ key := t, id := s.wireId, type := kindf t } :: L, ?_, ?_⟩
          · rw [a7, hlist]
            simp
          · intro w hw
            rcases List.mem_cons.1 hw with hw | hw
            · subst hw
              exact ⟨rfl, List.mem_cons_self _ _⟩
            · exact ⟨(a8 w hw).1, List.mem_cons_of_mem _ (a8 w hw).2⟩
      · intro hnd hnew
        rcases hcase with ⟨hc, _⟩ | ⟨_, hlist, hwid⟩
        · exact absurd (known_of_contains hok hc) (hnew t (List.mem_cons_self _ _))
        · have hnd2 := List.nodup_cons.1 hnd
          obtain ⟨b1, b2⟩ := a9 hnd2.2 (by
            intro x hx hmem
            rw [hlist, List.map_append, List.mem_append] at hmem
            rcases hmem with hmem | hmem
            · exact hnew x (List.mem_cons_of_mem _ hx) hmem
            · simp only [List.map_cons, List.map_nil, List.mem_singleton] at hmem
              exact hnd2.1 (hmem ▸ hx))
          constructor
          · rw [b1, hlist, hwid]
            simp [fresh_wires]
          · have hwid2 : s2.wireId = s.wireId + 1 := hwid
            rw [List.length_cons]
            omega

theorem read_inputs_loop :
    ∀ (ts : List String) (s s1 : pstate) (X : List String), s.input = ts ++ X →
      (∀ t ∈ ts, t.length ≤ 16) → table_ok s.wires s.wireId →
      read_inputs ts.length s = some s1 →
      s1.input = X ∧ table_ok s1.wires s1.wireId ∧ s1.gates = s.gates ∧
      s1.gateId = s.gateId ∧ s1.nInputs = s.nInputs ∧ s1.nOutputs = s.nOutputs ∧
      (∃ L, s1.wires.list = s.wires.list ++ L ∧
        ∀ w ∈ L, w.type = check_type w.key var_type_t.INPUT ∧ w.key ∈ ts) ∧
      (ts.Nodup → (∀ t ∈ ts, t ∉ s.wires.list.map (fun w => w.key)) →
        s1.wires.list = s.wires.list
          ++ fresh_wires (fun t => check_type t var_type_t.INPUT) ts s.wireId ∧
        s1.wireId = s.wireId + ts.length) :=
  declare_loop (fun t => check_type t var_type_t.INPUT) read_inputs (fun _ => rfl)
    (fun _ _ => rfl)

theorem read_outputs_loop :
    ∀ (ts : List String) (s s1 : pstate) (X : List String), s.input = ts ++ X →
      (∀ t ∈ ts, t.length ≤ 16) → table_ok s.wires s.wireId →
      read_outputs ts.length s = some s1 →
      s1.input = X ∧ table_ok s1.wires s1.wireId ∧ s1.gates = s.gates ∧
      s1.gateId = s.gateId ∧ s1.nInputs = s.nInputs ∧ s1.nOutputs = s.nOutputs ∧
      (∃ L, s1.wires.list = s.wires.list ++ L ∧
        ∀ w ∈ L, w.type = var_type_t.OUTPUT ∧ w.key ∈ ts) ∧
      (ts.Nodup → (∀ t ∈ ts, t ∉ s.wires.list.map (fun w => w.key)) →
        s1.wires.list = s.wires.list ++ fresh_wires (fun _ => var_type_t.OUTPUT) ts s.wireId ∧
        s1.wireId = s.wireId + ts.length) :=
  declare_loop (fun _ => var_type_t.OUTPUT) read_outputs (fun _ => rfl) (fun _ _ => rfl)

theorem parse_loop_step {fuel : Nat} {s s1 : pstate} (hrt : read_token s = some s1)
    (hend : s1.token ≠ "END") :
    parse_loop (fuel + 1) s =
      match statement s1 with
      | none => none
      | some none => some (1, s1)
      | some (some s2) => parse_loop fuel s2 := by
  rw [parse_loop]
  simp only [hrt, if_neg hend]

theorem read_token_word {s : pstate} {t : String} {rest : List String}
    (hin : s.input = t :: rest) (hlen : t.length ≤ 16) :
    read_token s = some { s with token := t, input := rest } := by
  unfold read_token
  rw [hin]
  simp only [if_pos hlen]

theorem fscanf_int_count {old : Int} {c : String} {n : Int} {X : List String}
    (h : scan_int c.data = (some n, [])) : fscanf_int old (c :: X) = (n, X) := by
  unfold fscanf_int
  simp only [h, Option.getD_some, if_true]

/-- The state in which the gate statements are read, after a header `INPUT` count,
labels, `OUTPUT` count, labels whose counts are the numbers of labels. -/
theorem parse_header {cI cO : String} {ins outs rest : List String} {nI nO : Int}
    {tok : String} {res : Int} {s : pstate}
    (hcI : scan_int cI.data = (some (ins.length : Int), []))
    (hcO : scan_int cO.data = (some (outs.length : Int), []))
    (hlen : ∀ t ∈ ins ++ outs, t.length ≤ 16)
    (hparse : parse_circuit (main_state ("INPUT" :: cI :: (ins ++ "OUTPUT" :: cO :: (outs ++ rest)))
      nI nO tok) = some (res, s)) :
    ∃ fuel s2, parse_loop fuel s2 = some (res, s) ∧ s2.input = rest ∧
      table_ok s2.wires s2.wireId ∧ s2.nInputs = ins.length ∧ s2.nOutputs = outs.length ∧
      s2.gates = [] ∧ s2.gateId = 0 ∧
      (∃ L1 L2, s2.wires.list = L1 ++ L2 ∧
        (∀ w ∈ L1, w.type = check_type w.key var_type_t.INPUT) ∧
        (∀ w ∈ L2, w.type = var_type_t.OUTPUT)) ∧
      ((ins ++ outs).Nodup →
        s2.wires.list = fresh_wires (fun t => check_type t var_type_t.INPUT) ins 0
          ++ fresh_wires (fun _ => var_type_t.OUTPUT) outs ins.length ∧
        s2.wireId = ins.length + outs.length) := by
  unfold parse_circuit at hparse
  obtain ⟨k, hk⟩ : ∃ k, input_measure (main_state ("INPUT" :: cI ::
      (ins ++ "OUTPUT" :: cO :: (outs ++ rest))) nI nO tok).input + 1 = k + 3 := by
    refine ⟨input_measure (cI :: (ins ++ "OUTPUT" :: cO :: (outs ++ rest))) + 4, ?_⟩
    simp only [main_state, input_measure, List.map_cons, List.sum_cons]
    have : "INPUT".length = 5 := by decide
    omega
  rw [hk] at hparse
  -- the INPUT statement
  have hrt0 : read_token (main_state ("INPUT" :: cI ::
      (ins ++ "OUTPUT" :: cO :: (outs ++ rest))) nI nO tok)
      = some { main_state ("INPUT" :: cI :: (ins ++ "OUTPUT" :: cO :: (outs ++ rest))) nI nO tok
          with token := "INPUT", input := cI :: (ins ++ "OUTPUT" :: cO :: (outs ++ rest)) } :=
    read_token_word rfl (by decide)
  rw [parse_loop_step hrt0 (by show "INPUT" ≠ "END"; decide), statement_input rfl] at hparse
  simp only [main_state, fscanf_int_count hcI, Int.toNat_natCast] at hparse
  cases h1 : read_inputs ins.length
      { input := ins ++ "OUTPUT" :: cO :: (outs ++ rest), token := "INPUT",
        wires := init_wirelist, gates := [], nInputs := (ins.length : Int), nOutputs := nO,
        gateId := 0, wireId := 0 } with
  | none => rw [h1] at hparse; simp at hparse
  | some s1 =>
    rw [h1] at hparse
    simp only [Option.map_some'] at hparse
    obtain ⟨a1, a2, a3, a4, a5, a6, ⟨L1, a7, a8⟩, a9⟩ := read_inputs_loop ins _ s1 _ rfl
      (fun t ht => hlen t (List.mem_append_left _ ht)) table_ok_init h1
    simp only at a3 a4 a5 a6 a7 a9
    -- the OUTPUT statement
    have hrt : read_token s1 = some { s1 with token := "OUTPUT", input := cO :: (outs ++ rest) } :=
      read_token_word a1 (by decide)
    rw [parse_loop_step hrt (by show "OUTPUT" ≠ "END"; decide), statement_output rfl] at hparse
    simp only [fscanf_int_count hcO, Int.toNat_natCast] at hparse
    cases h2 : read_outputs outs.length
        { s1 with token := "OUTPUT", input := outs ++ rest,
                  nOutputs := (outs.length : Int) } with
    | none => rw [h2] at hparse; simp at hparse
    | some s2 =>
      rw [h2] at hparse
      simp only [Option.map_some'] at hparse
      obtain ⟨b1, b2, b3, b4, b5, b6, ⟨L2, b7, b8⟩, b9⟩ := read_outputs_loop outs
        ({ s1 with token := "OUTPUT", input := outs ++ rest, nOutputs := (outs.length : Int) })
        s2 rest rfl
        (fun t ht => hlen t (List.mem_append_right _ ht)) a2 h2
      simp only at b3 b4 b5 b6 b7 b9
      refine ⟨k + 1, s2, hparse, b1, b2, by rw [b5, a5], b6, by rw [b3, a3], by rw [b4, a4],
        ⟨L1, L2, ?_, fun w hw => (a8 w hw).1, fun w hw => (b8 w hw).1⟩, ?_⟩
      · rw [b7, a7]
        simp [init_wirelist]
      · intro hnd
        have hnd1 := List.nodup_append.1 hnd
        obtain ⟨c1, c2⟩ := a9 hnd1.1 (by intro t _; simp [init_wirelist])
        obtain ⟨d1, d2⟩ := b9 hnd1.2.1 (by
          intro t ht hmem
          rw [c1] at hmem
          simp only [init_wirelist, List.nil_append] at hmem
          obtain ⟨w, hw, hwk⟩ := List.mem_map.1 hmem
          have hl : s1.wires.list = L1 := by rw [a7]; simp [init_wirelist]
          have hw1 : w ∈ L1 := by
            rw [← hl, c1]
            simpa [init_wirelist] using hw
          exact hnd1.2.2 (a8 w hw1).2 (hwk ▸ ht))
        constructor
        · rw [d1, c1, c2]
          simp [init_wirelist]
        · rw [d2, c2]
          simp

theorem read_params_kind (P : pstate → Prop)
    (hparam : ∀ s s1, P s →
      declare (next_token s) (check_type (next_token s).token var_type_t.TEMP) = some s1 → P s1) :
    ∀ (n : Nat) (s s1 : pstate) (ids : List Nat), P s → read_params n s = some (s1, ids) →
      P s1 := by
  intro n
  induction n with
  | zero =>
    intro s s1 ids h hr
    simp only [read_params] at hr
    cases hr
    exact h
  | succ n ih =>
    intro s s1 ids h hr
    simp only [read_params] at hr
    split at hr
    · cases hr
    · rename_i s2 id hp
      split at hr
      · cases hr
      · rename_i s3 ids1 hps
        cases hr
        refine ih s2 _ ids1 ?_ hps
        unfold read_param at hp
        split at hp
        · cases hp
        · rename_i s4 hd
          split at hp
          · cases hp
          · cases hp
            exact hparam _ _ h hd

theorem read_gate_kind (P : pstate → Prop)
    (hparam : ∀ s s1, P s →
      declare (next_token s) (check_type (next_token s).token var_type_t.TEMP) = some s1 → P s1)
    (hgate : ∀ (s : pstate) gs gi, P s → P { s with gates := gs, gateId := gi })
    {s s1 : pstate} {type : type_t} {size : Int} {count : Nat}
    (h : P s) (hr : read_gate s type size count = some s1) : P s1 := by
  unfold read_gate at hr
  split at hr
  · cases hr
  · rename_i s2 params hps
    cases hr
    exact hgate _ _ _ (read_params_kind P hparam count s s2 params h hps)

/-- A property that survives reading a word, declaring a gate parameter and appending a
gate holds after every statement other than `INPUT` and `OUTPUT`. -/
theorem statement_gate_lift (P : pstate → Prop)
    (hparam : ∀ s s1, P s →
      declare (next_token s) (check_type (next_token s).token var_type_t.TEMP) = some s1 → P s1)
    (hnext : ∀ s, P s → P (next_token s))
    (hgate : ∀ (s : pstate) gs gi, P s → P { s with gates := gs, gateId := gi })
    {s s1 : pstate} (h : P s) (h0 : s.token ≠ "INPUT") (h1 : s.token ≠ "OUTPUT")
    (hr : statement s = some (some s1)) : P s1 := by
  have hmap : ∀ {o : Option pstate}, o.map some = some (some s1) → o = some s1 := by
    intro o ho
    cases o with
    | none => cases ho
    | some x => simp only [Option.map_some', Option.some.injEq] at ho; rw [ho]
  unfold statement at hr
  rw [if_neg h0, if_neg h1] at hr
  by_cases h2 : s.token = "AND"
  · rw [if_pos h2] at hr
    exact read_gate_kind P hparam hgate h (hmap hr)
  rw [if_neg h2] at hr
  by_cases h3 : s.token = "OR"
  · rw [if_pos h3] at hr
    exact read_gate_kind P hparam hgate h (hmap hr)
  rw [if_neg h3] at hr
  by_cases h4 : s.token = "NAND"
  · rw [if_pos h4] at hr
    exact read_gate_kind P hparam hgate h (hmap hr)
  rw [if_neg h4] at hr
  by_cases h5 : s.token = "NOR"
  · rw [if_pos h5] at hr
    exact read_gate_kind P hparam hgate h (hmap hr)
  rw [if_neg h5] at hr
  by_cases h6 : s.token = "XOR"
  · rw [if_pos h6] at hr
    exact read_gate_kind P hparam hgate h (hmap hr)
  rw [if_neg h6] at hr
  by_cases h7 : s.token = "NOT"
  · rw [if_pos h7] at hr
    exact read_gate_kind P hparam hgate h (hmap hr)
  rw [if_neg h7] at hr
  by_cases h8 : s.token = "PASS"
  · rw [if_pos h8] at hr
    exact read_gate_kind P hparam hgate h (hmap hr)
  rw [if_neg h8] at hr
  by_cases h9 : s.token = "DECODER"
  · rw [if_pos h9] at hr
    have hr1 := hmap hr
    unfold read_decoder at hr1
    simp only at hr1
    split at hr1
    · cases hr1
    · split at hr1
      · cases hr1
      · exact read_gate_kind P hparam hgate (hnext s h) hr1
  rw [if_neg h9] at hr
  by_cases h10 : s.token = "MULTIPLEXER"
  · rw [if_pos h10] at hr
    have hr1 := hmap hr
    unfold read_multiplexer at hr1
    exact read_gate_kind P hparam hgate (hnext s h) hr1
  rw [if_neg h10] at hr
  cases hr

theorem parse_loop_gate_lift (P : pstate → Prop)
    (hparam : ∀ s s1, P s →
      declare (next_token s) (check_type (next_token s).token var_type_t.TEMP) = some s1 → P s1)
    (hgate : ∀ (s : pstate) gs gi, P s → P { s with gates := gs, gateId := gi })
    (hlead : ∀ s s1, P s → read_token s = some s1 →
      P s1 ∧ s1.token ≠ "INPUT" ∧ s1.token ≠ "OUTPUT") :
    ∀ (fuel : Nat) (s s1 : pstate) (res : Int), P s → parse_loop fuel s = some (res, s1) →
      P s1 := by
  have hnext : ∀ s, P s → P (next_token s) := by
    intro s hs
    unfold next_token
    cases hrt : read_token s with
    | none => exact hs
    | some s2 => exact (hlead s s2 hs hrt).1
  intro fuel
  induction fuel with
  | zero => intro s s1 res _ hr; simp [parse_loop] at hr
  | succ fuel ih =>
    intro s s1 res h hr
    simp only [parse_loop] at hr
    split at hr
    · cases hr; exact h
    · rename_i s2 hrt
      obtain ⟨hP2, hi, ho⟩ := hlead s s2 h hrt
      split at hr
      · cases hr; exact hP2
      · split at hr
        · cases hr
        · cases hr; exact hP2
        · rename_i s3 hst
          exact ih s3 s1 res (statement_gate_lift P hparam hnext hgate hP2 hi ho hst) hr

theorem gate_phase_parse {H : List wire_t} {n m : Int} :
    ∀ (fuel : Nat) (s s1 : pstate) (res : Int), gate_phase H n m s →
      parse_loop fuel s = some (res, s1) → gate_phase H n m s1 := by
  apply parse_loop_gate_lift (gate_phase H n m)
  · intro s s1 ⟨hok, hinp, ⟨L, hL, hk⟩, hn, hm⟩ hd
    have hf := next_token_fields s
    have hok1 : table_ok (next_token s).wires (next_token s).wireId := by
      rw [hf.1, hf.2.2.2.1]; exact hok
    obtain ⟨hok2, _, _, _, htok, hin2, hnI, hnO, hcase⟩ := declare_table hok1 hd
    have hsub : ∀ t ∈ (next_token s).input, t ∈ s.input := by
      intro t ht
      unfold next_token at ht
      cases hrt : read_token s with
      | none => rw [hrt] at ht; exact ht
      | some s2 =>
        rw [hrt] at ht
        simp only at ht
        unfold read_token at hrt
        cases hi : s.input with
        | nil => rw [hi] at hrt; cases hrt
        | cons a rest =>
          rw [hi] at hrt
          simp only at hrt
          have hla := (hinp a (by rw [hi]; exact List.mem_cons_self _ _)).1
          rw [if_pos hla] at hrt
          cases hrt
          exact List.mem_cons_of_mem _ ht
    refine ⟨hok2, ?_, ?_, by rw [hnI, hf.2.2.2.2.1, hn], by rw [hnO, hf.2.2.2.2.2, hm]⟩
    · intro t ht
      rw [hin2] at ht
      exact hinp t (hsub t ht)
    · rcases hcase with ⟨_, hsame⟩ | ⟨_, hlist, _⟩
      · exact ⟨L, by rw [hsame, hf.1, hL], hk⟩
      · refine ⟨L ++ [(⟨(next_token s).token, (next_token s).wireId,
            check_type (next_token s).token var_type_t.TEMP⟩ : wire_t)], ?_, ?_⟩
        · rw [hlist, hf.1, hL, List.append_assoc]
        · intro w hw
          rcases List.mem_append.1 hw with hw | hw
          · exact hk w hw
          · simp only [List.mem_singleton] at hw
            subst hw
            rfl
  · intro s gs gi h
    exact h
  · intro s s1 ⟨hok, hinp, hL, hn, hm⟩ hrt
    unfold read_token at hrt
    cases hi : s.input with
    | nil => rw [hi] at hrt; cases hrt
    | cons a rest =>
      rw [hi] at hrt
      simp only at hrt
      have ha := hinp a (by rw [hi]; exact List.mem_cons_self _ _)
      rw [if_pos ha.1] at hrt
      cases hrt
      refine ⟨⟨hok, ?_, hL, hn, hm⟩, ha.2.1, ha.2.2⟩
      intro t ht
      exact hinp t (by rw [hi]; exact List.mem_cons_of_mem _ ht)

theorem opt_map_forall₂ {α β : Type} (f : α → Option β) :
    ∀ (l : List α) (r : List β), opt_map f l = some r →
      List.Forall₂ (fun a b => f a = some b) l r := by
  intro l
  induction l with
  | nil => intro r h; simp only [opt_map] at h; cases h; exact List.Forall₂.nil
  | cons a l ih =>
    intro r h
    simp only [opt_map] at h
    split at h
    · cases h
    · rename_i b hb
      split at h
      · cases h
      · rename_i bs hbs
        cases h
        exact List.Forall₂.cons hb (ih bs hbs)

theorem opt_map_some {α β : Type} (f : α → Option β) :
    ∀ (l : List α), (∀ a ∈ l, ∃ b, f a = some b) → ∃ r, opt_map f l = some r := by
  intro l
  induction l with
  | nil => intro _; exact ⟨[], rfl⟩
  | cons a l ih =>
    intro h
    obtain ⟨b, hb⟩ := h a (List.mem_cons_self _ _)
    obtain ⟨bs, hbs⟩ := ih (fun x hx => h x (List.mem_cons_of_mem _ hx))
    exact ⟨b :: bs, by simp [opt_map, hb, hbs]⟩

theorem slot_scan_true {g : gate_t} {w : Nat} : ∀ (n : Nat) (i : Int),
    slot_scan g w i n = some true → ∃ k, k < n ∧ param g (i + (k : Nat)) = some w := by
  intro n
  induction n with
  | zero => intro i h; simp [slot_scan] at h
  | succ n ih =>
    intro i h
    simp only [slot_scan] at h
    split at h
    · cases h
    · rename_i p hp
      split at h
      · rename_i hpw
        subst hpw
        exact ⟨0, Nat.succ_pos _, by simpa using hp⟩
      · obtain ⟨k, hk, hk'⟩ := ih (i + 1) h
        refine ⟨k + 1, Nat.succ_lt_succ hk, ?_⟩
        rw [← hk']
        congr 1
        push_cast
        ring

theorem slot_scan_false {g : gate_t} {w : Nat} : ∀ (n : Nat) (i : Int),
    slot_scan g w i n = some false → ∀ k, k < n → param g (i + (k : Nat)) ≠ some w := by
  intro n
  induction n with
  | zero => intro i _ k hk; omega
  | succ n ih =>
    intro i h k hk
    simp only [slot_scan] at h
    split at h
    · cases h
    · rename_i p hp
      split at h
      · cases h
      · rename_i hpw
        cases k with
        | zero =>
          simp only [Nat.cast_zero, add_zero, hp]
          intro hc
          cases hc
          exact hpw rfl
        | succ k =>
          have := ih (i + 1) h k (Nat.lt_of_succ_lt_succ hk)
          intro hc
          apply this
          rw [← hc]
          congr 1
          push_cast
          ring

theorem get_gate_in_id_spec {w : Nat} : ∀ (gates : gatelist_t) (id : Int),
    get_gate_in_id gates w = some id →
      (id = -1 ∧ ∀ g ∈ gates, ¬ in_slot g w) ∨ (∃ g ∈ gates, (g.id : Int) = id ∧ in_slot g w) := by
  intro gates
  induction gates with
  | nil =>
    intro id h
    simp only [get_gate_in_id] at h
    cases h
    exact Or.inl ⟨rfl, by simp⟩
  | cons g rest ih =>
    intro id h
    simp only [get_gate_in_id] at h
    split at h
    · cases h
    · rename_i hs
      cases h
      right
      obtain ⟨k, hk, hk'⟩ := slot_scan_true _ _ hs
      refine ⟨g, List.mem_cons_self _ _, rfl, k, List.mem_range.2 hk, ?_⟩
      simpa using hk'
    · rename_i hs
      have hg : ¬ in_slot g w := by
        rintro ⟨j, hj, hj'⟩
        have := slot_scan_false _ _ hs j (List.mem_range.1 hj)
        apply this
        simpa using hj'
      rcases ih id h with ⟨h1, h2⟩ | ⟨g', hg', h1, h2⟩
      · left
        refine ⟨h1, ?_⟩
        intro g' hg'
        rcases List.mem_cons.1 hg' with h' | h'
        · subst h'; exact hg
        · exact h2 g' h'
      · right
        exact ⟨g', List.mem_cons_of_mem _ hg', h1, h2⟩

theorem build_graph_length {wires : wirelist_t} {gates : gatelist_t}
    {nodes : List gatenode_t} (h : build_graph wires gates = some nodes) :
    nodes.length = gates.length :=
  (List.Forall₂.length_eq (opt_map_forall₂ _ _ _ h)).symm

theorem build_graph_node {wires : wirelist_t} {gates : gatelist_t}
    {nodes : List gatenode_t} (h : build_graph wires gates = some nodes)
    {k : Nat} {g : gate_t} (hg : gates[k]? = some g) :
    ∃ node, nodes[k]? = some node ∧ build_node wires gates g = some node := by
  have hf := opt_map_forall₂ _ _ _ h
  rw [List.forall₂_iff_get] at hf
  obtain ⟨hlen, hget⟩ := hf
  obtain ⟨hk, hgk⟩ := List.getElem?_eq_some_iff.1 hg
  have hk' : k < nodes.length := hlen ▸ hk
  refine ⟨nodes[k], List.getElem?_eq_getElem hk', ?_⟩
  have := hget k hk hk'
  simp only [List.get_eq_getElem] at this
  rw [hgk] at this
  exact this

theorem build_node_out {wires : wirelist_t} {gates : gatelist_t} {g : gate_t}
    {node : gatenode_t} (h : build_node wires gates g = some node) :
    List.Forall₂ (fun i o => node_out wires gates g i = some o)
      (List.range (calc_gate_out_size g).toNat) node.out := by
  unfold build_node at h
  split at h
  · cases h
  · split at h
    · cases h
    · rename_i outs houts
      cases h
      exact opt_map_forall₂ _ _ _ houts

theorem node_ptr_spec {n : Nat} {id : Int} {o : Option Nat} (h : node_ptr n id = some o) :
    ∃ y, o = some y ∧ (y : Int) = id ∧ y < n := by
  unfold node_ptr at h
  split at h
  · rename_i hb
    cases h
    refine ⟨id.toNat, rfl, Int.toNat_of_nonneg hb.1, ?_⟩
    omega
  · cases h

theorem node_out_lt {wires : wirelist_t} {gates : gatelist_t} {g : gate_t} {i y : Nat}
    (h : node_out wires gates g i = some (some y)) : y < gates.length := by
  unfold node_out at h
  split at h
  · cases h
  · split at h
    · cases h
    · split at h
      · cases h
      · split at h
        · obtain ⟨y', h1, _, h3⟩ := node_ptr_spec h
          cases h1
          exact h3
        · cases h

theorem build_graph_closed {wires : wirelist_t} {gates : gatelist_t}
    {nodes : List gatenode_t} (h : build_graph wires gates = some nodes) :
    closed_graph nodes := by
  intro x y ⟨node, hnode, hy⟩
  have hf := opt_map_forall₂ _ _ _ h
  rw [List.forall₂_iff_get] at hf
  obtain ⟨hlen, hget⟩ := hf
  obtain ⟨hx, hnx⟩ := List.getElem?_eq_some_iff.1 hnode
  have hx' : x < gates.length := hlen ▸ hx
  have hb := hget x hx' hx
  simp only [List.get_eq_getElem] at hb
  rw [hnx] at hb
  have ho := build_node_out hb
  rw [List.forall₂_iff_get] at ho
  obtain ⟨i, hi, hyi⟩ := List.getElem_of_mem hy
  have := ho.2 i (ho.1 ▸ hi) hi
  simp only [List.get_eq_getElem] at this
  rw [hyi] at this
  rw [build_graph_length h]
  exact node_out_lt this

theorem id_at {l : wirelist_t} {next : Nat} (hok : table_ok l next) {i : Nat} {w : wire_t}
    (h : l.list[i]? = some w) : w.id = i := by
  have h1 : (l.list.map (fun w => w.id))[i]? = some w.id := by
    rw [List.getElem?_map, h]; rfl
  have hi : i < next := by
    have := congrArg List.length hok.ids
    simp only [List.length_map, List.length_range] at this
    rw [← this]
    exact (List.getElem?_eq_some_iff.1 h).1
  rw [hok.ids, List.getElem?_range hi] at h1
  exact (Option.some.inj h1).symm

theorem wire_eq_of_id {l : wirelist_t} {next : Nat} (hok : table_ok l next) {w1 w2 : wire_t}
    (h1 : w1 ∈ l.list) (h2 : w2 ∈ l.list) (h : w1.id = w2.id) : w1 = w2 := by
  obtain ⟨i, hi, hwi⟩ := List.getElem_of_mem h1
  obtain ⟨j, hj, hwj⟩ := List.getElem_of_mem h2
  have e1 := id_at hok (show l.list[i]? = some w1 by rw [← hwi]; exact List.getElem?_eq_getElem hi)
  have e2 := id_at hok (show l.list[j]? = some w2 by rw [← hwj]; exact List.getElem?_eq_getElem hj)
  have : i = j := by omega
  subst this
  rw [← hwi, ← hwj]

theorem get_by_key_slot {l : wirelist_t} {key : String} {w : wire_t}
    (h : hashtable_get_by_key l key = some (some w)) :
    ∃ slot, slot < MAX_VARS ∧ l.map slot = some w := by
  unfold hashtable_get_by_key at h
  simp only at h
  cases hm : l.map (hash key) with
  | none => rw [hm] at h; simp at h
  | some w0 =>
    rw [hm] at h
    simp only at h
    by_cases hk : w0.key = key
    · rw [if_pos hk] at h
      simp only [Option.some.injEq] at h
      exact ⟨hash key, hash_lt key, by rw [hm, h]⟩
    · rw [if_neg hk] at h
      cases hf : find_key l.map (hash key) key with
      | none => rw [hf] at h; cases h
      | some i =>
        rw [hf] at h
        simp only [Option.some.injEq] at h
        exact ⟨_, probe_lt _ _, h⟩

/-- Lookup by identity returns the wire of the list that carries the identity. -/
theorem hashtable_get_of_mem {l : wirelist_t} {next : Nat} (hok : table_ok l next)
    {w : wire_t} (hw : w ∈ l.list) : hashtable_get l w.id = some w := by
  obtain ⟨slot, hslot, hmap⟩ := get_by_key_slot (hok.found w hw).2
  obtain ⟨w1, h1⟩ := (hashtable_get_some_iff l w.id).2 ⟨slot, w, hslot, hmap, rfl⟩
  obtain ⟨hid, slot1, hs1⟩ := hashtable_get_id h1
  rw [h1, wire_eq_of_id hok (hok.slots slot1 w1 hs1) hw hid]

theorem check_type_cases (key : String) (fb : var_type_t) :
    check_type key fb = var_type_t.CONSTANT ∨ check_type key fb = var_type_t.DISCARDED ∨
      check_type key fb = fb := by
  unfold check_type
  split
  · exact Or.inl rfl
  · split
    · exact Or.inl rfl
    · split
      · exact Or.inr (Or.inl rfl)
      · exact Or.inr (Or.inr rfl)

theorem check_type_ordinary {key : String} (fb : var_type_t)
    (h : key ≠ "0" ∧ key ≠ "1" ∧ key ≠ "_") : check_type key fb = fb := by
  unfold check_type
  rw [if_neg h.1, if_neg h.2.1, if_neg h.2.2]

/-- The wire list of a netlist that starts with an `INPUT` and an `OUTPUT` statement and
has no further one: the wires of the input list, then those of the output list, then
those first seen as gate parameters. -/
theorem parse_phases {cI cO : String} {ins outs rest : List String} {nI nO : Int}
    {tok : String} {res : Int} {s : pstate}
    (hcI : scan_int cI.data = (some (ins.length : Int), []))
    (hcO : scan_int cO.data = (some (outs.length : Int), []))
    (hlen : ∀ t ∈ ins ++ outs, t.length ≤ 16)
    (hrest : ∀ t ∈ rest, t.length ≤ 16 ∧ t ≠ "INPUT" ∧ t ≠ "OUTPUT")
    (hparse : parse_circuit (main_state ("INPUT" :: cI :: (ins ++ "OUTPUT" :: cO :: (outs ++ rest)))
      nI nO tok) = some (res, s)) :
    table_ok s.wires s.wireId ∧ s.nInputs = ins.length ∧ s.nOutputs = outs.length ∧
    (∃ L1 L2 L3, s.wires.list = L1 ++ L2 ++ L3 ∧
      (∀ w ∈ L1, w.type = check_type w.key var_type_t.INPUT) ∧
      (∀ w ∈ L2, w.type = var_type_t.OUTPUT) ∧
      (∀ w ∈ L3, w.type = check_type w.key var_type_t.TEMP) ∧
      ((ins ++ outs).Nodup →
        L1 = fresh_wires (fun t => check_type t var_type_t.INPUT) ins 0 ∧
        L2 = fresh_wires (fun _ => var_type_t.OUTPUT) outs ins.length)) := by
  obtain ⟨fuel, s2, hloop, hin2, hok2, hn2, hm2, _, _, ⟨L1, L2, hl, hk1, hk2⟩, hex⟩ :=
    parse_header hcI hcO hlen hparse
  by_cases hnd : (ins ++ outs).Nodup
  · obtain ⟨e1, _⟩ := hex hnd
    have hg : gate_phase (fresh_wires (fun t => check_type t var_type_t.INPUT) ins 0
          ++ fresh_wires (fun _ => var_type_t.OUTPUT) outs ins.length) ins.length outs.length s2 :=
      ⟨hok2, by rw [hin2]; exact hrest, ⟨[], by rw [e1]; simp, by simp⟩, hn2, hm2⟩
    obtain ⟨hok, _, ⟨L3, hl3, hk3⟩, hn, hm⟩ := gate_phase_parse fuel s2 s res hg hloop
    refine ⟨hok, hn, hm, _, _, L3, hl3, ?_, ?_, hk3, fun _ => ⟨rfl, rfl⟩⟩
    · intro w hw
      obtain ⟨i, hi, hwi⟩ := List.getElem_of_mem hw
      have hi2 : i < ins.length := by rw [fresh_wires_length] at hi; exact hi
      have := fresh_wires_get (fun t => check_type t var_type_t.INPUT) ins 0 i ins[i]
        (List.getElem?_eq_getElem hi2)
      rw [List.getElem?_eq_getElem hi, hwi] at this
      simp only [Option.some.injEq] at this
      rw [this]
    · intro w hw
      obtain ⟨i, hi, hwi⟩ := List.getElem_of_mem hw
      have hi2 : i < outs.length := by rw [fresh_wires_length] at hi; exact hi
      have := fresh_wires_get (fun _ => var_type_t.OUTPUT) outs ins.length i outs[i]
        (List.getElem?_eq_getElem hi2)
      rw [List.getElem?_eq_getElem hi, hwi] at this
      simp only [Option.some.injEq] at this
      rw [this]
  · have hg : gate_phase (L1 ++ L2) ins.length outs.length s2 :=
      ⟨hok2, by rw [hin2]; exact hrest, ⟨[], by rw [hl]; simp, by simp⟩, hn2, hm2⟩
    obtain ⟨hok, _, ⟨L3, hl3, hk3⟩, hn, hm⟩ := gate_phase_parse fuel s2 s res hg hloop
    exact ⟨hok, hn, hm, L1, L2, L3, hl3, hk1, hk2, hk3, fun h => absurd h hnd⟩

theorem mem_segment {l : wirelist_t} {next : Nat} (hok : table_ok l next)
    {A B C : List wire_t} (hl : l.list = A ++ B ++ C) {w : wire_t} :
    (w ∈ A → w.id < A.length) ∧
    (w ∈ B → A.length ≤ w.id ∧ w.id < A.length + B.length) ∧
    (w ∈ C → A.length + B.length ≤ w.id) := by
  refine ⟨?_, ?_, ?_⟩
  · intro hw
    obtain ⟨i, hi, hwi⟩ := List.getElem_of_mem hw
    have : l.list[i]? = some w := by
      rw [hl, List.append_assoc, List.getElem?_append_left hi, ← hwi]
      exact List.getElem?_eq_getElem hi
    rw [id_at hok this]
    exact hi
  · intro hw
    obtain ⟨i, hi, hwi⟩ := List.getElem_of_mem hw
    have : l.list[A.length + i]? = some w := by
      rw [hl, List.append_assoc, List.getElem?_append_right (by omega)]
      simp only [Nat.add_sub_cancel_left]
      rw [List.getElem?_append_left hi, ← hwi]
      exact List.getElem?_eq_getElem hi
    rw [id_at hok this]
    omega
  · intro hw
    obtain ⟨i, hi, hwi⟩ := List.getElem_of_mem hw
    have : l.list[A.length + B.length + i]? = some w := by
      rw [hl, List.getElem?_append_right (by simp)]
      simp only [List.length_append, Nat.add_sub_cancel_left]
      rw [← hwi]
      exact List.getElem?_eq_getElem hi
    rw [id_at hok this]
    omega

/-- C16 (counterexample): when the `OUTPUT` statement comes first, the output `O` gets
identity 0 and the input `A` identity 1. -/
theorem kind_ordering_counterexample :
    parse_circuit (main_state ["OUTPUT", "1", "O", "INPUT", "1", "A", "END"] 0 0 "")
      = some (0, parsed ["OUTPUT", "1", "O", "INPUT", "1", "A", "END"]) ∧
    (parsed ["OUTPUT", "1", "O", "INPUT", "1", "A", "END"]).wires.list
      = [⟨"O", 0, var_type_t.OUTPUT⟩, ⟨"A", 1, var_type_t.INPUT⟩] ∧
    ¬ (∀ w1 ∈ (parsed ["OUTPUT", "1", "O", "INPUT", "1", "A", "END"]).wires.list,
       ∀ w2 ∈ (parsed ["OUTPUT", "1", "O", "INPUT", "1", "A", "END"]).wires.list,
         w1.type = var_type_t.INPUT → w2.type = var_type_t.OUTPUT → w1.id < w2.id) :=
  ⟨rfl, by decide!, by decide!⟩

/-- C16 (amended): for a netlist that starts with an `INPUT` statement and an `OUTPUT`
statement whose counts are the numbers of labels given, and whose remaining words are
none of `INPUT` and `OUTPUT` (all words at most 16 characters long), every wire of kind
`INPUT` has a smaller identity than every wire of kind `OUTPUT`, and every wire of kind
`OUTPUT` a smaller one than every wire of kind `TEMP`. -/
theorem kind_ordering {cI cO : String} {ins outs rest : List String} {nI nO : Int}
    {tok : String} {res : Int} {s : pstate}
    (hcI : scan_int cI.data = (some (ins.length : Int), []))
    (hcO : scan_int cO.data = (some (outs.length : Int), []))
    (hlen : ∀ t ∈ ins ++ outs, t.length ≤ 16)
    (hrest : ∀ t ∈ rest, t.length ≤ 16 ∧ t ≠ "INPUT" ∧ t ≠ "OUTPUT")
    (hparse : parse_circuit (main_state ("INPUT" :: cI :: (ins ++ "OUTPUT" :: cO :: (outs ++ rest)))
      nI nO tok) = some (res, s)) :
    ∀ w1 ∈ s.wires.list, ∀ w2 ∈ s.wires.list,
      (w1.type = var_type_t.INPUT → w2.type = var_type_t.OUTPUT → w1.id < w2.id) ∧
      (w1.type = var_type_t.OUTPUT → w2.type = var_type_t.TEMP → w1.id < w2.id) ∧
      (w1.type = var_type_t.INPUT → w2.type = var_type_t.TEMP → w1.id < w2.id) := by
  obtain ⟨hok, _, _, L1, L2, L3, hl, hk1, hk2, hk3, _⟩ :=
    parse_phases hcI hcO hlen hrest hparse
  have hin : ∀ w ∈ s.wires.list, w.type = var_type_t.INPUT → w ∈ L1 := by
    intro w hw ht
    rw [hl, List.mem_append, List.mem_append] at hw
    rcases hw with (hw | hw) | hw
    · exact hw
    · rw [hk2 w hw] at ht; cases ht
    · have := hk3 w hw
      rcases check_type_cases w.key var_type_t.TEMP with h | h | h <;>
        rw [h, ht] at this <;> cases this
  have hout : ∀ w ∈ s.wires.list, w.type = var_type_t.OUTPUT → w ∈ L2 := by
    intro w hw ht
    rw [hl, List.mem_append, List.mem_append] at hw
    rcases hw with (hw | hw) | hw
    · have := hk1 w hw
      rcases check_type_cases w.key var_type_t.INPUT with h | h | h <;>
        rw [h, ht] at this <;> cases this
    · exact hw
    · have := hk3 w hw
      rcases check_type_cases w.key var_type_t.TEMP with h | h | h <;>
        rw [h, ht] at this <;> cases this
  have htmp : ∀ w ∈ s.wires.list, w.type = var_type_t.TEMP → w ∈ L3 := by
    intro w hw ht
    rw [hl, List.mem_append, List.mem_append] at hw
    rcases hw with (hw | hw) | hw
    · have := hk1 w hw
      rcases check_type_cases w.key var_type_t.INPUT with h | h | h <;>
        rw [h, ht] at this <;> cases this
    · rw [hk2 w hw] at ht; cases ht
    · exact hw
  intro w1 h1 w2 h2
  have s1 := mem_segment hok hl (w := w1)
  have s2 := mem_segment hok hl (w := w2)
  refine ⟨?_, ?_, ?_⟩
  · intro t1 t2
    have a := s1.1 (hin w1 h1 t1)
    have b := s2.2.1 (hout w2 h2 t2)
    omega
  · intro t1 t2
    have a := s1.2.1 (hout w1 h1 t1)
    have b := s2.2.2 (htmp w2 h2 t2)
    omega
  · intro t1 t2
    have a := s1.1 (hin w1 h1 t1)
    have b := s2.2.2 (htmp w2 h2 t2)
    omega

/-- C16 (witness): the half adder. -/
theorem kind_ordering_witness :
    parse_circuit (main_state half_adder 0 0 "") = some (0, parsed half_adder) ∧
    ∀ w1 ∈ (parsed half_adder).wires.list, ∀ w2 ∈ (parsed half_adder).wires.list,
      (w1.type = var_type_t.INPUT → w2.type = var_type_t.OUTPUT → w1.id < w2.id) ∧
      (w1.type = var_type_t.OUTPUT → w2.type = var_type_t.TEMP → w1.id < w2.id) ∧
      (w1.type = var_type_t.INPUT → w2.type = var_type_t.TEMP → w1.id < w2.id) :=
  ⟨rfl, @kind_ordering "2" "2" ["A", "B"] ["S", "C"]
    ["XOR", "A", "B", "S", "AND", "A", "B", "C", "END"]
    0 0 "" 0 (parsed half_adder) (by decide!) (by decide!) (by decide) (by decide) rfl⟩

theorem gate_position {s : pstate} (h : parsed_ok s) {g : gate_t} (hg : g ∈ s.gates) :
    s.gates[g.id]? = some g := by
  obtain ⟨k, hk, hgk⟩ := List.getElem_of_mem hg
  have h1 : (s.gates.map (fun g => g.id))[k]? = (List.range s.gates.length)[k]? := by
    rw [h.ids]
  rw [List.getElem?_map, List.getElem?_eq_getElem hk, List.getElem?_range hk] at h1
  simp only [Option.map_some', Option.some.injEq] at h1
  rw [hgk] at h1
  rw [h1, List.getElem?_eq_getElem hk, hgk]

theorem recorded_edge {s : pstate} (hs : parsed_ok s) {nodes : List gatenode_t}
    (hgraph : build_graph s.wires s.gates = some nodes)
    {p g : gate_t} {w : Nat} (hp : p ∈ s.gates) (hg : g ∈ s.gates)
    (hout : out_slot p w) (hin : in_slot g w)
    (hkind : ∀ wire, hashtable_get s.wires w = some wire →
      wire.type ≠ var_type_t.OUTPUT ∧ wire.type ≠ var_type_t.DISCARDED)
    (honly : ∀ g' ∈ s.gates, in_slot g' w → g' = g) :
    edge nodes p.id g.id := by
  obtain ⟨node, hnode, hb⟩ := build_graph_node hgraph (gate_position hs hp)
  refine ⟨node, hnode, ?_⟩
  have ho := build_node_out hb
  rw [List.forall₂_iff_get] at ho
  obtain ⟨i, hi, hiw⟩ := hout
  have hi' : i < (List.range (calc_gate_out_size p).toNat).length := by
    simpa using hi
  have hi2 : i < node.out.length := ho.1 ▸ hi'
  have hno := ho.2 i hi' hi2
  simp only [List.get_eq_getElem, List.getElem_range] at hno
  have hmem : node.out[i] ∈ node.out := List.getElem_mem _
  have hval : node_out s.wires s.gates p i = some (some g.id) := by
    unfold node_out at hno ⊢
    rw [hiw] at hno ⊢
    simp only at hno ⊢
    split at hno
    · cases hno
    · rename_i wire hwire
      split at hno
      · cases hno
      · rename_i id hid
        have hk := hkind wire hwire
        rcases get_gate_in_id_spec _ _ hid with ⟨_, h2⟩ | ⟨g', hg', h1, h2⟩
        · exact absurd hin (h2 g hg)
        · have := honly g' hg' h2
          subst this
          have hne : id ≠ -1 := by omega
          rw [if_pos ⟨hk.2, hk.1, hne⟩] at hno ⊢
          obtain ⟨y, hy1, hy2, _⟩ := node_ptr_spec hno
          rw [hno, hy1]
          congr 2
          omega
  rw [hval] at hno
  simp only [Option.some.injEq] at hno
  rw [← hno] at hmem
  exact hmem

/-- C1 (amended): in every parsed circuit whose gate graph is built and whose recorded
consumer edges are acyclic, a gate `p` that produces a wire `w` is replayed strictly
before the gate `g` that uses `w` as an input, provided `w` is neither a declared output
nor the discarded wire and `g` is the only gate using `w` as an input. The stack holds
every gate exactly once. -/
theorem topological_order_single_consumer {input : List String} {nI nO : Int} {tok : String}
    {s : pstate} {nodes : List gatenode_t}
    (hparse : parse_circuit (main_state input nI nO tok) = some (0, s))
    (hgraph : build_graph s.wires s.gates = some nodes) (hac : acyclic nodes)
    {p g : gate_t} {w : Nat} (hp : p ∈ s.gates) (hg : g ∈ s.gates)
    (hout : out_slot p w) (hin : in_slot g w)
    (hkind : ∀ wire, hashtable_get s.wires w = some wire →
      wire.type ≠ var_type_t.OUTPUT ∧ wire.type ≠ var_type_t.DISCARDED)
    (honly : ∀ g' ∈ s.gates, in_slot g' w → g' = g) :
    ∃ st, toposort nodes s.gates.length = some st ∧ st.2.Nodup ∧
      st.2.length = s.gates.length ∧ evaluated_before st.2 p.id g.id := by
  have hs := parse_circuit_ok hparse
  have hlen := build_graph_length hgraph
  obtain ⟨V, S, hsort, hnd, hmem, hSlen, htopo⟩ := toposort_spec nodes (build_graph_closed hgraph)
  have hedge := recorded_edge hs hgraph hp hg hout hin hkind honly
  refine ⟨(V, S), by rw [← hlen]; exact hsort, hnd, by rw [hSlen, hlen], ?_⟩
  have hpS : p.id ∈ S := by
    rw [hmem, hlen]
    exact (List.getElem?_eq_some_iff.1 (gate_position hs hp)).1
  obtain ⟨A, B, hAB⟩ := List.append_of_mem hpS
  have hgA := htopo hac A p.id B hAB g.id hedge
  obtain ⟨j, hj, hjg⟩ := List.getElem_of_mem hgA
  refine ⟨A.length, ?_, j, List.mem_range.2 hj, ?_, ?_⟩
  · rw [List.mem_range, hAB]; simp
  · show S[A.length]? = some p.id
    rw [hAB, List.getElem?_append_right (le_refl _)]; simp
  · show S[j]? = some g.id
    rw [hAB, List.getElem?_append_left hj, List.getElem?_eq_getElem hj, hjg]

/-- C1 (counterexample): in the fan-out netlist the `NOT` gate (id 2) produces wire
`T` (id 4), the `AND` gate (id 1) uses it, and the sorted stack is `[0, 2, 1]`, so the
`AND` gate is replayed first. -/
theorem topological_order_counterexample :
    ∃ s nodes st, parse_circuit (main_state fanout_netlist 0 0 "") = some (0, s) ∧
      build_graph s.wires s.gates = some nodes ∧
      toposort nodes s.gates.length = some st ∧
      ∃ p ∈ s.gates, ∃ g ∈ s.gates, out_slot p 4 ∧ in_slot g 4 ∧
        ¬ evaluated_before st.2 p.id g.id := by
  refine ⟨_, _, _, rfl, rfl, rfl, ⟨type_t.NOT, 1, [0, 4], 2⟩, by decide,
    ⟨type_t.AND, 2, [4, 0, 2], 1⟩, by decide, ?_, ?_, ?_⟩
  · exact ⟨0, by decide, by decide⟩
  · exact ⟨0, by decide, by decide⟩
  · decide

theorem acyclic_of_increasing {nodes : List gatenode_t}
    (h : ∀ x y, edge nodes x y → x < y) : acyclic nodes := by
  intro x hx
  have : ∀ a b, Relation.TransGen (edge nodes) a b → a < b := by
    intro a b hab
    induction hab with
    | single h1 => exact h _ _ h1
    | tail _ h2 ih => exact lt_trans ih (h _ _ h2)
  exact lt_irrefl x (this x x hx)

/-- C1 (witness): the chain netlist meets every hypothesis of the amended claim, with
the `NOT` gate (id 0) producing wire 2 and the `PASS` gate (id 1) using it. -/
theorem topological_order_single_consumer_witness :
    ∃ st, toposort [⟨0, type_t.NOT, 1, [none], [some 1]⟩, ⟨1, type_t.PASS, 1, [some 0], [none]⟩]
        (parsed chain_netlist).gates.length = some st ∧ st.2.Nodup ∧
      st.2.length = (parsed chain_netlist).gates.length ∧ evaluated_before st.2 0 1 := by
  have hparse : parse_circuit (main_state chain_netlist 0 0 "")
      = some (0, parsed chain_netlist) := rfl
  have hgraph : build_graph (parsed chain_netlist).wires (parsed chain_netlist).gates
      = some [⟨0, type_t.NOT, 1, [none], [some 1]⟩, ⟨1, type_t.PASS, 1, [some 0], [none]⟩] := rfl
  have hgates : (parsed chain_netlist).gates
      = [⟨type_t.NOT, 1, [0, 2], 0⟩, ⟨type_t.PASS, 1, [2, 1], 1⟩] := rfl
  have hget : hashtable_get (parsed chain_netlist).wires 2
      = some ⟨"T", 2, var_type_t.TEMP⟩ := rfl
  have hac : acyclic [⟨0, type_t.NOT, 1, [none], [some 1]⟩,
      ⟨1, type_t.PASS, 1, [some 0], [none]⟩] := by
    apply acyclic_of_increasing
    rintro x y ⟨node, hx, hy⟩
    match x, hx with
    | 0, hx => simp at hx; subst hx; simp at hy; omega
    | 1, hx => simp at hx; subst hx; simp at hy
    | (k + 2), hx => simp at hx
  exact topological_order_single_consumer (w := 2)
    (p := ⟨type_t.NOT, 1, [0, 2], 0⟩) (g := ⟨type_t.PASS, 1, [2, 1], 1⟩)
    hparse hgraph hac (by rw [hgates]; decide) (by rw [hgates]; decide)
    (by decide) (by decide)
    (by intro wire h; rw [hget] at h; cases h; exact ⟨by decide, by decide⟩)
    (by
      intro g' hg' hin
      rw [hgates] at hg'
      simp only [List.mem_cons, List.mem_singleton, List.not_mem_nil, or_false] at hg'
      rcases hg' with h | h
      · subst h; exact absurd hin (by decide)
      · exact h)

theorem run_of_parse {s0 s : pstate} {rows : List row_t} {mem : Nat → row_mem}
    (hp : parse_circuit s0 = some (0, s))
    (hb : build_circuit s.wires s.gates s.nInputs s.nOutputs s.wireId mem = some rows) :
    run s0 mem = some (some rows) := by
  unfold run
  rw [hp]
  simp [hb]

/-- C6: for each of `AND`, `OR`, `NAND`, `NOR`, `XOR`, the netlist
`INPUT 2 A B / OUTPUT 1 O / op A B O` prints four rows, and the output bit of each row
is the standard boolean operator applied to the two input bits of that row, whatever
the initial contents of the counters, the token buffer and the allocated blocks. -/
theorem binary_gate_rows (op : String) (nI nO : Int) (tok : String) (mem : Nat → row_mem) :
    op ∈ ["AND", "OR", "NAND", "NOR", "XOR"] →
    run (main_state (binary_netlist op) nI nO tok) mem = some (some (table2 (bool_op op))) := by
  intro h
  simp only [List.mem_cons, List.mem_singleton, List.not_mem_nil, or_false] at h
  rcases h with h | h | h | h | h <;> subst h
  · exact run_of_parse (s := parsed (binary_netlist "AND")) rfl rfl
  · exact run_of_parse (s := parsed (binary_netlist "OR")) rfl rfl
  · exact run_of_parse (s := parsed (binary_netlist "NAND")) rfl rfl
  · exact run_of_parse (s := parsed (binary_netlist "NOR")) rfl rfl
  · exact run_of_parse (s := parsed (binary_netlist "XOR")) rfl rfl

/-- C6 (witness): the `NAND` instance. -/
theorem binary_gate_rows_witness :
    run (main_state (binary_netlist "NAND") 0 0 "") (fun _ => ⟨fun _ => 0, fun _ => 0, fun _ => 0⟩)
      = some (some [([0, 0], [1]), ([0, 1], [1]), ([1, 0], [1]), ([1, 1], [0])]) :=
  binary_gate_rows "NAND" 0 0 "" _ (by decide)

/-- C7: the netlist `INPUT 1 A / OUTPUT 1 O / NOT A O` prints the negation of the input
bit in each of its two rows, and `PASS A O` prints the input bit itself. -/
theorem unary_gate_rows (nI nO : Int) (tok : String) (mem : Nat → row_mem) :
    run (main_state (unary_netlist "NOT") nI nO tok) mem = some (some (table1 (fun a => !a))) ∧
    run (main_state (unary_netlist "PASS") nI nO tok) mem = some (some (table1 (fun a => a))) :=
  ⟨run_of_parse (s := parsed (unary_netlist "NOT")) rfl rfl,
   run_of_parse (s := parsed (unary_netlist "PASS")) rfl rfl⟩

/-- C10: the half adder `INPUT 2 A B / OUTPUT 2 S C / XOR A B S / AND A B C / END`
prints exactly the four rows `0 0 | 0 0`, `0 1 | 1 0`, `1 0 | 1 0`, `1 1 | 0 1`, in
that order. -/
theorem half_adder_rows (nI nO : Int) (tok : String) (mem : Nat → row_mem) :
    run (main_state half_adder nI nO tok) mem
      = some (some [([0, 0], [0, 0]), ([0, 1], [1, 0]), ([1, 0], [1, 0]), ([1, 1], [0, 1])]) :=
  run_of_parse (s := parsed half_adder) rfl rfl

/-- C11: the netlist `INPUT 1 A / OUTPUT 2 O0 O1 / DECODER 1 A O0 O1 / END` is parsed
and evaluated to exactly the rows `0 | 1 0` and `1 | 0 1`, in that order, whatever the
initial contents of the counters, the token buffer and the allocated blocks. -/
theorem decoder_1to2_rows (nI nO : Int) (tok : String) (mem : Nat → row_mem) :
    run (main_state decoder_1to2 nI nO tok) mem = some (some [([0], [1, 0]), ([1], [0, 1])]) :=
  run_of_parse (s := parsed decoder_1to2) rfl rfl

/-- C12: the netlist `INPUT 3 D0 D1 S / OUTPUT 1 O / MULTIPLEXER 1 D0 D1 S O / END` is
parsed and evaluated to eight rows; the row of assignment 5 (`D0 = 1`, `D1 = 0`,
`S = 1`) has output bit 0, the value of `D1`, and in every row the output is the data
bit the selector designates. -/
theorem mux_2to1_rows (nI nO : Int) (tok : String) (mem : Nat → row_mem) :
    ∃ rows, run (main_state mux_2to1 nI nO tok) mem = some (some rows) ∧
      rows[5]? = some ([1, 0, 1], [0]) ∧
      rows = [([0, 0, 0], [0]), ([0, 0, 1], [0]), ([0, 1, 0], [0]), ([0, 1, 1], [1]),
              ([1, 0, 0], [1]), ([1, 0, 1], [0]), ([1, 1, 0], [1]), ([1, 1, 1], [1])] :=
  ⟨_, run_of_parse (s := parsed mux_2to1) rfl rfl, rfl, rfl⟩

theorem wrap32_eq {x : Int} (h1 : -2147483648 ≤ x) (h2 : x < 2147483648) : wrap32 x = x := by
  unfold wrap32
  rw [Int.emod_eq_of_lt (by omega) (by omega)]
  omega

theorem shl32_one_small {k : Int} (h0 : 0 ≤ k) (h30 : k ≤ 30) : shl32 1 k = 2 ^ k.toNat := by
  unfold shl32
  have hk : k.toNat ≤ 30 := by omega
  have h2 : (2 : Int) ^ k.toNat ≤ 2 ^ 30 := pow_le_pow_right₀ (by norm_num) hk
  have h3 : (0 : Int) < 2 ^ k.toNat := by positivity
  rw [one_mul]
  apply wrap32_eq <;> omega

theorem shl32_one_toNat_le (k : Int) : (shl32 1 k).toNat ≤ 2 ^ k.toNat := by
  unfold shl32
  rw [one_mul]
  by_cases hk : k.toNat ≤ 30
  · have h2 : (2 : Int) ^ k.toNat ≤ 2 ^ 30 := pow_le_pow_right₀ (by norm_num) hk
    have h3 : (0 : Int) < 2 ^ k.toNat := by positivity
    rw [wrap32_eq (by omega) (by omega)]
    have : ((2 : Int) ^ k.toNat) = ((2 ^ k.toNat : Nat) : Int) := by push_cast; rfl
    rw [this, Int.toNat_natCast]
  · have hk' : 31 ≤ k.toNat := by omega
    obtain ⟨m, hm⟩ : ∃ m, k.toNat = 31 + m := ⟨k.toNat - 31, by omega⟩
    have h4 : wrap32 (2 ^ k.toNat) ≤ 0 := by
      unfold wrap32
      rw [hm, pow_add]
      have : (2 : Int) ^ 31 * 2 ^ m + 2147483648 = 2147483648 * (2 ^ m + 1) := by ring
      rw [this]
      rcases Nat.even_or_odd (2 ^ m) with he | ho
      · obtain ⟨r, hr⟩ := he
        have hr' : (2 : Int) ^ m = r + r := by exact_mod_cast hr
        rw [hr']
        have : (2147483648 : Int) * (r + r + 1) = 2147483648 + 4294967296 * r := by ring
        rw [this, Int.add_mul_emod_self_left]
        norm_num
      · obtain ⟨r, hr⟩ := ho
        have hr' : (2 : Int) ^ m = 2 * r + 1 := by exact_mod_cast hr
        rw [hr']
        have : (2147483648 : Int) * (2 * r + 1 + 1) = 0 + 4294967296 * (r + 1) := by ring
        rw [this, Int.add_mul_emod_self_left]
        norm_num
    rw [Int.toNat_eq_zero.2 h4]
    exact Nat.zero_le _

theorem fill_inputs_spec (nI v : Int) (mem : Int → Int) :
    ∃ inputs, fill_inputs nI v mem = some inputs ∧
      ∀ k : Nat, k < nI.toNat → inputs k = land1 (shr32 v ((nI.toNat - 1 - k : Nat) : Int)) := by
  unfold fill_inputs
  have key : ∀ m : Nat, m ≤ nI.toNat →
      ∃ a, (List.range m).foldlM
          (fun a (i : Nat) => wr nI a (nI - (i : Int) - 1) (land1 (shr32 v (i : Int)))) mem
            = some a ∧
        ∀ k : Nat, k < nI.toNat → nI.toNat - m ≤ k →
          a k = land1 (shr32 v ((nI.toNat - 1 - k : Nat) : Int)) := by
    intro m
    induction m with
    | zero =>
      intro _
      exact ⟨mem, rfl, fun k hk hk' => by omega⟩
    | succ m ih =>
      intro hm
      obtain ⟨a, ha, hak⟩ := ih (by omega)
      have hb : 0 ≤ nI - (m : Int) - 1 ∧ nI - (m : Int) - 1 < nI := by omega
      refine ⟨fun k => if k = nI - (m : Int) - 1 then land1 (shr32 v m) else a k, ?_, ?_⟩
      · rw [List.range_succ, List.foldlM_append, ha]
        simp only [Option.bind_eq_bind, Option.some_bind, List.foldlM_cons, List.foldlM_nil,
          wr, hb.1, hb.2, and_self, if_true]
        rfl
      · intro k hk hk'
        by_cases hkm : (k : Int) = nI - (m : Int) - 1
        · simp only [hkm, if_true]
          congr 2
          omega
        · simp only [hkm, if_false]
          apply hak k hk
          omega
  obtain ⟨a, ha, hak⟩ := key nI.toNat (le_refl _)
  exact ⟨a, ha, fun k hk => hak k hk (by omega)⟩

theorem land1_shr32 (v i : Nat) : land1 (shr32 (v : Int) (i : Int)) = ((v / 2 ^ i % 2 : Nat) : Int) := by
  unfold land1 shr32
  simp only [Int.toNat_natCast]
  push_cast
  rfl

theorem eval_row_inputs {wires : wirelist_t} {gates : gatelist_t} {stack : List Nat}
    {nI nO nW : Int} {m : row_mem} {v : Nat} {row : row_t}
    (h : eval_row wires gates stack nI nO nW m v = some row) :
    row.1 = input_bits nI.toNat v := by
  unfold eval_row at h
  obtain ⟨inputs, hin, hbits⟩ := fill_inputs_spec nI v m.inputs
  rw [hin] at h
  simp only [Option.bind_eq_bind, Option.some_bind] at h
  generalize eval_gates _ gates stack _ = r at h
  cases r with
  | none => simp at h
  | some st =>
    simp only [Option.some_bind, Option.some.injEq] at h
    rw [← h]
    unfold input_bits
    apply List.map_congr_left
    intro i hi
    rw [hbits i (List.mem_range.1 hi), land1_shr32]

theorem decode_append (l : List Int) (b : Int) : decode (l ++ [b]) = 2 * decode l + b := by
  unfold decode
  rw [List.foldl_append]
  rfl

theorem decode_input_bits (n v : Nat) : decode (input_bits n v) = ((v % 2 ^ n : Nat) : Int) := by
  induction n generalizing v with
  | zero => simp [input_bits, decode, Nat.mod_one]
  | succ n ih =>
    have h1 : input_bits (n + 1) v = input_bits n (v / 2) ++ [((v % 2 : Nat) : Int)] := by
      unfold input_bits
      rw [List.range_succ, List.map_append]
      congr 1
      · apply List.map_congr_left
        intro i hi
        have hi' := List.mem_range.1 hi
        have : n + 1 - 1 - i = (n - 1 - i) + 1 := by omega
        rw [this, pow_succ, mul_comm, ← Nat.div_div_eq_div_mul]
      · simp
    rw [h1, decode_append, ih]
    have : v % 2 ^ (n + 1) = 2 * (v / 2 % 2 ^ n) + v % 2 := by
      rw [pow_succ, mul_comm (2 ^ n) 2, Nat.mod_mul, Nat.add_comm]
    rw [this]
    push_cast
    ring

theorem build_circuit_rows {wires : wirelist_t} {gates : gatelist_t} {nI nO nW : Int}
    {mem : Nat → row_mem} {rows : List row_t}
    (h : build_circuit wires gates nI nO nW mem = some rows) :
    ∃ nodes st, build_graph wires gates = some nodes ∧
      toposort nodes gates.length = some st ∧
      opt_map (fun v : Nat => eval_row wires gates st.2 nI nO nW (mem v) v)
        (List.range (shl32 1 nI).toNat) = some rows := by
  unfold build_circuit at h
  cases hg : build_graph wires gates with
  | none => rw [hg] at h; simp at h
  | some nodes =>
    rw [hg] at h
    simp only [Option.bind_eq_bind, Option.some_bind] at h
    cases hs : toposort nodes gates.length with
    | none => rw [hs] at h; simp at h
    | some st =>
      rw [hs] at h
      simp only [Option.some_bind] at h
      exact ⟨nodes, st, rfl, hs, h⟩

/-- The row at position `v` of the rows printed by `build_circuit` has the input bits of
the assignment `v`, which decode back to `v`. -/
theorem row_input_bits {wires : wirelist_t} {gates : gatelist_t} {nI nO nW : Int}
    {mem : Nat → row_mem} {rows : List row_t} {v : Nat} {row : row_t}
    (h : build_circuit wires gates nI nO nW mem = some rows) (hrow : rows[v]? = some row) :
    row.1 = input_bits nI.toNat v ∧ decode row.1 = v := by
  obtain ⟨nodes, st, _, _, hrows⟩ := build_circuit_rows h
  have hf := opt_map_forall₂ _ _ _ hrows
  rw [List.forall₂_iff_get] at hf
  obtain ⟨hlen, hget⟩ := hf
  simp only [List.length_range] at hlen
  obtain ⟨hv, hrv⟩ := List.getElem?_eq_some_iff.1 hrow
  have hv2 : v < (List.range (shl32 1 nI).toNat).length := by simpa [hlen] using hv
  have hev := hget v hv2 hv
  simp only [List.get_eq_getElem, List.getElem_range, hrv] at hev
  have hbits := eval_row_inputs hev
  have hvlt : v < 2 ^ nI.toNat := by
    have := shl32_one_toNat_le nI
    omega
  refine ⟨hbits, ?_⟩
  rw [hbits, decode_input_bits, Nat.mod_eq_of_lt hvlt]

theorem input_bits_get (n v i : Nat) (hi : i < n) :
    (input_bits n v)[i]? = some (land1 (shr32 (v : Int) ((n - 1 - i : Nat) : Int))) := by
  unfold input_bits
  rw [List.getElem?_map, List.getElem?_range hi, land1_shr32]
  rfl

/-- C4 (amended): for `0 ≤ nInputs ≤ 30`, `build_circuit` prints exactly `2^nInputs`
rows: every result it returns has that many rows, and it returns one whenever the graph
construction and the replay of each of the `2^nInputs` assignments are free of faults. -/
theorem row_count {wires : wirelist_t} {gates : gatelist_t} {nI nO nW : Int}
    {mem : Nat → row_mem} (h0 : 0 ≤ nI) (h30 : nI ≤ 30) :
    (∀ rows, build_circuit wires gates nI nO nW mem = some rows →
      rows.length = 2 ^ nI.toNat) ∧
    (∀ nodes st, build_graph wires gates = some nodes →
      toposort nodes gates.length = some st →
      (∀ v : Nat, v < 2 ^ nI.toNat →
        ∃ row, eval_row wires gates st.2 nI nO nW (mem v) v = some row) →
      ∃ rows, build_circuit wires gates nI nO nW mem = some rows ∧
        rows.length = 2 ^ nI.toNat) := by
  have hpow : (shl32 1 nI).toNat = 2 ^ nI.toNat := by
    rw [shl32_one_small h0 h30]
    have : ((2 : Int) ^ nI.toNat) = ((2 ^ nI.toNat : Nat) : Int) := by push_cast; rfl
    rw [this, Int.toNat_natCast]
  have hcount : ∀ rows, build_circuit wires gates nI nO nW mem = some rows →
      rows.length = 2 ^ nI.toNat := by
    intro rows h
    obtain ⟨nodes, st, _, _, hrows⟩ := build_circuit_rows h
    have := (opt_map_forall₂ _ _ _ hrows).length_eq
    simp only [List.length_range] at this
    rw [← this, hpow]
  refine ⟨hcount, ?_⟩
  intro nodes st hg hs hrow
  obtain ⟨rows, hrows⟩ := opt_map_some
    (fun v : Nat => eval_row wires gates st.2 nI nO nW (mem v) v)
    (List.range (shl32 1 nI).toNat)
    (fun v hv => hrow v (by rw [← hpow]; exact List.mem_range.1 hv))
  have hb : build_circuit wires gates nI nO nW mem = some rows := by
    unfold build_circuit
    rw [hg]
    simp only [Option.bind_eq_bind, Option.some_bind]
    rw [hs]
    simp only [Option.some_bind]
    exact hrows
  exact ⟨rows, hb, hcount rows hb⟩

/-- C4 (counterexample): with 31 declared inputs the loop bound `1 << 31` is negative as
a 32-bit int, and no row is printed instead of `2^31`. -/
theorem row_count_counterexample :
    ∃ rows, run (main_state wide_netlist 0 0 "") zero_mem = some (some rows) ∧
      (parsed wide_netlist).nInputs = 31 ∧ rows.length ≠ 2 ^ 31 :=
  ⟨[], by decide!, by decide!, by decide⟩

/-- C4 (witness): the half adder, with two declared inputs. -/
theorem row_count_witness :
    (∀ rows, build_circuit (parsed half_adder).wires (parsed half_adder).gates 2 2 4 zero_mem
        = some rows → rows.length = 2 ^ (2 : Int).toNat) ∧
    (∀ nodes st, build_graph (parsed half_adder).wires (parsed half_adder).gates = some nodes →
      toposort nodes (parsed half_adder).gates.length = some st →
      (∀ v : Nat, v < 2 ^ (2 : Int).toNat →
        ∃ row, eval_row (parsed half_adder).wires (parsed half_adder).gates st.2 2 2 4
          (zero_mem v) v = some row) →
      ∃ rows, build_circuit (parsed half_adder).wires (parsed half_adder).gates 2 2 4 zero_mem
          = some rows ∧ rows.length = 2 ^ (2 : Int).toNat) :=
  row_count (by decide) (by decide)

/-- C5 (counterexample): with 31 declared inputs the run ends without fault and prints
no row, so the assignment `v = 0 < 2^31` has no row. -/
theorem input_encoding_counterexample :
    (parsed wide_netlist).nInputs = 31 ∧
    run (main_state wide_netlist 0 0 "") zero_mem = some (some []) ∧
    (0 : Nat) < 2 ^ (31 : Int).toNat ∧ ([] : List row_t)[0]? = none :=
  ⟨by decide!, by decide!, by decide, rfl⟩

/-- C5 (amended): for `0 ≤ nInputs ≤ 30`, in every sequence of rows printed by
`build_circuit` each `v < 2^nInputs` has a row at position `v`; that row has `nInputs`
input bits, bit `i` equal to `(v >> (nInputs - 1 - i)) & 1` (first declared input most
significant), which decode back to `v`, so the rows come in ascending order of the
assignment. The sequence is printed whenever the graph construction, the sort and the
replay of each of the `2^nInputs` assignments are free of faults. -/
theorem input_encoding {wires : wirelist_t} {gates : gatelist_t} {nI nO nW : Int}
    {mem : Nat → row_mem} (h0 : 0 ≤ nI) (h30 : nI ≤ 30) :
    (∀ rows, build_circuit wires gates nI nO nW mem = some rows →
      ∀ v : Nat, v < 2 ^ nI.toNat →
        ∃ row, rows[v]? = some row ∧ row.1.length = nI.toNat ∧
          (∀ i : Nat, i < nI.toNat →
            row.1[i]? = some (land1 (shr32 (v : Int) ((nI.toNat - 1 - i : Nat) : Int)))) ∧
          decode row.1 = v) ∧
    (∀ nodes st, build_graph wires gates = some nodes →
      toposort nodes gates.length = some st →
      (∀ v : Nat, v < 2 ^ nI.toNat →
        ∃ row, eval_row wires gates st.2 nI nO nW (mem v) v = some row) →
      ∃ rows, build_circuit wires gates nI nO nW mem = some rows ∧
        ∀ v : Nat, v < 2 ^ nI.toNat → ∃ row, rows[v]? = some row) := by
  have hpow : (shl32 1 nI).toNat = 2 ^ nI.toNat := by
    rw [shl32_one_small h0 h30]
    have : ((2 : Int) ^ nI.toNat) = ((2 ^ nI.toNat : Nat) : Int) := by push_cast; rfl
    rw [this, Int.toNat_natCast]
  have hlen : ∀ rows, build_circuit wires gates nI nO nW mem = some rows →
      rows.length = 2 ^ nI.toNat := by
    intro rows h
    obtain ⟨nodes, st, _, _, hrows⟩ := build_circuit_rows h
    have := (opt_map_forall₂ _ _ _ hrows).length_eq
    simp only [List.length_range] at this
    rw [← this, hpow]
  refine ⟨?_, ?_⟩
  · intro rows h v hv
    have hvl : v < rows.length := by rw [hlen rows h]; exact hv
    have hrow : rows[v]? = some rows[v] := List.getElem?_eq_getElem hvl
    obtain ⟨hbits, hdec⟩ := row_input_bits h hrow
    refine ⟨rows[v], hrow, ?_, ?_, hdec⟩
    · rw [hbits]
      unfold input_bits
      rw [List.length_map, List.length_range]
    · intro i hi
      rw [hbits]
      exact input_bits_get _ _ _ hi
  · intro nodes st hg hs hrow
    obtain ⟨rows, hrows⟩ := opt_map_some
      (fun v : Nat => eval_row wires gates st.2 nI nO nW (mem v) v)
      (List.range (shl32 1 nI).toNat)
      (fun v hv => hrow v (by rw [← hpow]; exact List.mem_range.1 hv))
    have hb : build_circuit wires gates nI nO nW mem = some rows := by
      unfold build_circuit
      rw [hg]
      simp only [Option.bind_eq_bind, Option.some_bind]
      rw [hs]
      simp only [Option.some_bind]
      exact hrows
    refine ⟨rows, hb, ?_⟩
    intro v hv
    have hvl : v < rows.length := by rw [hlen rows hb]; exact hv
    exact ⟨rows[v], List.getElem?_eq_getElem hvl⟩

/-- C5 (witness): the half adder prints four rows, and the row at position 2 has the
input bits 1, 0. -/
theorem input_encoding_witness :
    build_circuit (parsed half_adder).wires (parsed half_adder).gates 2 2 4 zero_mem
      = some [([0, 0], [0, 0]), ([0, 1], [1, 0]), ([1, 0], [1, 0]), ([1, 1], [0, 1])] ∧
    ∃ row, [(([0, 0], [0, 0]) : row_t), ([0, 1], [1, 0]), ([1, 0], [1, 0]),
        ([1, 1], [0, 1])][2]? = some row ∧ row.1.length = (2 : Int).toNat ∧
      (∀ i : Nat, i < (2 : Int).toNat →
        row.1[i]? = some (land1 (shr32 ((2 : Nat) : Int)
          (((2 : Int).toNat - 1 - i : Nat) : Int)))) ∧
      decode row.1 = (2 : Nat) :=
  ⟨by decide!,
   (@input_encoding (parsed half_adder).wires (parsed half_adder).gates 2 2 4 zero_mem
      (by decide) (by decide)).1 _ (by decide!) 2 (by decide)⟩

theorem rd_in {size : Int} {a : Int → Int} {i : Int} (h0 : 0 ≤ i) (h1 : i < size) :
    rd size a i = some (a i) := by
  simp [rd, h0, h1]

theorem wr_in {size : Int} {a : Int → Int} {i v : Int} (h0 : 0 ≤ i) (h1 : i < size) :
    wr size a i v = some (upd a i v) := by
  simp only [wr, h0, h1, and_self, if_true]
  rfl

theorem load_wire_eq {e : row_env} {aw : Int → Int} {p : Nat} {w : wire_t}
    (hw : hashtable_get e.wires p = some w) (hp : (p : Int) < e.nWires)
    (hin : w.type = var_type_t.INPUT → (p : Int) < e.nInputs) :
    load_wire e aw p = some (loadf e w aw) := by
  have hid := (hashtable_get_id hw).1
  unfold load_wire loadf canon
  rw [hw]
  simp only
  by_cases h1 : w.type = var_type_t.INPUT
  · simp only [h1, if_true]
    rw [hid, rd_in (Int.natCast_nonneg p) (hin h1)]
    simp only
    rw [wr_in (Int.natCast_nonneg p) hp]
  · simp only [h1, if_false]
    by_cases h2 : w.type = var_type_t.CONSTANT
    · simp only [h2, if_true]
      by_cases h3 : w.key = "0"
      · simp only [h3, if_true]
        rw [hid, wr_in (Int.natCast_nonneg p) hp]
      · simp only [h3, if_false]
        by_cases h4 : w.key = "1"
        · simp only [h4, if_true]
          rw [hid, wr_in (Int.natCast_nonneg p) hp]
        · simp only [h4, if_false]
    · simp only [h2, if_false]

theorem loadf_apply {e : row_env} {aw : Int → Int} {p : Nat} {w : wire_t}
    (hw : hashtable_get e.wires p = some w) (k : Int) :
    loadf e w aw k = if k = (p : Int) then in_val e p (aw p) else aw k := by
  have hid := (hashtable_get_id hw).1
  unfold loadf in_val
  rw [hw]
  cases hc : canon e w with
  | none =>
    simp only [hc, Option.getD_none]
    split_ifs with h
    · rw [h]
    · rfl
  | some c =>
    simp only [hc, Option.getD_some, upd, hid]

theorem in_val_idem (e : row_env) (p : Nat) (x : Int) :
    in_val e p (in_val e p x) = in_val e p x := by
  unfold in_val
  cases hashtable_get e.wires p with
  | none => rfl
  | some w =>
    simp only
    cases canon e w <;> rfl

theorem store_output_eq {e : row_env} {st : row_state} {p : Nat} {w : wire_t}
    (hw : hashtable_get e.wires p = some w) (hp : (p : Int) < e.nWires)
    (hout : w.type = var_type_t.OUTPUT →
      e.nInputs ≤ (p : Int) ∧ (p : Int) < e.nInputs + e.nOutputs) :
    store_output e st p = some { st with outputs :=
      if w.type = var_type_t.OUTPUT then upd st.outputs ((p : Int) - e.nInputs) (st.all_wires p)
      else st.outputs } := by
  have hid := (hashtable_get_id hw).1
  unfold store_output
  rw [hw]
  simp only
  by_cases h1 : w.type = var_type_t.OUTPUT
  · simp only [h1, if_true]
    have := hout h1
    rw [rd_in (Int.natCast_nonneg p) hp]
    simp only
    rw [hid, wr_in (by omega) (by omega)]
  · simp only [h1, if_false]

theorem param_nat (g : gate_t) (i : Nat) : param g (i : Int) = g.params[i]? := by
  simp [param]

theorem eval_binary_eq {e : row_env} {g : gate_t} {st : row_state} {start : Int}
    {op : Int → Int → Int} {negate : Bool} {p0 p1 p2 : Nat} {w0 w1 w2 : wire_t}
    (hparams : g.params = [p0, p1, p2])
    (hw0 : hashtable_get e.wires p0 = some w0) (hw1 : hashtable_get e.wires p1 = some w1)
    (hw2 : hashtable_get e.wires p2 = some w2)
    (hr0 : (p0 : Int) < e.nWires) (hr1 : (p1 : Int) < e.nWires) (hr2 : (p2 : Int) < e.nWires)
    (hi0 : w0.type = var_type_t.INPUT → (p0 : Int) < e.nInputs)
    (hi1 : w1.type = var_type_t.INPUT → (p1 : Int) < e.nInputs)
    (ho2 : w2.type = var_type_t.OUTPUT →
      e.nInputs ≤ (p2 : Int) ∧ (p2 : Int) < e.nInputs + e.nOutputs)
    (h02 : p0 ≠ p2) (h12 : p1 ≠ p2) :
    eval_binary e g st start op negate = some
      { all_wires := upd (upd (upd st.all_wires p0 (in_val e p0 (st.all_wires p0))) p1
          (in_val e p1 (st.all_wires p1))) p2
          (binary_result start op negate (in_val e p0 (st.all_wires p0))
            (in_val e p1 (st.all_wires p1))),
        outputs := if w2.type = var_type_t.OUTPUT then
            upd st.outputs ((p2 : Int) - e.nInputs)
              (binary_result start op negate (in_val e p0 (st.all_wires p0))
                (in_val e p1 (st.all_wires p1)))
          else st.outputs } := by
  have hq0 : param g 0 = some p0 := by simp [param, hparams]
  have hq1 : param g ((1 : Nat) : Int) = some p1 := by simp [param, hparams]
  have hq0' : param g ((0 : Nat) : Int) = some p0 := by simp [param, hparams]
  have hq2 : param g 2 = some p2 := by simp [param, hparams]
  have n0 := Int.natCast_nonneg p0
  have n1 := Int.natCast_nonneg p1
  have n2 := Int.natCast_nonneg p2
  have h02' : (p0 : Int) ≠ p2 := by exact_mod_cast h02
  have h12' : (p1 : Int) ≠ p2 := by exact_mod_cast h12
  have hne1 : p1 = p0 ∨ p1 ≠ p0 := em _
  unfold eval_binary binary_step
  simp only [hq0, hq0', hq1, hq2, Option.bind_eq_bind, Option.some_bind, wr_in n2 hr2,
    load_wire_eq hw0 hr0 hi0, load_wire_eq hw1 hr1 hi1, rd_in n2 hr2, rd_in n0 hr0,
    rd_in n1 hr1]
  cases negate
  · simp only [Bool.false_eq_true, if_false, binary_result]
    rw [store_output_eq hw2 hr2 ho2]
    simp only [Option.some.injEq, row_state.mk.injEq]
    constructor
    · funext k
      simp only [upd, loadf_apply hw0, loadf_apply hw1]
      rcases hne1 with h10 | h10
      · subst h10
        by_cases hk2 : k = (p2 : Int)
        · simp [hk2, h12, Ne.symm h12, in_val_idem]
        · by_cases hk1 : k = (p1 : Int)
          · simp [hk1, h12, Ne.symm h12, in_val_idem]
          · simp [hk1, hk2]
      · by_cases hk2 : k = (p2 : Int)
        · simp [hk2, h12, h02, Ne.symm h12, Ne.symm h02, h10]
        · by_cases hk1 : k = (p1 : Int)
          · simp [hk1, h12, h02, Ne.symm h12, Ne.symm h02, h10]
          · simp [hk1, hk2, h02]
    · simp only [upd, loadf_apply hw0, loadf_apply hw1]
      rcases hne1 with h10 | h10
      · subst h10
        simp [h12, Ne.symm h12, in_val_idem]
      · simp [h12, h02, Ne.symm h12, Ne.symm h02, h10]
  · simp only [if_true, binary_result]
    rw [store_output_eq hw2 hr2 ho2]
    simp only [Option.some.injEq, row_state.mk.injEq]
    constructor
    · funext k
      simp only [upd, loadf_apply hw0, loadf_apply hw1]
      rcases hne1 with h10 | h10
      · subst h10
        by_cases hk2 : k = (p2 : Int)
        · simp [hk2, h12, Ne.symm h12, in_val_idem]
        · by_cases hk1 : k = (p1 : Int)
          · simp [hk1, h12, Ne.symm h12, in_val_idem]
          · simp [hk1, hk2]
      · by_cases hk2 : k = (p2 : Int)
        · simp [hk2, h12, h02, Ne.symm h12, Ne.symm h02, h10]
        · by_cases hk1 : k = (p1 : Int)
          · simp [hk1, h12, h02, Ne.symm h12, Ne.symm h02, h10]
          · simp [hk1, hk2, h02]
    · simp only [upd, loadf_apply hw0, loadf_apply hw1]
      rcases hne1 with h10 | h10
      · subst h10
        simp [h12, Ne.symm h12, in_val_idem]
      · simp [h12, h02, Ne.symm h12, Ne.symm h02, h10]

theorem in_slot_size {g : gate_t} (h : g.type ≠ type_t.MULTIPLEXER) (p : Nat) :
    in_slot g p ↔ ∃ j, j < g.size.toNat ∧ g.params[j]? = some p := by
  unfold in_slot calc_gate_in_size
  simp only [h, if_false, List.mem_range, param_nat]

theorem out_slot_one {g : gate_t} (h1 : g.type ≠ type_t.MULTIPLEXER)
    (h2 : g.type ≠ type_t.DECODER) (h0 : 0 ≤ g.size) (p : Nat) :
    out_slot g p ↔ g.params[g.size.toNat]? = some p := by
  unfold out_slot calc_gate_in_size calc_gate_out_size
  simp only [h1, h2, if_false]
  constructor
  · rintro ⟨i, hi, hp⟩
    simp at hi
    subst hi
    rw [← hp]
    simp only [Nat.cast_zero, add_zero, param, h0, if_true]
  · intro hp
    refine ⟨0, by simp, ?_⟩
    simp only [Nat.cast_zero, add_zero, param, h0, if_true]
    exact hp

theorem binary_done {e : row_env} {g : gate_t} {st : row_state} {start : Int}
    {op : Int → Int → Int} {negate : Bool}
    (hr : gate_ready e g st.all_wires)
    (h1 : g.type ≠ type_t.MULTIPLEXER) (h2 : g.type ≠ type_t.DECODER)
    (hsize : g.size = 2) (hlen : g.params.length = 3)
    (hres : ∀ c0 c1, is01 c0 → is01 c1 → is01 (binary_result start op negate c0 c1))
    (hholds : ∀ (aw : Int → Int) (a b o : Nat), g.params = [a, b, o] → is01 (aw a) →
      is01 (aw b) → aw o = binary_result start op negate (aw a) (aw b) → gate_holds e g aw) :
    ∃ st1, eval_binary e g st start op negate = some st1 ∧ gate_done e g st st1 := by
  obtain ⟨p0, p1, p2, hparams⟩ : ∃ p0 p1 p2, g.params = [p0, p1, p2] := by
    match hg : g.params, hlen with
    | [a, b, c], _ => exact ⟨a, b, c, rfl⟩
  have hin : ∀ p, in_slot g p ↔ p = p0 ∨ p = p1 := by
    intro p
    rw [in_slot_size h1, hsize, hparams]
    constructor
    · rintro ⟨j, hj, hp⟩
      have hj' : j < 2 := hj
      interval_cases j
      · left; simpa using hp.symm
      · right; simpa using hp.symm
    · rintro (h | h)
      · exact ⟨0, by decide, by simp [h]⟩
      · exact ⟨1, by decide, by simp [h]⟩
  have hout : ∀ p, out_slot g p ↔ p = p2 := by
    intro p
    rw [out_slot_one h1 h2 (by omega), hsize, hparams]
    constructor
    · intro hp; simpa using hp.symm
    · intro hp; simp [hp]
  obtain ⟨w0, hw0, hr0⟩ := hr.wires p0 (by simp [hparams])
  obtain ⟨w1, hw1, hr1⟩ := hr.wires p1 (by simp [hparams])
  obtain ⟨w2, hw2, hr2⟩ := hr.wires p2 (by simp [hparams])
  have h02 : p0 ≠ p2 := fun h => hr.apart p0 ((hin p0).2 (Or.inl rfl)) ((hout p0).2 h)
  have h12 : p1 ≠ p2 := fun h => hr.apart p1 ((hin p1).2 (Or.inr rfl)) ((hout p1).2 h)
  have hb0 := hr.ins_bool p0 ((hin p0).2 (Or.inl rfl))
  have hb1 := hr.ins_bool p1 ((hin p1).2 (Or.inr rfl))
  have heq := @eval_binary_eq e g st start op negate _ _ _ _ _ _
    hparams hw0 hw1 hw2 hr0 hr1 hr2
    (hr.ins p0 w0 ((hin p0).2 (Or.inl rfl)) hw0) (hr.ins p1 w1 ((hin p1).2 (Or.inr rfl)) hw1)
    (hr.outs p2 w2 ((hout p2).2 rfl) hw2) h02 h12
  refine ⟨_, heq, ?_⟩
  have hv0 : upd (upd (upd st.all_wires p0 (in_val e p0 (st.all_wires p0))) p1
      (in_val e p1 (st.all_wires p1))) p2
      (binary_result start op negate (in_val e p0 (st.all_wires p0))
        (in_val e p1 (st.all_wires p1))) p0 = in_val e p0 (st.all_wires p0) := by
    by_cases h10 : p1 = p0
    · subst h10; simp [upd, h12]
    · simp [upd, h02, Ne.symm h10]
  have hv1 : upd (upd (upd st.all_wires p0 (in_val e p0 (st.all_wires p0))) p1
      (in_val e p1 (st.all_wires p1))) p2
      (binary_result start op negate (in_val e p0 (st.all_wires p0))
        (in_val e p1 (st.all_wires p1))) p1 = in_val e p1 (st.all_wires p1) := by
    simp [upd, h12]
  have hv2 : upd (upd (upd st.all_wires p0 (in_val e p0 (st.all_wires p0))) p1
      (in_val e p1 (st.all_wires p1))) p2
      (binary_result start op negate (in_val e p0 (st.all_wires p0))
        (in_val e p1 (st.all_wires p1))) p2 =
      binary_result start op negate (in_val e p0 (st.all_wires p0))
        (in_val e p1 (st.all_wires p1)) := by
    simp [upd]
  constructor
  · intro k hko hki
    have k2 : k ≠ (p2 : Int) := fun h => hko p2 ((hout p2).2 rfl) h.symm
    have k1 : k ≠ (p1 : Int) := fun h => hki p1 ((hin p1).2 (Or.inr rfl)) h.symm
    have k0 : k ≠ (p0 : Int) := fun h => hki p0 ((hin p0).2 (Or.inl rfl)) h.symm
    simp [upd, k0, k1, k2]
  · intro p hp
    rcases (hin p).1 hp with h | h
    · subst h; exact hv0
    · subst h; exact hv1
  · intro p hp
    rw [(hout p).1 hp]
    show is01 (upd _ _ _ _)
    rw [hv2]
    exact hres _ _ hb0 hb1
  · apply hholds _ p0 p1 p2 hparams
    · show is01 (upd _ _ _ _); rw [hv0]; exact hb0
    · show is01 (upd _ _ _ _); rw [hv1]; exact hb1
    · show upd _ _ _ _ = binary_result _ _ _ (upd _ _ _ _) (upd _ _ _ _)
      rw [hv0, hv1, hv2]
  · intro k hk
    simp only
    split_ifs with hty
    · have := hk p2 w2 ((hout p2).2 rfl) hw2 hty
      simp [upd, Ne.symm this]
    · rfl
  · intro p w hp hw hty
    have hpp := (hout p).1 hp
    subst hpp
    rw [hw2] at hw
    cases hw
    simp only [hty, if_true]
    show upd _ _ _ _ = upd _ _ _ _
    rw [hv2]
    simp [upd]

theorem eval_unary_eq {e : row_env} {g : gate_t} {st : row_state} {negate : Bool}
    {p0 p1 : Nat} {w0 w1 : wire_t}
    (hparams : g.params = [p0, p1])
    (hw0 : hashtable_get e.wires p0 = some w0) (hw1 : hashtable_get e.wires p1 = some w1)
    (hr0 : (p0 : Int) < e.nWires) (hr1 : (p1 : Int) < e.nWires)
    (hi0 : w0.type = var_type_t.INPUT → (p0 : Int) < e.nInputs)
    (ho1 : w1.type = var_type_t.OUTPUT →
      e.nInputs ≤ (p1 : Int) ∧ (p1 : Int) < e.nInputs + e.nOutputs)
    (h01 : p0 ≠ p1) :
    eval_unary e g st negate = some
      { all_wires := upd (upd st.all_wires p0 (in_val e p0 (st.all_wires p0))) p1
          (if negate then lnot (in_val e p0 (st.all_wires p0))
            else in_val e p0 (st.all_wires p0)),
        outputs := if w1.type = var_type_t.OUTPUT then
            upd st.outputs ((p1 : Int) - e.nInputs)
              (if negate then lnot (in_val e p0 (st.all_wires p0))
                else in_val e p0 (st.all_wires p0))
          else st.outputs } := by
  have hq0 : param g 0 = some p0 := by simp [param, hparams]
  have hq1 : param g 1 = some p1 := by simp [param, hparams]
  have n0 := Int.natCast_nonneg p0
  have n1 := Int.natCast_nonneg p1
  unfold eval_unary
  simp only [hq0, hq1, Option.bind_eq_bind, Option.some_bind, wr_in n1 hr1,
    load_wire_eq hw0 hr0 hi0, rd_in n0 hr0]
  rw [store_output_eq hw1 hr1 ho1]
  simp only [Option.some.injEq, row_state.mk.injEq]
  constructor
  · funext k
    simp only [upd, loadf_apply hw0]
    by_cases hk1 : k = (p1 : Int)
    · simp [hk1]
    · by_cases hk0 : k = (p0 : Int)
      · simp [hk0, h01]
      · simp [hk0, hk1]
  · simp only [upd, loadf_apply hw0]
    simp

theorem unary_done {e : row_env} {g : gate_t} {st : row_state} {negate : Bool}
    (hr : gate_ready e g st.all_wires)
    (h1 : g.type ≠ type_t.MULTIPLEXER) (h2 : g.type ≠ type_t.DECODER)
    (hsize : g.size = 1) (hlen : g.params.length = 2)
    (hholds : ∀ (aw : Int → Int) (a o : Nat), g.params = [a, o] → is01 (aw a) →
      aw o = (if negate then lnot (aw a) else aw a) → gate_holds e g aw) :
    ∃ st1, eval_unary e g st negate = some st1 ∧ gate_done e g st st1 := by
  obtain ⟨p0, p1, hparams⟩ : ∃ p0 p1, g.params = [p0, p1] := by
    match hg : g.params, hlen with
    | [a, b], _ => exact ⟨a, b, rfl⟩
  have hin : ∀ p, in_slot g p ↔ p = p0 := by
    intro p
    rw [in_slot_size h1, hsize, hparams]
    constructor
    · rintro ⟨j, hj, hp⟩
      have hj' : j < 1 := hj
      interval_cases j
      simpa using hp.symm
    · intro h
      exact ⟨0, by decide, by simp [h]⟩
  have hout : ∀ p, out_slot g p ↔ p = p1 := by
    intro p
    rw [out_slot_one h1 h2 (by omega), hsize, hparams]
    constructor
    · intro hp; simpa using hp.symm
    · intro hp; simp [hp]
  obtain ⟨w0, hw0, hr0⟩ := hr.wires p0 (by simp [hparams])
  obtain ⟨w1, hw1, hr1⟩ := hr.wires p1 (by simp [hparams])
  have h01 : p0 ≠ p1 := fun h => hr.apart p0 ((hin p0).2 rfl) ((hout p0).2 h)
  have hb0 := hr.ins_bool p0 ((hin p0).2 rfl)
  have heq := @eval_unary_eq e g st negate _ _ _ _ hparams hw0 hw1 hr0 hr1
    (hr.ins p0 w0 ((hin p0).2 rfl) hw0) (hr.outs p1 w1 ((hout p1).2 rfl) hw1) h01
  refine ⟨_, heq, ?_⟩
  have hres : is01 (if negate then lnot (in_val e p0 (st.all_wires p0))
      else in_val e p0 (st.all_wires p0)) := by
    rcases hb0 with h | h <;> cases negate <;> simp [h, lnot, is01]
  constructor
  · intro k hko hki
    have k1 : k ≠ (p1 : Int) := fun h => hko p1 ((hout p1).2 rfl) h.symm
    have k0 : k ≠ (p0 : Int) := fun h => hki p0 ((hin p0).2 rfl) h.symm
    simp [upd, k0, k1]
  · intro p hp
    rw [(hin p).1 hp]
    simp [upd, h01]
  · intro p hp
    rw [(hout p).1 hp]
    simp only [upd, if_true]
    exact hres
  · apply hholds _ p0 p1 hparams
    · simp only [upd, Nat.cast_inj, h01, if_false, if_true]
      exact hb0
    · simp [upd, h01]
  · intro k hk
    simp only
    by_cases hty : w1.type = var_type_t.OUTPUT
    · have := hk p1 w1 ((hout p1).2 rfl) hw1 hty
      simp [hty, upd, Ne.symm this]
    · simp [hty]
  · intro p w hp hw hty
    have hpp := (hout p).1 hp
    subst hpp
    rw [hw1] at hw
    cases hw
    simp [hty, upd]

theorem is01_cases {x : Int} (h : is01 x) : x = 0 ∨ x = 1 := h

theorem simple_gate_done {e : row_env} {g : gate_t} {st : row_state}
    (hr : gate_ready e g st.all_wires)
    (h1 : g.type ≠ type_t.MULTIPLEXER) (h2 : g.type ≠ type_t.DECODER) :
    ∃ st1, eval_gate e g st = some st1 ∧ gate_done e g st st1 := by
  have har := hr.arity
  unfold arity_ok at har
  unfold eval_gate
  cases hty : g.type
  case MULTIPLEXER => exact absurd hty h1
  case DECODER => exact absurd hty h2
  case AND =>
    simp only [hty] at har ⊢
    refine binary_done hr h1 h2 har.1 har.2 ?_ ?_
    · intro c0 c1 h0 h1
      rcases h0 with h0 | h0 <;> rcases h1 with h1 | h1 <;> subst h0 <;> subst h1 <;> decide
    · intro aw a b o hp ha hb ho
      unfold gate_holds
      simp only [hty]
      intro a' b' o' hp' _
      rw [hp] at hp'
      simp only [List.cons.injEq, and_true] at hp'
      obtain ⟨rfl, rfl, rfl⟩ := hp'
      rw [ho]
      rcases ha with ha | ha <;> rcases hb with hb | hb <;> rw [ha, hb] <;> decide
  case OR =>
    simp only [hty] at har ⊢
    refine binary_done hr h1 h2 har.1 har.2 ?_ ?_
    · intro c0 c1 h0 h1
      rcases h0 with h0 | h0 <;> rcases h1 with h1 | h1 <;> subst h0 <;> subst h1 <;> decide
    · intro aw a b o hp ha hb ho
      unfold gate_holds
      simp only [hty]
      intro a' b' o' hp' _
      rw [hp] at hp'
      simp only [List.cons.injEq, and_true] at hp'
      obtain ⟨rfl, rfl, rfl⟩ := hp'
      rw [ho]
      rcases ha with ha | ha <;> rcases hb with hb | hb <;> rw [ha, hb] <;> decide
  case NAND =>
    simp only [hty] at har ⊢
    refine binary_done hr h1 h2 har.1 har.2 ?_ ?_
    · intro c0 c1 h0 h1
      rcases h0 with h0 | h0 <;> rcases h1 with h1 | h1 <;> subst h0 <;> subst h1 <;> decide
    · intro aw a b o hp ha hb ho
      unfold gate_holds
      simp only [hty]
      intro a' b' o' hp' _
      rw [hp] at hp'
      simp only [List.cons.injEq, and_true] at hp'
      obtain ⟨rfl, rfl, rfl⟩ := hp'
      rw [ho]
      rcases ha with ha | ha <;> rcases hb with hb | hb <;> rw [ha, hb] <;> decide
  case NOR =>
    simp only [hty] at har ⊢
    refine binary_done hr h1 h2 har.1 har.2 ?_ ?_
    · intro c0 c1 h0 h1
      rcases h0 with h0 | h0 <;> rcases h1 with h1 | h1 <;> subst h0 <;> subst h1 <;> decide
    · intro aw a b o hp ha hb ho
      unfold gate_holds
      simp only [hty]
      intro a' b' o' hp' _
      rw [hp] at hp'
      simp only [List.cons.injEq, and_true] at hp'
      obtain ⟨rfl, rfl, rfl⟩ := hp'
      rw [ho]
      rcases ha with ha | ha <;> rcases hb with hb | hb <;> rw [ha, hb] <;> decide
  case XOR =>
    simp only [hty] at har ⊢
    refine binary_done hr h1 h2 har.1 har.2 ?_ ?_
    · intro c0 c1 h0 h1
      rcases h0 with h0 | h0 <;> rcases h1 with h1 | h1 <;> subst h0 <;> subst h1 <;> decide
    · intro aw a b o hp ha hb ho
      unfold gate_holds
      simp only [hty]
      intro a' b' o' hp' _
      rw [hp] at hp'
      simp only [List.cons.injEq, and_true] at hp'
      obtain ⟨rfl, rfl, rfl⟩ := hp'
      rw [ho]
      rcases ha with ha | ha <;> rcases hb with hb | hb <;> rw [ha, hb] <;> decide
  case NOT =>
    simp only [hty] at har ⊢
    refine unary_done hr h1 h2 har.1 har.2 ?_
    intro aw a o hp ha ho
    unfold gate_holds
    simp only [hty]
    intro a' o' hp' _
    rw [hp] at hp'
    simp only [List.cons.injEq, and_true] at hp'
    obtain ⟨rfl, rfl⟩ := hp'
    rw [ho]
    rcases ha with ha | ha <;> rw [ha] <;> decide
  case PASS =>
    simp only [hty] at har ⊢
    refine unary_done hr h1 h2 har.1 har.2 ?_
    intro aw a o hp ha ho
    unfold gate_holds
    simp only [hty]
    intro a' o' hp' _
    rw [hp] at hp'
    simp only [List.cons.injEq, and_true] at hp'
    obtain ⟨rfl, rfl⟩ := hp'
    rw [ho]
    simp

theorem lor_eq_add {a b q : Int} {t : Nat} (hq : 0 ≤ q) (ha : a = 2 ^ t * q)
    (hb0 : 0 ≤ b) (hb : b < 2 ^ t) : Int.lor a b = a + b := by
  obtain ⟨b', rfl⟩ := Int.eq_ofNat_of_zero_le hb0
  obtain ⟨q, rfl⟩ := Int.eq_ofNat_of_zero_le hq
  have ha' : a = ((2 ^ t * q : Nat) : Int) := by rw [ha]; push_cast; rfl
  subst ha'
  have hb' : b' < 2 ^ t := by exact_mod_cast hb
  show ((2 ^ t * q ||| b' : Nat) : Int) = _
  rw [← Nat.mul_add_lt_is_or hb']
  push_cast
  rfl

theorem loaded_nil (e : row_env) (aw : Int → Int) : loaded e [] aw = aw := by
  funext k
  simp [loaded]

theorem loadf_loaded {e : row_env} {ps : List Nat} {aw : Int → Int} {p : Nat} {w : wire_t}
    (hw : hashtable_get e.wires p = some w) :
    loadf e w (loaded e ps aw) = loaded e (ps ++ [p]) aw := by
  funext k
  rw [loadf_apply hw]
  unfold loaded
  by_cases hk : k = (p : Int)
  · subst hk
    simp only [if_true, List.map_append, List.map_cons, List.map_nil, List.mem_append,
      List.mem_singleton, or_true, Int.toNat_natCast]
    split_ifs
    · rw [in_val_idem]
    · rfl
  · simp only [hk, if_false, List.map_append, List.map_cons, List.map_nil, List.mem_append,
      List.mem_singleton, or_false]

theorem slot_list_succ {g : gate_t} {base m : Nat} (h : base + m < g.params.length) :
    slot_list g base (m + 1) = slot_list g base m ++ [g.params[base + m]] := by
  unfold slot_list
  rw [List.take_succ]
  congr 1
  rw [List.getElem?_drop, List.getElem?_eq_getElem h]
  rfl

theorem slot_list_length {g : gate_t} {base m : Nat} (h : base + m ≤ g.params.length) :
    (slot_list g base m).length = m := by
  unfold slot_list
  simp
  omega

theorem mem_slot_list {g : gate_t} {base m p : Nat} :
    p ∈ slot_list g base m ↔ ∃ i, i < m ∧ g.params[base + i]? = some p := by
  unfold slot_list
  rw [List.mem_take_iff_getElem]
  constructor
  · rintro ⟨i, hi, hp⟩
    simp only [List.length_drop, lt_min_iff] at hi
    refine ⟨i, hi.1, ?_⟩
    rw [← hp, List.getElem_drop]
    exact List.getElem?_eq_getElem _
  · rintro ⟨i, hi, hp⟩
    obtain ⟨hlt, hget⟩ := List.getElem?_eq_some_iff.1 hp
    refine ⟨i, ?_, ?_⟩
    · simp only [List.length_drop, lt_min_iff]
      omega
    · rw [List.getElem_drop]
      exact hget

theorem decode_nonneg : ∀ (l : List Int), (∀ x ∈ l, is01 x) → 0 ≤ decode l := by
  intro l
  induction l using List.reverseRecOn with
  | nil => intro _; simp [decode]
  | append_singleton l b ih =>
    intro h
    rw [decode_append]
    have h1 := ih (fun x hx => h x (List.mem_append_left _ hx))
    have h2 : is01 b := h b (by simp)
    rcases h2 with h2 | h2 <;> omega

theorem decode_lt : ∀ (l : List Int), (∀ x ∈ l, is01 x) → decode l < 2 ^ l.length := by
  intro l
  induction l using List.reverseRecOn with
  | nil => intro _; simp [decode]
  | append_singleton l b ih =>
    intro h
    rw [decode_append, List.length_append, List.length_singleton, pow_succ]
    have h1 := ih (fun x hx => h x (List.mem_append_left _ hx))
    have h2 : is01 b := h b (by simp)
    rcases h2 with h2 | h2 <;> omega

theorem loaded_mem {e : row_env} {ps : List Nat} {aw : Int → Int} {p : Nat} (hp : p ∈ ps) :
    loaded e ps aw p = in_val e p (aw p) := by
  unfold loaded
  have : (p : Int) ∈ ps.map (fun p : Nat => (p : Int)) := List.mem_map_of_mem _ hp
  simp only [this, if_true, Int.toNat_natCast]

theorem loaded_not_mem {e : row_env} {ps : List Nat} {aw : Int → Int} {k : Int}
    (hk : ∀ p ∈ ps, (p : Int) ≠ k) : loaded e ps aw k = aw k := by
  unfold loaded
  have : k ∉ ps.map (fun p : Nat => (p : Int)) := by
    intro h
    obtain ⟨p, hp, hpk⟩ := List.mem_map.1 h
    exact hk p hp hpk
  simp only [this, if_false]

theorem shl32_bit {v : Int} {t : Nat} (hv : is01 v) (ht : t ≤ 30) :
    shl32 v (t : Int) = v * 2 ^ t := by
  unfold shl32
  simp only [Int.toNat_natCast]
  have h2 : (2 : Int) ^ t ≤ 2 ^ 30 := pow_le_pow_right₀ (by norm_num) ht
  have h3 : (0 : Int) < 2 ^ t := by positivity
  rcases hv with hv | hv <;> subst hv
  · simp [wrap32]
  · rw [one_mul]
    apply wrap32_eq <;> omega

theorem select_loop {e : row_env} {g : gate_t} {aw : Int → Int} {last base : Int} {b m : Nat}
    (hbase : base = (b : Int)) (hlast : last = (b : Int) + (m : Int)) (hm : m ≤ 30)
    (hlen : b + m ≤ g.params.length)
    (hslots : ∀ p ∈ slot_list g b m, ∃ w, hashtable_get e.wires p = some w ∧
      (p : Int) < e.nWires ∧ (w.type = var_type_t.INPUT → (p : Int) < e.nInputs))
    (hbool : ∀ p ∈ slot_list g b m, is01 (in_val e p (aw p))) :
    (List.range m).foldlM (fun s (k : Nat) => select_step e g last s (base + (k : Int)))
        (aw, (0 : Int))
      = some (loaded e (slot_list g b m) aw,
          decode ((slot_list g b m).map (fun p : Nat => in_val e p (aw p)))) := by
  have key : ∀ j : Nat, j ≤ m →
      (List.range j).foldlM (fun s (k : Nat) => select_step e g last s (base + (k : Int)))
          (aw, (0 : Int))
        = some (loaded e (slot_list g b j) aw,
            decode ((slot_list g b j).map (fun p : Nat => in_val e p (aw p))) * 2 ^ (m - j)) := by
    intro j
    induction j with
    | zero =>
      intro _
      simp [slot_list, loaded_nil, decode]
    | succ j ih =>
      intro hj
      have hjl : b + j < g.params.length := by omega
      have hsl := @slot_list_succ g b j hjl
      have hpm : g.params[b + j] ∈ slot_list g b m :=
        mem_slot_list.2 ⟨j, by omega, List.getElem?_eq_getElem hjl⟩
      obtain ⟨w, hw, hr, hi⟩ := hslots _ hpm
      have hb := hbool _ hpm
      have hsub : ∀ p ∈ slot_list g b j, p ∈ slot_list g b m := by
        intro p hp
        obtain ⟨i, hi, hp⟩ := mem_slot_list.1 hp
        exact mem_slot_list.2 ⟨i, by omega, hp⟩
      have hq : param g (base + (j : Int)) = some g.params[b + j] := by
        rw [hbase]
        have : ((b : Int) + (j : Int)) = ((b + j : Nat) : Int) := by push_cast; rfl
        rw [this, param_nat, List.getElem?_eq_getElem hjl]
      rw [List.range_succ, List.foldlM_append, ih (by omega)]
      simp only [Option.bind_eq_bind, Option.some_bind, List.foldlM_cons, List.foldlM_nil,
        select_step, hq, load_wire_eq hw hr hi, rd_in (Int.natCast_nonneg _) hr,
        loadf_loaded hw, ← hsl, Option.pure_def]
      rw [loaded_mem (by rw [hsl]; simp)]
      simp only [Option.some.injEq, Prod.mk.injEq, true_and]
      have hsh : last - (base + (j : Int)) - 1 = ((m - (j + 1) : Nat) : Int) := by
        rw [hlast, hbase]; omega
      rw [hsh, shl32_bit hb (by omega), hsl, List.map_append, List.map_cons, List.map_nil,
        decode_append]
      have hpow : (2 : Int) ^ (m - j) = 2 ^ (m - (j + 1) + 1) := by
        congr 1; omega
      have hd0 := decode_nonneg ((slot_list g b j).map (fun p : Nat => in_val e p (aw p)))
        (by
          intro x hx
          obtain ⟨p, hp, hpx⟩ := List.mem_map.1 hx
          rw [← hpx]
          exact hbool p (hsub p hp))
      have hpos : (0 : Int) < 2 ^ (m - (j + 1)) := by positivity
      rw [lor_eq_add (q := decode ((slot_list g b j).map (fun p : Nat => in_val e p (aw p))))
        (t := m - (j + 1) + 1) hd0 (by rw [hpow]; ring)]
      · rw [hpow, pow_succ]; ring
      · rcases hb with hb | hb <;> rw [hb] <;> simp
      · rw [pow_succ]
        rcases hb with hb | hb <;> rw [hb] <;> omega
  have := key m (le_refl _)
  simpa using this

theorem load_loop {e : row_env} {g : gate_t} {aw : Int → Int} {m : Nat}
    (hlen : m ≤ g.params.length)
    (hslots : ∀ p ∈ slot_list g 0 m, ∃ w, hashtable_get e.wires p = some w ∧
      (p : Int) < e.nWires ∧ (w.type = var_type_t.INPUT → (p : Int) < e.nInputs)) :
    (List.range m).foldlM (fun aw (i : Nat) => (param g (i : Int)).bind (load_wire e aw)) aw
      = some (loaded e (slot_list g 0 m) aw) := by
  have key : ∀ j : Nat, j ≤ m →
      (List.range j).foldlM (fun aw (i : Nat) => (param g (i : Int)).bind (load_wire e aw)) aw
        = some (loaded e (slot_list g 0 j) aw) := by
    intro j
    induction j with
    | zero => intro _; simp [slot_list, loaded_nil]
    | succ j ih =>
      intro hj
      have hjl : 0 + j < g.params.length := by omega
      have hsl := @slot_list_succ g 0 j hjl
      have hpm : g.params[0 + j] ∈ slot_list g 0 m :=
        mem_slot_list.2 ⟨j, by omega, List.getElem?_eq_getElem hjl⟩
      obtain ⟨w, hw, hr, hi⟩ := hslots _ hpm
      have hq : param g (j : Int) = some g.params[0 + j] := by
        rw [param_nat, List.getElem?_eq_getElem (by omega)]
        simp
      rw [List.range_succ, List.foldlM_append, ih (by omega)]
      simp only [Option.bind_eq_bind, Option.some_bind, List.foldlM_cons, List.foldlM_nil, hq,
        load_wire_eq hw hr hi, loadf_loaded hw, ← hsl, Option.pure_def]
  exact key m (le_refl _)

theorem decoder_out_loop {e : row_env} {g : gate_t} {st : row_state} {dec : Int} {b m : Nat}
    (hin : calc_gate_in_size g = (b : Int)) (hlen : b + m ≤ g.params.length)
    (hslots : ∀ p ∈ slot_list g b m, ∃ w, hashtable_get e.wires p = some w ∧
      (p : Int) < e.nWires ∧ (w.type = var_type_t.OUTPUT →
        e.nInputs ≤ (p : Int) ∧ (p : Int) < e.nInputs + e.nOutputs))
    (hdist : ∀ i j p, i ≠ j → i < m → j < m → g.params[b + i]? = some p →
      g.params[b + j]? = some p → ¬ live e p) :
    ∃ st1, (List.range m).foldlM
        (fun st1 (k : Nat) => decoder_out_step e g dec st1 (calc_gate_in_size g + (k : Int))) st
        = some st1 ∧ decoder_outs e g b dec st st1 m := by
  have key : ∀ j : Nat, j ≤ m → ∃ st1, (List.range j).foldlM
        (fun st1 (k : Nat) => decoder_out_step e g dec st1 (calc_gate_in_size g + (k : Int))) st
        = some st1 ∧ decoder_outs e g b dec st st1 j := by
    intro j
    induction j with
    | zero =>
      intro _
      refine ⟨st, rfl, ?_⟩
      constructor
      · intro x _; rfl
      · intro i p hi; omega
      · intro i p hi; omega
      · intro x _; rfl
      · intro i p w hi; omega
    | succ j ih =>
      intro hj
      obtain ⟨st1, hst1, inv⟩ := ih (by omega)
      have hjl : b + j < g.params.length := by omega
      have hpj : g.params[b + j]? = some g.params[b + j] := List.getElem?_eq_getElem hjl
      have hpm : g.params[b + j] ∈ slot_list g b m := mem_slot_list.2 ⟨j, by omega, hpj⟩
      obtain ⟨w, hw, hr, ho⟩ := hslots _ hpm
      have hq : param g (calc_gate_in_size g + (j : Int)) = some g.params[b + j] := by
        rw [hin]
        have : ((b : Int) + (j : Int)) = ((b + j : Nat) : Int) := by push_cast; rfl
        rw [this, param_nat, hpj]
      have hother : ∀ i p, i < j → g.params[b + i]? = some p → live e p →
          p ≠ g.params[b + j] := by
        intro i p hi hp hl hpe
        subst hpe
        exact hdist i j _ (by omega) (by omega) (by omega) hp hpj hl
      have hlive_out : ∀ p w, hashtable_get e.wires p = some w →
          w.type = var_type_t.OUTPUT → live e p := by
        intro p w hw hty w' hw'
        rw [hw] at hw'
        cases hw'
        rw [hty]
        decide
      have hstep : decoder_out_step e g dec st1 (calc_gate_in_size g + (j : Int)) = some
          { all_wires := upd st1.all_wires (g.params[b + j] : Int)
              (if calc_gate_in_size g + (j : Int) - calc_gate_in_size g = dec then 1 else 0),
            outputs := if w.type = var_type_t.OUTPUT then
                upd st1.outputs ((g.params[b + j] : Int) - e.nInputs)
                  (upd st1.all_wires (g.params[b + j] : Int)
                    (if calc_gate_in_size g + (j : Int) - calc_gate_in_size g = dec then 1 else 0)
                    (g.params[b + j] : Int))
              else st1.outputs } := by
        simp only [Option.bind_eq_bind, Option.some_bind,
          decoder_out_step, hq, hw, wr_in (Int.natCast_nonneg _) hr,
          store_output_eq hw hr ho, Option.pure_def]
      rw [List.range_succ, List.foldlM_append, hst1]
      simp only [Option.bind_eq_bind, Option.some_bind, List.foldlM_cons, List.foldlM_nil,
        hstep, Option.pure_def]
      refine ⟨_, rfl, ?_⟩
      · constructor
        · intro x hx
          have hxj : x ≠ (g.params[b + j] : Int) := fun h => hx j _ (by omega) hpj h.symm
          simp only [upd, hxj, if_false]
          exact inv.frame x (fun i p hi hp => hx i p (by omega) hp)
        · intro i p hi hp hl
          by_cases hij : i = j
          · subst hij
            rw [hpj] at hp
            cases hp
            simp only [upd, if_true, hin, add_sub_cancel_left]
            unfold bit
            by_cases hd : (i : Int) = dec <;> simp [hd]
          · have hne := hother i p (by omega) hp hl
            have hne' : (p : Int) ≠ (g.params[b + j] : Int) := by exact_mod_cast hne
            simp only [upd, hne', if_false]
            exact inv.value i p (by omega) hp hl
        · intro i p hi hp
          by_cases hpe : (p : Int) = (g.params[b + j] : Int)
          · simp only [upd, hpe, if_true]
            split_ifs <;> simp [is01]
          · simp only [upd, hpe, if_false]
            by_cases hij : i = j
            · subst hij
              rw [hpj] at hp
              cases hp
              exact absurd rfl hpe
            · exact inv.bool i p (by omega) hp
        · intro x hx
          simp only
          by_cases hty : w.type = var_type_t.OUTPUT
          · have hxj := hx j _ w (by omega) hpj hw hty
            simp only [hty, if_true, upd, Ne.symm hxj, if_false]
            exact inv.out_frame x (fun i p w hi hp => hx i p w (by omega) hp)
          · simp only [hty, if_false]
            exact inv.out_frame x (fun i p w hi hp => hx i p w (by omega) hp)
        · intro i p w' hi hp hw' hty'
          by_cases hij : i = j
          · subst hij
            rw [hpj] at hp
            cases hp
            rw [hw] at hw'
            cases hw'
            simp only [hty', if_true, upd]
          · have hne := hother i p (by omega) hp (hlive_out p w' hw' hty')
            have hne' : (p : Int) ≠ (g.params[b + j] : Int) := by exact_mod_cast hne
            have hne2 : (p : Int) - e.nInputs ≠ (g.params[b + j] : Int) - e.nInputs := by
              omega
            simp only [upd, hne', if_false]
            by_cases hty : w.type = var_type_t.OUTPUT
            · simp only [hty, if_true, upd, hne2, if_false]
              exact inv.out_val i p w' (by omega) hp hw' hty'
            · simp only [hty, if_false]
              exact inv.out_val i p w' (by omega) hp hw' hty'
  exact key m (le_refl _)

theorem two_pow_toNat (k : Nat) : ((2 : Int) ^ k).toNat = 2 ^ k := by
  have : ((2 : Int) ^ k) = ((2 ^ k : Nat) : Int) := by push_cast; rfl
  rw [this, Int.toNat_natCast]

theorem two_pow_le_30 {k : Nat} (hk : k ≤ 30) : (2 : Int) ^ k ≤ 1073741824 := by
  have : (2 : Int) ^ k ≤ 2 ^ 30 := pow_le_pow_right₀ (by norm_num) hk
  simpa using this

theorem in_slot_iff {g : gate_t} {n : Nat} (hin : calc_gate_in_size g = (n : Int)) (p : Nat) :
    in_slot g p ↔ p ∈ slot_list g 0 n := by
  unfold in_slot
  rw [hin, Int.toNat_natCast, mem_slot_list]
  simp only [List.mem_range, param_nat, zero_add]

theorem out_slot_iff {g : gate_t} {n m : Nat} (hin : calc_gate_in_size g = (n : Int))
    (hout : calc_gate_out_size g = (m : Int)) (p : Nat) :
    out_slot g p ↔ p ∈ slot_list g n m := by
  unfold out_slot
  rw [hin, hout, Int.toNat_natCast, mem_slot_list]
  simp only [List.mem_range]
  constructor
  · rintro ⟨i, hi, hp⟩
    refine ⟨i, hi, ?_⟩
    rw [← hp]
    have : ((n : Int) + (i : Int)) = ((n + i : Nat) : Int) := by push_cast; rfl
    rw [this, param_nat]
  · rintro ⟨i, hi, hp⟩
    refine ⟨i, hi, ?_⟩
    rw [← hp]
    have : ((n : Int) + (i : Int)) = ((n + i : Nat) : Int) := by push_cast; rfl
    rw [this, param_nat]

theorem mem_params_of_slot {g : gate_t} {b m p : Nat} (h : p ∈ slot_list g b m) :
    p ∈ g.params := by
  obtain ⟨i, _, hp⟩ := mem_slot_list.1 h
  obtain ⟨hlt, hget⟩ := List.getElem?_eq_some_iff.1 hp
  rw [← hget]
  exact List.getElem_mem _

theorem decoder_done {e : row_env} {g : gate_t} {st : row_state}
    (hr : gate_ready e g st.all_wires) (hty : g.type = type_t.DECODER) :
    ∃ st1, eval_gate e g st = some st1 ∧ gate_done e g st st1 := by
  obtain ⟨hs0, hs30⟩ := hr.size_ok (Or.inl hty)
  obtain ⟨n, hn⟩ := Int.eq_ofNat_of_zero_le hs0
  have hn30 : n ≤ 30 := by omega
  have hpow := two_pow_le_30 hn30
  have hpos : (0 : Int) < 2 ^ n := by positivity
  have hshl : shl32 1 g.size = ((2 ^ n : Nat) : Int) := by
    rw [shl32_one_small hs0 hs30, hn, Int.toNat_natCast]
    push_cast
    rfl
  have hin : calc_gate_in_size g = (n : Int) := by
    unfold calc_gate_in_size
    simp [hty, hn]
  have hout : calc_gate_out_size g = ((2 ^ n : Nat) : Int) := by
    unfold calc_gate_out_size
    simp only [hty, if_true, hshl]
  have har := hr.arity
  unfold arity_ok at har
  simp only [hty] at har
  have hlen : g.params.length = n + 2 ^ n := by
    rw [har.1, hshl, hn, Int.toNat_natCast, Int.toNat_natCast]
  have hcount : (wrap32 (calc_gate_in_size g + calc_gate_out_size g)
      - calc_gate_in_size g).toNat = 2 ^ n := by
    rw [hin, hout, wrap32_eq (by push_cast; omega) (by push_cast; omega)]
    rw [add_sub_cancel_left, Int.toNat_natCast]
  have hins : ∀ p ∈ slot_list g 0 n, ∃ w, hashtable_get e.wires p = some w ∧
      (p : Int) < e.nWires ∧ (w.type = var_type_t.INPUT → (p : Int) < e.nInputs) := by
    intro p hp
    obtain ⟨w, hw, hrange⟩ := hr.wires p (mem_params_of_slot hp)
    exact ⟨w, hw, hrange, hr.ins p w ((in_slot_iff hin p).2 hp) hw⟩
  have houts : ∀ p ∈ slot_list g n (2 ^ n), ∃ w, hashtable_get e.wires p = some w ∧
      (p : Int) < e.nWires ∧ (w.type = var_type_t.OUTPUT →
        e.nInputs ≤ (p : Int) ∧ (p : Int) < e.nInputs + e.nOutputs) := by
    intro p hp
    obtain ⟨w, hw, hrange⟩ := hr.wires p (mem_params_of_slot hp)
    exact ⟨w, hw, hrange, hr.outs p w ((out_slot_iff hin hout p).2 hp) hw⟩
  have hsel := @select_loop e g st.all_wires g.size 0 0 n rfl (by rw [hn]; simp) hn30 (by omega) hins
    (fun p hp => hr.ins_bool p ((in_slot_iff hin p).2 hp))
  simp only [zero_add] at hsel
  have hdist : ∀ i j p, i ≠ j → i < 2 ^ n → j < 2 ^ n → g.params[n + i]? = some p →
      g.params[n + j]? = some p → ¬ live e p := by
    intro i j p hij hi hj hpi hpj
    apply hr.distinct i j hij p
    · rw [hin]
      have : ((n : Int) + (i : Int)) = ((n + i : Nat) : Int) := by push_cast; rfl
      rw [this, param_nat, hpi]
    · rw [hout, Int.toNat_natCast]; exact hi
    · rw [hin]
      have : ((n : Int) + (j : Int)) = ((n + j : Nat) : Int) := by push_cast; rfl
      rw [this, param_nat, hpj]
    · rw [hout, Int.toNat_natCast]; exact hj
  obtain ⟨st1, hloop, inv⟩ := @decoder_out_loop e g
    { st with all_wires := loaded e (slot_list g 0 n) st.all_wires }
    (decode ((slot_list g 0 n).map (fun p : Nat => in_val e p (st.all_wires p))))
    n (2 ^ n) hin (by omega) houts hdist
  refine ⟨st1, ?_, ?_⟩
  · unfold eval_gate eval_decoder
    simp only [hty, hn, Int.toNat_natCast, Option.bind_eq_bind]
    rw [← hn, hsel]
    simp only [Option.some_bind, hcount]
    exact hloop
  · have hfr : ∀ k : Int, (∀ p, out_slot g p → (p : Int) ≠ k) →
        st1.all_wires k = loaded e (slot_list g 0 n) st.all_wires k := by
      intro k hk
      apply inv.frame k
      intro i p hi hp
      exact hk p ((out_slot_iff hin hout p).2 (mem_slot_list.2 ⟨i, hi, hp⟩))
    have hiv : ∀ p, in_slot g p → st1.all_wires p = in_val e p (st.all_wires p) := by
      intro p hp
      rw [hfr p (fun q hq h => hr.apart p hp (by
        have : q = p := by exact_mod_cast h
        rw [← this]; exact hq))]
      exact loaded_mem ((in_slot_iff hin p).1 hp)
    constructor
    · intro k hko hki
      rw [hfr k hko]
      apply loaded_not_mem
      intro p hp
      exact hki p ((in_slot_iff hin p).2 hp)
    · exact hiv
    · intro p hp
      obtain ⟨i, hi, hpi⟩ := mem_slot_list.1 ((out_slot_iff hin hout p).1 hp)
      exact inv.bool i p hi hpi
    · unfold gate_holds
      simp only [hty, hn, Int.toNat_natCast]
      intro k o hk ho hl
      rw [inv.value k o hk ho hl]
      congr 2
      unfold slots_value
      congr 1
      have : g.params.take n = slot_list g 0 n := by simp [slot_list]
      rw [this]
      congr 1
      apply List.map_congr_left
      intro q hq
      exact (hiv q ((in_slot_iff hin q).2 hq)).symm
    · intro k hk
      apply inv.out_frame k
      intro i p w hi hp hw hty
      exact hk p w ((out_slot_iff hin hout p).2 (mem_slot_list.2 ⟨i, hi, hp⟩)) hw hty
    · intro p w hp hw hty
      obtain ⟨i, hi, hpi⟩ := mem_slot_list.1 ((out_slot_iff hin hout p).1 hp)
      exact inv.out_val i p w hi hpi hw hty

theorem in_val_loaded {e : row_env} {ps : List Nat} {aw : Int → Int} (p : Nat) :
    in_val e p (loaded e ps aw p) = in_val e p (aw p) := by
  by_cases hp : p ∈ ps
  · rw [loaded_mem hp, in_val_idem]
  · rw [loaded_not_mem]
    intro q hq h
    have : q = p := by exact_mod_cast h
    exact hp (this ▸ hq)

theorem loaded2_mem {e : row_env} {A B : List Nat} {aw : Int → Int} {p : Nat}
    (hp : p ∈ A ∨ p ∈ B) : loaded e B (loaded e A aw) p = in_val e p (aw p) := by
  by_cases hB : p ∈ B
  · rw [loaded_mem hB, in_val_loaded]
  · rw [loaded_not_mem]
    · exact loaded_mem (hp.resolve_right hB)
    · intro q hq h
      have : q = p := by exact_mod_cast h
      exact hB (this ▸ hq)

theorem loaded2_not_mem {e : row_env} {A B : List Nat} {aw : Int → Int} {k : Int}
    (hA : ∀ p ∈ A, (p : Int) ≠ k) (hB : ∀ p ∈ B, (p : Int) ≠ k) :
    loaded e B (loaded e A aw) k = aw k := by
  rw [loaded_not_mem hB, loaded_not_mem hA]

theorem mem_slot_list_split {g : gate_t} {a b p : Nat} :
    p ∈ slot_list g 0 (a + b) ↔ p ∈ slot_list g 0 a ∨ p ∈ slot_list g a b := by
  simp only [mem_slot_list, zero_add]
  constructor
  · rintro ⟨i, hi, hp⟩
    by_cases hia : i < a
    · exact Or.inl ⟨i, hia, hp⟩
    · refine Or.inr ⟨i - a, by omega, ?_⟩
      rw [← hp]
      congr 1
      omega
  · rintro (⟨i, hi, hp⟩ | ⟨i, hi, hp⟩)
    · exact ⟨i, by omega, hp⟩
    · exact ⟨a + i, by omega, hp⟩

theorem mux_done {e : row_env} {g : gate_t} {st : row_state}
    (hr : gate_ready e g st.all_wires) (hty : g.type = type_t.MULTIPLEXER) :
    ∃ st1, eval_gate e g st = some st1 ∧ gate_done e g st st1 := by
  obtain ⟨hs0, hs30⟩ := hr.size_ok (Or.inr hty)
  obtain ⟨n, hn⟩ := Int.eq_ofNat_of_zero_le hs0
  have hn30 : n ≤ 30 := by omega
  have hpow := two_pow_le_30 hn30
  have hpos : (0 : Int) < 2 ^ n := by positivity
  have hshl : shl32 1 g.size = ((2 ^ n : Nat) : Int) := by
    rw [shl32_one_small hs0 hs30, hn, Int.toNat_natCast]
    push_cast
    rfl
  have hw1 : wrap32 (((2 ^ n : Nat) : Int) + (n : Int)) = ((2 ^ n : Nat) : Int) + (n : Int) :=
    wrap32_eq (by push_cast; omega) (by push_cast; omega)
  have hw2 : wrap32 (((2 ^ n : Nat) : Int) + (n : Int) + 1)
      = ((2 ^ n : Nat) : Int) + (n : Int) + 1 :=
    wrap32_eq (by push_cast; omega) (by push_cast; omega)
  have hin : calc_gate_in_size g = ((2 ^ n + n : Nat) : Int) := by
    unfold calc_gate_in_size
    rw [if_pos hty, hshl, hn, hw1]
    push_cast
    rfl
  have hout : calc_gate_out_size g = ((1 : Nat) : Int) := by
    unfold calc_gate_out_size
    simp [hty]
  have har := hr.arity
  unfold arity_ok at har
  simp only [hty] at har
  have hlen : g.params.length = 2 ^ n + n + 1 := by
    rw [har, hshl, hn, hw1, hw2]
    have : ((2 ^ n : Nat) : Int) + (n : Int) + 1 = ((2 ^ n + n + 1 : Nat) : Int) := by
      push_cast; rfl
    rw [this, Int.toNat_natCast]
  have hinslot : ∀ p, in_slot g p ↔ p ∈ slot_list g 0 (2 ^ n) ∨ p ∈ slot_list g (2 ^ n) n := by
    intro p
    rw [in_slot_iff hin, mem_slot_list_split]
  obtain ⟨po, hpo⟩ : ∃ po, g.params[2 ^ n + n]? = some po :=
    ⟨_, List.getElem?_eq_getElem (show 2 ^ n + n < g.params.length by omega)⟩
  have houtslot : ∀ p, out_slot g p ↔ p = po := by
    intro p
    rw [out_slot_iff hin hout, mem_slot_list]
    constructor
    · rintro ⟨i, hi, hp⟩
      have : i = 0 := by omega
      subst this
      rw [add_zero, hpo] at hp
      exact (Option.some.inj hp).symm
    · intro hp
      exact ⟨0, by decide, by rw [add_zero, hp, hpo]⟩
  have hslot : ∀ p, in_slot g p → ∃ w, hashtable_get e.wires p = some w ∧
      (p : Int) < e.nWires ∧ (w.type = var_type_t.INPUT → (p : Int) < e.nInputs) := by
    intro p hp
    have hmem : p ∈ g.params := by
      rcases (hinslot p).1 hp with h | h <;> exact mem_params_of_slot h
    obtain ⟨w, hw, hrange⟩ := hr.wires p hmem
    exact ⟨w, hw, hrange, hr.ins p w hp hw⟩
  have hdata := @load_loop e g st.all_wires (2 ^ n) (by omega)
    (fun p hp => hslot p ((hinslot p).2 (Or.inl hp)))
  have hsel := @select_loop e g
    (loaded e (slot_list g 0 (2 ^ n)) st.all_wires)
    (calc_gate_in_size g) (shl32 1 g.size) (2 ^ n) n
    hshl (by rw [hin]; push_cast; rfl) hn30 (by omega)
    (fun p hp => hslot p ((hinslot p).2 (Or.inr hp)))
    (fun p hp => by
      rw [in_val_loaded]
      exact hr.ins_bool p ((hinslot p).2 (Or.inr hp)))
  have hvals : (slot_list g (2 ^ n) n).map
        (fun p : Nat => in_val e p (loaded e (slot_list g 0 (2 ^ n)) st.all_wires p))
      = (slot_list g (2 ^ n) n).map (fun p : Nat => in_val e p (st.all_wires p)) := by
    apply List.map_congr_left
    intro p _
    exact in_val_loaded p
  rw [hvals] at hsel
  have hbits : ∀ x ∈ (slot_list g (2 ^ n) n).map (fun p : Nat => in_val e p (st.all_wires p)),
      is01 x := by
    intro x hx
    obtain ⟨p, hp, hpx⟩ := List.mem_map.1 hx
    rw [← hpx]
    exact hr.ins_bool p ((hinslot p).2 (Or.inr hp))
  have hsel0 := decode_nonneg _ hbits
  have hsellt := decode_lt _ hbits
  rw [List.length_map, slot_list_length (by omega)] at hsellt
  obtain ⟨sel, hselv⟩ := Int.eq_ofNat_of_zero_le hsel0
  have hsel_lt : sel < 2 ^ n := by
    have : (sel : Int) < 2 ^ n := by rw [← hselv]; exact hsellt
    exact_mod_cast this
  obtain ⟨pd, hpd⟩ : ∃ pd, g.params[sel]? = some pd :=
    ⟨_, List.getElem?_eq_getElem (show sel < g.params.length by omega)⟩
  have hdin : in_slot g pd :=
    (hinslot _).2 (Or.inl (mem_slot_list.2 ⟨sel, hsel_lt, by rw [zero_add]; exact hpd⟩))
  have hoin : out_slot g po := (houtslot _).2 rfl
  obtain ⟨wd, hwd, hrd, _⟩ := hslot _ hdin
  obtain ⟨wo, hwo, hro⟩ := hr.wires po (by
    obtain ⟨hlt, hget⟩ := List.getElem?_eq_some_iff.1 hpo
    rw [← hget]
    exact List.getElem_mem _)
  have hne : ∀ p, in_slot g p → (p : Int) ≠ (po : Int) := by
    intro p hp h
    have : p = po := by exact_mod_cast h
    exact hr.apart p hp (this ▸ hoin)
  have hL : ∀ p, in_slot g p →
      loaded e (slot_list g (2 ^ n) n) (loaded e (slot_list g 0 (2 ^ n)) st.all_wires) p
        = in_val e p (st.all_wires p) :=
    fun p hp => loaded2_mem ((hinslot p).1 hp)
  have heval : eval_gate e g st = some
      { all_wires := upd (loaded e (slot_list g (2 ^ n) n)
            (loaded e (slot_list g 0 (2 ^ n)) st.all_wires)) (po : Int)
            (in_val e pd (st.all_wires pd)),
        outputs := if wo.type = var_type_t.OUTPUT then
            upd st.outputs ((po : Int) - e.nInputs)
              (in_val e pd (st.all_wires pd))
          else st.outputs } := by
    unfold eval_gate eval_multiplexer
    simp only [hty, Option.bind_eq_bind]
    have hc1 : (shl32 1 g.size).toNat = 2 ^ n := by rw [hshl, Int.toNat_natCast]
    have hc2 : (calc_gate_in_size g - shl32 1 g.size).toNat = n := by
      rw [hin, hshl]; push_cast; omega
    rw [hc1, hdata]
    simp only [Option.some_bind, hc2, hsel]
    rw [hin, param_nat, hpo]
    simp only [Option.some_bind]
    rw [hselv, param_nat, hpd]
    simp only [Option.some_bind]
    rw [rd_in (Int.natCast_nonneg _) hrd]
    simp only [Option.some_bind]
    rw [wr_in (Int.natCast_nonneg _) hro]
    simp only [Option.some_bind]
    rw [store_output_eq hwo hro (hr.outs _ wo hoin hwo), hL _ hdin]
    simp only [upd, if_true]
  refine ⟨_, heval, ?_⟩
  constructor
  · intro k hko hki
    have hk : k ≠ (po : Int) := fun h => hko _ hoin h.symm
    simp only [upd, hk, if_false]
    apply loaded2_not_mem
    · intro p hp; exact hki p ((hinslot p).2 (Or.inl hp))
    · intro p hp; exact hki p ((hinslot p).2 (Or.inr hp))
  · intro p hp
    simp only [upd, hne p hp, if_false]
    exact hL p hp
  · intro p hp
    rw [(houtslot p).1 hp]
    simp only [upd, if_true]
    exact hr.ins_bool _ hdin
  · unfold gate_holds
    simp only [hty, hn, Int.toNat_natCast]
    intro o ho _
    rw [hpo] at ho
    cases ho
    have hsv : slots_value (upd (loaded e (slot_list g (2 ^ n) n)
          (loaded e (slot_list g 0 (2 ^ n)) st.all_wires)) (po : Int)
          (in_val e pd (st.all_wires pd)))
        ((g.params.drop (2 ^ n)).take n) = (sel : Int) := by
      rw [← hselv]
      unfold slots_value
      refine congrArg decode ?_
      show List.map _ (slot_list g (2 ^ n) n) = _
      apply List.map_congr_left
      intro q hq
      have hqin : in_slot g q := (hinslot q).2 (Or.inr hq)
      simp only [upd, hne q hqin, if_false]
      exact hL q hqin
    refine ⟨pd, ?_, ?_⟩
    · rw [hsv, Int.toNat_natCast, hpd]
    · simp only [upd, if_true, hne _ hdin, if_false]
      exact (hL _ hdin).symm
  · intro k hk
    simp only
    by_cases hto : wo.type = var_type_t.OUTPUT
    · have := hk _ wo hoin hwo hto
      simp [hto, upd, Ne.symm this]
    · simp [hto]
  · intro p w hp hw hto
    have hpp := (houtslot p).1 hp
    subst hpp
    rw [hwo] at hw
    cases hw
    simp [hto, upd]

/-- The replay of one gate that is ready succeeds and establishes its postcondition. -/
theorem eval_gate_done {e : row_env} {g : gate_t} {st : row_state}
    (hr : gate_ready e g st.all_wires) :
    ∃ st1, eval_gate e g st = some st1 ∧ gate_done e g st st1 := by
  by_cases h1 : g.type = type_t.MULTIPLEXER
  · exact mux_done hr h1
  · by_cases h2 : g.type = type_t.DECODER
    · exact decoder_done hr h2
    · exact simple_gate_done hr h1 h2

theorem mux_shape {g : gate_t} (hty : g.type = type_t.MULTIPLEXER) (hs0 : 0 ≤ g.size)
    (hs30 : g.size ≤ 30) (har : arity_ok g) :
    calc_gate_in_size g = ((2 ^ g.size.toNat + g.size.toNat : Nat) : Int)
      ∧ g.params.length = 2 ^ g.size.toNat + g.size.toNat + 1 := by
  obtain ⟨n, hn⟩ := Int.eq_ofNat_of_zero_le hs0
  have hn30 : n ≤ 30 := by omega
  have hpow := two_pow_le_30 hn30
  have hpos : (0 : Int) < 2 ^ n := by positivity
  have hshl : shl32 1 g.size = ((2 ^ n : Nat) : Int) := by
    rw [shl32_one_small hs0 hs30, hn, Int.toNat_natCast]
    push_cast
    rfl
  have hw1 : wrap32 (((2 ^ n : Nat) : Int) + (n : Int)) = ((2 ^ n : Nat) : Int) + (n : Int) :=
    wrap32_eq (by push_cast; omega) (by push_cast; omega)
  have hw2 : wrap32 (((2 ^ n : Nat) : Int) + (n : Int) + 1)
      = ((2 ^ n : Nat) : Int) + (n : Int) + 1 :=
    wrap32_eq (by push_cast; omega) (by push_cast; omega)
  unfold arity_ok at har
  simp only [hty] at har
  have hnat : g.size.toNat = n := by rw [hn, Int.toNat_natCast]
  rw [hnat]
  constructor
  · unfold calc_gate_in_size
    rw [if_pos hty, hshl, hn, hw1]
    push_cast
    rfl
  · rw [har, hshl, hn, hw1, hw2]
    have : ((2 ^ n : Nat) : Int) + (n : Int) + 1 = ((2 ^ n + n + 1 : Nat) : Int) := by
      push_cast; rfl
    rw [this, Int.toNat_natCast]

theorem slots_value_congr {aw aw1 : Int → Int} {l : List Nat}
    (h : ∀ q ∈ l, aw1 q = aw q) : slots_value aw1 l = slots_value aw l := by
  unfold slots_value
  refine congrArg decode ?_
  exact List.map_congr_left h

/-- The equation of a gate only looks at the cells of its input wires and of its live
output wires. -/
theorem gate_holds_congr {e : row_env} {g : gate_t} {aw aw1 : Int → Int}
    (har : arity_ok g)
    (hsz : g.type = type_t.DECODER ∨ g.type = type_t.MULTIPLEXER → 0 ≤ g.size ∧ g.size ≤ 30)
    (hin : ∀ p, in_slot g p → aw1 p = aw p)
    (hlive : ∀ p, out_slot g p → live e p → aw1 p = aw p)
    (h : gate_holds e g aw) : gate_holds e g aw1 := by
  unfold arity_ok at har
  unfold gate_holds at h ⊢
  have hbin : g.type ≠ type_t.MULTIPLEXER → g.type ≠ type_t.DECODER → g.size = 2 → ∀ a b o, g.params = [a, b, o] →
      aw1 a = aw a ∧ aw1 b = aw b ∧ out_slot g o := by
    intro h1 h2 hs a b o hp
    refine ⟨?_, ?_, ?_⟩
    rotate_left 2
    · rw [out_slot_one h1 h2 (by omega), hs]
      simp [hp]
    · exact hin a ((in_slot_size h1 a).2 ⟨0, by rw [hs]; decide, by simp [hp]⟩)
    · exact hin b ((in_slot_size h1 b).2 ⟨1, by rw [hs]; decide, by simp [hp]⟩)
  have hun : g.type ≠ type_t.MULTIPLEXER → g.type ≠ type_t.DECODER → g.size = 1 →
      ∀ a o, g.params = [a, o] → aw1 a = aw a ∧ out_slot g o := by
    intro h1 h2 hs a o hp
    refine ⟨?_, by rw [out_slot_one h1 h2 (by omega), hs]; simp [hp]⟩
    exact hin a ((in_slot_size h1 a).2 ⟨0, by rw [hs]; decide, by simp [hp]⟩)
  cases hty : g.type
  case AND =>
    simp only [hty] at har h ⊢
    intro a b o hp hl
    obtain ⟨ha, hb, ho⟩ := hbin (by rw [hty]; decide) (by rw [hty]; decide) har.1 a b o hp
    rw [ha, hb, hlive o ho hl]
    exact h a b o hp hl
  case OR =>
    simp only [hty] at har h ⊢
    intro a b o hp hl
    obtain ⟨ha, hb, ho⟩ := hbin (by rw [hty]; decide) (by rw [hty]; decide) har.1 a b o hp
    rw [ha, hb, hlive o ho hl]
    exact h a b o hp hl
  case NAND =>
    simp only [hty] at har h ⊢
    intro a b o hp hl
    obtain ⟨ha, hb, ho⟩ := hbin (by rw [hty]; decide) (by rw [hty]; decide) har.1 a b o hp
    rw [ha, hb, hlive o ho hl]
    exact h a b o hp hl
  case NOR =>
    simp only [hty] at har h ⊢
    intro a b o hp hl
    obtain ⟨ha, hb, ho⟩ := hbin (by rw [hty]; decide) (by rw [hty]; decide) har.1 a b o hp
    rw [ha, hb, hlive o ho hl]
    exact h a b o hp hl
  case XOR =>
    simp only [hty] at har h ⊢
    intro a b o hp hl
    obtain ⟨ha, hb, ho⟩ := hbin (by rw [hty]; decide) (by rw [hty]; decide) har.1 a b o hp
    rw [ha, hb, hlive o ho hl]
    exact h a b o hp hl
  case NOT =>
    simp only [hty] at har h ⊢
    intro a o hp hl
    obtain ⟨ha, ho⟩ := hun (by rw [hty]; decide) (by rw [hty]; decide) har.1 a o hp
    rw [ha, hlive o ho hl]
    exact h a o hp hl
  case PASS =>
    simp only [hty] at har h ⊢
    intro a o hp hl
    obtain ⟨ha, ho⟩ := hun (by rw [hty]; decide) (by rw [hty]; decide) har.1 a o hp
    rw [ha, hlive o ho hl]
    exact h a o hp hl
  case DECODER =>
    simp only [hty] at har h ⊢
    intro k o hk ho hl
    obtain ⟨hs0, hs30⟩ := hsz (Or.inl hty)
    have hmem : out_slot g o := by
      have h1 : calc_gate_in_size g = ((g.size.toNat : Nat) : Int) := by
        unfold calc_gate_in_size
        rw [if_neg (by rw [hty]; decide), Int.toNat_of_nonneg hs0]
      have h2 : calc_gate_out_size g = ((2 ^ g.size.toNat : Nat) : Int) := by
        unfold calc_gate_out_size
        rw [if_pos hty, shl32_one_small hs0 hs30]
        push_cast
        rfl
      rw [out_slot_iff h1 h2, mem_slot_list]
      exact ⟨k, hk, ho⟩
    have hsv : slots_value aw1 (g.params.take g.size.toNat)
        = slots_value aw (g.params.take g.size.toNat) := by
      apply slots_value_congr
      intro q hq
      apply hin q
      rw [in_slot_size (by rw [hty]; decide)]
      obtain ⟨i, hi, hqi⟩ := List.mem_take_iff_getElem.1 hq
      simp only [lt_min_iff] at hi
      exact ⟨i, hi.1, by rw [← hqi]; exact List.getElem?_eq_getElem _⟩
    rw [hlive o hmem hl, hsv]
    exact h k o hk ho hl
  case MULTIPLEXER =>
    simp only [hty] at har h ⊢
    obtain ⟨hs0, hs30⟩ := hsz (Or.inr hty)
    obtain ⟨hinsz, hpl⟩ := mux_shape hty hs0 hs30 (by unfold arity_ok; simp only [hty]; exact har)
    intro o ho hl
    have hmem : out_slot g o := by
      have h2 : calc_gate_out_size g = ((1 : Nat) : Int) := by
        unfold calc_gate_out_size
        simp [hty]
      rw [out_slot_iff hinsz h2, mem_slot_list]
      exact ⟨0, by omega, ho⟩
    have hsv : slots_value aw1 ((g.params.drop (2 ^ g.size.toNat)).take g.size.toNat)
        = slots_value aw ((g.params.drop (2 ^ g.size.toNat)).take g.size.toNat) := by
      apply slots_value_congr
      intro q hq
      apply hin q
      rw [in_slot_iff hinsz, mem_slot_list_split]
      exact Or.inr hq
    obtain ⟨d, hd, hod⟩ := h o ho hl
    refine ⟨d, by rw [hsv]; exact hd, ?_⟩
    rw [hlive o hmem hl, hod]
    by_cases hidx : (slots_value aw ((g.params.drop (2 ^ g.size.toNat)).take
        g.size.toNat)).toNat < 2 ^ g.size.toNat + g.size.toNat
    · symm
      apply hin d
      rw [in_slot_iff hinsz, mem_slot_list]
      exact ⟨_, hidx, by rw [zero_add]; exact hd⟩
    · have hlt := (List.getElem?_eq_some_iff.1 hd).1
      have hlt2 := (List.getElem?_eq_some_iff.1 ho).1
      have hidx2 : (slots_value aw ((g.params.drop (2 ^ g.size.toNat)).take
          g.size.toNat)).toNat = 2 ^ g.size.toNat + g.size.toNat := by omega
      rw [hidx2, ho] at hd
      cases hd
      exact (hlive o hmem hl).symm

theorem mem_of_get {α : Type} {l : List α} {i : Nat} {a : α} (h : l[i]? = some a) :
    a ∈ l := by
  obtain ⟨hlt, hget⟩ := List.getElem?_eq_some_iff.1 h
  rw [← hget]
  exact List.getElem_mem _

theorem in_slot_mem {g : gate_t} {p : Nat} (h : in_slot g p) : p ∈ g.params := by
  obtain ⟨j, _, hp⟩ := h
  rw [param_nat] at hp
  obtain ⟨hlt, hget⟩ := List.getElem?_eq_some_iff.1 hp
  rw [← hget]
  exact List.getElem_mem _

theorem out_slot_mem {g : gate_t} {p : Nat} (h : out_slot g p) : p ∈ g.params := by
  obtain ⟨j, _, hp⟩ := h
  unfold param at hp
  split at hp
  · obtain ⟨hlt, hget⟩ := List.getElem?_eq_some_iff.1 hp
    rw [← hget]
    exact List.getElem_mem _
  · cases hp

theorem in_val_other {e : row_env} {p : Nat} {w : wire_t}
    (hw : hashtable_get e.wires p = some w) (h1 : w.type ≠ var_type_t.INPUT)
    (h2 : w.type ≠ var_type_t.CONSTANT) (x : Int) : in_val e p x = x := by
  unfold in_val canon
  rw [hw]
  simp only [h1, h2, if_false, Option.getD_none]

theorem in_val_input {e : row_env} {p : Nat} {w : wire_t}
    (hw : hashtable_get e.wires p = some w) (h1 : w.type = var_type_t.INPUT) (x : Int) :
    in_val e p x = e.inputs w.id := by
  unfold in_val canon
  rw [hw]
  simp only [h1, if_true, Option.getD_some]

theorem in_val_constant {e : row_env} {p : Nat} {w : wire_t}
    (hw : hashtable_get e.wires p = some w) (h1 : w.type = var_type_t.CONSTANT)
    (h2 : w.key = "0" ∨ w.key = "1") (x : Int) : is01 (in_val e p x) := by
  unfold in_val canon
  rw [hw]
  have h3 : w.type ≠ var_type_t.INPUT := by rw [h1]; decide
  simp only [if_neg h3, if_pos h1]
  rcases h2 with h2 | h2
  · simp only [if_pos h2, Option.getD_some]; exact Or.inl rfl
  · have h4 : w.key ≠ "0" := by rw [h2]; decide
    simp only [if_neg h4, if_pos h2, Option.getD_some]; exact Or.inr rfl

theorem live_of_type {e : row_env} {p : Nat} {w : wire_t}
    (hw : hashtable_get e.wires p = some w) (h : w.type ≠ var_type_t.DISCARDED) :
    live e p := by
  intro w1 hw1
  rw [hw] at hw1
  cases hw1
  exact h

/-- The cells that the gates replayed so far depend on are left alone by the gate
replayed next. -/
theorem replay_stable {e : row_env} {L : List gate_t}
    (hst : ∀ g ∈ L, gate_static e g)
    (hprod : ∀ (k : Nat) g p w, L[k]? = some g → in_slot g p → hashtable_get e.wires p = some w →
      w.type = var_type_t.TEMP → ∃ i q, i < k ∧ L[i]? = some q ∧ out_slot q p)
    (hdrv : ∀ (i j : Nat) q r p, L[i]? = some q → L[j]? = some r → out_slot q p → out_slot r p →
      live e p → i = j)
    {k : Nat} {st st1 : row_state} {h : gate_t} (hk : L[k]? = some h)
    (hinv : replay_inv e L k st) (hd : gate_done e h st st1)
    {i : Nat} {g : gate_t} (hi : i < k) (hg : L[i]? = some g) {p : Nat}
    (hp : in_slot g p ∨ (out_slot g p ∧ live e p)) :
    st1.all_wires p = st.all_wires p := by
  have hgL : g ∈ L := mem_of_get hg
  have hhL : h ∈ L := mem_of_get hk
  have hpm : p ∈ g.params := by
    rcases hp with hp | hp
    · exact in_slot_mem hp
    · exact out_slot_mem hp.1
  obtain ⟨w, hw, _⟩ := (hst g hgL).wires p hpm
  by_cases ho : out_slot h p
  · exfalso
    rcases hp with hp | hp
    · rcases (hst g hgL).in_types p w hp hw with ht | ht | ht
      · rcases (hst h hhL).out_types p w ho hw with h1 | h1 | h1 <;>
          rw [ht] at h1 <;> cases h1
      · rcases (hst h hhL).out_types p w ho hw with h1 | h1 | h1 <;>
          rw [ht] at h1 <;> cases h1
      · obtain ⟨j, q, hj, hq, hqp⟩ := hprod i g p w hg hp hw ht
        have := hdrv j k q h p hq hk hqp ho (live_of_type hw (by rw [ht]; decide))
        omega
    · have := hdrv i k g h p hg hk hp.1 ho hp.2
      omega
  · by_cases hin : in_slot h p
    · rw [hd.ins_val p hin]
      rcases hp with hp | hp
      · exact hinv.ins i g p hi hg hp
      · rcases (hst g hgL).out_types p w hp.1 hw with h1 | h1 | h1 <;>
          exact in_val_other hw (by rw [h1]; decide) (by rw [h1]; decide) _
    · apply hd.frame
      · intro q hq hqp
        have : q = p := by exact_mod_cast hqp
        exact ho (this ▸ hq)
      · intro q hq hqp
        have : q = p := by exact_mod_cast hqp
        exact hin (this ▸ hq)

theorem foldlM_snoc {α β : Type} (f : β → α → Option β) (l : List α) (a : α) (b : β) :
    (l ++ [a]).foldlM f b = (l.foldlM f b).bind (fun c => f c a) := by
  rw [List.foldlM_append]
  cases l.foldlM f b with
  | none => rfl
  | some c => simp [List.foldlM]

/-- Replay of a list of gates in which every temporary input has its single producer
earlier: no step faults, and afterwards every gate's equation holds of the store. -/
theorem replay_sound {e : row_env} {L : List gate_t}
    (hst : ∀ g ∈ L, gate_static e g)
    (henv_in : ∀ k : Nat, (k : Int) < e.nInputs → is01 (e.inputs (k : Int)))
    (henv_const : ∀ p w, hashtable_get e.wires p = some w → w.type = var_type_t.CONSTANT →
      w.key = "0" ∨ w.key = "1")
    (hprod : ∀ (k : Nat) g p w, L[k]? = some g → in_slot g p → hashtable_get e.wires p = some w →
      w.type = var_type_t.TEMP → ∃ i q, i < k ∧ L[i]? = some q ∧ out_slot q p)
    (hdrv : ∀ (i j : Nat) q r p, L[i]? = some q → L[j]? = some r → out_slot q p → out_slot r p →
      live e p → i = j)
    (st0 : row_state) :
    ∀ k, k ≤ L.length → ∃ st, (L.take k).foldlM (fun st g => eval_gate e g st) st0 = some st ∧
      replay_inv e L k st := by
  intro k
  induction k with
  | zero =>
    intro _
    refine ⟨st0, by simp [List.foldlM], ?_⟩
    constructor <;> intros <;> omega
  | succ k ih =>
    intro hk
    obtain ⟨st, hfold, hinv⟩ := ih (by omega)
    have hkl : k < L.length := by omega
    have hh : L[k]? = some L[k] := List.getElem?_eq_getElem hkl
    generalize L[k] = h at hh
    have hhL : h ∈ L := mem_of_get hh
    have hs := hst h hhL
    have hready : gate_ready e h st.all_wires := by
      refine ⟨hs.arity, hs.size_ok, hs.wires, hs.ins, ?_, hs.outs, hs.apart, hs.distinct⟩
      intro p hp
      obtain ⟨w, hw, _⟩ := hs.wires p (in_slot_mem hp)
      rcases hs.in_types p w hp hw with ht | ht | ht
      · rw [in_val_input hw ht, (hashtable_get_id hw).1]
        exact henv_in p (hs.ins p w hp hw ht)
      · exact in_val_constant hw ht (henv_const p w hw ht) _
      · rw [in_val_other hw (by rw [ht]; decide) (by rw [ht]; decide)]
        obtain ⟨j, q, hj, hq, hqp⟩ := hprod k h p w hh hp hw ht
        exact hinv.outs_bool j q p hj hq hqp (live_of_type hw (by rw [ht]; decide))
    obtain ⟨st1, hev, hd⟩ := eval_gate_done hready
    have hstab := fun {i : Nat} {g : gate_t} (hi : i < k) (hg : L[i]? = some g) {p : Nat}
      (hp : in_slot g p ∨ (out_slot g p ∧ live e p)) =>
      replay_stable hst hprod hdrv hh hinv hd hi hg hp
    refine ⟨st1, ?_, ?_⟩
    · rw [List.take_succ, hh]
      simp only [Option.toList]
      rw [foldlM_snoc, hfold]
      exact hev
    · constructor
      · intro i g hi hg
        by_cases hik : i < k
        · have hgs := hst g (mem_of_get hg)
          exact gate_holds_congr hgs.arity hgs.size_ok
            (fun p hp => hstab hik hg (Or.inl hp))
            (fun p hp hl => hstab hik hg (Or.inr ⟨hp, hl⟩))
            (hinv.holds i g hik hg)
        · have : i = k := by omega
          subst this
          rw [hh] at hg
          cases hg
          exact hd.holds
      · intro i g p hi hg hp
        by_cases hik : i < k
        · rw [hstab hik hg (Or.inl hp)]
          exact hinv.ins i g p hik hg hp
        · have : i = k := by omega
          subst this
          rw [hh] at hg
          cases hg
          rw [hd.ins_val p hp]
          exact in_val_idem e p _
      · intro i g p hi hg hp hl
        by_cases hik : i < k
        · rw [hstab hik hg (Or.inr ⟨hp, hl⟩)]
          exact hinv.outs_bool i g p hik hg hp hl
        · have : i = k := by omega
          subst this
          rw [hh] at hg
          cases hg
          exact hd.outs_bool p hp
      · intro i g p w hi hg hp hw hty
        by_cases hik : i < k
        · have hl : live e p := live_of_type hw (by rw [hty]; decide)
          rw [hstab hik hg (Or.inr ⟨hp, hl⟩)]
          rw [hd.out_frame]
          · exact hinv.out_val i g p w hik hg hp hw hty
          · intro q wq hq hwq htq hqp
            have hqp2 : q = p := by
              have : (q : Int) = (p : Int) := by omega
              exact_mod_cast this
            subst hqp2
            have := hdrv i k g h q hg hh hp hq hl
            omega
        · have : i = k := by omega
          subst this
          rw [hh] at hg
          cases hg
          exact hd.out_val p w hp hw hty

theorem get_gate_mem {gates : gatelist_t} {id : Nat} {g : gate_t}
    (h : get_gate gates id = some g) : g ∈ gates ∧ g.id = id := by
  unfold get_gate at h
  have h1 := List.find?_some h
  exact ⟨List.mem_of_find?_eq_some h, by simpa using h1⟩

theorem get_gate_of_mem {s : pstate} (hs : parsed_ok s) {g : gate_t} (hg : g ∈ s.gates) :
    get_gate s.gates g.id = some g := by
  cases hf : get_gate s.gates g.id with
  | none =>
    unfold get_gate at hf
    rw [List.find?_eq_none] at hf
    have := hf g hg
    simp at this
  | some g1 =>
    obtain ⟨hm, hid⟩ := get_gate_mem hf
    have p1 := gate_position hs hm
    have p2 := gate_position hs hg
    rw [hid, p2] at p1
    exact p1.symm

theorem foldlM_congr {α β : Type} {f g : β → α → Option β} :
    ∀ (l : List α) (b : β), (∀ a ∈ l, ∀ b, f b a = g b a) → l.foldlM f b = l.foldlM g b := by
  intro l
  induction l with
  | nil => intro b _; rfl
  | cons a l ih =>
    intro b h
    rw [List.foldlM_cons, List.foldlM_cons, h a (List.mem_cons_self _ _)]
    cases g b a with
    | none => rfl
    | some b1 => exact ih b1 (fun x hx => h x (List.mem_cons_of_mem _ hx))

theorem range_rev_fold {α β : Type} (F : β → α → Option β) (S : List α) :
    ∀ b, (List.range S.length).reverse.foldlM
      (fun b (i : Nat) => (S[i]?).bind (fun a => F b a)) b = S.reverse.foldlM F b := by
  induction S using List.reverseRecOn with
  | nil => intro b; rfl
  | append_singleton S a ih =>
    intro b
    rw [List.length_append, List.length_singleton, List.range_succ, List.reverse_append,
      List.reverse_append, List.reverse_singleton, List.reverse_singleton,
      List.singleton_append, List.singleton_append, List.foldlM_cons, List.foldlM_cons]
    have h0 : (S ++ [a])[S.length]? = some a := by simp
    rw [h0]
    simp only [Option.some_bind]
    cases F b a with
    | none => rfl
    | some b1 =>
      simp only [Option.some_bind, Option.bind_eq_bind]
      rw [← ih b1]
      apply foldlM_congr
      intro i hi b2
      have hi2 : i < S.length := by simpa using hi
      rw [List.getElem?_append_left hi2]

theorem foldlM_opt_map {α γ β : Type} (look : α → Option γ) (F : β → γ → Option β) :
    ∀ (ids : List α) (L : List γ) (b : β), opt_map look ids = some L →
      ids.foldlM (fun b id => (look id).bind (fun g => F b g)) b = L.foldlM F b := by
  intro ids
  induction ids with
  | nil =>
    intro L b h
    simp only [opt_map] at h
    cases h
    rfl
  | cons a ids ih =>
    intro L b h
    simp only [opt_map] at h
    cases ha : look a with
    | none => rw [ha] at h; cases h
    | some g =>
      rw [ha] at h
      simp only at h
      cases hr : opt_map look ids with
      | none => rw [hr] at h; cases h
      | some L1 =>
        rw [hr] at h
        cases h
        rw [List.foldlM_cons, List.foldlM_cons, ha]
        simp only [Option.some_bind]
        cases F b g with
        | none => rfl
        | some b1 => exact ih L1 b1 hr

/-- The gate loop of a row is the replay, in reverse stack order, of the gates the stack
entries designate. -/
theorem eval_gates_eq {e : row_env} {gates : gatelist_t} {S : List Nat} {L : List gate_t}
    (hlen : S.length = gates.length) (hL : opt_map (get_gate gates) S.reverse = some L)
    (st : row_state) :
    eval_gates e gates S st = L.foldlM (fun st g => eval_gate e g st) st := by
  unfold eval_gates
  rw [← hlen, ← foldlM_opt_map (get_gate gates) (fun st g => eval_gate e g st) S.reverse L st hL]
  exact range_rev_fold (fun b id => (get_gate gates id).bind (fun g => eval_gate e g b)) S st

theorem gate_at {s : pstate} (hs : parsed_ok s) {k : Nat} (hk : k < s.gates.length) :
    ∃ g, s.gates[k]? = some g ∧ g.id = k ∧ g ∈ s.gates := by
  have h1 : (s.gates.map (fun g => g.id))[k]? = (List.range s.gates.length)[k]? := by
    rw [hs.ids]
  rw [List.getElem?_map, List.getElem?_eq_getElem hk, List.getElem?_range hk] at h1
  simp only [Option.map_some', Option.some.injEq] at h1
  exact ⟨s.gates[k], List.getElem?_eq_getElem hk, h1, List.getElem_mem _⟩

theorem gate_eq_of_id {s : pstate} (hs : parsed_ok s) {g q : gate_t} (hg : g ∈ s.gates)
    (hq : q ∈ s.gates) (h : g.id = q.id) : g = q := by
  have p1 := gate_position hs hg
  have p2 := gate_position hs hq
  rw [h, p2] at p1
  cases p1
  rfl

theorem nodup_index {l : List Nat} (h : l.Nodup) {i j a : Nat} (hi : l[i]? = some a)
    (hj : l[j]? = some a) : i = j := by
  obtain ⟨hi1, hi2⟩ := List.getElem?_eq_some_iff.1 hi
  obtain ⟨hj1, hj2⟩ := List.getElem?_eq_some_iff.1 hj
  exact (List.Nodup.getElem_inj_iff h).1 (hi2.trans hj2.symm)

/-- The wiring discipline gives every gate of a parsed circuit what its replay needs. -/
theorem gate_static_of {s : pstate} (hs : parsed_ok s) {nodes : List gatenode_t}
    (hgraph : build_graph s.wires s.gates = some nodes) (hac : acyclic nodes)
    (hw : well_wired s.wires s.gates s.nInputs s.nOutputs) (inputs : Int → Int)
    {g : gate_t} (hg : g ∈ s.gates) : gate_static (row_env_of s inputs) g := by
  obtain ⟨h_sizes, h_in, h_out, h_drv, h_slot, h_cons⟩ := hw
  have hres : ∀ p ∈ g.params, ∃ w, hashtable_get s.wires p = some w := hs.params g hg
  refine ⟨hs.arity g hg, h_sizes g hg, ?_, ?_, ?_, ?_, ?_, ?_, ?_⟩
  · intro p hp
    obtain ⟨w, hw⟩ := hres p hp
    refine ⟨w, hw, ?_⟩
    obtain ⟨hid, slot, hslot⟩ := hashtable_get_id hw
    have := (hs.slots slot w hslot).1
    show (p : Int) < ((s.wireId : Nat) : Int)
    omega
  · intro p w hp hw ht
    rcases h_in g hg p (in_slot_mem hp) hp w hw with h1 | h1 | h1
    · exact h1.2
    · rw [ht] at h1; cases h1
    · rw [ht] at h1; cases h1.1
  · intro p w hp hw ht
    rcases h_out g hg p (out_slot_mem hp) hp w hw with h1 | h1 | h1
    · rw [ht] at h1; cases h1
    · exact h1.2
    · rw [ht] at h1; cases h1
  · intro p hp hop
    obtain ⟨w, hw⟩ := hres p (in_slot_mem hp)
    rcases h_in g hg p (in_slot_mem hp) hp w hw with h1 | h1 | h1
    · rcases h_out g hg p (out_slot_mem hop) hop w hw with h2 | h2 | h2
      · rw [h1.1] at h2; cases h2
      · rw [h1.1] at h2; cases h2.1
      · rw [h1.1] at h2; cases h2
    · rcases h_out g hg p (out_slot_mem hop) hop w hw with h2 | h2 | h2
      · rw [h1] at h2; cases h2
      · rw [h1] at h2; cases h2.1
      · rw [h1] at h2; cases h2
    · have hedge := recorded_edge hs hgraph hg hg hop hp
        (by
          intro wire hwire
          rw [hw] at hwire
          cases hwire
          rw [h1.1]
          exact ⟨by decide, by decide⟩)
        (by
          intro g1 hg1 hin1
          exact gate_eq_of_id hs hg1 hg
            (h_cons g1 hg1 g hg p (in_slot_mem hin1) hin1 hp w hw h1.1))
      exact hac g.id (Relation.TransGen.single hedge)
  · intro i j hij p hpi hi hpj hj hl
    have hpm : p ∈ g.params := by
      unfold param at hpi
      split at hpi
      · exact mem_of_get hpi
      · cases hpi
    obtain ⟨w, hw⟩ := hres p hpm
    exact hij (h_slot g hg i (List.mem_range.2 hi) j (List.mem_range.2 hj) p hpm hpi hpj w hw
      (hl w hw))
  · intro p w hp hw
    rcases h_in g hg p (in_slot_mem hp) hp w hw with h1 | h1 | h1
    · exact Or.inl h1.1
    · exact Or.inr (Or.inl h1)
    · exact Or.inr (Or.inr h1.1)
  · intro p w hp hw
    rcases h_out g hg p (out_slot_mem hp) hp w hw with h1 | h1 | h1
    · exact Or.inl h1
    · exact Or.inr (Or.inl h1.1)
    · exact Or.inr (Or.inr h1)

/-- The gate loop of a row of a parsed, well-wired, acyclic circuit faults nowhere, and
the store it leaves satisfies every gate's equation. -/
theorem eval_gates_sound {s : pstate} (hs : parsed_ok s) {nodes : List gatenode_t}
    (hgraph : build_graph s.wires s.gates = some nodes) (hac : acyclic nodes)
    (hw : well_wired s.wires s.gates s.nInputs s.nOutputs)
    (inputs : Int → Int) (hin : ∀ k : Nat, (k : Int) < s.nInputs → is01 (inputs (k : Int)))
    (st0 : row_state) :
    ∃ V S st, toposort nodes s.gates.length = some (V, S) ∧
      eval_gates (row_env_of s inputs) s.gates S st0 = some st ∧
      ∀ g ∈ s.gates, gate_holds (row_env_of s inputs) g st.all_wires ∧
        (∀ p, in_slot g p →
          in_val (row_env_of s inputs) p (st.all_wires p) = st.all_wires p) ∧
        (∀ p, out_slot g p → live (row_env_of s inputs) p → is01 (st.all_wires p)) ∧
        (∀ p w, out_slot g p → hashtable_get s.wires p = some w →
          w.type = var_type_t.OUTPUT →
          st.outputs ((p : Int) - s.nInputs) = st.all_wires p) := by
  have hstat := fun (g : gate_t) (hg : g ∈ s.gates) =>
    gate_static_of hs hgraph hac hw inputs hg
  obtain ⟨h_sizes, h_in, h_out, h_drv, h_slot, h_cons⟩ := hw
  have hlenN := build_graph_length hgraph
  obtain ⟨V, S, hsort, hnd, hmem, hSlen, htopo⟩ :=
    toposort_spec nodes (build_graph_closed hgraph)
  have htop := htopo hac
  have hndr : S.reverse.Nodup := List.nodup_reverse.2 hnd
  obtain ⟨L, hL⟩ := opt_map_some (get_gate s.gates) S.reverse (by
    intro a ha
    have ha2 : a < s.gates.length := by
      rw [← hlenN, ← hmem]
      exact List.mem_reverse.1 ha
    obtain ⟨g, _, hid, hg⟩ := gate_at hs ha2
    exact ⟨g, hid ▸ get_gate_of_mem hs hg⟩)
  have hF := opt_map_forall₂ _ _ _ hL
  rw [List.forall₂_iff_get] at hF
  obtain ⟨hlenL, hgetL⟩ := hF
  -- the list replayed against the stack
  have F1 : ∀ (k : Nat) g, L[k]? = some g → g ∈ s.gates ∧ S.reverse[k]? = some g.id := by
    intro k g hk
    obtain ⟨hk1, hk2⟩ := List.getElem?_eq_some_iff.1 hk
    have hk0 : k < S.reverse.length := hlenL ▸ hk1
    have := hgetL k hk0 hk1
    simp only [List.get_eq_getElem] at this
    rw [hk2] at this
    obtain ⟨hm, hid⟩ := get_gate_mem this
    exact ⟨hm, by rw [hid]; exact List.getElem?_eq_getElem hk0⟩
  have F0 : ∀ (k : Nat) (g : gate_t), g ∈ s.gates → S.reverse[k]? = some g.id →
      L[k]? = some g := by
    intro k g hg hk
    obtain ⟨hk0, hk2⟩ := List.getElem?_eq_some_iff.1 hk
    have hk1 : k < L.length := hlenL ▸ hk0
    have := hgetL k hk0 hk1
    simp only [List.get_eq_getElem] at this
    rw [hk2, get_gate_of_mem hs hg] at this
    rw [List.getElem?_eq_getElem hk1]
    exact this.symm
  have F2 : ∀ g ∈ s.gates, ∃ k : Nat, L[k]? = some g := by
    intro g hg
    have hgS : g.id ∈ S.reverse := by
      rw [List.mem_reverse, hmem, hlenN]
      exact (List.getElem?_eq_some_iff.1 (gate_position hs hg)).1
    obtain ⟨k, hk, hkg⟩ := List.getElem_of_mem hgS
    exact ⟨k, F0 k g hg (by rw [← hkg]; exact List.getElem?_eq_getElem hk)⟩
  have hst : ∀ g ∈ L, gate_static (row_env_of s inputs) g := by
    intro g hg
    obtain ⟨k, hk, hkg⟩ := List.getElem_of_mem hg
    exact hstat g (F1 k g (by rw [← hkg]; exact List.getElem?_eq_getElem hk)).1
  have henv_const : ∀ p w, hashtable_get (row_env_of s inputs).wires p = some w →
      w.type = var_type_t.CONSTANT → w.key = "0" ∨ w.key = "1" := by
    intro p w hw ht
    obtain ⟨_, slot, hslot⟩ := hashtable_get_id hw
    exact (hs.slots slot w hslot).2 ht
  have hprod : ∀ (k : Nat) g p w, L[k]? = some g → in_slot g p →
      hashtable_get (row_env_of s inputs).wires p = some w →
      w.type = var_type_t.TEMP → ∃ i q, i < k ∧ L[i]? = some q ∧ out_slot q p := by
    intro k g p w hk hp hw ht
    obtain ⟨hg, hkS⟩ := F1 k g hk
    rcases h_in g hg p (in_slot_mem hp) hp w hw with h1 | h1 | h1
    · rw [ht] at h1; cases h1.1
    · rw [ht] at h1; cases h1
    · obtain ⟨_, q, hq, hqp⟩ := h1
      have hedge := recorded_edge hs hgraph hq hg hqp hp
        (by
          intro wire hwire
          rw [show hashtable_get s.wires p = some w from hw] at hwire
          cases hwire
          rw [ht]
          exact ⟨by decide, by decide⟩)
        (by
          intro g1 hg1 hin1
          exact gate_eq_of_id hs hg1 hg
            (h_cons g1 hg1 g hg p (in_slot_mem hin1) hin1 hp w hw ht))
      have hqS : q.id ∈ S := by
        rw [hmem, hlenN]
        exact (List.getElem?_eq_some_iff.1 (gate_position hs hq)).1
      obtain ⟨A, B, hAB⟩ := List.append_of_mem hqS
      have hgA := htop A q.id B hAB g.id hedge
      have hrev : S.reverse = B.reverse ++ q.id :: A.reverse := by
        rw [hAB]
        simp
      have hqi : S.reverse[B.length]? = some q.id := by
        rw [hrev, List.getElem?_append_right (by simp)]
        simp
      obtain ⟨j, hj, hjg⟩ := List.getElem_of_mem (List.mem_reverse.2 hgA)
      have hgi : S.reverse[B.length + 1 + j]? = some g.id := by
        rw [hrev, List.getElem?_append_right (by simp; omega)]
        simp only [List.length_reverse]
        have : B.length + 1 + j - B.length = j + 1 := by omega
        rw [this, List.getElem?_cons_succ, ← hjg]
        exact List.getElem?_eq_getElem hj
      have hkj := nodup_index hndr hkS hgi
      exact ⟨B.length, q, by omega, F0 _ q hq hqi, hqp⟩
  have hdrv : ∀ (i j : Nat) q r p, L[i]? = some q → L[j]? = some r → out_slot q p →
      out_slot r p → live (row_env_of s inputs) p → i = j := by
    intro i j q r p hi hj hqp hrp hl
    obtain ⟨hq, hiS⟩ := F1 i q hi
    obtain ⟨hr, hjS⟩ := F1 j r hj
    obtain ⟨w, hw⟩ := hs.params q hq p (out_slot_mem hqp)
    have hid := h_drv q hq r hr p (out_slot_mem hqp) hqp hrp w hw (hl w hw)
    rw [← hid] at hjS
    exact nodup_index hndr hiS hjS
  obtain ⟨st, hfold, hinv⟩ :=
    replay_sound hst hin henv_const hprod hdrv st0 L.length le_rfl
  rw [List.take_length] at hfold
  refine ⟨V, S, st, by rw [← hlenN]; exact hsort, ?_, ?_⟩
  · rw [eval_gates_eq (by rw [hSlen, hlenN]) hL]
    exact hfold
  · intro g hg
    obtain ⟨k, hk⟩ := F2 g hg
    have hkl := (List.getElem?_eq_some_iff.1 hk).1
    exact ⟨hinv.holds k g hkl hk, fun p hp => hinv.ins k g p hkl hk hp,
      fun p hp hl => hinv.outs_bool k g p hkl hk hp hl,
      fun p w hp hw ht => hinv.out_val k g p w hkl hk hp hw ht⟩

theorem is01_land1 (x : Int) : is01 (land1 x) := Int.emod_two_eq x

/-- One row of a parsed, well-wired, acyclic circuit: the assignment is stored, the gate
loop faults nowhere, the printed row is read from the stores it leaves, and these
satisfy every gate's equation. -/
theorem row_sound {s : pstate} {nodes : List gatenode_t} (hs : parsed_ok s)
    (hgraph : build_graph s.wires s.gates = some nodes) (hac : acyclic nodes)
    (hw : well_wired s.wires s.gates s.nInputs s.nOutputs) (mem : row_mem) (v : Int) :
    ∃ V S inputs st, toposort nodes s.gates.length = some (V, S) ∧
      fill_inputs s.nInputs v mem.inputs = some inputs ∧
      (∀ k : Nat, k < s.nInputs.toNat →
        inputs k = land1 (shr32 v ((s.nInputs.toNat - 1 - k : Nat) : Int))) ∧
      eval_gates (row_env_of s inputs) s.gates S
        { all_wires := mem.all_wires, outputs := mem.outputs } = some st ∧
      eval_row s.wires s.gates S s.nInputs s.nOutputs s.wireId mem v
        = some ((List.range s.nInputs.toNat).map (fun (i : Nat) => inputs (i : Int)),
                (List.range s.nOutputs.toNat).map (fun (i : Nat) => st.outputs (i : Int))) ∧
      ∀ g ∈ s.gates, gate_holds (row_env_of s inputs) g st.all_wires ∧
        (∀ p, in_slot g p →
          in_val (row_env_of s inputs) p (st.all_wires p) = st.all_wires p) ∧
        (∀ p w, out_slot g p → hashtable_get s.wires p = some w →
          w.type = var_type_t.OUTPUT →
          st.outputs ((p : Int) - s.nInputs) = st.all_wires p) := by
  obtain ⟨inputs, hfill, hbits⟩ := fill_inputs_spec s.nInputs v mem.inputs
  have hin : ∀ k : Nat, (k : Int) < s.nInputs → is01 (inputs (k : Int)) := by
    intro k hk
    rw [hbits k (by omega)]
    exact is01_land1 _
  obtain ⟨V, S, st, hsort, hev, hall⟩ := eval_gates_sound hs hgraph hac hw inputs hin
    { all_wires := mem.all_wires, outputs := mem.outputs }
  refine ⟨V, S, inputs, st, hsort, hfill, hbits, hev, ?_, ?_⟩
  · unfold eval_row
    rw [hfill]
    simp only [Option.bind_eq_bind, Option.some_bind]
    have hev2 := hev
    unfold row_env_of at hev2
    rw [hev2]
    rfl
  · intro g hg
    obtain ⟨h1, h2, _, h4⟩ := hall g hg
    exact ⟨h1, h2, h4⟩

/-- C2 (amended): in a parsed circuit whose gate graph is built and acyclic and whose
wiring is well formed (in particular every wire other than the discarded one has a single
driver), each row is evaluated without fault, and the wire store at the end of the row
satisfies every gate's equation at each output slot that is not wired to the discarded
wire `_` (`gate_holds` constrains no slot wired to `_`, whose cell holds what the gate
replayed last wrote to it); input-slot wires hold the assignment bit or the literal they
stand for, and the printed row is read from that store. -/
theorem evaluation_sound {input : List String} {nI nO : Int} {tok : String} {s : pstate}
    {nodes : List gatenode_t}
    (hparse : parse_circuit (main_state input nI nO tok) = some (0, s))
    (hgraph : build_graph s.wires s.gates = some nodes) (hac : acyclic nodes)
    (hw : well_wired s.wires s.gates s.nInputs s.nOutputs) (mem : row_mem) (v : Int) :
    ∃ V S inputs st, toposort nodes s.gates.length = some (V, S) ∧
      fill_inputs s.nInputs v mem.inputs = some inputs ∧
      eval_gates (row_env_of s inputs) s.gates S
        { all_wires := mem.all_wires, outputs := mem.outputs } = some st ∧
      eval_row s.wires s.gates S s.nInputs s.nOutputs s.wireId mem v
        = some ((List.range s.nInputs.toNat).map (fun (i : Nat) => inputs (i : Int)),
                (List.range s.nOutputs.toNat).map (fun (i : Nat) => st.outputs (i : Int))) ∧
      ∀ g ∈ s.gates, gate_holds (row_env_of s inputs) g st.all_wires ∧
        (∀ p, in_slot g p →
          in_val (row_env_of s inputs) p (st.all_wires p) = st.all_wires p) ∧
        (∀ p w, out_slot g p → hashtable_get s.wires p = some w →
          w.type = var_type_t.OUTPUT →
          st.outputs ((p : Int) - s.nInputs) = st.all_wires p) := by
  obtain ⟨V, S, inputs, st, h1, h2, _, h4, h5, h6⟩ :=
    row_sound (parse_circuit_ok hparse) hgraph hac hw mem v
  exact ⟨V, S, inputs, st, h1, h2, h4, h5, h6⟩

/-- C2 (counterexample): the netlist with one output driven by an `AND` and an `OR` gate
meets the wiring hypotheses as the specification words them, its graph has no edge, and
at the end of the row of assignment 1 (`A = 0`, `B = 1`) the store holds `O = 1`, against
the equation of the `AND` gate. The netlist `NOT A _ / PASS A _ / PASS A O` meets them
too, and is well wired; at the end of the row of assignment 0 the cell of `_` holds 0,
written by `PASS A _`, against the equation of the gate `NOT A _`, although every gate's
equation holds at the slots not wired to `_`. -/
theorem evaluation_sound_counterexample :
    (∃ s nodes V S inputs st,
      parse_circuit (main_state two_drivers 0 0 "") = some (0, s) ∧
      build_graph s.wires s.gates = some nodes ∧ acyclic nodes ∧
      claimed_wiring s.wires s.gates ∧
      toposort nodes s.gates.length = some (V, S) ∧
      fill_inputs s.nInputs 1 (fun _ => 0) = some inputs ∧
      eval_gates (row_env_of s inputs) s.gates S
        { all_wires := fun _ => 0, outputs := fun _ => 0 } = some st ∧
      ∃ g ∈ s.gates, ¬ gate_holds (row_env_of s inputs) g st.all_wires) ∧
    (∃ s nodes V S inputs st,
      parse_circuit (main_state discarded_twice 0 0 "") = some (0, s) ∧
      build_graph s.wires s.gates = some nodes ∧ acyclic nodes ∧
      claimed_wiring s.wires s.gates ∧
      well_wired s.wires s.gates s.nInputs s.nOutputs ∧
      toposort nodes s.gates.length = some (V, S) ∧
      fill_inputs s.nInputs 0 (fun _ => 0) = some inputs ∧
      eval_gates (row_env_of s inputs) s.gates S
        { all_wires := fun _ => 0, outputs := fun _ => 0 } = some st ∧
      hashtable_get s.wires 0 = some ⟨"A", 0, var_type_t.INPUT⟩ ∧
      hashtable_get s.wires 2 = some ⟨"_", 2, var_type_t.DISCARDED⟩ ∧
      (⟨type_t.NOT, 1, [0, 2], 0⟩ : gate_t) ∈ s.gates ∧
      st.all_wires 0 = 0 ∧ st.all_wires 2 = 0 ∧
      ∀ g ∈ s.gates, gate_holds (row_env_of s inputs) g st.all_wires) := by
  refine ⟨?_, ?_⟩
  · refine ⟨parsed two_drivers, [⟨0, type_t.AND, 2, [none, none], [none]⟩,
      ⟨1, type_t.OR, 2, [none, none], [none]⟩], _, _, _, _, rfl, rfl, ?_, by decide!, rfl,
      rfl, rfl, ⟨type_t.AND, 2, [0, 1, 2], 0⟩, by decide!, ?_⟩
    · apply acyclic_of_increasing
      rintro x y ⟨node, hx, hy⟩
      match x, hx with
      | 0, hx => simp at hx; subst hx; simp at hy
      | 1, hx => simp at hx; subst hx; simp at hy
      | (k + 2), hx => simp at hx
    · intro h
      unfold gate_holds at h
      have h2 := h 0 1 2 rfl (by
        intro w hw
        have : w = ⟨"O", 2, var_type_t.OUTPUT⟩ := by
          have hget : hashtable_get (parsed two_drivers).wires 2
              = some ⟨"O", 2, var_type_t.OUTPUT⟩ := rfl
          exact Option.some.inj (hw.symm.trans hget)
        rw [this]
        decide)
      revert h2
      decide!
  · have hparse : parse_circuit (main_state discarded_twice 0 0 "")
        = some (0, parsed discarded_twice) := rfl
    have hgraph : build_graph (parsed discarded_twice).wires (parsed discarded_twice).gates
        = some [⟨0, type_t.NOT, 1, [none], [none]⟩, ⟨1, type_t.PASS, 1, [none], [none]⟩,
                ⟨2, type_t.PASS, 1, [none], [none]⟩] := rfl
    have hac : acyclic [⟨0, type_t.NOT, 1, [none], [none]⟩,
        ⟨1, type_t.PASS, 1, [none], [none]⟩, ⟨2, type_t.PASS, 1, [none], [none]⟩] := by
      apply acyclic_of_increasing
      rintro x y ⟨node, hx, hy⟩
      match x, hx with
      | 0, hx => simp at hx; subst hx; simp at hy
      | 1, hx => simp at hx; subst hx; simp at hy
      | 2, hx => simp at hx; subst hx; simp at hy
      | (k + 3), hx => simp at hx
    have hw : well_wired (parsed discarded_twice).wires (parsed discarded_twice).gates
        (parsed discarded_twice).nInputs (parsed discarded_twice).nOutputs := by decide!
    obtain ⟨V, S, inputs, st, h1, h2, _, h4, _, h6⟩ :=
      row_sound (parse_circuit_ok hparse) hgraph hac hw
        ⟨fun _ => 0, fun _ => 0, fun _ => 0⟩ 0
    have hval : (toposort [⟨0, type_t.NOT, 1, [none], [none]⟩,
        ⟨1, type_t.PASS, 1, [none], [none]⟩, ⟨2, type_t.PASS, 1, [none], [none]⟩]
        (parsed discarded_twice).gates.length).bind (fun r =>
          (fill_inputs (parsed discarded_twice).nInputs 0 (fun _ => 0)).bind (fun inp =>
            (eval_gates (row_env_of (parsed discarded_twice) inp)
              (parsed discarded_twice).gates r.2
              { all_wires := fun _ => 0, outputs := fun _ => 0 }).map
                (fun st => (st.all_wires 0, st.all_wires 2)))) = some (0, 0) := by decide!
    rw [h1] at hval
    simp only [Option.some_bind] at hval
    rw [h2] at hval
    simp only [Option.some_bind] at hval
    rw [h4] at hval
    simp only [Option.map_some', Option.some.injEq, Prod.mk.injEq] at hval
    exact ⟨parsed discarded_twice, _, V, S, inputs, st, hparse, hgraph, hac, by decide!, hw,
      h1, h2, h4, rfl, rfl, by decide!, hval.1, hval.2, fun g hg => (h6 g hg).1⟩

/-- C2 (witness): the chain netlist `NOT A T / PASS T O` meets every hypothesis of the
amended claim; its row of assignment 1 is evaluated and both gate equations hold. -/
theorem evaluation_sound_witness :
    ∃ V S inputs st,
      toposort [⟨0, type_t.NOT, 1, [none], [some 1]⟩, ⟨1, type_t.PASS, 1, [some 0], [none]⟩]
        (parsed chain_netlist).gates.length = some (V, S) ∧
      fill_inputs (parsed chain_netlist).nInputs 1 (fun _ => 7) = some inputs ∧
      eval_gates (row_env_of (parsed chain_netlist) inputs) (parsed chain_netlist).gates S
        { all_wires := fun _ => 7, outputs := fun _ => 7 } = some st ∧
      eval_row (parsed chain_netlist).wires (parsed chain_netlist).gates S
          (parsed chain_netlist).nInputs (parsed chain_netlist).nOutputs
          (parsed chain_netlist).wireId ⟨fun _ => 7, fun _ => 7, fun _ => 7⟩ 1
        = some ((List.range (parsed chain_netlist).nInputs.toNat).map
                  (fun (i : Nat) => inputs (i : Int)),
                (List.range (parsed chain_netlist).nOutputs.toNat).map
                  (fun (i : Nat) => st.outputs (i : Int))) ∧
      ∀ g ∈ (parsed chain_netlist).gates,
        gate_holds (row_env_of (parsed chain_netlist) inputs) g st.all_wires ∧
        (∀ p, in_slot g p → in_val (row_env_of (parsed chain_netlist) inputs) p
          (st.all_wires p) = st.all_wires p) ∧
        (∀ p w, out_slot g p → hashtable_get (parsed chain_netlist).wires p = some w →
          w.type = var_type_t.OUTPUT →
          st.outputs ((p : Int) - (parsed chain_netlist).nInputs) = st.all_wires p) := by
  have hparse : parse_circuit (main_state chain_netlist 0 0 "")
      = some (0, parsed chain_netlist) := rfl
  have hgraph : build_graph (parsed chain_netlist).wires (parsed chain_netlist).gates
      = some [⟨0, type_t.NOT, 1, [none], [some 1]⟩, ⟨1, type_t.PASS, 1, [some 0], [none]⟩] := rfl
  have hac : acyclic [⟨0, type_t.NOT, 1, [none], [some 1]⟩,
      ⟨1, type_t.PASS, 1, [some 0], [none]⟩] := by
    apply acyclic_of_increasing
    rintro x y ⟨node, hx, hy⟩
    match x, hx with
    | 0, hx => simp at hx; subst hx; simp at hy; omega
    | 1, hx => simp at hx; subst hx; simp at hy
    | (k + 2), hx => simp at hx
  have hw : well_wired (parsed chain_netlist).wires (parsed chain_netlist).gates
      (parsed chain_netlist).nInputs (parsed chain_netlist).nOutputs := by decide!
  exact evaluation_sound hparse hgraph hac hw ⟨fun _ => 7, fun _ => 7, fun _ => 7⟩ 1

theorem arity_nat {g : gate_t} (har : arity_ok g)
    (hsz : g.type = type_t.DECODER ∨ g.type = type_t.MULTIPLEXER → 0 ≤ g.size ∧ g.size ≤ 30) :
    ∃ a b : Nat, calc_gate_in_size g = (a : Int) ∧ calc_gate_out_size g = (b : Int) ∧
      g.params.length = a + b ∧ arity_table g.type g.size = ((a : Int), (b : Int)) := by
  unfold arity_ok at har
  cases hty : g.type
  case DECODER =>
    simp only [hty] at har
    obtain ⟨hs0, hs30⟩ := hsz (Or.inl hty)
    have hsh := shl32_one_small hs0 hs30
    refine ⟨g.size.toNat, 2 ^ g.size.toNat, ?_, ?_, ?_, ?_⟩
    · unfold calc_gate_in_size
      rw [if_neg (by rw [hty]; decide), Int.toNat_of_nonneg hs0]
    · unfold calc_gate_out_size
      rw [if_pos hty, hsh]
      push_cast
      rfl
    · rw [har.1, hsh, two_pow_toNat]
    · unfold arity_table
      simp only [Int.toNat_of_nonneg hs0]
      push_cast
      rfl
  case MULTIPLEXER =>
    obtain ⟨hs0, hs30⟩ := hsz (Or.inr hty)
    obtain ⟨h1, h2⟩ := mux_shape hty hs0 hs30 (by unfold arity_ok; exact har)
    refine ⟨2 ^ g.size.toNat + g.size.toNat, 1, h1, ?_, h2, ?_⟩
    · unfold calc_gate_out_size
      rw [if_neg (by rw [hty]; decide)]
      rfl
    · unfold arity_table
      push_cast
      rw [Int.toNat_of_nonneg hs0]
  all_goals
    simp only [hty] at har
    first
    | refine ⟨2, 1, ?_, ?_, har.2, rfl⟩
    | refine ⟨1, 1, ?_, ?_, har.2, rfl⟩
    · unfold calc_gate_in_size
      rw [if_neg (by rw [hty]; decide), har.1]
      rfl
    · unfold calc_gate_out_size
      rw [if_neg (by rw [hty]; decide)]
      rfl

/-- C20 (counterexample): the statement `MULTIPLEXER 31` creates a gate of size 31 with
no parameter, whose input slot count is `(1 << 31) + 31 = -2147483617` as a 32-bit int,
not `2^31 + 31`. -/
theorem arity_table_counterexample :
    parse_circuit (main_state ["MULTIPLEXER", "31", "END"] 0 0 "")
      = some (0, parsed ["MULTIPLEXER", "31", "END"]) ∧
    (parsed ["MULTIPLEXER", "31", "END"]).gates = [⟨type_t.MULTIPLEXER, 31, [], 0⟩] ∧
    calc_gate_in_size ⟨type_t.MULTIPLEXER, 31, [], 0⟩ = -2147483617 ∧
    (calc_gate_in_size ⟨type_t.MULTIPLEXER, 31, [], 0⟩,
      calc_gate_out_size ⟨type_t.MULTIPLEXER, 31, [], 0⟩) ≠ arity_table type_t.MULTIPLEXER 31 :=
  ⟨rfl, by decide!, by decide!, by decide!⟩

/-- C20 (amended): for every gate the parser creates whose size, if it is a decoder or a
multiplexer, lies between 0 and 30, `calc_gate_in_size` and `calc_gate_out_size` return
the pair of the arity table, the gate has exactly that many parameter slots in all, and
the input slots are the first ones: input slot `j` is `params[j]` and output slot `i` is
`params[in_size + i]`. -/
theorem arity_table_parsed {input : List String} {nI nO : Int} {tok : String} {res : Int}
    {s : pstate} (h : parse_circuit (main_state input nI nO tok) = some (res, s))
    {g : gate_t} (hg : g ∈ s.gates)
    (hsz : g.type = type_t.DECODER ∨ g.type = type_t.MULTIPLEXER → 0 ≤ g.size ∧ g.size ≤ 30) :
    (calc_gate_in_size g, calc_gate_out_size g) = arity_table g.type g.size ∧
    (g.params.length : Int) = calc_gate_in_size g + calc_gate_out_size g ∧
    (∀ p, in_slot g p ↔
      ∃ j : Nat, (j : Int) < calc_gate_in_size g ∧ g.params[j]? = some p) ∧
    (∀ p, out_slot g p ↔
      ∃ i : Nat, (i : Int) < calc_gate_out_size g ∧
        g.params[(calc_gate_in_size g).toNat + i]? = some p) := by
  have hs : parsed_ok s := by
    refine parse_loop_ok _ ?_ h
    constructor
    · rfl
    · rfl
    · intro slot w hw; simp [main_state, init_wirelist] at hw
    · intro g hg; simp [main_state] at hg
    · intro g hg; simp [main_state] at hg
  obtain ⟨a, b, ha, hb, hlen, htab⟩ := arity_nat (hs.arity g hg) hsz
  refine ⟨by rw [ha, hb, htab], by rw [ha, hb, hlen]; push_cast; rfl, ?_, ?_⟩
  · intro p
    rw [in_slot_iff ha, mem_slot_list, ha]
    simp only [zero_add, Nat.cast_lt]
  · intro p
    rw [out_slot_iff ha hb, mem_slot_list, ha, hb]
    simp only [Int.toNat_natCast, Nat.cast_lt]

/-- C20 (witness): the decoder gate of the 1-to-2 decoder netlist. -/
theorem arity_table_parsed_witness :
    (calc_gate_in_size ⟨type_t.DECODER, 1, [0, 1, 2], 0⟩,
      calc_gate_out_size ⟨type_t.DECODER, 1, [0, 1, 2], 0⟩) = arity_table type_t.DECODER 1 ∧
    (([0, 1, 2] : List Nat).length : Int)
      = calc_gate_in_size ⟨type_t.DECODER, 1, [0, 1, 2], 0⟩
        + calc_gate_out_size ⟨type_t.DECODER, 1, [0, 1, 2], 0⟩ ∧
    (∀ p, in_slot ⟨type_t.DECODER, 1, [0, 1, 2], 0⟩ p ↔
      ∃ j : Nat, (j : Int) < calc_gate_in_size ⟨type_t.DECODER, 1, [0, 1, 2], 0⟩ ∧
        ([0, 1, 2] : List Nat)[j]? = some p) ∧
    (∀ p, out_slot ⟨type_t.DECODER, 1, [0, 1, 2], 0⟩ p ↔
      ∃ i : Nat, (i : Int) < calc_gate_out_size ⟨type_t.DECODER, 1, [0, 1, 2], 0⟩ ∧
        ([0, 1, 2] : List Nat)[(calc_gate_in_size ⟨type_t.DECODER, 1, [0, 1, 2], 0⟩).toNat + i]?
          = some p) := by
  have hparse : parse_circuit (main_state decoder_1to2 0 0 "") = some (0, parsed decoder_1to2) :=
    rfl
  have hgates : (parsed decoder_1to2).gates = [⟨type_t.DECODER, 1, [0, 1, 2], 0⟩] := by decide!
  exact arity_table_parsed (g := ⟨type_t.DECODER, 1, [0, 1, 2], 0⟩) hparse
    (by rw [hgates]; decide) (by intro _; decide)

/-- C17 (counterexample): a second `OUTPUT` statement after the header declares the
output `P` with identity 2 while the counters are 1 and 1, so `identity - n = 1` is not
below `m = 1`. -/
theorem output_position_counterexample :
    parse_circuit (main_state ["INPUT", "1", "A", "OUTPUT", "1", "O", "OUTPUT", "1", "P", "END"]
        0 0 "")
      = some (0, parsed ["INPUT", "1", "A", "OUTPUT", "1", "O", "OUTPUT", "1", "P", "END"]) ∧
    (parsed ["INPUT", "1", "A", "OUTPUT", "1", "O", "OUTPUT", "1", "P", "END"]).nInputs = 1 ∧
    (parsed ["INPUT", "1", "A", "OUTPUT", "1", "O", "OUTPUT", "1", "P", "END"]).nOutputs = 1 ∧
    ¬ (∀ w ∈ (parsed ["INPUT", "1", "A", "OUTPUT", "1", "O", "OUTPUT", "1", "P", "END"]).wires.list,
        w.type = var_type_t.OUTPUT →
        0 ≤ (w.id : Int)
            - (parsed ["INPUT", "1", "A", "OUTPUT", "1", "O", "OUTPUT", "1", "P", "END"]).nInputs ∧
        (w.id : Int)
            - (parsed ["INPUT", "1", "A", "OUTPUT", "1", "O", "OUTPUT", "1", "P", "END"]).nInputs
          < (parsed ["INPUT", "1", "A", "OUTPUT", "1", "O", "OUTPUT", "1", "P", "END"]).nOutputs) :=
  ⟨rfl, by decide!, by decide!, by decide!⟩

/-- C17 (amended): for a netlist that starts with `INPUT` and `n` pairwise distinct ordinary
labels, continues with `OUTPUT` and `m` pairwise distinct ordinary labels disjoint from
the inputs, and has no further `INPUT` or `OUTPUT` word (all words at most 16 characters
long), the `k`-th declared output is the wire of identity `n + k` and kind `OUTPUT`,
every wire of kind `OUTPUT` has `0 ≤ identity - n < m`, and the copy done for that
wire when a gate writes it stores the value at position `k` of the output block; the
`k`-th declared input is the wire of identity `k` and kind `INPUT`. -/
theorem output_position {cI cO : String} {ins outs rest : List String} {nI nO : Int}
    {tok : String} {res : Int} {s : pstate}
    (hcI : scan_int cI.data = (some (ins.length : Int), []))
    (hcO : scan_int cO.data = (some (outs.length : Int), []))
    (hlen : ∀ t ∈ ins ++ outs, t.length ≤ 16)
    (hord : ∀ t ∈ ins ++ outs, t ≠ "0" ∧ t ≠ "1" ∧ t ≠ "_")
    (hnd : (ins ++ outs).Nodup)
    (hrest : ∀ t ∈ rest, t.length ≤ 16 ∧ t ≠ "INPUT" ∧ t ≠ "OUTPUT")
    (hparse : parse_circuit (main_state ("INPUT" :: cI :: (ins ++ "OUTPUT" :: cO :: (outs ++ rest)))
      nI nO tok) = some (res, s)) :
    s.nInputs = ins.length ∧ s.nOutputs = outs.length ∧
    (∀ (k : Nat) (t : String), ins[k]? = some t →
      hashtable_get s.wires k = some ⟨t, k, var_type_t.INPUT⟩) ∧
    (∀ (k : Nat) (t : String), outs[k]? = some t →
      hashtable_get_by_key s.wires t = some (some ⟨t, ins.length + k, var_type_t.OUTPUT⟩) ∧
      hashtable_get s.wires (ins.length + k) = some ⟨t, ins.length + k, var_type_t.OUTPUT⟩ ∧
      ∀ (inputs : Int → Int) (st : row_state),
        store_output (row_env_of s inputs) st (ins.length + k)
          = some ⟨st.all_wires,
              upd st.outputs (k : Int) (st.all_wires ((ins.length + k : Nat) : Int))⟩) ∧
    (∀ w ∈ s.wires.list, w.type = var_type_t.OUTPUT →
      0 ≤ (w.id : Int) - s.nInputs ∧ (w.id : Int) - s.nInputs < s.nOutputs) := by
  obtain ⟨hok, hn, hm, L1, L2, L3, hl, hk1, hk2, hk3, hex⟩ :=
    parse_phases hcI hcO hlen hrest hparse
  obtain ⟨e1, e2⟩ := hex hnd
  have hl1 : L1.length = ins.length := by rw [e1, fresh_wires_length]
  have hl2 : L2.length = outs.length := by rw [e2, fresh_wires_length]
  have hout : ∀ w ∈ s.wires.list, w.type = var_type_t.OUTPUT → w ∈ L2 := by
    intro w hw ht
    rw [hl, List.mem_append, List.mem_append] at hw
    rcases hw with (hw | hw) | hw
    · have := hk1 w hw
      rcases check_type_cases w.key var_type_t.INPUT with h | h | h <;>
        rw [h, ht] at this <;> cases this
    · exact hw
    · have := hk3 w hw
      rcases check_type_cases w.key var_type_t.TEMP with h | h | h <;>
        rw [h, ht] at this <;> cases this
  refine ⟨hn, hm, ?_, ?_, ?_⟩
  · intro k t hkt
    have hget := fresh_wires_get (fun t => check_type t var_type_t.INPUT) ins 0 k t hkt
    rw [← e1, zero_add] at hget
    simp only [check_type_ordinary var_type_t.INPUT
      (hord t (List.mem_append_left _ (mem_of_get hkt)))] at hget
    have hmem : (⟨t, k, var_type_t.INPUT⟩ : wire_t) ∈ s.wires.list := by
      rw [hl, List.append_assoc]
      exact List.mem_append_left _ (mem_of_get hget)
    exact hashtable_get_of_mem hok hmem
  · intro k t hkt
    have hget := fresh_wires_get (fun _ => var_type_t.OUTPUT) outs ins.length k t hkt
    rw [← e2] at hget
    have hmem2 : (⟨t, ins.length + k, var_type_t.OUTPUT⟩ : wire_t) ∈ L2 := mem_of_get hget
    have hmem : (⟨t, ins.length + k, var_type_t.OUTPUT⟩ : wire_t) ∈ s.wires.list := by
      rw [hl]
      exact List.mem_append_left _ (List.mem_append_right _ hmem2)
    have hg := hashtable_get_of_mem hok hmem
    simp only at hg
    refine ⟨(hok.found _ hmem).2, hg, ?_⟩
    intro inputs st
    have hkm : k < outs.length := (List.getElem?_eq_some_iff.1 hkt).1
    have hwid : ins.length + k < s.wireId := by
      have := congrArg List.length hok.ids
      simp only [List.length_map, List.length_range] at this
      rw [← this, hl]
      simp only [List.length_append]
      omega
    have h := @store_output_eq (row_env_of s inputs) st (ins.length + k)
      ⟨t, ins.length + k, var_type_t.OUTPUT⟩ hg
      (by show ((ins.length + k : Nat) : Int) < ((s.wireId : Nat) : Int); omega)
      (by
        intro _
        show s.nInputs ≤ ((ins.length + k : Nat) : Int)
          ∧ ((ins.length + k : Nat) : Int) < s.nInputs + s.nOutputs
        rw [hn, hm]
        push_cast
        omega)
    rw [h]
    simp only [if_true]
    have hidx : ((ins.length + k : Nat) : Int) - (row_env_of s inputs).nInputs = (k : Int) := by
      show ((ins.length + k : Nat) : Int) - s.nInputs = (k : Int)
      rw [hn]
      push_cast
      omega
    rw [hidx]
  · intro w hw ht
    have := (mem_segment hok hl (w := w)).2.1 (hout w hw ht)
    rw [hn, hm]
    omega

/-- C17 (witness): the half adder, with inputs `A`, `B` and outputs `S`, `C`. -/
theorem output_position_witness :
    (parsed half_adder).nInputs = (["A", "B"] : List String).length ∧
    (parsed half_adder).nOutputs = (["S", "C"] : List String).length ∧
    (∀ (k : Nat) (t : String), (["A", "B"] : List String)[k]? = some t →
      hashtable_get (parsed half_adder).wires k = some ⟨t, k, var_type_t.INPUT⟩) ∧
    (∀ (k : Nat) (t : String), (["S", "C"] : List String)[k]? = some t →
      hashtable_get_by_key (parsed half_adder).wires t
        = some (some ⟨t, (["A", "B"] : List String).length + k, var_type_t.OUTPUT⟩) ∧
      hashtable_get (parsed half_adder).wires ((["A", "B"] : List String).length + k)
        = some ⟨t, (["A", "B"] : List String).length + k, var_type_t.OUTPUT⟩ ∧
      ∀ (inputs : Int → Int) (st : row_state),
        store_output (row_env_of (parsed half_adder) inputs) st
            ((["A", "B"] : List String).length + k)
          = some ⟨st.all_wires, upd st.outputs (k : Int)
              (st.all_wires (((["A", "B"] : List String).length + k : Nat) : Int))⟩) ∧
    (∀ w ∈ (parsed half_adder).wires.list, w.type = var_type_t.OUTPUT →
      0 ≤ (w.id : Int) - (parsed half_adder).nInputs ∧
      (w.id : Int) - (parsed half_adder).nInputs < (parsed half_adder).nOutputs) :=
  @output_position "2" "2" ["A", "B"] ["S", "C"]
    ["XOR", "A", "B", "S", "AND", "A", "B", "C", "END"]
    0 0 "" 0 (parsed half_adder) (by decide!) (by decide!) (by decide) (by decide) (by decide)
    (by decide) rfl

theorem opt_map_get {α β : Type} {f : α → Option β} {l : List α} {r : List β}
    (h : opt_map f l = some r) :
    r.length = l.length ∧ ∀ (i : Nat) (a : α) (b : β), l[i]? = some a → r[i]? = some b →
      f a = some b := by
  have hf := opt_map_forall₂ _ _ _ h
  rw [List.forall₂_iff_get] at hf
  obtain ⟨hlen, hget⟩ := hf
  refine ⟨hlen.symm, ?_⟩
  intro i a b ha hb
  obtain ⟨hi, hai⟩ := List.getElem?_eq_some_iff.1 ha
  obtain ⟨hj, hbj⟩ := List.getElem?_eq_some_iff.1 hb
  have := hget i hi hj
  simp only [List.get_eq_getElem] at this
  rw [hai, hbj] at this
  exact this

/-- The table of a parsed, well-wired, acyclic circuit: `build_circuit` returns one row
for each assignment below `1 << nInputs`, and each row is read from stores that satisfy
every gate's equation. -/
theorem circuit_rows {s : pstate} {nodes : List gatenode_t} (hs : parsed_ok s)
    (hgraph : build_graph s.wires s.gates = some nodes) (hac : acyclic nodes)
    (hw : well_wired s.wires s.gates s.nInputs s.nOutputs) (mem : Nat → row_mem) :
    ∃ rows, build_circuit s.wires s.gates s.nInputs s.nOutputs s.wireId mem = some rows ∧
      rows.length = (shl32 1 s.nInputs).toNat ∧
      ∀ (v : Nat) (row : row_t), rows[v]? = some row → ∃ (inputs : Int → Int) (st : row_state),
        row = ((List.range s.nInputs.toNat).map (fun (i : Nat) => inputs (i : Int)),
               (List.range s.nOutputs.toNat).map (fun (i : Nat) => st.outputs (i : Int))) ∧
        (∀ k : Nat, k < s.nInputs.toNat →
          inputs k = land1 (shr32 v ((s.nInputs.toNat - 1 - k : Nat) : Int))) ∧
        ∀ g ∈ s.gates, gate_holds (row_env_of s inputs) g st.all_wires ∧
          (∀ p, in_slot g p →
            in_val (row_env_of s inputs) p (st.all_wires p) = st.all_wires p) ∧
          (∀ p w, out_slot g p → hashtable_get s.wires p = some w →
            w.type = var_type_t.OUTPUT →
            st.outputs ((p : Int) - s.nInputs) = st.all_wires p) := by
  obtain ⟨V, S, _, _, hsort, _⟩ := row_sound hs hgraph hac hw (mem 0) 0
  obtain ⟨rows, hrows⟩ := opt_map_some
    (fun (v : Nat) => eval_row s.wires s.gates S s.nInputs s.nOutputs s.wireId (mem v) (v : Int))
    (List.range (shl32 1 s.nInputs).toNat) (by
      intro v _
      obtain ⟨V1, S1, inputs, st, hsort1, _, _, _, hrow, _⟩ :=
        row_sound hs hgraph hac hw (mem v) (v : Int)
      rw [hsort] at hsort1
      cases hsort1
      exact ⟨_, hrow⟩)
  obtain ⟨hlen, hget⟩ := opt_map_get hrows
  refine ⟨rows, ?_, by rw [hlen, List.length_range], ?_⟩
  · unfold build_circuit
    rw [hgraph]
    simp only [Option.bind_eq_bind, Option.some_bind]
    rw [hsort]
    simp only [Option.some_bind]
    exact hrows
  · intro v row hrow
    have hv : v < (shl32 1 s.nInputs).toNat := by
      have := (List.getElem?_eq_some_iff.1 hrow).1
      rw [hlen, List.length_range] at this
      exact this
    have hev := hget v v row (List.getElem?_range hv) hrow
    obtain ⟨V1, S1, inputs, st, hsort1, _, hbits, _, hrow1, hall⟩ :=
      row_sound hs hgraph hac hw (mem v) (v : Int)
    rw [hsort] at hsort1
    cases hsort1
    simp only at hev
    rw [hrow1] at hev
    exact ⟨inputs, st, (Option.some.inj hev).symm, hbits, hall⟩

theorem slot_scan_total {g : gate_t} {w : Nat} : ∀ (n : Nat) (i : Int),
    (∀ k : Nat, k < n → ∃ p, param g (i + (k : Int)) = some p) →
    ∃ b, slot_scan g w i n = some b := by
  intro n
  induction n with
  | zero => intro i _; exact ⟨false, rfl⟩
  | succ n ih =>
    intro i h
    obtain ⟨p, hp⟩ := h 0 (by omega)
    simp only [Nat.cast_zero, add_zero] at hp
    simp only [slot_scan, hp]
    by_cases hpw : p = w
    · exact ⟨true, by rw [if_pos hpw]⟩
    · rw [if_neg hpw]
      apply ih
      intro k hk
      obtain ⟨q, hq⟩ := h (k + 1) (by omega)
      refine ⟨q, ?_⟩
      rw [← hq]
      congr 1
      push_cast
      omega

theorem get_gate_in_id_total {w : Nat} : ∀ (gates : gatelist_t),
    (∀ g ∈ gates, ∀ k : Nat, k < (calc_gate_in_size g).toNat →
      ∃ p, param g (k : Int) = some p) →
    ∃ id, get_gate_in_id gates w = some id := by
  intro gates
  induction gates with
  | nil => intro _; exact ⟨-1, rfl⟩
  | cons g rest ih =>
    intro h
    obtain ⟨b, hb⟩ := slot_scan_total (g := g) (w := w) (calc_gate_in_size g).toNat 0 (by
      intro k hk
      rw [zero_add]
      exact h g (List.mem_cons_self _ _) k hk)
    simp only [get_gate_in_id, hb]
    cases b with
    | true => exact ⟨_, rfl⟩
    | false => exact ih (fun g1 hg1 => h g1 (List.mem_cons_of_mem _ hg1))

/-- A circuit whose gates read declared inputs and constants only and write declared
outputs and the discarded wire only: its graph is built and has no edge. -/
theorem build_graph_flat {s : pstate} (hs : parsed_ok s)
    (hsz : ∀ g ∈ s.gates, g.type = type_t.DECODER ∨ g.type = type_t.MULTIPLEXER →
      0 ≤ g.size ∧ g.size ≤ 30)
    (hin : ∀ g ∈ s.gates, ∀ p w, in_slot g p → hashtable_get s.wires p = some w →
      w.type = var_type_t.INPUT ∨ w.type = var_type_t.CONSTANT)
    (hout : ∀ g ∈ s.gates, ∀ p w, out_slot g p → hashtable_get s.wires p = some w →
      w.type = var_type_t.OUTPUT ∨ w.type = var_type_t.DISCARDED) :
    ∃ nodes, build_graph s.wires s.gates = some nodes ∧ acyclic nodes := by
  have hpar : ∀ g ∈ s.gates, ∀ k : Nat, k < (calc_gate_in_size g).toNat →
      ∃ p, param g (k : Int) = some p := by
    intro g hg k hk
    obtain ⟨a, b, ha, _, hlen, _⟩ := arity_nat (hs.arity g hg) (hsz g hg)
    rw [ha, Int.toNat_natCast] at hk
    rw [param_nat]
    exact ⟨_, List.getElem?_eq_getElem (by omega)⟩
  have hnin : ∀ g ∈ s.gates, ∀ i : Nat, i < (calc_gate_in_size g).toNat →
      node_in s.wires s.gates g i = some none := by
    intro g hg i hi
    obtain ⟨p, hp⟩ := hpar g hg i hi
    obtain ⟨w, hw⟩ := hs.params g hg p (by
      rw [param_nat] at hp
      exact mem_of_get hp)
    unfold node_in
    rw [hp]
    simp only [hw]
    have := hin g hg p w ⟨i, List.mem_range.2 hi, hp⟩ hw
    rw [if_neg]
    intro hc
    rcases this with h | h
    · exact hc.2 h
    · exact hc.1 h
  have hnout : ∀ g ∈ s.gates, ∀ i : Nat, i < (calc_gate_out_size g).toNat →
      node_out s.wires s.gates g i = some none := by
    intro g hg i hi
    obtain ⟨a, b, ha, hb, hlen, _⟩ := arity_nat (hs.arity g hg) (hsz g hg)
    rw [hb, Int.toNat_natCast] at hi
    obtain ⟨p, hpp⟩ : ∃ p, g.params[a + i]? = some p :=
      ⟨_, List.getElem?_eq_getElem (by omega)⟩
    have hp : param g (calc_gate_in_size g + (i : Int)) = some p := by
      rw [ha]
      have : ((a : Int) + (i : Int)) = ((a + i : Nat) : Int) := by push_cast; rfl
      rw [this, param_nat]
      exact hpp
    obtain ⟨w, hw⟩ := hs.params g hg p (mem_of_get hpp)
    obtain ⟨id, hid⟩ := get_gate_in_id_total (w := p) s.gates hpar
    unfold node_out
    rw [hp]
    simp only [hw, hid]
    have := hout g hg p w
      ⟨i, List.mem_range.2 (by rw [hb, Int.toNat_natCast]; exact hi), hp⟩ hw
    rw [if_neg]
    intro hc
    rcases this with h | h
    · exact hc.2.1 h
    · exact hc.1 h
  obtain ⟨nodes, hnodes⟩ := opt_map_some (build_node s.wires s.gates) s.gates (by
    intro g hg
    obtain ⟨ins, hins⟩ := opt_map_some (node_in s.wires s.gates g)
      (List.range (calc_gate_in_size g).toNat)
      (fun i hi => ⟨_, hnin g hg i (List.mem_range.1 hi)⟩)
    obtain ⟨outs, houts⟩ := opt_map_some (node_out s.wires s.gates g)
      (List.range (calc_gate_out_size g).toNat)
      (fun i hi => ⟨_, hnout g hg i (List.mem_range.1 hi)⟩)
    unfold build_node
    rw [hins]
    simp only [houts]
    exact ⟨_, rfl⟩)
  refine ⟨nodes, hnodes, ?_⟩
  apply acyclic_of_increasing
  rintro x y ⟨node, hx, hy⟩
  exfalso
  have hxl : x < s.gates.length := by
    rw [← build_graph_length hnodes]
    exact (List.getElem?_eq_some_iff.1 hx).1
  obtain ⟨node1, hn1, hb⟩ := build_graph_node hnodes (List.getElem?_eq_getElem hxl)
  rw [hx] at hn1
  cases hn1
  have ho := build_node_out hb
  rw [List.forall₂_iff_get] at ho
  obtain ⟨hlen, hget⟩ := ho
  obtain ⟨i, hi, hiy⟩ := List.getElem_of_mem hy
  have hi1 : i < (List.range (calc_gate_out_size s.gates[x]).toNat).length := hlen ▸ hi
  have := hget i hi1 hi
  simp only [List.get_eq_getElem, List.getElem_range] at this
  rw [hnout _ (List.getElem_mem _) i (by simpa using hi1), hiy] at this
  cases this

theorem wrap32_lt (x : Int) : wrap32 x < 2147483648 := by
  unfold wrap32
  omega

theorem shl32_size_le {n : Nat} (h : (shl32 1 (n : Int)).toNat = 2 ^ n) : n ≤ 30 := by
  by_contra hc
  have h31 : 31 ≤ n := by omega
  have h1 : 2 ^ 31 ≤ 2 ^ n := Nat.pow_le_pow_right (by norm_num) h31
  have h2 := wrap32_lt (1 * 2 ^ (n : Int).toNat)
  unfold shl32 at h
  omega

theorem inputs_row {n v : Nat} {inputs : Int → Int}
    (hbits : ∀ k : Nat, k < n → inputs k = land1 (shr32 v ((n - 1 - k : Nat) : Int))) :
    (List.range n).map (fun (i : Nat) => inputs (i : Int)) = input_bits n v := by
  unfold input_bits
  apply List.map_congr_left
  intro i hi
  rw [hbits i (List.mem_range.1 hi), land1_shr32]

theorem direct_wires_kind {wires : wirelist_t} {n m : Nat} (h : direct_wires wires n m)
    {i : Nat} {w : wire_t} (hi : i < n + m) (hw : hashtable_get wires i = some w) :
    w.type = if i < n then var_type_t.INPUT else var_type_t.OUTPUT := by
  have := h i (List.mem_range.2 hi)
  rw [hw] at this
  simpa using this

theorem mux_size_le {n : Nat}
    (h : 2 ^ n + n + 1 = (wrap32 (wrap32 (shl32 1 (n : Int) + (n : Int)) + 1)).toNat) :
    n ≤ 30 := by
  by_contra hc
  have h31 : 31 ≤ n := by omega
  have h1 : 2 ^ 31 ≤ 2 ^ n := Nat.pow_le_pow_right (by norm_num) h31
  have h2 := wrap32_lt (wrap32 (shl32 1 (n : Int) + (n : Int)) + 1)
  omega

theorem getD_map_range {f : Nat → Int} {n p : Nat} (hp : p < n) :
    ((List.range n).map f).getD p 0 = f p := by
  rw [List.getD_eq_getElem?_getD, List.getElem?_map, List.getElem?_range hp]
  rfl

/-- The table of a parsed circuit of one gate that reads declared inputs and writes
declared outputs, no output twice: it is printed, and every row comes from a wire store
that satisfies the gate's equation, holds the row's input bits at the gate's input
slots, and is copied to the row's output block at the gate's output slots. -/
theorem direct_gate_rows {input : List String} {nI0 nO0 : Int} {tok : String} {s : pstate}
    {g : gate_t} (nI nO : Nat)
    (hparse : parse_circuit (main_state input nI0 nO0 tok) = some (0, s))
    (hgates : s.gates = [g])
    (hsz : g.type = type_t.DECODER ∨ g.type = type_t.MULTIPLEXER → 0 ≤ g.size ∧ g.size ≤ 30)
    (hnI : s.nInputs = (nI : Int)) (hnO : s.nOutputs = (nO : Int))
    (hwires : direct_wires s.wires nI nO)
    (hins : ∀ p, in_slot g p → p < nI)
    (houts : ∀ p, out_slot g p → nI ≤ p ∧ p < nI + nO)
    (hinj : ∀ i j p : Nat, param g (calc_gate_in_size g + (i : Int)) = some p →
      param g (calc_gate_in_size g + (j : Int)) = some p → i = j)
    (mem : Nat → row_mem) :
    ∃ rows, run (main_state input nI0 nO0 tok) mem = some (some rows) ∧
      rows.length = (shl32 1 (nI : Int)).toNat ∧
      ∀ (v : Nat) (row : row_t), rows[v]? = some row →
        row.1 = input_bits nI v ∧ row.2.length = nO ∧
        ∃ (e : row_env) (aw : Int → Int), gate_holds e g aw ∧
          (∀ p, in_slot g p → aw p = row.1.getD p 0 ∧ is01 (row.1.getD p 0)) ∧
          (∀ p, out_slot g p → live e p ∧ row.2.getD (p - nI) 0 = aw p) := by
  have hs := parse_circuit_ok hparse
  have hg : g ∈ s.gates := by rw [hgates]; exact List.mem_singleton.2 rfl
  have hkin : ∀ p w, in_slot g p → hashtable_get s.wires p = some w →
      w.type = var_type_t.INPUT := by
    intro p w hp hw
    have := hins p hp
    rw [direct_wires_kind hwires (by omega) hw, if_pos this]
  have hkout : ∀ p w, out_slot g p → hashtable_get s.wires p = some w →
      w.type = var_type_t.OUTPUT := by
    intro p w hp hw
    have := houts p hp
    rw [direct_wires_kind hwires this.2 hw, if_neg (by omega)]
  have hsz1 : ∀ g1 ∈ s.gates, g1.type = type_t.DECODER ∨ g1.type = type_t.MULTIPLEXER →
      0 ≤ g1.size ∧ g1.size ≤ 30 := by
    intro g1 hgm
    rw [hgates, List.mem_singleton] at hgm
    subst hgm
    exact hsz
  obtain ⟨nodes, hgraph, hac⟩ := build_graph_flat hs hsz1
    (by
      intro g1 hgm p w hp hw
      rw [hgates, List.mem_singleton] at hgm
      subst hgm
      exact Or.inl (hkin p w hp hw))
    (by
      intro g1 hgm p w hp hw
      rw [hgates, List.mem_singleton] at hgm
      subst hgm
      exact Or.inl (hkout p w hp hw))
  have hw : well_wired s.wires s.gates s.nInputs s.nOutputs := by
    refine ⟨hsz1, ?_, ?_, ?_, ?_, ?_⟩
    · intro g1 hgm p _ hp w hw
      rw [hgates, List.mem_singleton] at hgm
      subst hgm
      exact Or.inl ⟨hkin p w hp hw, by rw [hnI]; exact_mod_cast hins p hp⟩
    · intro g1 hgm p _ hp w hw
      rw [hgates, List.mem_singleton] at hgm
      subst hgm
      have hpn := houts p hp
      refine Or.inr (Or.inl ⟨hkout p w hp hw, ?_, ?_⟩)
      · rw [hnI]; exact_mod_cast hpn.1
      · rw [hnI, hnO]; exact_mod_cast hpn.2
    · intro g1 hgm q hqm p _ _ _ w _ _
      rw [hgates, List.mem_singleton] at hgm hqm
      rw [hgm, hqm]
    · intro g1 hgm i _ j _ p _ hpi hpj w _ _
      rw [hgates, List.mem_singleton] at hgm
      subst hgm
      exact hinj i j p hpi hpj
    · intro g1 hgm q hqm p _ _ _ w _ _
      rw [hgates, List.mem_singleton] at hgm hqm
      rw [hgm, hqm]
  obtain ⟨rows, hbuild, hlen, hrows⟩ := circuit_rows hs hgraph hac hw mem
  refine ⟨rows, run_of_parse hparse hbuild, by rw [hlen, hnI], ?_⟩
  intro v row hrow
  obtain ⟨inputs, st, hroweq, hbits, hall⟩ := hrows v row hrow
  obtain ⟨hholds, hcanon, hoval⟩ := hall _ hg
  have hnIn : s.nInputs.toNat = nI := by rw [hnI, Int.toNat_natCast]
  have hnOn : s.nOutputs.toNat = nO := by rw [hnO, Int.toNat_natCast]
  rw [hnIn] at hbits
  have hrow1 : row.1 = (List.range nI).map (fun (i : Nat) => inputs (i : Int)) := by
    rw [hroweq, hnIn]
  have hrow2 : row.2 = (List.range nO).map (fun (i : Nat) => st.outputs (i : Int)) := by
    rw [hroweq, hnOn]
  refine ⟨by rw [hrow1]; exact inputs_row hbits, by rw [hrow2]; simp,
    row_env_of s inputs, st.all_wires, hholds, ?_, ?_⟩
  · intro p hp
    have hpn := hins p hp
    obtain ⟨w, hwq⟩ := hs.params _ hg p (in_slot_mem hp)
    have hget : row.1.getD p 0 = inputs p := by
      rw [hrow1]; exact getD_map_range hpn
    rw [hget]
    refine ⟨?_, by rw [hbits p hpn]; exact is01_land1 _⟩
    have := hcanon p hp
    rw [← this, in_val_input (e := row_env_of s inputs) hwq (hkin p w hp hwq),
      (hashtable_get_id hwq).1]
    rfl
  · intro p hp
    have hpn := houts p hp
    obtain ⟨w, hwq⟩ := hs.params _ hg p (out_slot_mem hp)
    have hty := hkout p w hp hwq
    refine ⟨live_of_type (e := row_env_of s inputs) hwq (by rw [hty]; decide), ?_⟩
    have h1 := hoval p w hp hwq hty
    rw [← h1, hrow2, getD_map_range (by omega), hnI]
    congr 1
    omega

theorem slot_list_left {t : type_t} {sz : Int} {id a : Nat} {ins outs : List Nat}
    (hil : ins.length = a) : slot_list ⟨t, sz, ins ++ outs, id⟩ 0 a = ins := by
  unfold slot_list
  show ((ins ++ outs).drop 0).take a = ins
  rw [List.drop_zero, List.take_left' hil]

theorem slot_list_right {t : type_t} {sz : Int} {id a b : Nat} {ins outs : List Nat}
    (hil : ins.length = a) (hol : outs.length = b) :
    slot_list ⟨t, sz, ins ++ outs, id⟩ a b = outs := by
  unfold slot_list
  show ((ins ++ outs).drop a).take b = outs
  rw [List.drop_left' hil, ← hol, List.take_length]

theorem param_right {t : type_t} {sz : Int} {id a : Nat} {ins outs : List Nat}
    (hil : ins.length = a) (i : Nat) :
    param ⟨t, sz, ins ++ outs, id⟩ ((a : Int) + (i : Int)) = outs[i]? := by
  have e : ((a : Int) + (i : Int)) = ((a + i : Nat) : Int) := by push_cast; rfl
  rw [e, param_nat]
  show (ins ++ outs)[a + i]? = outs[i]?
  rw [List.getElem?_append_right (by omega)]
  congr 1
  omega

/-- Shape of a decoder of size `n` with input slots `ins` and output slots `outs`. -/
theorem decoder_shape {n id : Nat} {ins outs : List Nat} (hn : n ≤ 30)
    (hil : ins.length = n) (hol : outs.length = 2 ^ n) :
    calc_gate_in_size ⟨type_t.DECODER, n, ins ++ outs, id⟩ = (n : Int) ∧
    calc_gate_out_size ⟨type_t.DECODER, n, ins ++ outs, id⟩ = ((2 ^ n : Nat) : Int) ∧
    (∀ p, in_slot ⟨type_t.DECODER, n, ins ++ outs, id⟩ p ↔ p ∈ ins) ∧
    (∀ p, out_slot ⟨type_t.DECODER, n, ins ++ outs, id⟩ p ↔ p ∈ outs) := by
  have h1 : calc_gate_in_size ⟨type_t.DECODER, n, ins ++ outs, id⟩ = (n : Int) := by
    unfold calc_gate_in_size
    simp
  have h2 : calc_gate_out_size ⟨type_t.DECODER, n, ins ++ outs, id⟩
      = ((2 ^ n : Nat) : Int) := by
    unfold calc_gate_out_size
    simp only [if_true]
    rw [shl32_one_small (Int.natCast_nonneg n) (by omega), Int.toNat_natCast]
    push_cast
    rfl
  refine ⟨h1, h2, ?_, ?_⟩
  · intro p
    rw [in_slot_iff h1, slot_list_left hil]
  · intro p
    rw [out_slot_iff h1 h2, slot_list_right hil hol]

theorem getD_input_bits (n v : Nat) :
    (List.range n).map (fun (p : Nat) => (input_bits n v).getD p 0) = input_bits n v := by
  unfold input_bits
  apply List.map_congr_left
  intro p hp
  exact getD_map_range (List.mem_range.1 hp)

/-- C8: for every size `n`, when the parsed circuit is one `DECODER` of size `n` whose
`n` input slots `ins` are declared inputs and whose `2^n` output slots `outs` are
distinct declared outputs, the table is printed, and in every row, with `sel` the
unsigned integer formed by the bits of the input slots, first slot most significant,
`0 ≤ sel < 2^n` and the output bit wired to output slot `k` is 1 for `k = sel` and 0 for
every other `k`. When the input slots are the declared inputs in order, `sel` is the
number of the row; when the output slots are the declared outputs in order, the output
block of the row is the one-hot list with its 1 at index `sel`. -/
theorem decoder_one_hot {input : List String} {nI0 nO0 : Int} {tok : String} {s : pstate}
    (n nI nO : Nat) (ins outs : List Nat)
    (hparse : parse_circuit (main_state input nI0 nO0 tok) = some (0, s))
    (hgates : s.gates = [⟨type_t.DECODER, n, ins ++ outs, 0⟩])
    (hnI : s.nInputs = (nI : Int)) (hnO : s.nOutputs = (nO : Int))
    (hwires : direct_wires s.wires nI nO)
    (hil : ins.length = n) (hol : outs.length = 2 ^ n)
    (hins : ∀ p ∈ ins, p < nI) (houts : ∀ p ∈ outs, nI ≤ p ∧ p < nI + nO)
    (hnd : outs.Nodup) (mem : Nat → row_mem) :
    ∃ rows, run (main_state input nI0 nO0 tok) mem = some (some rows) ∧
      (nI ≤ 30 → rows.length = 2 ^ nI) ∧
      ∀ (v : Nat) (row : row_t), rows[v]? = some row →
        row.1 = input_bits nI v ∧
        0 ≤ decode (ins.map (fun (p : Nat) => row.1.getD p 0)) ∧
        decode (ins.map (fun (p : Nat) => row.1.getD p 0)) < 2 ^ n ∧
        (∀ (k o : Nat), outs[k]? = some o → row.2.getD (o - nI) 0
          = bit (decide ((k : Int) = decode (ins.map (fun (p : Nat) => row.1.getD p 0))))) ∧
        (ins = List.range nI →
          decode (ins.map (fun (p : Nat) => row.1.getD p 0)) = (v : Int)) ∧
        (outs = List.range' nI nO → row.2 = (List.range nO).map (fun (k : Nat) =>
          bit (decide ((k : Int) = decode (ins.map (fun (p : Nat) => row.1.getD p 0)))))) := by
  have hs := parse_circuit_ok hparse
  have hg : (⟨type_t.DECODER, n, ins ++ outs, 0⟩ : gate_t) ∈ s.gates := by
    rw [hgates]; exact List.mem_singleton.2 rfl
  have hn30 : n ≤ 30 := by
    have har := hs.arity _ hg
    unfold arity_ok at har
    simp only [List.length_append, Int.toNat_natCast, hil, hol] at har
    exact shl32_size_le (by omega)
  obtain ⟨hin, hout, hinslot, houtslot⟩ := @decoder_shape n 0 ins outs hn30 hil hol
  obtain ⟨rows, hrun, hlen, hrows⟩ := direct_gate_rows nI nO hparse hgates
    (fun _ => ⟨Int.natCast_nonneg n, by show (n : Int) ≤ 30; omega⟩) hnI hnO hwires
    (fun p hp => hins p ((hinslot p).1 hp)) (fun p hp => houts p ((houtslot p).1 hp))
    (by
      intro i j p hi hj
      rw [hin, param_right hil] at hi hj
      exact nodup_index hnd hi hj) mem
  refine ⟨rows, hrun, ?_, ?_⟩
  · intro hsmall
    rw [hlen, shl32_one_small (Int.natCast_nonneg nI) (by exact_mod_cast hsmall),
      Int.toNat_natCast, two_pow_toNat]
  intro v row hrow
  obtain ⟨hrow1, hlen2, e, aw, hholds, hinv, houtv⟩ := hrows v row hrow
  have hbool : ∀ x ∈ ins.map (fun (p : Nat) => row.1.getD p 0), is01 x := by
    intro x hx
    obtain ⟨p, hp, rfl⟩ := List.mem_map.1 hx
    exact (hinv p ((hinslot p).2 hp)).2
  have h0 := decode_nonneg _ hbool
  have hlt := decode_lt _ hbool
  rw [List.length_map, hil] at hlt
  have hsel : slots_value aw (List.take n (ins ++ outs))
      = decode (ins.map (fun (p : Nat) => row.1.getD p 0)) := by
    unfold slots_value
    rw [List.take_left' hil]
    refine congrArg decode ?_
    apply List.map_congr_left
    intro p hp
    exact (hinv p ((hinslot p).2 hp)).1
  have hbit : ∀ (k o : Nat), outs[k]? = some o → row.2.getD (o - nI) 0
      = bit (decide ((k : Int) = decode (ins.map (fun (p : Nat) => row.1.getD p 0)))) := by
    intro k o hko
    have hk : k < 2 ^ n := by
      rw [← hol]; exact (List.getElem?_eq_some_iff.1 hko).1
    obtain ⟨hlive, hval⟩ := houtv o ((houtslot o).2 (mem_of_get hko))
    unfold gate_holds at hholds
    simp only [Int.toNat_natCast] at hholds
    have h2 := hholds k o hk (by
      rw [List.getElem?_append_right (by omega)]
      rw [← hko]
      congr 1
      omega) hlive
    rw [hval, h2]
    simp only [hsel]
  refine ⟨hrow1, h0, hlt, hbit, ?_, ?_⟩
  · intro hord
    have hv : v < 2 ^ nI := by
      have h1 := (List.getElem?_eq_some_iff.1 hrow).1
      have h2 := shl32_one_toNat_le (nI : Int)
      rw [Int.toNat_natCast] at h2
      omega
    rw [hord, hrow1, getD_input_bits, decode_input_bits, Nat.mod_eq_of_lt hv]
  · intro hord
    apply List.ext_getElem?
    intro k
    by_cases hk : k < nO
    · have hko : outs[k]? = some (nI + k) := by
        rw [hord, List.getElem?_range' _ _ hk]
        simp
      have := hbit k (nI + k) hko
      rw [Nat.add_sub_cancel_left, List.getD_eq_getElem?_getD] at this
      rw [List.getElem?_map, List.getElem?_range hk]
      have hk2 : k < row.2.length := by omega
      rw [List.getElem?_eq_getElem hk2] at this ⊢
      simp only [Option.getD_some] at this
      rw [this]
      rfl
    · rw [List.getElem?_eq_none (by omega), List.getElem?_eq_none (by simp; omega)]

/-- C8 (witness): the 1-to-2 decoder netlist, `n = 1`. -/
theorem decoder_one_hot_witness :
    ∃ rows, run (main_state decoder_1to2 0 0 "") zero_mem = some (some rows) ∧
      (1 ≤ 30 → rows.length = 2 ^ 1) ∧
      ∀ (v : Nat) (row : row_t), rows[v]? = some row →
        row.1 = input_bits 1 v ∧
        0 ≤ decode ([0].map (fun (p : Nat) => row.1.getD p 0)) ∧
        decode ([0].map (fun (p : Nat) => row.1.getD p 0)) < 2 ^ 1 ∧
        (∀ (k o : Nat), [1, 2][k]? = some o → row.2.getD (o - 1) 0
          = bit (decide ((k : Int) = decode ([0].map (fun (p : Nat) => row.1.getD p 0))))) ∧
        ([0] = List.range 1 →
          decode ([0].map (fun (p : Nat) => row.1.getD p 0)) = (v : Int)) ∧
        ([1, 2] = List.range' 1 2 → row.2 = (List.range 2).map (fun (k : Nat) =>
          bit (decide ((k : Int) = decode ([0].map (fun (p : Nat) => row.1.getD p 0)))))) :=
  @decoder_one_hot decoder_1to2 0 0 "" (parsed decoder_1to2) 1 1 2 [0] [1, 2] rfl
    (by decide!) (by decide!) (by decide!) (by decide!) rfl rfl (by decide) (by decide)
    (by decide) zero_mem

/-- Shape of a multiplexer of size `n` with data and selector slots `ins` and output
slot `o`. -/
theorem multiplexer_shape {n id o : Nat} {ins : List Nat} (hn : n ≤ 30)
    (hil : ins.length = 2 ^ n + n) :
    calc_gate_in_size ⟨type_t.MULTIPLEXER, n, ins ++ [o], id⟩ = ((2 ^ n + n : Nat) : Int) ∧
    (∀ p, in_slot ⟨type_t.MULTIPLEXER, n, ins ++ [o], id⟩ p ↔ p ∈ ins) ∧
    (∀ p, out_slot ⟨type_t.MULTIPLEXER, n, ins ++ [o], id⟩ p ↔ p = o) := by
  have hpow := two_pow_le_30 hn
  have hpos : (0 : Int) < 2 ^ n := by positivity
  have hsh : shl32 1 (n : Int) = 2 ^ n := by
    rw [shl32_one_small (Int.natCast_nonneg n) (by omega), Int.toNat_natCast]
  have h1 : calc_gate_in_size ⟨type_t.MULTIPLEXER, n, ins ++ [o], id⟩
      = ((2 ^ n + n : Nat) : Int) := by
    unfold calc_gate_in_size
    simp only [if_true]
    rw [hsh, wrap32_eq (by omega) (by omega)]
    push_cast
    rfl
  have h2 : calc_gate_out_size ⟨type_t.MULTIPLEXER, n, ins ++ [o], id⟩
      = ((1 : Nat) : Int) := by
    unfold calc_gate_out_size
    simp
  refine ⟨h1, ?_, ?_⟩
  · intro p
    rw [in_slot_iff h1, slot_list_left hil]
  · intro p
    have hsl := @slot_list_right type_t.MULTIPLEXER (n : Int) id (2 ^ n + n) 1 ins [o] hil rfl
    rw [out_slot_iff h1 h2, hsl, List.mem_singleton]

/-- C9: for every size `n`, when the parsed circuit is one `MULTIPLEXER` of size `n`
whose `2^n` data slots followed by `n` selector slots, `ins`, are declared inputs and
whose output slot `o` is a declared output, the table is printed, and in every row,
with `sel` the unsigned integer formed by the bits of the `n` selector slots, first
selector slot most significant, `0 ≤ sel < 2^n` and the output bit of `o` equals the
input bit of the wire in data slot number `sel`. When the slots are the declared inputs
in order and `o` is the only declared output, the output block of the row is the input
bit at index `sel`. -/
theorem multiplexer_selects {input : List String} {nI0 nO0 : Int} {tok : String} {s : pstate}
    (n nI nO : Nat) (ins : List Nat) (o : Nat)
    (hparse : parse_circuit (main_state input nI0 nO0 tok) = some (0, s))
    (hgates : s.gates = [⟨type_t.MULTIPLEXER, n, ins ++ [o], 0⟩])
    (hnI : s.nInputs = (nI : Int)) (hnO : s.nOutputs = (nO : Int))
    (hwires : direct_wires s.wires nI nO)
    (hil : ins.length = 2 ^ n + n)
    (hins : ∀ p ∈ ins, p < nI) (hout : nI ≤ o ∧ o < nI + nO) (mem : Nat → row_mem) :
    ∃ rows, run (main_state input nI0 nO0 tok) mem = some (some rows) ∧
      (nI ≤ 30 → rows.length = 2 ^ nI) ∧
      ∀ (v : Nat) (row : row_t), rows[v]? = some row →
        row.1 = input_bits nI v ∧
        0 ≤ decode ((ins.drop (2 ^ n)).map (fun (p : Nat) => row.1.getD p 0)) ∧
        decode ((ins.drop (2 ^ n)).map (fun (p : Nat) => row.1.getD p 0)) < 2 ^ n ∧
        (∃ d, (ins.take (2 ^ n))[(decode ((ins.drop (2 ^ n)).map
            (fun (p : Nat) => row.1.getD p 0))).toNat]? = some d ∧
          row.2.getD (o - nI) 0 = row.1.getD d 0) ∧
        (ins = List.range nI → nO = 1 → row.2 = [row.1.getD (decode ((ins.drop (2 ^ n)).map
            (fun (p : Nat) => row.1.getD p 0))).toNat 0]) := by
  have hs := parse_circuit_ok hparse
  have hg : (⟨type_t.MULTIPLEXER, n, ins ++ [o], 0⟩ : gate_t) ∈ s.gates := by
    rw [hgates]; exact List.mem_singleton.2 rfl
  have hn30 : n ≤ 30 := by
    have har := hs.arity _ hg
    unfold arity_ok at har
    simp only [List.length_append, List.length_singleton, hil] at har
    exact mux_size_le har
  obtain ⟨hin, hinslot, houtslot⟩ := @multiplexer_shape n 0 o ins hn30 hil
  have hpos : 0 < 2 ^ n := Nat.two_pow_pos n
  obtain ⟨rows, hrun, hlen, hrows⟩ := direct_gate_rows nI nO hparse hgates
    (fun _ => ⟨Int.natCast_nonneg n, by show (n : Int) ≤ 30; omega⟩) hnI hnO hwires
    (fun p hp => hins p ((hinslot p).1 hp))
    (fun p hp => by rw [(houtslot p).1 hp]; exact hout)
    (by
      intro i j p hi hj
      rw [hin, param_right hil] at hi hj
      have a := (List.getElem?_eq_some_iff.1 hi).1
      have b := (List.getElem?_eq_some_iff.1 hj).1
      simp only [List.length_singleton] at a b
      omega) mem
  refine ⟨rows, hrun, ?_, ?_⟩
  · intro hsmall
    rw [hlen, shl32_one_small (Int.natCast_nonneg nI) (by exact_mod_cast hsmall),
      Int.toNat_natCast, two_pow_toNat]
  intro v row hrow
  obtain ⟨hrow1, hlen2, e, aw, hholds, hinv, houtv⟩ := hrows v row hrow
  have hdropmem : ∀ p ∈ ins.drop (2 ^ n), p ∈ ins := fun p hp => List.mem_of_mem_drop hp
  have hbool : ∀ x ∈ (ins.drop (2 ^ n)).map (fun (p : Nat) => row.1.getD p 0), is01 x := by
    intro x hx
    obtain ⟨p, hp, rfl⟩ := List.mem_map.1 hx
    exact (hinv p ((hinslot p).2 (hdropmem p hp))).2
  have h0 := decode_nonneg _ hbool
  have hlt := decode_lt _ hbool
  have hdl : (ins.drop (2 ^ n)).length = n := by
    rw [List.length_drop, hil]; omega
  rw [List.length_map, hdl] at hlt
  have hsel : slots_value aw (List.take n (List.drop (2 ^ n) (ins ++ [o])))
      = decode ((ins.drop (2 ^ n)).map (fun (p : Nat) => row.1.getD p 0)) := by
    unfold slots_value
    rw [List.drop_append_of_le_length (by omega), List.take_left' hdl]
    refine congrArg decode ?_
    apply List.map_congr_left
    intro p hp
    exact (hinv p ((hinslot p).2 (hdropmem p hp))).1
  obtain ⟨hlive, hval⟩ := houtv o ((houtslot o).2 rfl)
  unfold gate_holds at hholds
  simp only [Int.toNat_natCast] at hholds
  obtain ⟨d, hd, hod⟩ := hholds o (by
    rw [List.getElem?_append_right (by omega)]
    have : 2 ^ n + n - ins.length = 0 := by omega
    rw [this]
    rfl) hlive
  simp only [hsel] at hd
  have hselnat : (decode ((ins.drop (2 ^ n)).map (fun (p : Nat) => row.1.getD p 0))).toNat
      < 2 ^ n := by
    have : ((2 : Int) ^ n) = ((2 ^ n : Nat) : Int) := by push_cast; rfl
    omega
  have hd1 : ins[(decode ((ins.drop (2 ^ n)).map
      (fun (p : Nat) => row.1.getD p 0))).toNat]? = some d := by
    rw [List.getElem?_append_left (by omega)] at hd
    exact hd
  have hdmem : d ∈ ins := mem_of_get hd1
  have hbit : row.2.getD (o - nI) 0 = row.1.getD d 0 := by
    rw [hval, hod]
    exact (hinv d ((hinslot d).2 hdmem)).1
  refine ⟨hrow1, h0, hlt, ⟨d, ?_, hbit⟩, ?_⟩
  · rw [List.getElem?_take_of_lt hselnat]
    exact hd1
  · intro hord hone
    have hdeq : d = (decode ((ins.drop (2 ^ n)).map
        (fun (p : Nat) => row.1.getD p 0))).toNat := by
      have hd2 := hd1
      rw [hord] at hd2
      obtain ⟨h1, h2⟩ := List.getElem?_eq_some_iff.1 hd2
      rw [List.getElem_range] at h2
      rw [← h2, hord]
    have ho : o - nI = 0 := by omega
    rw [ho] at hbit
    rw [← hdeq, ← hbit]
    rw [hone] at hlen2
    match hr : row.2, hlen2 with
    | [x], _ => rfl

/-- C9 (witness): the 2-to-1 multiplexer netlist, `n = 1`. -/
theorem multiplexer_selects_witness :
    ∃ rows, run (main_state mux_2to1 0 0 "") zero_mem = some (some rows) ∧
      (3 ≤ 30 → rows.length = 2 ^ 3) ∧
      ∀ (v : Nat) (row : row_t), rows[v]? = some row →
        row.1 = input_bits 3 v ∧
        0 ≤ decode (([0, 1, 2].drop (2 ^ 1)).map (fun (p : Nat) => row.1.getD p 0)) ∧
        decode (([0, 1, 2].drop (2 ^ 1)).map (fun (p : Nat) => row.1.getD p 0)) < 2 ^ 1 ∧
        (∃ d, ([0, 1, 2].take (2 ^ 1))[(decode (([0, 1, 2].drop (2 ^ 1)).map
            (fun (p : Nat) => row.1.getD p 0))).toNat]? = some d ∧
          row.2.getD (3 - 3) 0 = row.1.getD d 0) ∧
        ([0, 1, 2] = List.range 3 → 1 = 1 →
          row.2 = [row.1.getD (decode (([0, 1, 2].drop (2 ^ 1)).map
            (fun (p : Nat) => row.1.getD p 0))).toNat 0]) :=
  @multiplexer_selects mux_2to1 0 0 "" (parsed mux_2to1) 1 3 1 [0, 1, 2] 3 rfl
    (by decide!) (by decide!) (by decide!) (by decide!) rfl (by decide) (by decide) zero_mem

theorem closed_graph_of_nodes {nodes : List gatenode_t} (h : closed_nodes nodes) :
    closed_graph nodes := by
  intro x y ⟨node, hnode, hy⟩
  exact h node (mem_of_get hnode) (some y) hy y rfl

theorem chain_nodes_acyclic : acyclic chain_nodes := by
  apply acyclic_of_increasing
  rintro x y ⟨node, hx, hy⟩
  unfold chain_nodes at hx
  match x, hx with
  | 0, hx => simp at hx; subst hx; simp at hy; omega
  | 1, hx => simp at hx; subst hx; simp at hy
  | (k + 2), hx => simp at hx

/-- C25: on a gate graph whose recorded consumer edges (the non-null `out` pointers) are
acyclic, the sort returns, and for every gate `g` with a non-null `out` pointer to gate
`c`, the stack holds `c` below `g`: `c` was pushed before `g`, and `g` is replayed before
`c` when the stack is read from its top down to index 0. -/
theorem postorder_respects_edges (nodes : List gatenode_t) (hcl : closed_graph nodes)
    (hac : acyclic nodes) :
    ∃ V S, toposort nodes nodes.length = some (V, S) ∧
      ∀ g c, edge nodes g c →
        (∃ A B, S = A ++ g :: B ∧ c ∈ A) ∧ evaluated_before S g c := by
  obtain ⟨V, S, hsort, _, hmem, _, htopo⟩ := toposort_spec nodes hcl
  refine ⟨V, S, hsort, ?_⟩
  intro g c hedge
  have hgS : g ∈ S := by
    rw [hmem]
    obtain ⟨node, hnode, _⟩ := hedge
    exact (List.getElem?_eq_some_iff.1 hnode).1
  obtain ⟨A, B, hAB⟩ := List.append_of_mem hgS
  have hcA := htopo hac A g B hAB c hedge
  refine ⟨⟨A, B, hAB, hcA⟩, ?_⟩
  obtain ⟨j, hj, hjc⟩ := List.getElem_of_mem hcA
  refine ⟨A.length, ?_, j, List.mem_range.2 hj, ?_, ?_⟩
  · rw [List.mem_range, hAB]; simp
  · show S[A.length]? = some g
    rw [hAB, List.getElem?_append_right (le_refl _)]; simp
  · show S[j]? = some c
    rw [hAB, List.getElem?_append_left hj, List.getElem?_eq_getElem hj, hjc]

/-- C25 (witness): the graph of the chain netlist. -/
theorem postorder_respects_edges_witness :
    ∃ V S, toposort chain_nodes chain_nodes.length = some (V, S) ∧
      ∀ g c, edge chain_nodes g c →
        (∃ A B, S = A ++ g :: B ∧ c ∈ A) ∧ evaluated_before S g c :=
  postorder_respects_edges chain_nodes (closed_graph_of_nodes (by decide)) chain_nodes_acyclic

/-- C26: for every gate graph, cyclic or not, the sorting loop of `build_circuit`
returns: the recursion of `dfs` is never deeper than the number of gates, whatever bound
at least that large is put on it, and no gate is entered twice. -/
theorem sort_terminates (nodes : List gatenode_t) (hcl : closed_graph nodes) :
    (∃ st, toposort nodes nodes.length = some st) ∧
    ∀ fuel, nodes.length ≤ fuel →
      ∃ V S, dfs_loop (dfs nodes fuel) ((List.range nodes.length).reverse.map some)
        (fun _ => false, []) = some (V, S) ∧ S.Nodup := by
  constructor
  · obtain ⟨V, S, hsort, _⟩ := toposort_spec nodes hcl
    exact ⟨(V, S), hsort⟩
  · intro fuel hfuel
    obtain ⟨N, ⟨V, hr, hnd, _, _⟩, _, _⟩ :=
      dfs_loop_spec nodes fuel (dfs nodes fuel) (dfs_spec nodes hcl fuel)
        (fun _ => False) ((List.range nodes.length).reverse.map some) (fun _ => false) []
        (by intro y hy; simp at hy; exact hy)
        (by
          unfold unvisited
          have h1 := Finset.card_filter_le (Finset.range nodes.length)
            (fun k => (fun (_ : Nat) => false) k = false)
          rw [Finset.card_range] at h1
          exact le_trans h1 hfuel)
    exact ⟨V, N, by simpa using hr, hnd⟩

/-- C26 (witness): two gates on a cycle. -/
theorem sort_terminates_witness :
    (∃ st, toposort cyclic_nodes cyclic_nodes.length = some st) ∧
    ∀ fuel, cyclic_nodes.length ≤ fuel →
      ∃ V S, dfs_loop (dfs cyclic_nodes fuel) ((List.range cyclic_nodes.length).reverse.map some)
        (fun _ => false, []) = some (V, S) ∧ S.Nodup :=
  sort_terminates cyclic_nodes (closed_graph_of_nodes (by decide))

/-- C27: for every gate graph with `nGates` gates, cyclic or not, after the sorting loop
the stack has `nGates` entries (`top = nGates`) and they are the gate ids
`0 .. nGates - 1`, each exactly once; every index `i < nGates` read by the replay holds
a gate id. -/
theorem sort_permutation (nodes : List gatenode_t) (hcl : closed_graph nodes) :
    ∃ V S, toposort nodes nodes.length = some (V, S) ∧ S.length = nodes.length ∧
      S.Nodup ∧ S.Perm (List.range nodes.length) ∧
      ∀ i, i < nodes.length → ∃ k, S[i]? = some k ∧ k < nodes.length := by
  obtain ⟨V, S, hsort, hnd, hmem, hlen, _⟩ := toposort_spec nodes hcl
  refine ⟨V, S, hsort, hlen, hnd, ?_, ?_⟩
  · rw [List.perm_ext_iff_of_nodup hnd (List.nodup_range _)]
    intro k
    rw [hmem, List.mem_range]
  · intro i hi
    have hi2 : i < S.length := by omega
    refine ⟨S[i], List.getElem?_eq_getElem hi2, ?_⟩
    exact (hmem _).1 (List.getElem_mem _)

/-- C27 (witness): two gates on a cycle. -/
theorem sort_permutation_witness :
    ∃ V S, toposort cyclic_nodes cyclic_nodes.length = some (V, S) ∧
      S.length = cyclic_nodes.length ∧ S.Nodup ∧ S.Perm (List.range cyclic_nodes.length) ∧
      ∀ i, i < cyclic_nodes.length → ∃ k, S[i]? = some k ∧ k < cyclic_nodes.length :=
  sort_permutation cyclic_nodes (closed_graph_of_nodes (by decide))

/-- C23: for each of `AND`, `OR`, `NAND`, `NOR`, `XOR` and each constant token `c` of
`"0"`, `"1"`, the netlist `INPUT 1 A / OUTPUT 1 O / op A c O` prints two rows, and the
output bit of each row is the operator applied to the row's input bit and the literal
value of `c`, whatever the initial contents of the counters, the token buffer and the
allocated blocks. -/
theorem constant_rows (op c : String) (nI nO : Int) (tok : String) (mem : Nat → row_mem) :
    op ∈ ["AND", "OR", "NAND", "NOR", "XOR"] → c ∈ ["0", "1"] →
    run (main_state (constant_netlist op c) nI nO tok) mem
      = some (some (table1 (fun a => bool_op op a (decide (c = "1"))))) := by
  intro h hc
  simp only [List.mem_cons, List.mem_singleton, List.not_mem_nil, or_false] at h hc
  rcases h with h | h | h | h | h <;> subst h <;> rcases hc with hc | hc <;> subst hc
  · exact run_of_parse (s := parsed (constant_netlist "AND" "0")) rfl rfl
  · exact run_of_parse (s := parsed (constant_netlist "AND" "1")) rfl rfl
  · exact run_of_parse (s := parsed (constant_netlist "OR" "0")) rfl rfl
  · exact run_of_parse (s := parsed (constant_netlist "OR" "1")) rfl rfl
  · exact run_of_parse (s := parsed (constant_netlist "NAND" "0")) rfl rfl
  · exact run_of_parse (s := parsed (constant_netlist "NAND" "1")) rfl rfl
  · exact run_of_parse (s := parsed (constant_netlist "NOR" "0")) rfl rfl
  · exact run_of_parse (s := parsed (constant_netlist "NOR" "1")) rfl rfl
  · exact run_of_parse (s := parsed (constant_netlist "XOR" "0")) rfl rfl
  · exact run_of_parse (s := parsed (constant_netlist "XOR" "1")) rfl rfl

/-- C23 (witness): `AND A 1` reproduces `A`. -/
theorem constant_rows_witness :
    run (main_state (constant_netlist "AND" "1") 0 0 "") zero_mem
      = some (some [([0], [0]), ([1], [1])]) :=
  constant_rows "AND" "1" 0 0 "" zero_mem (by decide) (by decide)

theorem declare_all_keeps : ∀ (ds : List (String × var_type_t)) (s s1 : pstate),
    table_ok s.wires s.wireId → declare_all ds s = some s1 →
    (∀ w ∈ s.wires.list, w ∈ s1.wires.list) ∧
    (∀ d ∈ ds, ∃ w ∈ s1.wires.list, w.key = d.1) := by
  intro ds
  induction ds with
  | nil =>
    intro s s1 _ hr
    simp only [declare_all] at hr
    cases hr
    exact ⟨fun w hw => hw, by simp⟩
  | cons d rest ih =>
    intro s s1 hok hr
    simp only [declare_all] at hr
    split at hr
    · cases hr
    · rename_i s2 hd
      obtain ⟨hok2, _, _, _, _, _, _, _, hcase⟩ :=
        declare_table (s := { s with token := d.1 }) hok hd
      obtain ⟨hkeep, hall⟩ := ih s2 s1 hok2 hr
      have hstep : (∀ w ∈ s.wires.list, w ∈ s2.wires.list) ∧
          ∃ w ∈ s2.wires.list, w.key = d.1 := by
        rcases hcase with ⟨hc, heq⟩ | ⟨_, hlist, _⟩
        · obtain ⟨slot, w, hslot, hkey⟩ := contains_slot hc
          rw [heq]
          exact ⟨fun w hw => hw, w, hok.slots slot w hslot, hkey⟩
        · rw [hlist]
          refine ⟨fun w hw => List.mem_append_left _ hw, _, List.mem_append_right _
            (List.mem_singleton.2 rfl), rfl⟩
      refine ⟨fun w hw => hkeep w (hstep.1 w hw), ?_⟩
      intro d1 hd1
      rcases List.mem_cons.1 hd1 with h | h
      · subst h
        obtain ⟨w, hw, hk⟩ := hstep.2
        exact ⟨w, hkeep w hw, hk⟩
      · exact hall d1 h

/-- C28: in a table built from the empty table by label resolutions (each one the
parser's `if (!hashtable_contains(...)) hashtable_add(...)`) that all return, every
label resolved so far has a wire in the list, and every wire `w` of the list is found
under its label by `hashtable_contains` and by `hashtable_get_by_key`, under its
identity by `hashtable_get`, and sits in a slot of the table. After any further
resolutions that return, every wire inserted earlier is still in the list, unchanged,
and is found in the same three ways. -/
theorem lookup_round_trip (ds1 ds2 : List (String × var_type_t)) (nI nO : Int) (tok : String)
    (s1 s : pstate) (h1 : declare_all ds1 (main_state [] nI nO tok) = some s1)
    (h2 : declare_all ds2 s1 = some s) :
    (∀ d ∈ ds1 ++ ds2, ∃ w ∈ s.wires.list, w.key = d.1) ∧
    (∀ w ∈ s1.wires.list, w ∈ s.wires.list) ∧
    (s.wires.list.map (fun w => w.key)).Nodup ∧
    ∀ w ∈ s.wires.list,
      hashtable_contains s.wires w.key = true ∧
      hashtable_get_by_key s.wires w.key = some (some w) ∧
      hashtable_get s.wires w.id = some w ∧
      ∃ slot, slot < MAX_VARS ∧ s.wires.map slot = some w := by
  have hok1 := declare_all_table ds1 _ _ table_ok_init h1
  have hok := declare_all_table ds2 _ _ hok1 h2
  obtain ⟨_, hall1⟩ := declare_all_keeps ds1 _ _ table_ok_init h1
  obtain ⟨hkeep, hall2⟩ := declare_all_keeps ds2 _ _ hok1 h2
  refine ⟨?_, hkeep, hok.keys, ?_⟩
  · intro d hd
    rcases List.mem_append.1 hd with h | h
    · obtain ⟨w, hw, hk⟩ := hall1 d h
      exact ⟨w, hkeep w hw, hk⟩
    · exact hall2 d h
  · intro w hw
    exact ⟨(hok.found w hw).1, (hok.found w hw).2, hashtable_get_of_mem hok hw,
      get_by_key_slot (hok.found w hw).2⟩

/-- C28 (witness): three labels with the same hash value; `CB`, inserted second, is
still found after `KJ` is inserted and `A` is resolved again. -/
theorem lookup_round_trip_witness :
    (∀ d ∈ [("A", var_type_t.INPUT), ("CB", var_type_t.TEMP)]
        ++ [("KJ", var_type_t.OUTPUT), ("A", var_type_t.TEMP)],
      ∃ w ∈ collided_more.wires.list, w.key = d.1) ∧
    (∀ w ∈ collided.wires.list, w ∈ collided_more.wires.list) ∧
    (collided_more.wires.list.map (fun w => w.key)).Nodup ∧
    ∀ w ∈ collided_more.wires.list,
      hashtable_contains collided_more.wires w.key = true ∧
      hashtable_get_by_key collided_more.wires w.key = some (some w) ∧
      hashtable_get collided_more.wires w.id = some w ∧
      ∃ slot, slot < MAX_VARS ∧ collided_more.wires.map slot = some w :=
  lookup_round_trip [("A", var_type_t.INPUT), ("CB", var_type_t.TEMP)]
    [("KJ", var_type_t.OUTPUT), ("A", var_type_t.TEMP)] 0 0 "" collided collided_more rfl rfl

theorem probe_periodic (h i : Nat) : probe h (i + 128) = probe h i := by
  unfold probe MAX_VARS
  have : (i + 128) * (i + 128) = i * i + 256 * (i + 64) := by ring
  rw [this, ← Nat.add_assoc, Nat.add_mul_mod_self_left]

theorem probe_reduce (h : Nat) : ∀ (q r : Nat), probe h (r + 128 * q) = probe h r := by
  intro q
  induction q with
  | zero => intro r; rfl
  | succ q ih =>
    intro r
    have : r + 128 * (q + 1) = (r + 128 * q) + 128 := by ring
    rw [this, probe_periodic, ih]

/-- When the first 128 probed slots are all occupied, every probed slot is. -/
theorem probe_all_occupied {map : Nat → Option wire_t} {h : Nat}
    (hocc : ∀ i, 1 ≤ i → i ≤ 128 → map (probe h i) ≠ none) :
    ∀ i, 1 ≤ i → map (probe h i) ≠ none := by
  intro i hi
  have hdecomp : i = ((i - 1) % 128 + 1) + 128 * ((i - 1) / 128) := by
    have := Nat.mod_add_div (i - 1) 128
    omega
  rw [hdecomp, probe_reduce]
  exact hocc _ (by omega) (by have := Nat.mod_lt (i - 1) (show 128 > 0 by decide); omega)

theorem add_probe_some {map : Nat → Option wire_t} {h : Nat} : ∀ (fuel a i : Nat),
    a ≤ i → i < a + fuel → map (probe h i) = none →
    (∀ j, a ≤ j → j < i → map (probe h j) ≠ none) → add_probe map h fuel a = some i := by
  intro fuel
  induction fuel with
  | zero => intro a i h1 h2; omega
  | succ fuel ih =>
    intro a i h1 h2 hfree hocc
    unfold add_probe
    by_cases hai : a = i
    · subst hai
      rw [hfree]
      rfl
    · have := hocc a (le_refl a) (by omega)
      cases hm : map (probe h a) with
      | none => exact absurd hm this
      | some w =>
        simp only [Option.isNone_some, Bool.false_eq_true, if_false]
        exact ih (a + 1) i (by omega) (by omega) hfree
          (fun j hj1 hj2 => hocc j (by omega) hj2)

theorem add_probe_none {map : Nat → Option wire_t} {h : Nat} : ∀ (fuel a : Nat),
    (∀ j, a ≤ j → map (probe h j) ≠ none) → add_probe map h fuel a = none := by
  intro fuel
  induction fuel with
  | zero => intro a _; rfl
  | succ fuel ih =>
    intro a hocc
    unfold add_probe
    cases hm : map (probe h a) with
    | none => exact absurd hm (hocc a (le_refl a))
    | some w =>
      simp only [Option.isNone_some, Bool.false_eq_true, if_false]
      exact ih (a + 1) (fun j hj => hocc j (by omega))

theorem find_range_some {p : Nat → Bool} : ∀ (n a i : Nat),
    a ≤ i → i < a + n → p i = true → (∀ j, a ≤ j → j < i → p j = false) →
    (List.range' a n).find? p = some i := by
  intro n
  induction n with
  | zero => intro a i h1 h2; omega
  | succ n ih =>
    intro a i h1 h2 hp hnp
    rw [List.range'_succ, List.find?_cons]
    by_cases hai : a = i
    · subst hai
      rw [hp]
    · rw [hnp a (le_refl a) (by omega)]
      exact ih (a + 1) i (by omega) (by omega) hp (fun j hj1 hj2 => hnp j (by omega) hj2)

theorem find_free_least {map : Nat → Option wire_t} {h i : Nat} (h1 : 1 ≤ i) (h2 : i ≤ 128)
    (hfree : map (probe h i) = none)
    (hocc : ∀ j, 1 ≤ j → j < i → map (probe h j) ≠ none) : find_free map h = some i := by
  unfold find_free
  apply find_range_some 128 1 i h1 (by omega)
  · rw [hfree]; rfl
  · intro j hj1 hj2
    cases hm : map (probe h j) with
    | none => exact absurd hm (hocc j hj1 hj2)
    | some w => rfl

theorem find_free_none {map : Nat → Option wire_t} {h : Nat}
    (hocc : ∀ i, 1 ≤ i → i ≤ 128 → map (probe h i) ≠ none) : find_free map h = none := by
  unfold find_free
  rw [List.find?_eq_none]
  intro i hi
  rw [List.mem_range'_1] at hi
  cases hm : map (probe h i) with
  | none => exact absurd hm (hocc i hi.1 (by omega))
  | some w => simp

theorem least_free {map : Nat → Option wire_t} {h : Nat}
    (hex : ∃ i, 1 ≤ i ∧ i ≤ 128 ∧ map (probe h i) = none) :
    ∃ i, 1 ≤ i ∧ i ≤ 128 ∧ map (probe h i) = none ∧
      ∀ j, 1 ≤ j → j < i → map (probe h j) ≠ none := by
  classical
  have hex1 : ∃ i, 1 ≤ i ∧ map (probe h i) = none := by
    obtain ⟨i, h1, _, h3⟩ := hex
    exact ⟨i, h1, h3⟩
  refine ⟨Nat.find hex1, (Nat.find_spec hex1).1, ?_, (Nat.find_spec hex1).2, ?_⟩
  · obtain ⟨i, h1, h2, h3⟩ := hex
    exact le_trans (Nat.find_min' hex1 ⟨h1, h3⟩) h2
  · intro j hj1 hj2 hfree
    exact Nat.find_min hex1 hj2 ⟨hj1, hfree⟩

/-- C29: let the home slot `hash key` of a new label hold a wire with another label.
If the slot `(h + i*i) mod 256` is empty for some `i` in `1..128`, the probe loop of
`hashtable_add` exits at the least such `i`, and `hashtable_add` returns with the new
wire appended to the list and stored in that slot. If all those slots are occupied,
every slot the loop can probe is occupied (the probed slot repeats with period 128), so
the loop never exits and `hashtable_add` does not return; this happens for the label
`OEW` in a table of forty-four wires. -/
theorem probe_termination (l : wirelist_t) (key : String) (id : Nat) (ty : var_type_t)
    (w0 : wire_t) (hhome : l.map (hash key) = some w0) (hne : w0.key ≠ key) :
    (∀ i, 1 ≤ i → i ≤ 128 → l.map (probe (hash key) i) = none →
      (∀ j, 1 ≤ j → j < i → l.map (probe (hash key) j) ≠ none) →
      (∀ fuel, i ≤ fuel → add_probe l.map (hash key) fuel 1 = some i) ∧
      hashtable_add l key id ty
        = some (set_slot (add_wire l key id ty).1 (probe (hash key) i) ⟨key, id, ty⟩)) ∧
    ((∃ i, 1 ≤ i ∧ i ≤ 128 ∧ l.map (probe (hash key) i) = none) →
      ∃ l1, hashtable_add l key id ty = some l1 ∧
        l1.list = l.list ++ [⟨key, id, ty⟩] ∧
        ∃ slot, l.map slot = none ∧ l1.map slot = some ⟨key, id, ty⟩) ∧
    ((∀ i, 1 ≤ i → i ≤ 128 → l.map (probe (hash key) i) ≠ none) →
      (∀ i, 1 ≤ i → l.map (probe (hash key) i) ≠ none) ∧
      (∀ fuel, add_probe l.map (hash key) fuel 1 = none) ∧
      hashtable_add l key id ty = none) ∧
    (crowded_table.list.length = 44 ∧
      (crowded_table.map (hash "OEW")).map (fun w => w.key) = some "A" ∧
      (∀ i ∈ List.range' 1 128, (crowded_table.map (probe (hash "OEW") i)).isSome = true) ∧
      (hashtable_add crowded_table "OEW" 44 var_type_t.INPUT).isNone = true) := by
  have hstore : ∀ i, find_free l.map (hash key) = some i → hashtable_add l key id ty
      = some (set_slot (add_wire l key id ty).1 (probe (hash key) i) ⟨key, id, ty⟩) := by
    intro i hf
    unfold hashtable_add
    simp only [hhome, hf, ne_eq, hne, not_false_eq_true, if_true]
    rfl
  refine ⟨?_, ?_, ?_, ?_⟩
  · intro i h1 h2 hfree hocc
    exact ⟨fun fuel hfuel => add_probe_some fuel 1 i h1 (by omega) hfree hocc,
      hstore i (find_free_least h1 h2 hfree hocc)⟩
  · intro hex
    obtain ⟨i, h1, h2, hfree, hocc⟩ := least_free hex
    refine ⟨_, hstore i (find_free_least h1 h2 hfree hocc), rfl, probe (hash key) i, hfree, ?_⟩
    simp [set_slot]
  · intro hocc
    have hall := probe_all_occupied hocc
    refine ⟨hall, fun fuel => add_probe_none fuel 1 hall, ?_⟩
    unfold hashtable_add
    simp only [hhome, find_free_none hocc, ne_eq, hne, not_false_eq_true, if_true]
  · exact ⟨by decide!, by decide!, by decide!, by decide!⟩

/-- C29 (witness): `KJ` is added to the table that holds `A` in the home slot of `KJ`
and `CB` in the first probed slot: the loop exits at `i = 2`. -/
theorem probe_termination_witness :
    collided.wires.map (hash "KJ") = some ⟨"A", 0, var_type_t.INPUT⟩ ∧
    (∀ fuel, 2 ≤ fuel → add_probe collided.wires.map (hash "KJ") fuel 1 = some 2) ∧
    hashtable_add collided.wires "KJ" 2 var_type_t.TEMP
      = some (set_slot (add_wire collided.wires "KJ" 2 var_type_t.TEMP).1
          (probe (hash "KJ") 2) ⟨"KJ", 2, var_type_t.TEMP⟩) :=
  ⟨by decide!,
   (probe_termination collided.wires "KJ" 2 var_type_t.TEMP ⟨"A", 0, var_type_t.INPUT⟩
      (by decide!) (by decide)).1 2 (by decide) (by decide) (by decide!)
      (by
        intro j hj1 hj2
        have : j = 1 := by omega
        subst this
        decide!)⟩

theorem wrap32_ge (x : Int) : -2147483648 ≤ wrap32 x := by
  unfold wrap32
  omega

theorem shl32_pos {k : Int} (h : 0 < shl32 1 k) :
    k.toNat ≤ 30 ∧ shl32 1 k = 2 ^ k.toNat := by
  have hle : k.toNat ≤ 30 := by
    by_contra hc
    have h31 : 31 ≤ k.toNat := by omega
    obtain ⟨m, hm⟩ : ∃ m : Int, (2 : Int) ^ k.toNat = 2147483648 * m := by
      refine ⟨2 ^ (k.toNat - 31), ?_⟩
      have : k.toNat = 31 + (k.toNat - 31) := by omega
      conv_lhs => rw [this, pow_add]
      norm_num
    unfold shl32 wrap32 at h
    rw [one_mul, hm] at h
    omega
  refine ⟨hle, ?_⟩
  unfold shl32
  rw [one_mul]
  have h2 : (2 : Int) ^ k.toNat ≤ 2 ^ 30 := pow_le_pow_right₀ (by norm_num) hle
  have h3 : (0 : Int) < 2 ^ k.toNat := by positivity
  apply wrap32_eq <;> omega

theorem param_some {g : gate_t} {i : Int} {w : Nat} (h : param g i = some w) :
    0 ≤ i ∧ i.toNat < g.params.length := by
  unfold param at h
  split at h
  · rename_i h0
    exact ⟨h0, (List.getElem?_eq_some_iff.1 h).1⟩
  · cases h

/-- For a gate created by the parser, the slots scanned by `get_gate_out_id` are its
output slots. -/
theorem out_scan_iff {g : gate_t} (har : arity_ok g) (w : Nat) : out_scan g w ↔ out_slot g w := by
  have hcount : (∃ k : Nat, param g (calc_gate_in_size g + (k : Int)) = some w) →
      (wrap32 (calc_gate_in_size g + calc_gate_out_size g) - calc_gate_in_size g).toNat
        = (calc_gate_out_size g).toNat := by
    rintro ⟨k, hk⟩
    obtain ⟨hk0, hklt⟩ := param_some hk
    unfold arity_ok at har
    cases hty : g.type <;> simp only [hty] at har
    case DECODER =>
      have hI : calc_gate_in_size g = g.size := by
        unfold calc_gate_in_size; rw [if_neg (by rw [hty]; decide)]
      have hO : calc_gate_out_size g = shl32 1 g.size := by
        unfold calc_gate_out_size; rw [if_pos hty]
      rw [hI] at hk0 hklt
      rw [hI, hO]
      by_cases hpos : 0 < shl32 1 g.size
      · obtain ⟨h30, hsh⟩ := shl32_pos hpos
        have h2 : (2 : Int) ^ g.size.toNat ≤ 2 ^ 30 := pow_le_pow_right₀ (by norm_num) h30
        have hs0 : 0 ≤ g.size := by
          by_contra hc
          exact har.2 ⟨by omega, hpos⟩
        rw [wrap32_eq (by omega) (by omega)]
        congr 1
        omega
      · exfalso
        have := har.1
        omega
    case MULTIPLEXER =>
      have hO : calc_gate_out_size g = 1 := by
        unfold calc_gate_out_size; rw [if_neg (by rw [hty]; decide)]
      have hI : calc_gate_in_size g = wrap32 (shl32 1 g.size + g.size) := by
        unfold calc_gate_in_size; rw [if_pos hty]
      rw [hO]
      rw [← hI] at har
      have h1 := wrap32_lt (shl32 1 g.size + g.size)
      have h2 := wrap32_ge (shl32 1 g.size + g.size)
      rw [← hI] at h1 h2
      by_cases hmax : calc_gate_in_size g = 2147483647
      · exfalso
        rw [hmax] at har
        have : wrap32 (2147483647 + 1) = -2147483648 := by decide
        rw [this] at har
        have h0 : g.params.length = 0 := har
        omega
      · rw [wrap32_eq (by omega) (by omega)]
        congr 1
        omega
    all_goals
      have hO : calc_gate_out_size g = 1 := by
        unfold calc_gate_out_size; rw [if_neg (by rw [hty]; decide)]
      have hI : calc_gate_in_size g = g.size := by
        unfold calc_gate_in_size; rw [if_neg (by rw [hty]; decide)]
      rw [hO, hI, har.1]
      rfl
  unfold out_scan out_slot
  constructor
  · rintro ⟨k, hk, hp⟩
    rw [hcount ⟨k, hp⟩] at hk
    exact ⟨k, List.mem_range.2 hk, hp⟩
  · rintro ⟨k, hk, hp⟩
    refine ⟨k, ?_, hp⟩
    rw [hcount ⟨k, hp⟩]
    exact List.mem_range.1 hk

theorem get_gate_out_id_spec {w : Nat} : ∀ (gates : gatelist_t) (id : Int),
    get_gate_out_id gates w = some id →
      (id = -1 ∧ ∀ g ∈ gates, ¬ out_scan g w) ∨
      (∃ front g back, gates = front ++ g :: back ∧ (g.id : Int) = id ∧ out_scan g w ∧
        ∀ q ∈ front, ¬ out_scan q w) := by
  intro gates
  induction gates with
  | nil =>
    intro id h
    simp only [get_gate_out_id] at h
    cases h
    exact Or.inl ⟨rfl, by simp⟩
  | cons g rest ih =>
    intro id h
    simp only [get_gate_out_id] at h
    split at h
    · cases h
    · rename_i hs
      cases h
      right
      obtain ⟨k, hk, hk'⟩ := slot_scan_true _ _ hs
      exact ⟨[], g, rest, rfl, rfl, ⟨k, hk, hk'⟩, by simp⟩
    · rename_i hs
      have hg : ¬ out_scan g w := by
        rintro ⟨j, hj, hj'⟩
        exact slot_scan_false _ _ hs j hj hj'
      rcases ih id h with ⟨h1, h2⟩ | ⟨front, g', back, hsplit, h1, h2, h3⟩
      · left
        refine ⟨h1, ?_⟩
        intro g' hg'
        rcases List.mem_cons.1 hg' with h' | h'
        · subst h'; exact hg
        · exact h2 g' h'
      · right
        refine ⟨g :: front, g', back, by rw [hsplit]; rfl, h1, h2, ?_⟩
        intro q hq
        rcases List.mem_cons.1 hq with h' | h'
        · subst h'; exact hg
        · exact h3 q h'

theorem get_gate_in_id_first {w : Nat} : ∀ (gates : gatelist_t) (id : Int),
    get_gate_in_id gates w = some id →
      (id = -1 ∧ ∀ g ∈ gates, ¬ in_slot g w) ∨
      (∃ front g back, gates = front ++ g :: back ∧ (g.id : Int) = id ∧ in_slot g w ∧
        ∀ q ∈ front, ¬ in_slot q w) := by
  intro gates
  induction gates with
  | nil =>
    intro id h
    simp only [get_gate_in_id] at h
    cases h
    exact Or.inl ⟨rfl, by simp⟩
  | cons g rest ih =>
    intro id h
    simp only [get_gate_in_id] at h
    split at h
    · cases h
    · rename_i hs
      cases h
      right
      obtain ⟨k, hk, hk'⟩ := slot_scan_true _ _ hs
      refine ⟨[], g, rest, rfl, rfl, ⟨k, List.mem_range.2 hk, ?_⟩, by simp⟩
      simpa using hk'
    · rename_i hs
      have hg : ¬ in_slot g w := by
        rintro ⟨j, hj, hj'⟩
        have := slot_scan_false _ _ hs j (List.mem_range.1 hj)
        apply this
        simpa using hj'
      rcases ih id h with ⟨h1, h2⟩ | ⟨front, g', back, hsplit, h1, h2, h3⟩
      · left
        refine ⟨h1, ?_⟩
        intro g' hg'
        rcases List.mem_cons.1 hg' with h' | h'
        · subst h'; exact hg
        · exact h2 g' h'
      · right
        refine ⟨g :: front, g', back, by rw [hsplit]; rfl, h1, h2, ?_⟩
        intro q hq
        rcases List.mem_cons.1 hq with h' | h'
        · subst h'; exact hg
        · exact h3 q h'

theorem build_node_in {wires : wirelist_t} {gates : gatelist_t} {g : gate_t}
    {node : gatenode_t} (h : build_node wires gates g = some node) :
    List.Forall₂ (fun i o => node_in wires gates g i = some o)
      (List.range (calc_gate_in_size g).toNat) node.in_ := by
  unfold build_node at h
  split at h
  · cases h
  · rename_i ins hins
    split at h
    · cases h
    · cases h
      exact opt_map_forall₂ _ _ _ hins

/-- The node built for a gate of a parsed circuit: it sits at index `gate.id`, and its
`in` and `out` arrays hold the values computed by `node_in` and `node_out`. -/
theorem graph_node {s : pstate} (hs : parsed_ok s) {nodes : List gatenode_t}
    (hgraph : build_graph s.wires s.gates = some nodes) {g : gate_t} (hg : g ∈ s.gates) :
    ∃ node, nodes[g.id]? = some node ∧ node.id = g.id ∧
      node.in_.length = (calc_gate_in_size g).toNat ∧
      node.out.length = (calc_gate_out_size g).toNat ∧
      (∀ i : Nat, i < (calc_gate_in_size g).toNat →
        ∃ o, node.in_[i]? = some o ∧ node_in s.wires s.gates g i = some o) ∧
      (∀ j : Nat, j < (calc_gate_out_size g).toNat →
        ∃ o, node.out[j]? = some o ∧ node_out s.wires s.gates g j = some o) := by
  obtain ⟨node, hnode, hb⟩ := build_graph_node hgraph (gate_position hs hg)
  have hi := build_node_in hb
  have ho := build_node_out hb
  rw [List.forall₂_iff_get] at hi ho
  have hli : node.in_.length = (calc_gate_in_size g).toNat := by
    rw [← hi.1, List.length_range]
  have hlo : node.out.length = (calc_gate_out_size g).toNat := by
    rw [← ho.1, List.length_range]
  have hid : node.id = g.id := by
    unfold build_node at hb
    split at hb
    · cases hb
    · split at hb
      · cases hb
      · cases hb; rfl
  refine ⟨node, hnode, hid, hli, hlo, ?_, ?_⟩
  · intro i hlt
    have h1 : i < (List.range (calc_gate_in_size g).toNat).length := by simpa using hlt
    have h2 : i < node.in_.length := by omega
    have := hi.2 i h1 h2
    simp only [List.get_eq_getElem, List.getElem_range] at this
    exact ⟨node.in_[i], List.getElem?_eq_getElem h2, this⟩
  · intro j hlt
    have h1 : j < (List.range (calc_gate_out_size g).toNat).length := by simpa using hlt
    have h2 : j < node.out.length := by omega
    have := ho.2 j h1 h2
    simp only [List.get_eq_getElem, List.getElem_range] at this
    exact ⟨node.out[j], List.getElem?_eq_getElem h2, this⟩

theorem gate_eq_of_split {s : pstate} (hs : parsed_ok s) {front back : List gate_t}
    {g p : gate_t} (hsplit : s.gates = front ++ g :: back) (hp : p ∈ s.gates)
    (hid : g.id = p.id) : g = p := by
  have hg : g ∈ s.gates := by rw [hsplit]; simp
  have h1 := gate_position hs hg
  have h2 := gate_position hs hp
  rw [hid, h2] at h1
  exact (Option.some.inj h1).symm

/-- C21: in the graph built for a parsed circuit, let input slot `i` of gate `g`
reference wire `w`. The node of `g` sits at index `g.id`; its `in[i]` is `NULL` ("no
producer") when `w` is of kind Input or Constant; otherwise, when a gate `p` is the
only gate with `w` among its output slots, `in[i]` points to the node of `p`. -/
theorem producer_rule {input : List String} {nI nO : Int} {tok : String} {s : pstate}
    {nodes : List gatenode_t}
    (hparse : parse_circuit (main_state input nI nO tok) = some (0, s))
    (hgraph : build_graph s.wires s.gates = some nodes)
    (g : gate_t) (hg : g ∈ s.gates) (i w : Nat) (hi : i < (calc_gate_in_size g).toNat)
    (hw : param g (i : Int) = some w) :
    ∃ node wire, nodes[g.id]? = some node ∧ hashtable_get s.wires w = some wire ∧
      ((wire.type = var_type_t.INPUT ∨ wire.type = var_type_t.CONSTANT) →
        node.in_[i]? = some none) ∧
      (wire.type ≠ var_type_t.INPUT → wire.type ≠ var_type_t.CONSTANT →
        ∀ p ∈ s.gates, out_slot p w → (∀ q ∈ s.gates, out_slot q w → q = p) →
          node.in_[i]? = some (some p.id)) := by
  have hs := parse_circuit_ok hparse
  obtain ⟨node, hnode, _, _, _, hin, _⟩ := graph_node hs hgraph hg
  obtain ⟨o, ho, hval⟩ := hin i hi
  unfold node_in at hval
  rw [hw] at hval
  simp only at hval
  cases hwire : hashtable_get s.wires w with
  | none => rw [hwire] at hval; cases hval
  | some wire =>
    rw [hwire] at hval
    simp only at hval
    refine ⟨node, wire, hnode, rfl, ?_, ?_⟩
    · intro hkind
      rw [if_neg (by
        intro hc
        rcases hkind with h | h
        · exact hc.2 h
        · exact hc.1 h)] at hval
      rw [ho, hval]
    · intro h1 h2 p hp hout honly
      rw [if_pos ⟨h2, h1⟩] at hval
      cases hid : get_gate_out_id s.gates w with
      | none => rw [hid] at hval; cases hval
      | some id =>
        rw [hid] at hval
        simp only at hval
        obtain ⟨y, hy1, hy2, _⟩ := node_ptr_spec hval
        rcases get_gate_out_id_spec _ _ hid with ⟨hm, _⟩ | ⟨front, g1, back, hsplit, hg1, hscan, _⟩
        · omega
        · have hg1m : g1 ∈ s.gates := by rw [hsplit]; simp
          have heq := honly g1 hg1m ((out_scan_iff (hs.arity g1 hg1m) w).1 hscan)
          subst heq
          rw [ho, hy1]
          congr 2
          omega

/-- C21 (witness): input slot 0 of the `PASS` gate of the chain netlist references the
temporary `T` (identity 2), produced by the `NOT` gate (id 0) only. -/
theorem producer_rule_witness :
    ∃ node wire, chain_nodes[1]? = some node ∧
      hashtable_get (parsed chain_netlist).wires 2 = some wire ∧
      ((wire.type = var_type_t.INPUT ∨ wire.type = var_type_t.CONSTANT) →
        node.in_[0]? = some none) ∧
      (wire.type ≠ var_type_t.INPUT → wire.type ≠ var_type_t.CONSTANT →
        ∀ p ∈ (parsed chain_netlist).gates, out_slot p 2 →
          (∀ q ∈ (parsed chain_netlist).gates, out_slot q 2 → q = p) →
          node.in_[0]? = some (some p.id)) :=
  @producer_rule chain_netlist 0 0 "" (parsed chain_netlist) chain_nodes rfl rfl
    ⟨type_t.PASS, 1, [2, 1], 1⟩ (by decide!) 0 2 (by decide) (by decide)

/-- C22: in the graph built for a parsed circuit, let output slot `j` of gate `g`
reference wire `w`. The node of `g` sits at index `g.id`; its `out[j]` is `NULL` ("no
consumer") when `w` is of kind Output or Discarded; otherwise, when a gate `c` is the
only gate with `w` among its input slots, `out[j]` points to the node of `c`. -/
theorem consumer_rule {input : List String} {nI nO : Int} {tok : String} {s : pstate}
    {nodes : List gatenode_t}
    (hparse : parse_circuit (main_state input nI nO tok) = some (0, s))
    (hgraph : build_graph s.wires s.gates = some nodes)
    (g : gate_t) (hg : g ∈ s.gates) (j w : Nat) (hj : j < (calc_gate_out_size g).toNat)
    (hw : param g (calc_gate_in_size g + (j : Int)) = some w) :
    ∃ node wire, nodes[g.id]? = some node ∧ hashtable_get s.wires w = some wire ∧
      ((wire.type = var_type_t.OUTPUT ∨ wire.type = var_type_t.DISCARDED) →
        node.out[j]? = some none) ∧
      (wire.type ≠ var_type_t.OUTPUT → wire.type ≠ var_type_t.DISCARDED →
        ∀ c ∈ s.gates, in_slot c w → (∀ q ∈ s.gates, in_slot q w → q = c) →
          node.out[j]? = some (some c.id)) := by
  have hs := parse_circuit_ok hparse
  obtain ⟨node, hnode, _, _, _, _, hout⟩ := graph_node hs hgraph hg
  obtain ⟨o, ho, hval⟩ := hout j hj
  unfold node_out at hval
  rw [hw] at hval
  simp only at hval
  cases hwire : hashtable_get s.wires w with
  | none => rw [hwire] at hval; cases hval
  | some wire =>
    rw [hwire] at hval
    simp only at hval
    cases hid : get_gate_in_id s.gates w with
    | none => rw [hid] at hval; cases hval
    | some id =>
      rw [hid] at hval
      simp only at hval
      refine ⟨node, wire, hnode, rfl, ?_, ?_⟩
      · intro hkind
        rw [if_neg (by
          intro hc
          rcases hkind with h | h
          · exact hc.2.1 h
          · exact hc.1 h)] at hval
        rw [ho, hval]
      · intro h1 h2 c hc hin honly
        rcases get_gate_in_id_first _ _ hid with ⟨_, hno⟩ | ⟨front, g1, back, hsplit, hg1, hslot, _⟩
        · exact absurd hin (hno c hc)
        · have hg1m : g1 ∈ s.gates := by rw [hsplit]; simp
          have heq := honly g1 hg1m hslot
          subst heq
          rw [if_pos ⟨h2, h1, by omega⟩] at hval
          obtain ⟨y, hy1, hy2, _⟩ := node_ptr_spec hval
          rw [ho, hy1]
          congr 2
          omega

/-- C22 (witness): output slot 0 of the `NOT` gate of the chain netlist references the
temporary `T` (identity 2), used as an input by the `PASS` gate (id 1) only. -/
theorem consumer_rule_witness :
    ∃ node wire, chain_nodes[0]? = some node ∧
      hashtable_get (parsed chain_netlist).wires 2 = some wire ∧
      ((wire.type = var_type_t.OUTPUT ∨ wire.type = var_type_t.DISCARDED) →
        node.out[0]? = some none) ∧
      (wire.type ≠ var_type_t.OUTPUT → wire.type ≠ var_type_t.DISCARDED →
        ∀ c ∈ (parsed chain_netlist).gates, in_slot c 2 →
          (∀ q ∈ (parsed chain_netlist).gates, in_slot q 2 → q = c) →
          node.out[0]? = some (some c.id)) :=
  @consumer_rule chain_netlist 0 0 "" (parsed chain_netlist) chain_nodes rfl rfl
    ⟨type_t.NOT, 1, [0, 2], 0⟩ (by decide!) 0 2 (by decide) (by decide)

theorem getElem_unique {α : Type} {l : List α} {i : Nat} {a b : α} (h1 : l[i]? = some a)
    (h2 : l[i]? = some b) : a = b := by
  rw [h1] at h2
  exact Option.some.inj h2

/-- C30 (counterexample): the netlist `driven_input` has no Temporary wire, so every
Temporary wire is an output slot of one gate and an input slot of one gate. The node of
the `NOT` gate (index 0) records the `PASS` gate (index 1) as the consumer of its
output slot, the wire `B` being neither an Output nor Discarded; the node of the `PASS`
gate records no producer, `B` being an Input. -/
theorem edge_converse_counterexample :
    parse_circuit (main_state driven_input 0 0 "") = some (0, parsed driven_input) ∧
    (∀ w ∈ (parsed driven_input).wires.list, w.type ≠ var_type_t.TEMP) ∧
    build_graph (parsed driven_input).wires (parsed driven_input).gates
      = some [⟨0, type_t.NOT, 1, [none], [some 1]⟩, ⟨1, type_t.PASS, 1, [none], [none]⟩] :=
  ⟨rfl, by decide!, rfl⟩

/-- C30 (amended): in the graph built for a parsed circuit in which no Temporary wire
is among the output slots of two gates or among the input slots of two gates, and in
which every wire in an output slot is Temporary, an Output or Discarded (no gate drives
an Input or a Constant), the node of gate `g` records gate `p` as the producer of one
of its Temporary-wire input slots if and only if the node of `p` records `g` as the
consumer of one of its output slots. -/
theorem edge_converse {input : List String} {nI nO : Int} {tok : String} {s : pstate}
    {nodes : List gatenode_t}
    (hparse : parse_circuit (main_state input nI nO tok) = some (0, s))
    (hgraph : build_graph s.wires s.gates = some nodes)
    (hone_out : ∀ p ∈ s.gates, ∀ q ∈ s.gates, ∀ w ∈ p.params, out_slot p w → out_slot q w →
      ∀ wire ∈ hashtable_get s.wires w, wire.type = var_type_t.TEMP → p = q)
    (hone_in : ∀ p ∈ s.gates, ∀ q ∈ s.gates, ∀ w ∈ p.params, in_slot p w → in_slot q w →
      ∀ wire ∈ hashtable_get s.wires w, wire.type = var_type_t.TEMP → p = q)
    (hdriven : ∀ p ∈ s.gates, ∀ w ∈ p.params, out_slot p w →
      ∀ wire ∈ hashtable_get s.wires w, wire.type = var_type_t.TEMP ∨
        wire.type = var_type_t.OUTPUT ∨ wire.type = var_type_t.DISCARDED)
    (p g : gate_t) (hp : p ∈ s.gates) (hg : g ∈ s.gates) :
    (∃ (node : gatenode_t) (i w : Nat) (wire : wire_t), nodes[g.id]? = some node ∧ i < (calc_gate_in_size g).toNat ∧
        param g (i : Int) = some w ∧ hashtable_get s.wires w = some wire ∧
        wire.type = var_type_t.TEMP ∧ node.in_[i]? = some (some p.id)) ↔
    (∃ (node : gatenode_t) (j : Nat), nodes[p.id]? = some node ∧ node.out[j]? = some (some g.id)) := by
  have hs := parse_circuit_ok hparse
  obtain ⟨ng, hng, _, _, _, hgin, _⟩ := graph_node hs hgraph hg
  obtain ⟨np, hnp, _, _, hplen, _, hpout⟩ := graph_node hs hgraph hp
  constructor
  · rintro ⟨node, i, w, wire, hnode, hi, hw, hwire, hkind, hrec⟩
    have := getElem_unique hnode hng
    subst this
    obtain ⟨o, ho, hval⟩ := hgin i hi
    have := getElem_unique ho hrec
    subst this
    unfold node_in at hval
    rw [hw] at hval
    simp only [hwire] at hval
    rw [if_pos ⟨by rw [hkind]; decide, by rw [hkind]; decide⟩] at hval
    cases hid : get_gate_out_id s.gates w with
    | none => rw [hid] at hval; cases hval
    | some id =>
      rw [hid] at hval
      simp only at hval
      obtain ⟨y, hy1, hy2, _⟩ := node_ptr_spec hval
      cases hy1
      rcases get_gate_out_id_spec _ _ hid with ⟨hm, _⟩ | ⟨front, g1, back, hsplit, hg1, hscan, _⟩
      · omega
      · have hg1m : g1 ∈ s.gates := by rw [hsplit]; simp
        have heq := gate_eq_of_split hs hsplit hp (by omega)
        subst heq
        obtain ⟨j, hj, hjw⟩ := (out_scan_iff (hs.arity g1 hg1m) w).1 hscan
        obtain ⟨o, ho, hoval⟩ := hpout j (List.mem_range.1 hj)
        refine ⟨np, j, hnp, ?_⟩
        rw [ho]
        congr 1
        unfold node_out at hoval
        rw [hjw] at hoval
        simp only [hwire] at hoval
        cases hid2 : get_gate_in_id s.gates w with
        | none => rw [hid2] at hoval; cases hoval
        | some id2 =>
          rw [hid2] at hoval
          simp only at hoval
          have hgin_slot : in_slot g w := ⟨i, List.mem_range.2 hi, hw⟩
          rcases get_gate_in_id_first _ _ hid2 with ⟨_, hno⟩ |
            ⟨front2, g2, back2, hsplit2, hg2, hslot2, _⟩
          · exact absurd hgin_slot (hno g hg)
          · have hg2m : g2 ∈ s.gates := by rw [hsplit2]; simp
            have heq2 := hone_in g2 hg2m g hg w (in_slot_mem hslot2) hslot2 hgin_slot
              wire hwire hkind
            subst heq2
            rw [if_pos ⟨by rw [hkind]; decide, by rw [hkind]; decide, by omega⟩] at hoval
            obtain ⟨y2, hy3, hy4, _⟩ := node_ptr_spec hoval
            rw [hy3]
            congr 1
            omega
  · rintro ⟨node, j, hnode, hrec⟩
    have := getElem_unique hnode hnp
    subst this
    have hj : j < (calc_gate_out_size p).toNat := by
      rw [← hplen]
      exact (List.getElem?_eq_some_iff.1 hrec).1
    obtain ⟨o, ho, hoval⟩ := hpout j hj
    have := getElem_unique ho hrec
    subst this
    unfold node_out at hoval
    cases hjw : param p (calc_gate_in_size p + (j : Int)) with
    | none => rw [hjw] at hoval; cases hoval
    | some w =>
      rw [hjw] at hoval
      simp only at hoval
      cases hwire : hashtable_get s.wires w with
      | none => rw [hwire] at hoval; cases hoval
      | some wire =>
        rw [hwire] at hoval
        simp only at hoval
        cases hid2 : get_gate_in_id s.gates w with
        | none => rw [hid2] at hoval; cases hoval
        | some id2 =>
          rw [hid2] at hoval
          simp only at hoval
          have hpslot : out_slot p w := ⟨j, List.mem_range.2 hj, hjw⟩
          split at hoval
          · rename_i hcond
            obtain ⟨y, hy1, hy2, _⟩ := node_ptr_spec hoval
            cases hy1
            have hkind : wire.type = var_type_t.TEMP := by
              rcases hdriven p hp w (out_slot_mem hpslot) hpslot wire hwire with h | h | h
              · exact h
              · exact absurd h hcond.2.1
              · exact absurd h hcond.1
            rcases get_gate_in_id_first _ _ hid2 with ⟨hm, _⟩ |
              ⟨front2, g2, back2, hsplit2, hg2, hslot2, _⟩
            · exact absurd hm hcond.2.2
            · have heq2 := gate_eq_of_split hs hsplit2 hg (by omega)
              subst heq2
              obtain ⟨i, hi, hiw⟩ := hslot2
              have hi2 := List.mem_range.1 hi
              obtain ⟨o, ho, hval⟩ := hgin i hi2
              refine ⟨ng, i, w, wire, hng, hi2, hiw, hwire, hkind, ?_⟩
              rw [ho]
              congr 1
              unfold node_in at hval
              rw [hiw] at hval
              simp only [hwire] at hval
              rw [if_pos ⟨by rw [hkind]; decide, by rw [hkind]; decide⟩] at hval
              cases hid : get_gate_out_id s.gates w with
              | none => rw [hid] at hval; cases hval
              | some id =>
                rw [hid] at hval
                simp only at hval
                obtain ⟨y3, hy5, hy6, _⟩ := node_ptr_spec hval
                rcases get_gate_out_id_spec _ _ hid with ⟨hm, _⟩ |
                  ⟨front, g1, back, hsplit, hg1, hscan, _⟩
                · omega
                · have hg1m : g1 ∈ s.gates := by rw [hsplit]; simp
                  have hslot1 := (out_scan_iff (hs.arity g1 hg1m) w).1 hscan
                  have heq := hone_out g1 hg1m p hp w (out_slot_mem hslot1) hslot1 hpslot
                    wire hwire hkind
                  subst heq
                  rw [hy5]
                  congr 1
                  omega
          · cases hoval

/-- C30 (witness): the chain netlist, with `p` the `NOT` gate and `g` the `PASS` gate. -/
theorem edge_converse_witness :
    (∃ (node : gatenode_t) (i w : Nat) (wire : wire_t), chain_nodes[1]? = some node ∧
        i < (calc_gate_in_size ⟨type_t.PASS, 1, [2, 1], 1⟩).toNat ∧
        param ⟨type_t.PASS, 1, [2, 1], 1⟩ (i : Int) = some w ∧
        hashtable_get (parsed chain_netlist).wires w = some wire ∧
        wire.type = var_type_t.TEMP ∧ node.in_[i]? = some (some 0)) ↔
    (∃ (node : gatenode_t) (j : Nat), chain_nodes[0]? = some node ∧ node.out[j]? = some (some 1)) :=
  @edge_converse chain_netlist 0 0 "" (parsed chain_netlist) chain_nodes rfl rfl
    (by decide!) (by decide!) (by decide!)
    ⟨type_t.NOT, 1, [0, 2], 0⟩ ⟨type_t.PASS, 1, [2, 1], 1⟩ (by decide!) (by decide!)

theorem list_three {l : List Nat} (h : l.length = 3) : ∃ a b o, l = [a, b, o] := by
  match l, h with
  | [a, b, o], _ => exact ⟨a, b, o, rfl⟩

theorem list_two {l : List Nat} (h : l.length = 2) : ∃ a o, l = [a, o] := by
  match l, h with
  | [a, o], _ => exact ⟨a, o, rfl⟩

/-- The equation of a gate determines its live output wires from its input wires. -/
theorem gate_holds_det {e1 e2 : row_env} {g : gate_t} {aw1 aw2 : Int → Int}
    (har : arity_ok g)
    (hsz : g.type = type_t.DECODER ∨ g.type = type_t.MULTIPLEXER → 0 ≤ g.size ∧ g.size ≤ 30)
    (hlive : ∀ p, live e1 p → live e2 p)
    (hin : ∀ p, in_slot g p → aw1 p = aw2 p)
    (hbool : ∀ p, in_slot g p → is01 (aw1 p))
    (h1 : gate_holds e1 g aw1) (h2 : gate_holds e2 g aw2) :
    ∀ p, out_slot g p → live e1 p → aw1 p = aw2 p := by
  have har0 := har
  unfold arity_ok at har
  unfold gate_holds at h1 h2
  have hbin : g.type ≠ type_t.MULTIPLEXER → g.type ≠ type_t.DECODER → g.size = 2 →
      g.params.length = 3 → ∃ a b o, g.params = [a, b, o] ∧
      aw1 a = aw2 a ∧ aw1 b = aw2 b ∧ ∀ p, out_slot g p → p = o := by
    intro t1 t2 hs hl
    obtain ⟨a, b, o, hp⟩ := list_three hl
    refine ⟨a, b, o, hp, ?_, ?_, ?_⟩
    · exact hin a ((in_slot_size t1 a).2 ⟨0, by rw [hs]; decide, by simp [hp]⟩)
    · exact hin b ((in_slot_size t1 b).2 ⟨1, by rw [hs]; decide, by simp [hp]⟩)
    · intro p hp1
      rw [out_slot_one t1 t2 (by omega), hs] at hp1
      simp [hp] at hp1
      exact hp1.symm
  have hun : g.type ≠ type_t.MULTIPLEXER → g.type ≠ type_t.DECODER → g.size = 1 →
      g.params.length = 2 → ∃ a o, g.params = [a, o] ∧
      aw1 a = aw2 a ∧ ∀ p, out_slot g p → p = o := by
    intro t1 t2 hs hl
    obtain ⟨a, o, hp⟩ := list_two hl
    refine ⟨a, o, hp, ?_, ?_⟩
    · exact hin a ((in_slot_size t1 a).2 ⟨0, by rw [hs]; decide, by simp [hp]⟩)
    · intro p hp1
      rw [out_slot_one t1 t2 (by omega), hs] at hp1
      simp [hp] at hp1
      exact hp1.symm
  intro p hp hl
  cases hty : g.type
  case AND =>
    simp only [hty] at har h1 h2
    obtain ⟨a, b, o, hpar, ha, hb, ho⟩ :=
      hbin (by rw [hty]; decide) (by rw [hty]; decide) har.1 har.2
    rw [ho p hp] at hl ⊢
    rw [h1 a b o hpar hl, h2 a b o hpar (hlive o hl), ha, hb]
  case OR =>
    simp only [hty] at har h1 h2
    obtain ⟨a, b, o, hpar, ha, hb, ho⟩ :=
      hbin (by rw [hty]; decide) (by rw [hty]; decide) har.1 har.2
    rw [ho p hp] at hl ⊢
    rw [h1 a b o hpar hl, h2 a b o hpar (hlive o hl), ha, hb]
  case NAND =>
    simp only [hty] at har h1 h2
    obtain ⟨a, b, o, hpar, ha, hb, ho⟩ :=
      hbin (by rw [hty]; decide) (by rw [hty]; decide) har.1 har.2
    rw [ho p hp] at hl ⊢
    rw [h1 a b o hpar hl, h2 a b o hpar (hlive o hl), ha, hb]
  case NOR =>
    simp only [hty] at har h1 h2
    obtain ⟨a, b, o, hpar, ha, hb, ho⟩ :=
      hbin (by rw [hty]; decide) (by rw [hty]; decide) har.1 har.2
    rw [ho p hp] at hl ⊢
    rw [h1 a b o hpar hl, h2 a b o hpar (hlive o hl), ha, hb]
  case XOR =>
    simp only [hty] at har h1 h2
    obtain ⟨a, b, o, hpar, ha, hb, ho⟩ :=
      hbin (by rw [hty]; decide) (by rw [hty]; decide) har.1 har.2
    rw [ho p hp] at hl ⊢
    rw [h1 a b o hpar hl, h2 a b o hpar (hlive o hl), ha, hb]
  case NOT =>
    simp only [hty] at har h1 h2
    obtain ⟨a, o, hpar, ha, ho⟩ :=
      hun (by rw [hty]; decide) (by rw [hty]; decide) har.1 har.2
    rw [ho p hp] at hl ⊢
    rw [h1 a o hpar hl, h2 a o hpar (hlive o hl), ha]
  case PASS =>
    simp only [hty] at har h1 h2
    obtain ⟨a, o, hpar, ha, ho⟩ :=
      hun (by rw [hty]; decide) (by rw [hty]; decide) har.1 har.2
    rw [ho p hp] at hl ⊢
    rw [h1 a o hpar hl, h2 a o hpar (hlive o hl), ha]
  case DECODER =>
    simp only [hty] at har h1 h2
    obtain ⟨hs0, hs30⟩ := hsz (Or.inl hty)
    have e1 : calc_gate_in_size g = ((g.size.toNat : Nat) : Int) := by
      unfold calc_gate_in_size
      rw [if_neg (by rw [hty]; decide), Int.toNat_of_nonneg hs0]
    have e2 : calc_gate_out_size g = ((2 ^ g.size.toNat : Nat) : Int) := by
      unfold calc_gate_out_size
      rw [if_pos hty, shl32_one_small hs0 hs30]
      push_cast
      rfl
    rw [out_slot_iff e1 e2, mem_slot_list] at hp
    obtain ⟨k, hk, ho⟩ := hp
    have hsv : slots_value aw1 (g.params.take g.size.toNat)
        = slots_value aw2 (g.params.take g.size.toNat) := by
      apply slots_value_congr
      intro q hq
      apply hin q
      rw [in_slot_size (by rw [hty]; decide)]
      obtain ⟨i, hi, hqi⟩ := List.mem_take_iff_getElem.1 hq
      simp only [lt_min_iff] at hi
      exact ⟨i, hi.1, by rw [← hqi]; exact List.getElem?_eq_getElem _⟩
    rw [h1 k p hk ho hl, h2 k p hk ho (hlive p hl)]
    simp only [hsv]
  case MULTIPLEXER =>
    simp only [hty] at har h1 h2
    obtain ⟨hs0, hs30⟩ := hsz (Or.inr hty)
    obtain ⟨hinsz, hpl⟩ := mux_shape hty hs0 hs30 har0
    have e2 : calc_gate_out_size g = ((1 : Nat) : Int) := by
      unfold calc_gate_out_size
      simp [hty]
    rw [out_slot_iff hinsz e2, mem_slot_list] at hp
    obtain ⟨k, hk, ho⟩ := hp
    have hk0 : k = 0 := by omega
    subst hk0
    rw [Nat.add_zero] at ho
    have hselmem : ∀ q ∈ (g.params.drop (2 ^ g.size.toNat)).take g.size.toNat,
        in_slot g q := by
      intro q hq
      rw [in_slot_iff hinsz, mem_slot_list_split]
      exact Or.inr hq
    have hsv : slots_value aw1 ((g.params.drop (2 ^ g.size.toNat)).take g.size.toNat)
        = slots_value aw2 ((g.params.drop (2 ^ g.size.toNat)).take g.size.toNat) := by
      apply slots_value_congr
      intro q hq
      exact hin q (hselmem q hq)
    have hbits : ∀ x ∈ ((g.params.drop (2 ^ g.size.toNat)).take g.size.toNat).map
        (fun (q : Nat) => aw1 (q : Int)), is01 x := by
      intro x hx
      obtain ⟨q, hq, rfl⟩ := List.mem_map.1 hx
      exact hbool q (hselmem q hq)
    have hlt := decode_lt _ hbits
    have h0 := decode_nonneg _ hbits
    have hlen : (((g.params.drop (2 ^ g.size.toNat)).take g.size.toNat).map
        (fun (q : Nat) => aw1 (q : Int))).length = g.size.toNat := by
      rw [List.length_map, List.length_take, List.length_drop, hpl]
      omega
    rw [hlen] at hlt
    obtain ⟨d1, hd1, hod1⟩ := h1 p ho hl
    obtain ⟨d2, hd2, hod2⟩ := h2 p ho (hlive p hl)
    rw [← hsv] at hd2
    rw [hd1] at hd2
    cases hd2
    rw [hod1, hod2]
    apply hin d1
    rw [in_slot_iff hinsz, mem_slot_list]
    refine ⟨_, ?_, by rw [zero_add]; exact hd1⟩
    unfold slots_value
    have hcast : ((2 : Int) ^ g.size.toNat) = ((2 ^ g.size.toNat : Nat) : Int) := by
      push_cast; rfl
    omega

theorem in_val_constant_eq {e1 e2 : row_env} (hwires : e2.wires = e1.wires) {p : Nat}
    {w : wire_t} (hw : hashtable_get e1.wires p = some w) (h1 : w.type = var_type_t.CONSTANT)
    (h2 : w.key = "0" ∨ w.key = "1") (x y : Int) : in_val e1 p x = in_val e2 p y := by
  unfold in_val canon
  rw [hwires, hw]
  have h3 : w.type ≠ var_type_t.INPUT := by rw [h1]; decide
  simp only [if_neg h3, if_pos h1]
  rcases h2 with h2 | h2
  · simp only [if_pos h2, Option.getD_some]
  · have h4 : w.key ≠ "0" := by rw [h2]; decide
    simp only [if_neg h4, if_pos h2, Option.getD_some]

/-- In a parsed, well-wired, acyclic circuit the gate equations have one solution: two
wire stores that satisfy every gate's equation and hold, at each input-slot wire, the
assignment bit or the literal it stands for, agree on every live output-slot wire. -/
theorem solution_unique {s : pstate} (hs : parsed_ok s) {nodes : List gatenode_t}
    (hgraph : build_graph s.wires s.gates = some nodes) (hac : acyclic nodes)
    (hw : well_wired s.wires s.gates s.nInputs s.nOutputs) {inputs1 inputs2 : Int → Int}
    (hagree : ∀ k : Nat, (k : Int) < s.nInputs → inputs1 (k : Int) = inputs2 (k : Int))
    (hin01 : ∀ k : Nat, (k : Int) < s.nInputs → is01 (inputs1 (k : Int)))
    {aw1 aw2 : Int → Int}
    (h1 : ∀ g ∈ s.gates, gate_holds (row_env_of s inputs1) g aw1 ∧
      (∀ p, in_slot g p → in_val (row_env_of s inputs1) p (aw1 p) = aw1 p) ∧
      (∀ p, out_slot g p → live (row_env_of s inputs1) p → is01 (aw1 p)))
    (h2 : ∀ g ∈ s.gates, gate_holds (row_env_of s inputs2) g aw2 ∧
      (∀ p, in_slot g p → in_val (row_env_of s inputs2) p (aw2 p) = aw2 p)) :
    ∀ g ∈ s.gates, ∀ p, out_slot g p → live (row_env_of s inputs1) p → aw1 p = aw2 p := by
  obtain ⟨h_sizes, h_in, h_out, h_drv, h_slot, h_cons⟩ := hw
  have hlenN := build_graph_length hgraph
  obtain ⟨V, S, hsort, hnd, hmem, hSlen, htopo⟩ :=
    toposort_spec nodes (build_graph_closed hgraph)
  have htop := htopo hac
  have key : ∀ m : Nat, ∀ g ∈ s.gates, ∀ A B, S = A ++ g.id :: B → B.length = m →
      ∀ p, out_slot g p → live (row_env_of s inputs1) p → aw1 p = aw2 p := by
    intro m
    induction m using Nat.strong_induction_on with
    | _ m ih =>
      intro g hg A B hAB hB
      have hins : ∀ p, in_slot g p → aw1 p = aw2 p ∧ is01 (aw1 p) := by
        intro p hp
        obtain ⟨w, hwp⟩ := hs.params g hg p (in_slot_mem hp)
        have hc1 := (h1 g hg).2.1 p hp
        have hc2 := (h2 g hg).2 p hp
        rcases h_in g hg p (in_slot_mem hp) hp w hwp with hk | hk | hk
        · rw [in_val_input (e := row_env_of s inputs1) hwp hk.1] at hc1
          rw [in_val_input (e := row_env_of s inputs2) hwp hk.1] at hc2
          have hid := (hashtable_get_id hwp).1
          have e1 : aw1 p = inputs1 (p : Int) := by rw [← hc1, hid]; rfl
          have e2 : aw2 p = inputs2 (p : Int) := by rw [← hc2, hid]; rfl
          rw [e1, e2]
          exact ⟨hagree p hk.2, hin01 p hk.2⟩
        · obtain ⟨_, slot, hslot⟩ := hashtable_get_id hwp
          have hkey := (hs.slots slot w hslot).2 hk
          have heq := @in_val_constant_eq (row_env_of s inputs1) (row_env_of s inputs2) rfl
            p w hwp hk hkey (aw1 p) (aw2 p)
          have hb := in_val_constant (e := row_env_of s inputs1) hwp hk hkey (aw1 p)
          rw [hc1] at heq hb
          rw [hc2] at heq
          exact ⟨heq, hb⟩
        · obtain ⟨ht, q, hq, hqp⟩ := hk
          have hedge := recorded_edge hs hgraph hq hg hqp hp
            (by
              intro wire hwire
              rw [hwp] at hwire
              cases hwire
              rw [ht]
              exact ⟨by decide, by decide⟩)
            (by
              intro g1 hg1 hin1
              exact gate_eq_of_id hs hg1 hg
                (h_cons g1 hg1 g hg p (in_slot_mem hin1) hin1 hp w hwp ht))
          have hqS : q.id ∈ S := by
            rw [hmem, hlenN]
            exact (List.getElem?_eq_some_iff.1 (gate_position hs hq)).1
          obtain ⟨A1, B1, hAB1⟩ := List.append_of_mem hqS
          have hgA := htop A1 q.id B1 hAB1 g.id hedge
          obtain ⟨j, hj, hjg⟩ := List.getElem_of_mem hgA
          have hgj : S[j]? = some g.id := by
            rw [hAB1, List.getElem?_append_left hj, List.getElem?_eq_getElem hj, hjg]
          have hgA0 : S[A.length]? = some g.id := by
            rw [hAB, List.getElem?_append_right (le_refl _)]
            simp
          have hjA := nodup_index hnd hgj hgA0
          have hl1 : S.length = A.length + (B.length + 1) := by rw [hAB]; simp
          have hl2 : S.length = A1.length + (B1.length + 1) := by rw [hAB1]; simp
          have hlive : live (row_env_of s inputs1) p :=
            live_of_type (e := row_env_of s inputs1) hwp (by rw [ht]; decide)
          exact ⟨ih B1.length (by omega) q hq A1 B1 hAB1 rfl p hqp hlive,
            (h1 q hq).2.2 p hqp hlive⟩
      exact gate_holds_det (hs.arity g hg) (h_sizes g hg) (fun p hl => hl)
        (fun p hp => (hins p hp).1) (fun p hp => (hins p hp).2) (h1 g hg).1 (h2 g hg).1
  intro g hg
  have hgS : g.id ∈ S := by
    rw [hmem, hlenN]
    exact (List.getElem?_eq_some_iff.1 (gate_position hs hg)).1
  obtain ⟨A, B, hAB⟩ := List.append_of_mem hgS
  exact key B.length g hg A B hAB rfl

theorem opt_map_congr {α β : Type} {f g : α → Option β} : ∀ (l : List α),
    (∀ a ∈ l, f a = g a) → opt_map f l = opt_map g l := by
  intro l
  induction l with
  | nil => intro _; rfl
  | cons a rest ih =>
    intro h
    simp only [opt_map]
    rw [h a (List.mem_cons_self _ _), ih (fun b hb => h b (List.mem_cons_of_mem _ hb))]

/-- One row of a parsed, well-wired, acyclic circuit in which every cell of the output
block is written: the row does not depend on the initial contents of the three
blocks. -/
theorem row_det {s : pstate} (hs : parsed_ok s) {nodes : List gatenode_t}
    (hgraph : build_graph s.wires s.gates = some nodes) (hac : acyclic nodes)
    (hw : well_wired s.wires s.gates s.nInputs s.nOutputs)
    (hdriven : ∀ k ∈ List.range s.nOutputs.toNat, ∃ g ∈ s.gates, ∃ p ∈ g.params,
      out_slot g p ∧ (p : Int) - s.nInputs = (k : Int) ∧
      ∃ w ∈ hashtable_get s.wires p, w.type = var_type_t.OUTPUT)
    (S : List Nat) (V : Nat → Bool) (hsort : toposort nodes s.gates.length = some (V, S))
    (mem1 mem2 : row_mem) (v : Int) :
    eval_row s.wires s.gates S s.nInputs s.nOutputs s.wireId mem1 v
      = eval_row s.wires s.gates S s.nInputs s.nOutputs s.wireId mem2 v := by
  obtain ⟨inputs1, hfill1, hbits1⟩ := fill_inputs_spec s.nInputs v mem1.inputs
  obtain ⟨inputs2, hfill2, hbits2⟩ := fill_inputs_spec s.nInputs v mem2.inputs
  have hin1 : ∀ k : Nat, (k : Int) < s.nInputs → is01 (inputs1 (k : Int)) := by
    intro k hk
    rw [hbits1 k (by omega)]
    exact is01_land1 _
  have hin2 : ∀ k : Nat, (k : Int) < s.nInputs → is01 (inputs2 (k : Int)) := by
    intro k hk
    rw [hbits2 k (by omega)]
    exact is01_land1 _
  have hagree : ∀ k : Nat, (k : Int) < s.nInputs → inputs1 (k : Int) = inputs2 (k : Int) := by
    intro k hk
    rw [hbits1 k (by omega), hbits2 k (by omega)]
  obtain ⟨V1, S1, st1, hsort1, hev1, hall1⟩ := eval_gates_sound hs hgraph hac hw inputs1 hin1
    { all_wires := mem1.all_wires, outputs := mem1.outputs }
  obtain ⟨V2, S2, st2, hsort2, hev2, hall2⟩ := eval_gates_sound hs hgraph hac hw inputs2 hin2
    { all_wires := mem2.all_wires, outputs := mem2.outputs }
  rw [hsort] at hsort1 hsort2
  cases hsort1
  cases hsort2
  have huniq := solution_unique hs hgraph hac hw hagree hin1
    (fun g hg => ⟨(hall1 g hg).1, (hall1 g hg).2.1, (hall1 g hg).2.2.1⟩)
    (fun g hg => ⟨(hall2 g hg).1, (hall2 g hg).2.1⟩)
  have hrow1 : eval_row s.wires s.gates S s.nInputs s.nOutputs s.wireId mem1 v
      = some ((List.range s.nInputs.toNat).map (fun (i : Nat) => inputs1 (i : Int)),
              (List.range s.nOutputs.toNat).map (fun (i : Nat) => st1.outputs (i : Int))) := by
    unfold eval_row
    rw [hfill1]
    simp only [Option.bind_eq_bind, Option.some_bind]
    have hev := hev1
    unfold row_env_of at hev
    rw [hev]
    rfl
  have hrow2 : eval_row s.wires s.gates S s.nInputs s.nOutputs s.wireId mem2 v
      = some ((List.range s.nInputs.toNat).map (fun (i : Nat) => inputs2 (i : Int)),
              (List.range s.nOutputs.toNat).map (fun (i : Nat) => st2.outputs (i : Int))) := by
    unfold eval_row
    rw [hfill2]
    simp only [Option.bind_eq_bind, Option.some_bind]
    have hev := hev2
    unfold row_env_of at hev
    rw [hev]
    rfl
  rw [hrow1, hrow2]
  congr 2
  · apply List.map_congr_left
    intro k hk
    exact hagree k (by have := List.mem_range.1 hk; omega)
  · apply List.map_congr_left
    intro k hk
    obtain ⟨g, hg, p, _, hgp, hidx, w, hwp, hty⟩ := hdriven k hk
    have hwp1 : hashtable_get s.wires p = some w := hwp
    have o1 := (hall1 g hg).2.2.2 p w hgp hwp1 hty
    have o2 := (hall2 g hg).2.2.2 p w hgp hwp1 hty
    rw [hidx] at o1 o2
    rw [o1, o2]
    exact huniq g hg p hgp
      (live_of_type (e := row_env_of s inputs1) hwp1 (by rw [hty]; decide))

/-- C24 (counterexample): in the netlist `INPUT 1 A / OUTPUT 1 O / PASS _ O / NOT A _`
the wire `_` read by `PASS` is written by one gate and read by one gate, and `O` is
driven by `PASS`; no `out` pointer is recorded, `_` being Discarded, and `PASS` is
replayed before `NOT`. The output bit of both rows is the initial content of the cell
of `_`: 0 when the wire store starts zeroed, 1 when it starts with ones. -/
theorem row_independence_counterexample :
    (parsed discarded_feed).gates
      = [⟨type_t.PASS, 1, [2, 1], 0⟩, ⟨type_t.NOT, 1, [0, 2], 1⟩] ∧
    build_graph (parsed discarded_feed).wires (parsed discarded_feed).gates
      = some [⟨0, type_t.PASS, 1, [some 1], [none]⟩, ⟨1, type_t.NOT, 1, [none], [none]⟩] ∧
    run (main_state discarded_feed 0 0 "") zero_mem = some (some [([0], [0]), ([1], [0])]) ∧
    run (main_state discarded_feed 0 0 "") ones_mem = some (some [([0], [1]), ([1], [1])]) :=
  ⟨rfl, rfl, run_of_parse (s := parsed discarded_feed) rfl rfl,
    run_of_parse (s := parsed discarded_feed) rfl rfl⟩

/-- C24 (amended): for a parsed circuit whose gate graph is built and acyclic, whose
wiring is well formed (gate inputs are Inputs, Constants or Temporaries produced by a
gate, every wire other than the discarded one has one driver, a Temporary feeds one
gate) and in which every cell of the output block is the cell of an Output wire driven
by a gate, the table is printed and is the same for any two initial contents of the
blocks allocated for the rows: every row depends on the circuit and its assignment
only. -/
theorem row_independence {input : List String} {nI nO : Int} {tok : String} {s : pstate}
    {nodes : List gatenode_t}
    (hparse : parse_circuit (main_state input nI nO tok) = some (0, s))
    (hgraph : build_graph s.wires s.gates = some nodes) (hac : acyclic nodes)
    (hw : well_wired s.wires s.gates s.nInputs s.nOutputs)
    (hdriven : ∀ k ∈ List.range s.nOutputs.toNat, ∃ g ∈ s.gates, ∃ p ∈ g.params,
      out_slot g p ∧ (p : Int) - s.nInputs = (k : Int) ∧
      ∃ w ∈ hashtable_get s.wires p, w.type = var_type_t.OUTPUT)
    (mem1 mem2 : Nat → row_mem) :
    ∃ rows, run (main_state input nI nO tok) mem1 = some (some rows) ∧
      run (main_state input nI nO tok) mem2 = some (some rows) := by
  have hs := parse_circuit_ok hparse
  obtain ⟨rows, hbuild, _, _⟩ := circuit_rows hs hgraph hac hw mem1
  obtain ⟨V, S, hsort, _⟩ := toposort_spec nodes (build_graph_closed hgraph)
  rw [build_graph_length hgraph] at hsort
  refine ⟨rows, run_of_parse hparse hbuild, run_of_parse hparse ?_⟩
  rw [← hbuild]
  unfold build_circuit
  rw [hgraph]
  simp only [Option.bind_eq_bind, Option.some_bind]
  rw [hsort]
  simp only [Option.some_bind]
  apply opt_map_congr
  intro v _
  exact row_det hs hgraph hac hw hdriven S V hsort (mem2 v) (mem1 v) (v : Int)

/-- C24 (witness): the half adder, with zeroed blocks and with blocks of ones. -/
theorem row_independence_witness :
    ∃ rows, run (main_state half_adder 0 0 "") zero_mem = some (some rows) ∧
      run (main_state half_adder 0 0 "") ones_mem = some (some rows) := by
  have hgraph : build_graph (parsed half_adder).wires (parsed half_adder).gates
      = some [⟨0, type_t.XOR, 2, [none, none], [none]⟩,
              ⟨1, type_t.AND, 2, [none, none], [none]⟩] := rfl
  have hac : acyclic [⟨0, type_t.XOR, 2, [none, none], [none]⟩,
      ⟨1, type_t.AND, 2, [none, none], [none]⟩] := by
    apply acyclic_of_increasing
    rintro x y ⟨node, hx, hy⟩
    match x, hx with
    | 0, hx => simp at hx; subst hx; simp at hy
    | 1, hx => simp at hx; subst hx; simp at hy
    | (k + 2), hx => simp at hx
  exact @row_independence half_adder 0 0 "" (parsed half_adder) _ rfl hgraph hac
    (by decide!) (by decide!) zero_mem ones_mem

theorem map_take_eq {aw1 aw2 : Int → Int} : ∀ (n : Nat) (l1 l2 : List Nat),
    n ≤ l1.length → n ≤ l2.length →
    (∀ (i : Nat) p1 p2, i < n → l1[i]? = some p1 → l2[i]? = some p2 → aw1 p1 = aw2 p2) →
    (l1.take n).map (fun (q : Nat) => aw1 (q : Int))
      = (l2.take n).map (fun (q : Nat) => aw2 (q : Int)) := by
  intro n l1 l2 h1 h2 h
  apply List.ext_getElem?
  intro i
  rw [List.getElem?_map, List.getElem?_map]
  by_cases hi : i < n
  · rw [List.getElem?_take_of_lt hi, List.getElem?_take_of_lt hi,
      List.getElem?_eq_getElem (by omega : i < l1.length),
      List.getElem?_eq_getElem (by omega : i < l2.length)]
    simp only [Option.map_some', Option.some.injEq]
    exact h i _ _ hi (List.getElem?_eq_getElem _) (List.getElem?_eq_getElem _)
  · rw [List.getElem?_eq_none (by rw [List.length_take]; omega),
      List.getElem?_eq_none (by rw [List.length_take]; omega)]
    rfl

/-- Two gates of the same operation and size whose input wires hold the same bits, slot
by slot, hold the same values on their live output wires, slot by slot, in stores that
satisfy their equations. -/
theorem gate_holds_det2 {e1 e2 : row_env} {g1 g2 : gate_t} {aw1 aw2 : Int → Int}
    (hty : g2.type = g1.type) (hsize : g2.size = g1.size)
    (hlen : g2.params.length = g1.params.length) (har : arity_ok g1)
    (hsz : g1.type = type_t.DECODER ∨ g1.type = type_t.MULTIPLEXER →
      0 ≤ g1.size ∧ g1.size ≤ 30)
    (hin : ∀ (i : Nat) p1 p2, i < (calc_gate_in_size g1).toNat → g1.params[i]? = some p1 →
      g2.params[i]? = some p2 → aw1 p1 = aw2 p2 ∧ is01 (aw1 p1))
    (h1 : gate_holds e1 g1 aw1) (h2 : gate_holds e2 g2 aw2) :
    ∀ (j : Nat) p1 p2, j < (calc_gate_out_size g1).toNat →
      g1.params[(calc_gate_in_size g1).toNat + j]? = some p1 →
      g2.params[(calc_gate_in_size g1).toNat + j]? = some p2 →
      live e1 p1 → live e2 p2 → aw1 p1 = aw2 p2 := by
  have har0 := har
  unfold arity_ok at har
  unfold gate_holds at h1 h2
  rw [hty, hsize] at h2
  have hI : g1.type ≠ type_t.MULTIPLEXER → calc_gate_in_size g1 = g1.size := by
    intro h
    unfold calc_gate_in_size
    rw [if_neg h]
  have hO : g1.type ≠ type_t.DECODER → calc_gate_out_size g1 = 1 := by
    intro h
    unfold calc_gate_out_size
    rw [if_neg h]
  have hbin : g1.type ≠ type_t.MULTIPLEXER → g1.type ≠ type_t.DECODER → g1.size = 2 →
      g1.params.length = 3 → ∀ (j : Nat) p1 p2, j < (calc_gate_out_size g1).toNat →
      g1.params[(calc_gate_in_size g1).toNat + j]? = some p1 →
      g2.params[(calc_gate_in_size g1).toNat + j]? = some p2 →
      ∃ a1 b1 a2 b2, g1.params = [a1, b1, p1] ∧ g2.params = [a2, b2, p2] ∧
        aw1 a1 = aw2 a2 ∧ aw1 b1 = aw2 b2 := by
    intro t1 t2 hs hl j p1 p2 hj hp1 hp2
    obtain ⟨a1, b1, o1, hpar1⟩ := list_three hl
    obtain ⟨a2, b2, o2, hpar2⟩ := list_three (hlen.trans hl)
    rw [hO t2] at hj
    have hj0 : j = 0 := by
      have : (1 : Int).toNat = 1 := rfl
      omega
    subst hj0
    rw [hI t1, hs] at hp1 hp2
    have h2n : (2 : Int).toNat + 0 = 2 := rfl
    rw [h2n, hpar1] at hp1
    rw [h2n, hpar2] at hp2
    simp only [List.getElem?_cons_succ, List.getElem?_cons_zero, Option.some.injEq] at hp1 hp2
    subst hp1
    subst hp2
    have hi0 := hin 0 a1 a2 (by rw [hI t1, hs]; decide) (by rw [hpar1]; rfl) (by rw [hpar2]; rfl)
    have hi1 := hin 1 b1 b2 (by rw [hI t1, hs]; decide) (by rw [hpar1]; rfl) (by rw [hpar2]; rfl)
    exact ⟨a1, b1, a2, b2, hpar1, hpar2, hi0.1, hi1.1⟩
  have hun : g1.type ≠ type_t.MULTIPLEXER → g1.type ≠ type_t.DECODER → g1.size = 1 →
      g1.params.length = 2 → ∀ (j : Nat) p1 p2, j < (calc_gate_out_size g1).toNat →
      g1.params[(calc_gate_in_size g1).toNat + j]? = some p1 →
      g2.params[(calc_gate_in_size g1).toNat + j]? = some p2 →
      ∃ a1 a2, g1.params = [a1, p1] ∧ g2.params = [a2, p2] ∧ aw1 a1 = aw2 a2 := by
    intro t1 t2 hs hl j p1 p2 hj hp1 hp2
    obtain ⟨a1, o1, hpar1⟩ := list_two hl
    obtain ⟨a2, o2, hpar2⟩ := list_two (hlen.trans hl)
    rw [hO t2] at hj
    have hj0 : j = 0 := by
      have : (1 : Int).toNat = 1 := rfl
      omega
    subst hj0
    rw [hI t1, hs] at hp1 hp2
    have h1n : (1 : Int).toNat + 0 = 1 := rfl
    rw [h1n, hpar1] at hp1
    rw [h1n, hpar2] at hp2
    simp only [List.getElem?_cons_succ, List.getElem?_cons_zero, Option.some.injEq] at hp1 hp2
    subst hp1
    subst hp2
    have hi0 := hin 0 a1 a2 (by rw [hI t1, hs]; decide) (by rw [hpar1]; rfl) (by rw [hpar2]; rfl)
    exact ⟨a1, a2, hpar1, hpar2, hi0.1⟩
  intro j p1 p2 hj hp1 hp2 hl1 hl2
  cases hty1 : g1.type
  case AND =>
    simp only [hty1] at har h1 h2
    obtain ⟨a1, b1, a2, b2, hpar1, hpar2, ha, hb⟩ :=
      hbin (by rw [hty1]; decide) (by rw [hty1]; decide) har.1 har.2 j p1 p2 hj hp1 hp2
    rw [h1 a1 b1 p1 hpar1 hl1, h2 a2 b2 p2 hpar2 hl2, ha, hb]
  case OR =>
    simp only [hty1] at har h1 h2
    obtain ⟨a1, b1, a2, b2, hpar1, hpar2, ha, hb⟩ :=
      hbin (by rw [hty1]; decide) (by rw [hty1]; decide) har.1 har.2 j p1 p2 hj hp1 hp2
    rw [h1 a1 b1 p1 hpar1 hl1, h2 a2 b2 p2 hpar2 hl2, ha, hb]
  case NAND =>
    simp only [hty1] at har h1 h2
    obtain ⟨a1, b1, a2, b2, hpar1, hpar2, ha, hb⟩ :=
      hbin (by rw [hty1]; decide) (by rw [hty1]; decide) har.1 har.2 j p1 p2 hj hp1 hp2
    rw [h1 a1 b1 p1 hpar1 hl1, h2 a2 b2 p2 hpar2 hl2, ha, hb]
  case NOR =>
    simp only [hty1] at har h1 h2
    obtain ⟨a1, b1, a2, b2, hpar1, hpar2, ha, hb⟩ :=
      hbin (by rw [hty1]; decide) (by rw [hty1]; decide) har.1 har.2 j p1 p2 hj hp1 hp2
    rw [h1 a1 b1 p1 hpar1 hl1, h2 a2 b2 p2 hpar2 hl2, ha, hb]
  case XOR =>
    simp only [hty1] at har h1 h2
    obtain ⟨a1, b1, a2, b2, hpar1, hpar2, ha, hb⟩ :=
      hbin (by rw [hty1]; decide) (by rw [hty1]; decide) har.1 har.2 j p1 p2 hj hp1 hp2
    rw [h1 a1 b1 p1 hpar1 hl1, h2 a2 b2 p2 hpar2 hl2, ha, hb]
  case NOT =>
    simp only [hty1] at har h1 h2
    obtain ⟨a1, a2, hpar1, hpar2, ha⟩ :=
      hun (by rw [hty1]; decide) (by rw [hty1]; decide) har.1 har.2 j p1 p2 hj hp1 hp2
    rw [h1 a1 p1 hpar1 hl1, h2 a2 p2 hpar2 hl2, ha]
  case PASS =>
    simp only [hty1] at har h1 h2
    obtain ⟨a1, a2, hpar1, hpar2, ha⟩ :=
      hun (by rw [hty1]; decide) (by rw [hty1]; decide) har.1 har.2 j p1 p2 hj hp1 hp2
    rw [h1 a1 p1 hpar1 hl1, h2 a2 p2 hpar2 hl2, ha]
  case DECODER =>
    simp only [hty1] at har h1 h2
    obtain ⟨hs0, hs30⟩ := hsz (Or.inl hty1)
    have e2 : calc_gate_out_size g1 = ((2 ^ g1.size.toNat : Nat) : Int) := by
      unfold calc_gate_out_size
      rw [if_pos hty1, shl32_one_small hs0 hs30]
      push_cast
      rfl
    rw [hI (by rw [hty1]; decide)] at hp1 hp2 hin
    rw [e2, Int.toNat_natCast] at hj
    have hlen1 : g1.size.toNat ≤ g1.params.length := by
      have := (List.getElem?_eq_some_iff.1 hp1).1
      omega
    have hsv : slots_value aw1 (g1.params.take g1.size.toNat)
        = slots_value aw2 (g2.params.take g1.size.toNat) := by
      unfold slots_value
      refine congrArg decode ?_
      exact map_take_eq _ _ _ hlen1 (by omega)
        (fun i q1 q2 hi hq1 hq2 => (hin i q1 q2 hi hq1 hq2).1)
    rw [h1 j p1 hj hp1 hl1, h2 j p2 hj hp2 hl2]
    simp only [hsv]
  case MULTIPLEXER =>
    simp only [hty1] at har h1 h2
    obtain ⟨hs0, hs30⟩ := hsz (Or.inr hty1)
    obtain ⟨hinsz, hpl⟩ := mux_shape hty1 hs0 hs30 har0
    rw [hO (by rw [hty1]; decide)] at hj
    have hj0 : j = 0 := by
      have : (1 : Int).toNat = 1 := rfl
      omega
    subst hj0
    rw [hinsz, Int.toNat_natCast, Nat.add_zero] at hp1 hp2
    rw [hinsz, Int.toNat_natCast] at hin
    have hdrop : ∀ (l : List Nat) (i : Nat),
        (l.drop (2 ^ g1.size.toNat))[i]? = l[2 ^ g1.size.toNat + i]? := by
      intro l i
      rw [List.getElem?_drop]
    have hsel : ((g1.params.drop (2 ^ g1.size.toNat)).take g1.size.toNat).map
          (fun (q : Nat) => aw1 (q : Int))
        = ((g2.params.drop (2 ^ g1.size.toNat)).take g1.size.toNat).map
          (fun (q : Nat) => aw2 (q : Int)) := by
      apply map_take_eq
      · rw [List.length_drop, hpl]; omega
      · rw [List.length_drop, hlen, hpl]; omega
      · intro i q1 q2 hi hq1 hq2
        rw [hdrop] at hq1 hq2
        exact (hin _ q1 q2 (by omega) hq1 hq2).1
    have hsv : slots_value aw1 ((g1.params.drop (2 ^ g1.size.toNat)).take g1.size.toNat)
        = slots_value aw2 ((g2.params.drop (2 ^ g1.size.toNat)).take g1.size.toNat) := by
      unfold slots_value
      exact congrArg decode hsel
    have hbits : ∀ x ∈ ((g1.params.drop (2 ^ g1.size.toNat)).take g1.size.toNat).map
        (fun (q : Nat) => aw1 (q : Int)), is01 x := by
      intro x hx
      obtain ⟨q, hq, rfl⟩ := List.mem_map.1 hx
      obtain ⟨i, hi, hqi⟩ := List.mem_take_iff_getElem.1 hq
      simp only [lt_min_iff, List.length_drop] at hi
      have hq1 : g1.params[2 ^ g1.size.toNat + i]? = some q := by
        rw [← hdrop, ← hqi]
        exact List.getElem?_eq_getElem _
      obtain ⟨q2, hq2⟩ : ∃ q2, g2.params[2 ^ g1.size.toNat + i]? = some q2 :=
        ⟨_, List.getElem?_eq_getElem (by rw [hlen, hpl]; omega)⟩
      exact (hin _ q q2 (by omega) hq1 hq2).2
    have hlt := decode_lt _ hbits
    have h0 := decode_nonneg _ hbits
    have hlen2 : (((g1.params.drop (2 ^ g1.size.toNat)).take g1.size.toNat).map
        (fun (q : Nat) => aw1 (q : Int))).length = g1.size.toNat := by
      rw [List.length_map, List.length_take, List.length_drop, hpl]
      omega
    rw [hlen2] at hlt
    obtain ⟨d1, hd1, hod1⟩ := h1 p1 hp1 hl1
    obtain ⟨d2, hd2, hod2⟩ := h2 p2 hp2 hl2
    rw [← hsv] at hd2
    rw [hod1, hod2]
    refine (hin _ d1 d2 ?_ hd1 hd2).1
    unfold slots_value
    have hcast : ((2 : Int) ^ g1.size.toNat) = ((2 ^ g1.size.toNat : Nat) : Int) := by
      push_cast; rfl
    omega

theorem table_get_mem {l : wirelist_t} {next : Nat} (hok : table_ok l next) {p : Nat}
    {w : wire_t} (h : hashtable_get l p = some w) : w ∈ l.list ∧ w.id = p := by
  obtain ⟨hid, slot, hslot⟩ := hashtable_get_id h
  exact ⟨hok.slots slot w hslot, hid⟩

theorem wire_eq_of_key {l : wirelist_t} {next : Nat} (hok : table_ok l next) {w1 w2 : wire_t}
    (h1 : w1 ∈ l.list) (h2 : w2 ∈ l.list) (h : w1.key = w2.key) : w1 = w2 := by
  obtain ⟨i, hi, hwi⟩ := List.getElem_of_mem h1
  obtain ⟨j, hj, hwj⟩ := List.getElem_of_mem h2
  have e1 : (l.list.map (fun w => w.key))[i]? = some w1.key := by
    rw [List.getElem?_map, List.getElem?_eq_getElem hi, hwi]; rfl
  have e2 : (l.list.map (fun w => w.key))[j]? = some w1.key := by
    rw [List.getElem?_map, List.getElem?_eq_getElem hj, hwj, h]; rfl
  obtain ⟨a1, a2⟩ := List.getElem?_eq_some_iff.1 e1
  obtain ⟨b1, b2⟩ := List.getElem?_eq_some_iff.1 e2
  have hij : i = j := (List.Nodup.getElem_inj_iff hok.keys).1 (a2.trans b2.symm)
  subst hij
  rw [← hwi, ← hwj]

theorem same_label_unique {l1 l2 : wirelist_t} {next : Nat} (hok : table_ok l2 next)
    {p1 p2 q2 : Nat} (h : same_label l1 l2 p1 p2) (h' : same_label l1 l2 p1 q2) : p2 = q2 := by
  obtain ⟨w1, w2, hw1, hw2, hk⟩ := h
  obtain ⟨v1, v2, hv1, hv2, hk'⟩ := h'
  rw [hw1] at hv1
  cases hv1
  obtain ⟨m2, i2⟩ := table_get_mem hok hw2
  obtain ⟨n2, j2⟩ := table_get_mem hok hv2
  have := wire_eq_of_key hok m2 n2 (hk.symm.trans hk')
  subst this
  omega

theorem labelled_spec {l1 l2 : wirelist_t} {g1 g2 : gate_t}
    (h : labelled l2 g2 = labelled l1 g1) :
    g2.type = g1.type ∧ g2.size = g1.size ∧ g2.params.length = g1.params.length ∧
    ∀ (i : Nat) p1 p2 w1, g1.params[i]? = some p1 → g2.params[i]? = some p2 →
      hashtable_get l1 p1 = some w1 → same_label l1 l2 p1 p2 := by
  unfold labelled at h
  simp only [Prod.mk.injEq] at h
  obtain ⟨hty, hsize, hpar⟩ := h
  refine ⟨hty, hsize, ?_, ?_⟩
  · have := congrArg List.length hpar
    simpa using this
  · intro i p1 p2 w1 hp1 hp2 hw1
    have hi := congrArg (fun l => l[i]?) hpar
    simp only [List.getElem?_map, hp1, hp2, Option.map_some', hw1, Option.some.injEq] at hi
    cases hw2 : hashtable_get l2 p2 with
    | none => rw [hw2] at hi; cases hi
    | some w2 =>
      rw [hw2] at hi
      simp only [Option.map_some', Option.some.injEq] at hi
      exact ⟨w1, w2, hw1, hw2, hi.symm⟩

theorem calc_sizes_congr {g1 g2 : gate_t} (hty : g2.type = g1.type) (hsize : g2.size = g1.size) :
    calc_gate_in_size g2 = calc_gate_in_size g1 ∧
    calc_gate_out_size g2 = calc_gate_out_size g1 := by
  unfold calc_gate_in_size calc_gate_out_size
  rw [hty, hsize]
  exact ⟨rfl, rfl⟩

theorem in_val_constant_key {e1 e2 : row_env} {p1 p2 : Nat} {w1 w2 : wire_t}
    (hw1 : hashtable_get e1.wires p1 = some w1) (hw2 : hashtable_get e2.wires p2 = some w2)
    (hk : w1.key = w2.key) (ht : w1.type = w2.type) (h1 : w1.type = var_type_t.CONSTANT)
    (h2 : w1.key = "0" ∨ w1.key = "1") (x y : Int) : in_val e1 p1 x = in_val e2 p2 y := by
  unfold in_val canon
  rw [hw1, hw2]
  have h3 : w1.type ≠ var_type_t.INPUT := by rw [h1]; decide
  simp only [← ht, ← hk, if_neg h3, if_pos h1]
  rcases h2 with h2 | h2
  · simp only [if_pos h2, Option.getD_some]
  · have h4 : w1.key ≠ "0" := by rw [h2]; decide
    simp only [if_neg h4, if_pos h2, Option.getD_some]

/-- The wire store of a row of a parsed, well-wired, acyclic circuit is determined, label
by label, by the gate equations: a store that satisfies the equations of a second
circuit containing the same gates, parameters read as labels, holds the same value
under every label that a gate of the first circuit drives. -/
theorem solution_transfer {s1 s2 : pstate} (hs1 : parsed_ok s1)
    (ht1 : table_ok s1.wires s1.wireId) (ht2 : table_ok s2.wires s2.wireId)
    {nodes : List gatenode_t}
    (hgraph : build_graph s1.wires s1.gates = some nodes) (hac : acyclic nodes)
    (hw : well_wired s1.wires s1.gates s1.nInputs s1.nOutputs)
    (hkinds : kinds_agree s1.wires s2.wires)
    (hsub : ∀ g1 ∈ s1.gates, ∃ g2 ∈ s2.gates, labelled s2.wires g2 = labelled s1.wires g1)
    {inputs1 inputs2 : Int → Int}
    (hagree : ∀ k : Nat, (k : Int) < s1.nInputs → inputs1 (k : Int) = inputs2 (k : Int))
    (hin01 : ∀ k : Nat, (k : Int) < s1.nInputs → is01 (inputs1 (k : Int)))
    {aw1 aw2 : Int → Int}
    (h1 : ∀ g ∈ s1.gates, gate_holds (row_env_of s1 inputs1) g aw1 ∧
      (∀ p, in_slot g p → in_val (row_env_of s1 inputs1) p (aw1 p) = aw1 p) ∧
      (∀ p, out_slot g p → live (row_env_of s1 inputs1) p → is01 (aw1 p)))
    (h2 : ∀ g ∈ s2.gates, gate_holds (row_env_of s2 inputs2) g aw2 ∧
      (∀ p, in_slot g p → in_val (row_env_of s2 inputs2) p (aw2 p) = aw2 p)) :
    ∀ g1 ∈ s1.gates, ∀ p1, out_slot g1 p1 → live (row_env_of s1 inputs1) p1 →
      ∀ p2, same_label s1.wires s2.wires p1 p2 → aw1 p1 = aw2 p2 := by
  obtain ⟨h_sizes, h_in, h_out, h_drv, h_slot, h_cons⟩ := hw
  have hlenN := build_graph_length hgraph
  obtain ⟨V, S, hsort, hnd, hmem, hSlen, htopo⟩ :=
    toposort_spec nodes (build_graph_closed hgraph)
  have htop := htopo hac
  have key : ∀ m : Nat, ∀ g ∈ s1.gates, ∀ A B, S = A ++ g.id :: B → B.length = m →
      ∀ p1, out_slot g p1 → live (row_env_of s1 inputs1) p1 →
      ∀ p2, same_label s1.wires s2.wires p1 p2 → aw1 p1 = aw2 p2 := by
    intro m
    induction m using Nat.strong_induction_on with
    | _ m ih =>
      intro g1 hg1 A B hAB hB p1 hout hlive p2 hsame
      obtain ⟨g2, hg2, hlab⟩ := hsub g1 hg1
      obtain ⟨hty, hsize, hlen, hpoint⟩ := labelled_spec hlab
      obtain ⟨hIeq, hOeq⟩ := calc_sizes_congr hty hsize
      obtain ⟨a, b, ha, hb, hpl, _⟩ := arity_nat (hs1.arity g1 hg1) (h_sizes g1 hg1)
      have hins : ∀ (i : Nat) q1 q2, i < (calc_gate_in_size g1).toNat →
          g1.params[i]? = some q1 → g2.params[i]? = some q2 →
          aw1 q1 = aw2 q2 ∧ is01 (aw1 q1) := by
        intro i q1 q2 hi hq1 hq2
        have hin1 : in_slot g1 q1 := ⟨i, List.mem_range.2 hi, by rw [param_nat]; exact hq1⟩
        have hin2 : in_slot g2 q2 :=
          ⟨i, List.mem_range.2 (by rw [hIeq]; exact hi), by rw [param_nat]; exact hq2⟩
        obtain ⟨w1, hw1⟩ := hs1.params g1 hg1 q1 (in_slot_mem hin1)
        have hsl := hpoint i q1 q2 w1 hq1 hq2 hw1
        obtain ⟨v1, w2, hv1, hw2, hk⟩ := hsl
        rw [hw1] at hv1
        cases hv1
        obtain ⟨m1, i1⟩ := table_get_mem ht1 hw1
        obtain ⟨m2, i2⟩ := table_get_mem ht2 hw2
        obtain ⟨hkt, hkid⟩ := hkinds w1 m1 w2 m2 hk
        have hc1 := (h1 g1 hg1).2.1 q1 hin1
        have hc2 := (h2 g2 hg2).2 q2 hin2
        rcases h_in g1 hg1 q1 (in_slot_mem hin1) hin1 w1 hw1 with hkd | hkd | hkd
        · rw [in_val_input (e := row_env_of s1 inputs1) hw1 hkd.1] at hc1
          rw [in_val_input (e := row_env_of s2 inputs2) hw2 (by rw [← hkt]; exact hkd.1)] at hc2
          have hid := hkid (Or.inl hkd.1)
          have e1 : aw1 q1 = inputs1 (q1 : Int) := by rw [← hc1, i1]; rfl
          have e2 : aw2 q2 = inputs2 (q1 : Int) := by rw [← hc2, ← hid, i1]; rfl
          rw [e1, e2]
          exact ⟨hagree q1 hkd.2, hin01 q1 hkd.2⟩
        · obtain ⟨_, slot, hslot⟩ := hashtable_get_id hw1
          have hkey := (hs1.slots slot w1 hslot).2 hkd
          have heq := @in_val_constant_key (row_env_of s1 inputs1) (row_env_of s2 inputs2)
            q1 q2 w1 w2 hw1 hw2 hk hkt hkd hkey (aw1 q1) (aw2 q2)
          have hbl := in_val_constant (e := row_env_of s1 inputs1) hw1 hkd hkey (aw1 q1)
          rw [hc1] at heq hbl
          rw [hc2] at heq
          exact ⟨heq, hbl⟩
        · obtain ⟨htt, q, hq, hqp⟩ := hkd
          have hedge := recorded_edge hs1 hgraph hq hg1 hqp hin1
            (by
              intro wire hwire
              rw [hw1] at hwire
              cases hwire
              rw [htt]
              exact ⟨by decide, by decide⟩)
            (by
              intro g3 hg3 hin3
              exact gate_eq_of_id hs1 hg3 hg1
                (h_cons g3 hg3 g1 hg1 q1 (in_slot_mem hin3) hin3 hin1 w1 hw1 htt))
          have hqS : q.id ∈ S := by
            rw [hmem, hlenN]
            exact (List.getElem?_eq_some_iff.1 (gate_position hs1 hq)).1
          obtain ⟨A1, B1, hAB1⟩ := List.append_of_mem hqS
          have hgA := htop A1 q.id B1 hAB1 g1.id hedge
          obtain ⟨j, hj, hjg⟩ := List.getElem_of_mem hgA
          have hgj : S[j]? = some g1.id := by
            rw [hAB1, List.getElem?_append_left hj, List.getElem?_eq_getElem hj, hjg]
          have hgA0 : S[A.length]? = some g1.id := by
            rw [hAB, List.getElem?_append_right (le_refl _)]
            simp
          have hjA := nodup_index hnd hgj hgA0
          have hl1 : S.length = A.length + (B.length + 1) := by rw [hAB]; simp
          have hl2 : S.length = A1.length + (B1.length + 1) := by rw [hAB1]; simp
          have hlv : live (row_env_of s1 inputs1) q1 :=
            live_of_type (e := row_env_of s1 inputs1) hw1 (by rw [htt]; decide)
          exact ⟨ih B1.length (by omega) q hq A1 B1 hAB1 rfl q1 hqp hlv q2 ⟨w1, w2, hw1, hw2, hk⟩,
            (h1 q hq).2.2 q1 hqp hlv⟩
      obtain ⟨j, hj, hjp⟩ := hout
      have hj1 := List.mem_range.1 hj
      have hidx : calc_gate_in_size g1 + (j : Int) = (((calc_gate_in_size g1).toNat + j : Nat) : Int) := by
        rw [ha]; push_cast; rfl
      rw [hidx, param_nat] at hjp
      have hjb : j < b := by rw [hb, Int.toNat_natCast] at hj1; exact hj1
      have han : (calc_gate_in_size g1).toNat = a := by rw [ha, Int.toNat_natCast]
      obtain ⟨q2, hq2⟩ : ∃ q2, g2.params[(calc_gate_in_size g1).toNat + j]? = some q2 :=
        ⟨_, List.getElem?_eq_getElem (by rw [hlen, hpl, han]; omega)⟩
      obtain ⟨w1, hw1⟩ := hs1.params g1 hg1 p1 (mem_of_get hjp)
      have hsl := hpoint _ p1 q2 w1 hjp hq2 hw1
      have hpq := same_label_unique ht2 hsame hsl
      subst hpq
      obtain ⟨v1, w2, hv1, hw2, hk⟩ := hsl
      rw [hw1] at hv1
      cases hv1
      obtain ⟨m1, _⟩ := table_get_mem ht1 hw1
      obtain ⟨m2, _⟩ := table_get_mem ht2 hw2
      obtain ⟨hkt, _⟩ := hkinds w1 m1 w2 m2 hk
      have hlive2 : live (row_env_of s2 inputs2) p2 :=
        live_of_type (e := row_env_of s2 inputs2) hw2 (by rw [← hkt]; exact hlive w1 hw1)
      exact gate_holds_det2 hty hsize hlen (hs1.arity g1 hg1) (h_sizes g1 hg1) hins
        (h1 g1 hg1).1 (h2 g2 hg2).1 j p1 p2 hj1 hjp hq2 hlive hlive2
  intro g hg
  have hgS : g.id ∈ S := by
    rw [hmem, hlenN]
    exact (List.getElem?_eq_some_iff.1 (gate_position hs1 hg)).1
  obtain ⟨A, B, hAB⟩ := List.append_of_mem hgS
  exact key B.length g hg A B hAB rfl

/-- One row of two parsed circuits with the same gates, parameters read as labels, the
first one well wired and acyclic with every cell of its output block driven, the second
one well wired and acyclic: the two rows are the same, whatever the initial contents of
the blocks. -/
theorem row_transfer {s1 s2 : pstate} (hs1 : parsed_ok s1) (hs2 : parsed_ok s2)
    (ht1 : table_ok s1.wires s1.wireId) (ht2 : table_ok s2.wires s2.wireId)
    {nodes1 nodes2 : List gatenode_t}
    (hgraph1 : build_graph s1.wires s1.gates = some nodes1) (hac1 : acyclic nodes1)
    (hw1 : well_wired s1.wires s1.gates s1.nInputs s1.nOutputs)
    (hgraph2 : build_graph s2.wires s2.gates = some nodes2) (hac2 : acyclic nodes2)
    (hw2 : well_wired s2.wires s2.gates s2.nInputs s2.nOutputs)
    (hnI : s2.nInputs = s1.nInputs) (hnO : s2.nOutputs = s1.nOutputs)
    (hkinds : kinds_agree s1.wires s2.wires)
    (hsub : ∀ g1 ∈ s1.gates, ∃ g2 ∈ s2.gates, labelled s2.wires g2 = labelled s1.wires g1)
    (hdriven : ∀ k ∈ List.range s1.nOutputs.toNat, ∃ g ∈ s1.gates, ∃ p ∈ g.params,
      out_slot g p ∧ (p : Int) - s1.nInputs = (k : Int) ∧
      ∃ w ∈ hashtable_get s1.wires p, w.type = var_type_t.OUTPUT)
    (S1 : List Nat) (V1 : Nat → Bool) (hsort1 : toposort nodes1 s1.gates.length = some (V1, S1))
    (S2 : List Nat) (V2 : Nat → Bool) (hsort2 : toposort nodes2 s2.gates.length = some (V2, S2))
    (mem1 mem2 : row_mem) (v : Int) :
    eval_row s1.wires s1.gates S1 s1.nInputs s1.nOutputs s1.wireId mem1 v
      = eval_row s2.wires s2.gates S2 s2.nInputs s2.nOutputs s2.wireId mem2 v := by
  obtain ⟨inputs1, hfill1, hbits1⟩ := fill_inputs_spec s1.nInputs v mem1.inputs
  obtain ⟨inputs2, hfill2, hbits2⟩ := fill_inputs_spec s2.nInputs v mem2.inputs
  have hin1 : ∀ k : Nat, (k : Int) < s1.nInputs → is01 (inputs1 (k : Int)) := by
    intro k hk
    rw [hbits1 k (by omega)]
    exact is01_land1 _
  have hin2 : ∀ k : Nat, (k : Int) < s2.nInputs → is01 (inputs2 (k : Int)) := by
    intro k hk
    rw [hbits2 k (by omega)]
    exact is01_land1 _
  have hagree : ∀ k : Nat, (k : Int) < s1.nInputs → inputs1 (k : Int) = inputs2 (k : Int) := by
    intro k hk
    rw [hbits1 k (by omega), hbits2 k (by rw [hnI]; omega), hnI]
  obtain ⟨U1, T1, st1, hsrt1, hev1, hall1⟩ := eval_gates_sound hs1 hgraph1 hac1 hw1 inputs1 hin1
    { all_wires := mem1.all_wires, outputs := mem1.outputs }
  obtain ⟨U2, T2, st2, hsrt2, hev2, hall2⟩ := eval_gates_sound hs2 hgraph2 hac2 hw2 inputs2 hin2
    { all_wires := mem2.all_wires, outputs := mem2.outputs }
  rw [hsort1] at hsrt1
  rw [hsort2] at hsrt2
  cases hsrt1
  cases hsrt2
  have htrans := solution_transfer hs1 ht1 ht2 hgraph1 hac1 hw1 hkinds hsub hagree hin1
    (fun g hg => ⟨(hall1 g hg).1, (hall1 g hg).2.1, (hall1 g hg).2.2.1⟩)
    (fun g hg => ⟨(hall2 g hg).1, (hall2 g hg).2.1⟩)
  have hrow1 : eval_row s1.wires s1.gates S1 s1.nInputs s1.nOutputs s1.wireId mem1 v
      = some ((List.range s1.nInputs.toNat).map (fun (i : Nat) => inputs1 (i : Int)),
              (List.range s1.nOutputs.toNat).map (fun (i : Nat) => st1.outputs (i : Int))) := by
    unfold eval_row
    rw [hfill1]
    simp only [Option.bind_eq_bind, Option.some_bind]
    have hev := hev1
    unfold row_env_of at hev
    rw [hev]
    rfl
  have hrow2 : eval_row s2.wires s2.gates S2 s2.nInputs s2.nOutputs s2.wireId mem2 v
      = some ((List.range s2.nInputs.toNat).map (fun (i : Nat) => inputs2 (i : Int)),
              (List.range s2.nOutputs.toNat).map (fun (i : Nat) => st2.outputs (i : Int))) := by
    unfold eval_row
    rw [hfill2]
    simp only [Option.bind_eq_bind, Option.some_bind]
    have hev := hev2
    unfold row_env_of at hev
    rw [hev]
    rfl
  rw [hrow1, hrow2, hnI, hnO]
  congr 2
  · apply List.map_congr_left
    intro k hk
    exact hagree k (by have := List.mem_range.1 hk; omega)
  · apply List.map_congr_left
    intro k hk
    obtain ⟨g1, hg1, p, _, hgp, hidx, w, hwp, hty⟩ := hdriven k hk
    have hwp1 : hashtable_get s1.wires p = some w := hwp
    obtain ⟨g2, hg2, hlab⟩ := hsub g1 hg1
    obtain ⟨hgt, hgs, hlen, hpoint⟩ := labelled_spec hlab
    obtain ⟨hIeq, hOeq⟩ := calc_sizes_congr hgt hgs
    obtain ⟨a, b, ha, hb, hpl, _⟩ := arity_nat (hs1.arity g1 hg1) (hw1.1 g1 hg1)
    obtain ⟨j, hj, hjp⟩ := hgp
    have hj1 := List.mem_range.1 hj
    have hjb : j < b := by rw [hb, Int.toNat_natCast] at hj1; exact hj1
    have hidx2 : calc_gate_in_size g1 + (j : Int) = ((a + j : Nat) : Int) := by
      rw [ha]; push_cast; rfl
    have hjp1 : g1.params[a + j]? = some p := by
      rw [hidx2, param_nat] at hjp
      exact hjp
    obtain ⟨p2, hp2⟩ : ∃ p2, g2.params[a + j]? = some p2 :=
      ⟨_, List.getElem?_eq_getElem (by rw [hlen, hpl]; omega)⟩
    obtain ⟨v1, w2, hv1, hw2p, hk⟩ := hpoint _ p p2 w hjp1 hp2 hwp1
    rw [hwp1] at hv1
    cases hv1
    obtain ⟨m1, i1⟩ := table_get_mem ht1 hwp1
    obtain ⟨m2, i2⟩ := table_get_mem ht2 hw2p
    obtain ⟨hkt, hkid⟩ := hkinds w m1 w2 m2 hk
    have hpp : p2 = p := by
      have := hkid (Or.inr hty)
      omega
    subst hpp
    have hout2 : out_slot g2 p2 := by
      refine ⟨j, List.mem_range.2 (by rw [hOeq]; exact hj1), ?_⟩
      rw [hIeq, hidx2, param_nat]
      exact hp2
    have o1 := (hall1 g1 hg1).2.2.2 p2 w ⟨j, hj, hjp⟩ hwp1 hty
    have o2 := (hall2 g2 hg2).2.2.2 p2 w2 hout2 hw2p (by rw [← hkt]; exact hty)
    rw [hnI] at o2
    rw [hidx] at o1 o2
    rw [o1, o2]
    exact htrans g1 hg1 p2 ⟨j, hj, hjp⟩
      (live_of_type (e := row_env_of s1 inputs1) hwp1 (by rw [hty]; decide))
      p2 ⟨w, w2, hwp1, hw2p, hk⟩

/-- Two netlists parsed to circuits with the same counts of inputs and outputs, in which
wires with the same label have the same kind, and the same identity when they are
declared inputs or outputs, and such that every gate of the first, its parameters read
as labels, is a gate of the second. If both circuits have a graph that is built and
acyclic and are well wired, and every cell of the output block is driven by a gate, the
two netlists print the same rows, whatever the initial contents of the blocks allocated
for the rows. -/
theorem labelled_circuits_rows {input1 input2 : List String} {nI1 nO1 nI2 nO2 : Int}
    {tok1 tok2 : String} {s1 s2 : pstate} {nodes1 nodes2 : List gatenode_t}
    (hparse1 : parse_circuit (main_state input1 nI1 nO1 tok1) = some (0, s1))
    (hparse2 : parse_circuit (main_state input2 nI2 nO2 tok2) = some (0, s2))
    (hgraph1 : build_graph s1.wires s1.gates = some nodes1) (hac1 : acyclic nodes1)
    (hw1 : well_wired s1.wires s1.gates s1.nInputs s1.nOutputs)
    (hgraph2 : build_graph s2.wires s2.gates = some nodes2) (hac2 : acyclic nodes2)
    (hw2 : well_wired s2.wires s2.gates s2.nInputs s2.nOutputs)
    (hnI : s2.nInputs = s1.nInputs) (hnO : s2.nOutputs = s1.nOutputs)
    (hkinds : kinds_agree s1.wires s2.wires)
    (hsub : ∀ g1 ∈ s1.gates, ∃ g2 ∈ s2.gates, labelled s2.wires g2 = labelled s1.wires g1)
    (hdriven : ∀ k ∈ List.range s1.nOutputs.toNat, ∃ g ∈ s1.gates, ∃ p ∈ g.params,
      out_slot g p ∧ (p : Int) - s1.nInputs = (k : Int) ∧
      ∃ w ∈ hashtable_get s1.wires p, w.type = var_type_t.OUTPUT)
    (mem1 mem2 : Nat → row_mem) :
    ∃ rows, run (main_state input1 nI1 nO1 tok1) mem1 = some (some rows) ∧
      run (main_state input2 nI2 nO2 tok2) mem2 = some (some rows) := by
  have hs1 := parse_circuit_ok hparse1
  have hs2 := parse_circuit_ok hparse2
  have ht1 := parse_table_ok hparse1
  have ht2 := parse_table_ok hparse2
  obtain ⟨rows, hbuild, _, _⟩ := circuit_rows hs1 hgraph1 hac1 hw1 mem1
  obtain ⟨V1, S1, hsort1, _⟩ := toposort_spec nodes1 (build_graph_closed hgraph1)
  obtain ⟨V2, S2, hsort2, _⟩ := toposort_spec nodes2 (build_graph_closed hgraph2)
  rw [build_graph_length hgraph1] at hsort1
  rw [build_graph_length hgraph2] at hsort2
  refine ⟨rows, run_of_parse hparse1 hbuild, run_of_parse hparse2 ?_⟩
  rw [← hbuild]
  unfold build_circuit
  rw [hgraph1, hgraph2]
  simp only [Option.bind_eq_bind, Option.some_bind]
  rw [hsort1, hsort2]
  simp only [Option.some_bind]
  rw [hnI]
  apply opt_map_congr
  intro v _
  have := row_transfer hs1 hs2 ht1 ht2 hgraph1 hac1 hw1 hgraph2 hac2 hw2 hnI hnO hkinds hsub
    hdriven S1 V1 hsort1 S2 V2 hsort2 (mem1 v) (mem2 v) (v : Int)
  rw [hnI] at this
  exact this.symm

/-- Lookup by identity is stable when the list of a well-formed table grows. -/
theorem get_stable {l1 l2 : wirelist_t} {n1 n2 : Nat} (h1 : table_ok l1 n1)
    (h2 : table_ok l2 n2) (hsub : ∀ w ∈ l1.list, w ∈ l2.list) {p : Nat} {w : wire_t}
    (h : hashtable_get l1 p = some w) : hashtable_get l2 p = some w := by
  obtain ⟨hm, hid⟩ := table_get_mem h1 h
  rw [← hid]
  exact hashtable_get_of_mem h2 (hsub w hm)

theorem labelled_stable {l1 l2 : wirelist_t} {n1 n2 : Nat} (h1 : table_ok l1 n1)
    (h2 : table_ok l2 n2) (hsub : ∀ w ∈ l1.list, w ∈ l2.list) {g : gate_t}
    (hres : ∀ p ∈ g.params, ∃ w, hashtable_get l1 p = some w) :
    labelled l2 g = labelled l1 g := by
  unfold labelled
  congr 2
  apply List.map_congr_left
  intro p hp
  obtain ⟨w, hw⟩ := hres p hp
  rw [hw, get_stable h1 h2 hsub hw]

/-- One gate parameter: the word is consumed, the table stays well formed and keeps its
wires, and the identity returned is that of the wire labelled by the word. -/
theorem read_param_label {s s1 : pstate} {id : Nat} {a : String} {rest : List String}
    (hok : table_ok s.wires s.wireId) (hin : s.input = a :: rest) (hlen : a.length ≤ 16)
    (h : read_param s = some (s1, id)) :
    s1.input = rest ∧ table_ok s1.wires s1.wireId ∧ (∀ w ∈ s.wires.list, w ∈ s1.wires.list) ∧
    s1.gates = s.gates ∧ s1.gateId = s.gateId ∧ s1.nInputs = s.nInputs ∧
    s1.nOutputs = s.nOutputs ∧
    (∃ w ∈ s1.wires.list, w.key = a ∧ w.id = id) ∧
    ∃ L, s1.wires.list = s.wires.list ++ L ∧
      ∀ w ∈ L, w.type = check_type w.key var_type_t.TEMP := by
  unfold read_param at h
  have hnt := next_token_word hin hlen
  rw [hnt] at h
  simp only at h
  cases hd : declare { s with token := a, input := rest } (check_type a var_type_t.TEMP) with
  | none => rw [hd] at h; cases h
  | some s2 =>
    rw [hd] at h
    simp only at h
    cases hl : lookup_id s2 with
    | none => rw [hl] at h; cases h
    | some id2 =>
      rw [hl] at h
      simp only [Option.some.injEq, Prod.mk.injEq] at h
      obtain ⟨e1, e2⟩ := h
      subst e1
      subst e2
      obtain ⟨hok2, _, hg, hgi, htok, hinp, hnI, hnO, hcase⟩ :=
        declare_table (s := { s with token := a, input := rest }) hok hd
      have hkeep : ∀ w ∈ s.wires.list, w ∈ s2.wires.list := by
        intro w hw
        rcases hcase with ⟨_, heq⟩ | ⟨_, hlist, _⟩
        · rw [heq]; exact hw
        · rw [hlist]; exact List.mem_append_left _ hw
      have hpres : ∃ w ∈ s2.wires.list, w.key = a := by
        rcases hcase with ⟨hc, heq⟩ | ⟨_, hlist, _⟩
        · obtain ⟨slot, w, hslot, hkey⟩ := contains_slot hc
          rw [heq]
          exact ⟨w, hok.slots slot w hslot, hkey⟩
        · rw [hlist]
          exact ⟨_, List.mem_append_right _ (List.mem_singleton.2 rfl), rfl⟩
      obtain ⟨w, hw, hk⟩ := hpres
      have hfound := (hok2.found w hw).2
      unfold lookup_id at hl
      have ht2 : s2.token = a := htok
      rw [ht2, ← hk, hfound] at hl
      simp only [Option.some.injEq] at hl
      have hgrow : ∃ L, s2.wires.list = s.wires.list ++ L ∧
          ∀ w ∈ L, w.type = check_type w.key var_type_t.TEMP := by
        rcases hcase with ⟨_, heq⟩ | ⟨_, hlist, _⟩
        · exact ⟨[], by rw [heq]; simp, by simp⟩
        · refine ⟨_, hlist, ?_⟩
          intro v hv
          rw [List.mem_singleton] at hv
          rw [hv]
      exact ⟨hinp, hok2, hkeep, hg, hgi, hnI, hnO, ⟨w, hw, hk, hl⟩, hgrow⟩

/-- The parameters of a gate statement: the words are consumed, the table stays well
formed and keeps its wires, and the identities returned are, in order, those of the
wires labelled by the words. -/
theorem read_params_labels : ∀ (args : List String) (s s1 : pstate) (ids : List Nat)
    (rest : List String), table_ok s.wires s.wireId → s.input = args ++ rest →
    (∀ t ∈ args, t.length ≤ 16) → read_params args.length s = some (s1, ids) →
    s1.input = rest ∧ table_ok s1.wires s1.wireId ∧ (∀ w ∈ s.wires.list, w ∈ s1.wires.list) ∧
    s1.gates = s.gates ∧ s1.gateId = s.gateId ∧ s1.nInputs = s.nInputs ∧
    s1.nOutputs = s.nOutputs ∧
    ids.map (fun p => (hashtable_get s1.wires p).map (fun w => w.key)) = args.map some ∧
    ∃ L, s1.wires.list = s.wires.list ++ L ∧
      ∀ w ∈ L, w.type = check_type w.key var_type_t.TEMP := by
  intro args
  induction args with
  | nil =>
    intro s s1 ids rest hok hin _ hr
    simp only [List.length_nil, read_params, Option.some.injEq, Prod.mk.injEq] at hr
    obtain ⟨e1, e2⟩ := hr
    subst e1
    subst e2
    exact ⟨hin, hok, fun w hw => hw, rfl, rfl, rfl, rfl, rfl, [], by simp, by simp⟩
  | cons a as ih =>
    intro s s1 ids rest hok hin hlen hr
    simp only [List.length_cons, read_params] at hr
    cases hp : read_param s with
    | none => rw [hp] at hr; cases hr
    | some r =>
      obtain ⟨s2, id⟩ := r
      rw [hp] at hr
      simp only at hr
      cases hps : read_params as.length s2 with
      | none => rw [hps] at hr; cases hr
      | some r2 =>
        obtain ⟨s3, ids2⟩ := r2
        rw [hps] at hr
        simp only [Option.some.injEq, Prod.mk.injEq] at hr
        obtain ⟨e1, e2⟩ := hr
        subst e1
        subst e2
        obtain ⟨hin2, hok2, hkeep2, hg2, hgi2, hnI2, hnO2, ⟨w, hw, hk, hid⟩, L2, hL2, hk2⟩ :=
          read_param_label hok (by rw [hin]; rfl) (hlen a (List.mem_cons_self _ _)) hp
        obtain ⟨hin3, hok3, hkeep3, hg3, hgi3, hnI3, hnO3, hlab, L3, hL3, hk3⟩ :=
          ih s2 s3 ids2 rest hok2 hin2 (fun t ht => hlen t (List.mem_cons_of_mem _ ht)) hps
        refine ⟨hin3, hok3, fun v hv => hkeep3 v (hkeep2 v hv), by rw [hg3, hg2],
          by rw [hgi3, hgi2], by rw [hnI3, hnI2], by rw [hnO3, hnO2], ?_,
          L2 ++ L3, by rw [hL3, hL2, List.append_assoc], ?_⟩
        · simp only [List.map_cons, hlab]
          congr 1
          rw [← hid, hashtable_get_of_mem hok3 (hkeep3 w hw)]
          simp only [Option.map_some', hk]
        · intro v hv
          rcases List.mem_append.1 hv with h | h
          · exact hk2 v h
          · exact hk3 v h

theorem shl32_small_nat {n : Int} (h0 : 0 ≤ n) (h30 : n ≤ 30) :
    (shl32 1 n).toNat = 2 ^ n.toNat ∧ shl32 1 n = ((2 ^ n.toNat : Nat) : Int) ∧
    2 ^ n.toNat ≤ 1073741824 := by
  have h1 := shl32_one_small h0 h30
  have h2 : (2 : Int) ^ n.toNat = ((2 ^ n.toNat : Nat) : Int) := by push_cast; rfl
  have h3 : n.toNat ≤ 30 := by omega
  have h4 := two_pow_le_30 h3
  refine ⟨by rw [h1, two_pow_toNat], by rw [h1, h2], ?_⟩
  rw [h2] at h4
  exact_mod_cast h4

/-- What `statement` does on a well-formed gate statement whose keyword is in the token
buffer: it reads the parameters and appends the gate. -/
theorem statement_gate {s : pstate} {r rest : List String} {ty : type_t} {sz : Int}
    {args : List String} (hin : s.input = r ++ rest) (hlen : ∀ t ∈ r, t.length ≤ 16)
    (hg : gate_of_stmt (s.token :: r) = some (ty, sz, args)) :
    s.token ≠ "END" ∧
    ∃ s1, statement s = (read_gate s1 ty sz args.length).map some ∧
      s1.input = args ++ rest ∧ (∀ t ∈ args, t.length ≤ 16) ∧
      s1.wires = s.wires ∧ s1.wireId = s.wireId ∧ s1.gates = s.gates ∧ s1.gateId = s.gateId ∧
      s1.nInputs = s.nInputs ∧ s1.nOutputs = s.nOutputs := by
  unfold gate_of_stmt at hg
  simp only at hg
  by_cases h2 : s.token = "AND"
  · rw [if_pos h2] at hg
    split at hg
    · rename_i hl
      cases hg
      refine ⟨by rw [h2]; decide, s, ?_, hin, hlen, rfl, rfl, rfl, rfl, rfl, rfl⟩
      unfold statement
      rw [if_neg (by rw [h2]; decide), if_neg (by rw [h2]; decide), if_pos h2, hl]
    · cases hg
  rw [if_neg h2] at hg
  by_cases h3 : s.token = "OR"
  · rw [if_pos h3] at hg
    split at hg
    · rename_i hl
      cases hg
      refine ⟨by rw [h3]; decide, s, ?_, hin, hlen, rfl, rfl, rfl, rfl, rfl, rfl⟩
      unfold statement
      rw [if_neg (by rw [h3]; decide), if_neg (by rw [h3]; decide), if_neg h2, if_pos h3, hl]
    · cases hg
  rw [if_neg h3] at hg
  by_cases h4 : s.token = "NAND"
  · rw [if_pos h4] at hg
    split at hg
    · rename_i hl
      cases hg
      refine ⟨by rw [h4]; decide, s, ?_, hin, hlen, rfl, rfl, rfl, rfl, rfl, rfl⟩
      unfold statement
      rw [if_neg (by rw [h4]; decide), if_neg (by rw [h4]; decide), if_neg h2, if_neg h3,
        if_pos h4, hl]
    · cases hg
  rw [if_neg h4] at hg
  by_cases h5 : s.token = "NOR"
  · rw [if_pos h5] at hg
    split at hg
    · rename_i hl
      cases hg
      refine ⟨by rw [h5]; decide, s, ?_, hin, hlen, rfl, rfl, rfl, rfl, rfl, rfl⟩
      unfold statement
      rw [if_neg (by rw [h5]; decide), if_neg (by rw [h5]; decide), if_neg h2, if_neg h3,
        if_neg h4, if_pos h5, hl]
    · cases hg
  rw [if_neg h5] at hg
  by_cases h6 : s.token = "XOR"
  · rw [if_pos h6] at hg
    split at hg
    · rename_i hl
      cases hg
      refine ⟨by rw [h6]; decide, s, ?_, hin, hlen, rfl, rfl, rfl, rfl, rfl, rfl⟩
      unfold statement
      rw [if_neg (by rw [h6]; decide), if_neg (by rw [h6]; decide), if_neg h2, if_neg h3,
        if_neg h4, if_neg h5, if_pos h6, hl]
    · cases hg
  rw [if_neg h6] at hg
  by_cases h7 : s.token = "NOT"
  · rw [if_pos h7] at hg
    split at hg
    · rename_i hl
      cases hg
      refine ⟨by rw [h7]; decide, s, ?_, hin, hlen, rfl, rfl, rfl, rfl, rfl, rfl⟩
      unfold statement
      rw [if_neg (by rw [h7]; decide), if_neg (by rw [h7]; decide), if_neg h2, if_neg h3,
        if_neg h4, if_neg h5, if_neg h6, if_pos h7, hl]
    · cases hg
  rw [if_neg h7] at hg
  by_cases h8 : s.token = "PASS"
  · rw [if_pos h8] at hg
    split at hg
    · rename_i hl
      cases hg
      refine ⟨by rw [h8]; decide, s, ?_, hin, hlen, rfl, rfl, rfl, rfl, rfl, rfl⟩
      unfold statement
      rw [if_neg (by rw [h8]; decide), if_neg (by rw [h8]; decide), if_neg h2, if_neg h3,
        if_neg h4, if_neg h5, if_neg h6, if_neg h7, if_pos h8, hl]
    · cases hg
  rw [if_neg h8] at hg
  by_cases h9 : s.token = "DECODER"
  · rw [if_pos h9] at hg
    match r, hin, hlen, hg with
    | [], _, _, hg => cases hg
    | n :: args1, hin, hlen, hg =>
      simp only at hg
      split at hg
      · rename_i hc
        cases hg
        obtain ⟨h0, h30, hl⟩ := hc
        obtain ⟨e1, e2, e3⟩ := shl32_small_nat h0 h30
        have hnt := @next_token_word s n (args ++ rest) hin
          (hlen n (List.mem_cons_self _ _))
        refine ⟨by rw [h9]; decide, next_token s, ?_, by rw [hnt], ?_, ?_⟩
        · rw [statement_decoder h9]
          unfold read_decoder
          simp only
          have htok : (next_token s).token = n := by rw [hnt]
          rw [htok]
          rw [if_neg (by omega), if_neg (by
            rw [e2, wrap32_eq (by omega) (by omega)]
            omega), e1, hl]
        · intro t ht
          exact hlen t (List.mem_cons_of_mem _ ht)
        · have := next_token_fields s
          exact ⟨this.1, this.2.2.2.1, this.2.1, this.2.2.1, this.2.2.2.2.1, this.2.2.2.2.2⟩
      · cases hg
  rw [if_neg h9] at hg
  by_cases h10 : s.token = "MULTIPLEXER"
  · rw [if_pos h10] at hg
    match r, hin, hlen, hg with
    | [], _, _, hg => cases hg
    | n :: args1, hin, hlen, hg =>
      simp only at hg
      split at hg
      · rename_i hc
        cases hg
        obtain ⟨h0, h30, hl⟩ := hc
        obtain ⟨e1, e2, e3⟩ := shl32_small_nat h0 h30
        have hnt := @next_token_word s n (args ++ rest) hin
          (hlen n (List.mem_cons_self _ _))
        refine ⟨by rw [h10]; decide, next_token s, ?_, by rw [hnt], ?_, ?_⟩
        · rw [statement_multiplexer h10]
          unfold read_multiplexer
          simp only
          have htok : (next_token s).token = n := by rw [hnt]
          rw [htok]
          have hcount : (wrap32 (wrap32 (shl32 1 (atoi n) + atoi n) + 1)).toNat
              = args.length := by
            have hw1 : wrap32 (((2 ^ (atoi n).toNat : Nat) : Int) + atoi n)
                = ((2 ^ (atoi n).toNat : Nat) : Int) + atoi n :=
              wrap32_eq (by omega) (by omega)
            rw [e2, hw1, wrap32_eq (by omega) (by omega), hl]
            omega
          rw [hcount]
        · intro t ht
          exact hlen t (List.mem_cons_of_mem _ ht)
        · have := next_token_fields s
          exact ⟨this.1, this.2.2.2.1, this.2.1, this.2.2.1, this.2.2.2.2.1, this.2.2.2.2.2⟩
      · cases hg
  rw [if_neg h10] at hg
  cases hg

theorem map_label_resolved {l : wirelist_t} {ps : List Nat} {args : List String}
    (h : ps.map (fun p => (hashtable_get l p).map (fun w => w.key)) = args.map some) :
    ∀ p ∈ ps, ∃ w, hashtable_get l p = some w := by
  intro p hp
  obtain ⟨i, hi, hpi⟩ := List.getElem_of_mem hp
  have h1 := congrArg (fun x => x[i]?) h
  simp only [List.getElem?_map, List.getElem?_eq_getElem hi, hpi, Option.map_some'] at h1
  cases hg : hashtable_get l p with
  | none =>
    rw [hg] at h1
    cases ha : args[i]? with
    | none => rw [ha] at h1; cases h1
    | some a => rw [ha] at h1; cases h1
  | some w => exact ⟨w, rfl⟩

/-- The gate phase on a sequence of well-formed gate statements followed by `END`: the
parser returns 0, and the gates appended are, in order and with their parameters read
as labels, the gates the statements stand for. -/
theorem gate_stmts_parse : ∀ (stmts : List (List String)) (fuel : Nat) (s0 s : pstate)
    (res : Int), table_ok s0.wires s0.wireId →
    (∀ g ∈ s0.gates, ∀ p ∈ g.params, ∃ w, hashtable_get s0.wires p = some w) →
    s0.input = stmts.flatten ++ ["END"] → (∀ t ∈ stmts, stmt_ok t) →
    parse_loop fuel s0 = some (res, s) →
    res = 0 ∧ table_ok s.wires s.wireId ∧ (∀ w ∈ s0.wires.list, w ∈ s.wires.list) ∧
    s.gates.map (fun g => some (labelled s.wires g))
      = s0.gates.map (fun g => some (labelled s0.wires g)) ++ stmts.map stmt_label ∧
    s.nInputs = s0.nInputs ∧ s.nOutputs = s0.nOutputs ∧
    ∃ L, s.wires.list = s0.wires.list ++ L ∧
      ∀ w ∈ L, w.type = check_type w.key var_type_t.TEMP := by
  intro stmts
  induction stmts with
  | nil =>
    intro fuel s0 s res hok _ hin _ hp
    cases fuel with
    | zero => simp only [parse_loop] at hp; cases hp
    | succ fuel =>
      have hin1 : s0.input = "END" :: [] := by rw [hin]; rfl
      have hrt := read_token_word hin1 (by decide)
      rw [parse_loop] at hp
      simp only [hrt, if_true, Option.some.injEq, Prod.mk.injEq] at hp
      obtain ⟨e1, e2⟩ := hp
      subst e2
      exact ⟨e1.symm, hok, fun w hw => hw, by simp, rfl, rfl, [], by simp, by simp⟩
  | cons t ts ih =>
    intro fuel s0 s res hok hres hin hst hp
    obtain ⟨hsome, hlen⟩ := hst t (List.mem_cons_self _ _)
    cases fuel with
    | zero => simp only [parse_loop] at hp; cases hp
    | succ fuel =>
      match t, hsome, hlen, hin with
      | [], hsome, _, _ => simp [gate_of_stmt] at hsome
      | kw :: r, hsome, hlen, hin =>
        obtain ⟨gd, hgd⟩ := Option.isSome_iff_exists.1 hsome
        obtain ⟨ty, sz, args⟩ := gd
        have hin1 : s0.input = kw :: (r ++ (ts.flatten ++ ["END"])) := by
          rw [hin, List.flatten_cons]
          simp
        have hrt := read_token_word hin1 (hlen kw (List.mem_cons_self _ _))
        obtain ⟨hend, s1, hstat, hin2, hlen2, hw1, hwi1, hg1, hgi1, hnI1, hnO1⟩ :=
          @statement_gate { s0 with token := kw, input := r ++ (ts.flatten ++ ["END"]) }
            r (ts.flatten ++ ["END"]) ty sz args rfl
            (fun x hx => hlen x (List.mem_cons_of_mem _ hx)) hgd
        rw [parse_loop_step hrt hend, hstat] at hp
        cases hrg : read_gate s1 ty sz args.length with
        | none => rw [hrg] at hp; simp at hp
        | some s2 =>
          rw [hrg] at hp
          simp only [Option.map_some'] at hp
          have hrg0 := hrg
          unfold read_gate at hrg
          cases hps : read_params args.length s1 with
          | none => rw [hps] at hrg; cases hrg
          | some pr =>
            obtain ⟨s3, ps⟩ := pr
            rw [hps] at hrg
            simp only [Option.some.injEq] at hrg
            have hok1 : table_ok s1.wires s1.wireId := by rw [hw1, hwi1]; exact hok
            obtain ⟨hin3, hok3, hkeep3, hg3, hgi3, hnI3, hnO3, hlab, L3, hL3, hk3⟩ :=
              read_params_labels args s1 s3 ps (ts.flatten ++ ["END"]) hok1 hin2 hlen2 hps
            have hkeep03 : ∀ w ∈ s0.wires.list, w ∈ s3.wires.list := by
              intro w hw
              apply hkeep3
              rw [hw1]
              exact hw
            have hs2w : s2.wires = s3.wires := by rw [← hrg]
            have hs2i : s2.wireId = s3.wireId := by rw [← hrg]
            have hs2in : s2.input = ts.flatten ++ ["END"] := by rw [← hrg]; exact hin3
            have hs2g : s2.gates = s0.gates ++ [⟨ty, sz, ps, s3.gateId⟩] := by
              rw [← hrg]
              show add_gate s3.gates ty sz ps s3.gateId = _
              unfold add_gate
              rw [hg3, hg1]
            have hok2 : table_ok s2.wires s2.wireId := by rw [hs2w, hs2i]; exact hok3
            have hres2 : ∀ g ∈ s2.gates, ∀ p ∈ g.params,
                ∃ w, hashtable_get s2.wires p = some w := by
              intro g hg p hp1
              rw [hs2g, List.mem_append, List.mem_singleton] at hg
              rw [hs2w]
              rcases hg with hg | hg
              · obtain ⟨w, hw⟩ := hres g hg p hp1
                exact ⟨w, get_stable hok hok3 hkeep03 hw⟩
              · subst hg
                exact map_label_resolved hlab p hp1
            obtain ⟨hr0, hokf, hkeepf, hlabf, hnIf, hnOf, Lf, hLf, hkf⟩ :=
              ih fuel s2 s res hok2 hres2 hs2in
                (fun x hx => hst x (List.mem_cons_of_mem _ hx)) hp
            have hs2nI : s2.nInputs = s0.nInputs := by
              rw [← hrg]
              show s3.nInputs = _
              rw [hnI3, hnI1]
            have hs2nO : s2.nOutputs = s0.nOutputs := by
              rw [← hrg]
              show s3.nOutputs = _
              rw [hnO3, hnO1]
            refine ⟨hr0, hokf, ?_, ?_, by rw [hnIf, hs2nI], by rw [hnOf, hs2nO],
              L3 ++ Lf, by rw [hLf, hs2w, hL3, hw1, List.append_assoc], ?_⟩
            rotate_left 2
            · intro v hv
              rcases List.mem_append.1 hv with h | h
              · exact hk3 v h
              · exact hkf v h
            · intro w hw
              apply hkeepf
              rw [hs2w]
              exact hkeep03 w hw
            · rw [hlabf, hs2g, List.map_append, List.map_cons, List.map_nil, List.map_cons,
                List.append_assoc]
              congr 1
              · apply List.map_congr_left
                intro g hg
                rw [hs2w, labelled_stable hok hok3 hkeep03 (hres g hg)]
              · rw [List.singleton_append]
                congr 1
                unfold stmt_label
                rw [hgd, hs2w]
                unfold labelled
                simp only [Option.map_some', hlab]

theorem grown_kinds_agree {l1 l2 : wirelist_t} {n1 n2 : Nat} {H L1 L2 : List wire_t}
    (hok1 : table_ok l1 n1) (hok2 : table_ok l2 n2)
    (h1 : l1.list = H ++ L1) (h2 : l2.list = H ++ L2)
    (hk1 : ∀ w ∈ L1, w.type = check_type w.key var_type_t.TEMP)
    (hk2 : ∀ w ∈ L2, w.type = check_type w.key var_type_t.TEMP) : kinds_agree l1 l2 := by
  intro w1 hw1 w2 hw2 hk
  have hH1 : ∀ w ∈ H, w ∈ l1.list := fun w hw => by rw [h1]; exact List.mem_append_left _ hw
  have hH2 : ∀ w ∈ H, w ∈ l2.list := fun w hw => by rw [h2]; exact List.mem_append_left _ hw
  by_cases hin1 : w1 ∈ H
  · have := wire_eq_of_key hok2 (hH2 w1 hin1) hw2 hk
    subst this
    exact ⟨rfl, fun _ => rfl⟩
  · by_cases hin2 : w2 ∈ H
    · have := wire_eq_of_key hok1 hw1 (hH1 w2 hin2) hk
      subst this
      exact ⟨rfl, fun _ => rfl⟩
    · rw [h1] at hw1
      rw [h2] at hw2
      have m1 : w1 ∈ L1 := (List.mem_append.1 hw1).resolve_left hin1
      have m2 : w2 ∈ L2 := (List.mem_append.1 hw2).resolve_left hin2
      have t1 := hk1 w1 m1
      have t2 := hk2 w2 m2
      refine ⟨by rw [t1, t2, hk], ?_⟩
      intro h
      exfalso
      rw [t1] at h
      unfold check_type at h
      split_ifs at h <;> simp at h

theorem netlist_gates {cI cO : String} {ins outs : List String} {stmts : List (List String)}
    {nI nO : Int} {tok : String} {res : Int} {s : pstate}
    (hcI : scan_int cI.data = (some (ins.length : Int), []))
    (hcO : scan_int cO.data = (some (outs.length : Int), []))
    (hlen : ∀ t ∈ ins ++ outs, t.length ≤ 16) (hnd : (ins ++ outs).Nodup)
    (hst : ∀ t ∈ stmts, stmt_ok t)
    (hparse : parse_circuit (main_state (gate_netlist cI cO ins outs stmts) nI nO tok)
      = some (res, s)) :
    res = 0 ∧ s.nInputs = ins.length ∧ s.nOutputs = outs.length ∧
    s.gates.map (fun g => some (labelled s.wires g)) = stmts.map stmt_label ∧
    ∃ L, s.wires.list = (fresh_wires (fun t => check_type t var_type_t.INPUT) ins 0
          ++ fresh_wires (fun _ => var_type_t.OUTPUT) outs ins.length) ++ L ∧
      ∀ w ∈ L, w.type = check_type w.key var_type_t.TEMP := by
  obtain ⟨fuel, s0, hloop, hin, hok, hnI, hnO, hg, _, _, hfresh⟩ :=
    parse_header hcI hcO hlen hparse
  obtain ⟨hH, _⟩ := hfresh hnd
  obtain ⟨hres, _, _, hlab, hnI2, hnO2, L, hL, hkL⟩ :=
    gate_stmts_parse stmts fuel s0 s res hok (by rw [hg]; intro g h; simp at h) hin hst hloop
  refine ⟨hres, by rw [hnI2, hnI], by rw [hnO2, hnO], ?_, L, by rw [hL, hH], hkL⟩
  rw [hlab, hg]
  rfl

/-- C3 (counterexample): the netlists `and_then_or` and `or_then_and` have the same
header and the same two gate statements in the two orders, and in both every wire used
as a gate input is a circuit input (the wiring hypothesis in the words of the
specification holds); the first prints the truth table of `OR`, the second the truth
table of `AND`. -/
theorem order_independence_counterexample :
    and_then_or = gate_netlist "2" "1" ["A", "B"] ["O"]
        [["AND", "A", "B", "O"], ["OR", "A", "B", "O"]] ∧
    or_then_and = gate_netlist "2" "1" ["A", "B"] ["O"]
        [["OR", "A", "B", "O"], ["AND", "A", "B", "O"]] ∧
    [["AND", "A", "B", "O"], ["OR", "A", "B", "O"]].Perm
      [["OR", "A", "B", "O"], ["AND", "A", "B", "O"]] ∧
    (∀ t ∈ [["AND", "A", "B", "O"], ["OR", "A", "B", "O"]], stmt_ok t) ∧
    claimed_wiring (parsed and_then_or).wires (parsed and_then_or).gates ∧
    claimed_wiring (parsed or_then_and).wires (parsed or_then_and).gates ∧
    run (main_state and_then_or 0 0 "") zero_mem
      = some (some [([0, 0], [0]), ([0, 1], [1]), ([1, 0], [1]), ([1, 1], [1])]) ∧
    run (main_state or_then_and 0 0 "") zero_mem
      = some (some [([0, 0], [0]), ([0, 1], [0]), ([1, 0], [0]), ([1, 1], [1])]) :=
  ⟨rfl, rfl, by decide!, by decide!, by decide!, by decide!,
    run_of_parse (s := parsed and_then_or) rfl rfl,
    run_of_parse (s := parsed or_then_and) rfl rfl⟩

/-- C3 (amended): take two netlists with the same header, in which every label is
declared once, whose gate statements (each a well-formed statement of one of the nine
gate kinds, of tokens of at most 16 characters) are the same up to their order, and
which are both parsed. If both circuits have a graph that is built and acyclic and are
well wired (in particular every wire other than the discarded one has one driver,
every Temporary feeds one gate), and every cell of the output block is driven by a
gate, the two netlists print the same rows, whatever the initial contents of the
blocks allocated for the rows. -/
theorem order_independence {cI cO : String} {ins outs : List String}
    {stmts1 stmts2 : List (List String)} {nI1 nO1 nI2 nO2 : Int} {tok1 tok2 : String}
    {res1 res2 : Int} {s1 s2 : pstate} {nodes1 nodes2 : List gatenode_t}
    (hcI : scan_int cI.data = (some (ins.length : Int), []))
    (hcO : scan_int cO.data = (some (outs.length : Int), []))
    (hlen : ∀ t ∈ ins ++ outs, t.length ≤ 16) (hnd : (ins ++ outs).Nodup)
    (hst : ∀ t ∈ stmts1, stmt_ok t) (hperm : stmts1.Perm stmts2)
    (hparse1 : parse_circuit (main_state (gate_netlist cI cO ins outs stmts1) nI1 nO1 tok1)
      = some (res1, s1))
    (hparse2 : parse_circuit (main_state (gate_netlist cI cO ins outs stmts2) nI2 nO2 tok2)
      = some (res2, s2))
    (hgraph1 : build_graph s1.wires s1.gates = some nodes1) (hac1 : acyclic nodes1)
    (hw1 : well_wired s1.wires s1.gates s1.nInputs s1.nOutputs)
    (hgraph2 : build_graph s2.wires s2.gates = some nodes2) (hac2 : acyclic nodes2)
    (hw2 : well_wired s2.wires s2.gates s2.nInputs s2.nOutputs)
    (hdriven : ∀ k ∈ List.range s1.nOutputs.toNat, ∃ g ∈ s1.gates, ∃ p ∈ g.params,
      out_slot g p ∧ (p : Int) - s1.nInputs = (k : Int) ∧
      ∃ w ∈ hashtable_get s1.wires p, w.type = var_type_t.OUTPUT)
    (mem1 mem2 : Nat → row_mem) :
    ∃ rows, run (main_state (gate_netlist cI cO ins outs stmts1) nI1 nO1 tok1) mem1
        = some (some rows) ∧
      run (main_state (gate_netlist cI cO ins outs stmts2) nI2 nO2 tok2) mem2
        = some (some rows) := by
  have hst2 : ∀ t ∈ stmts2, stmt_ok t := fun t ht => hst t ((List.Perm.mem_iff hperm).2 ht)
  obtain ⟨hr1, hnI1, hnO1, hlab1, L1, hL1, hk1⟩ := netlist_gates hcI hcO hlen hnd hst hparse1
  obtain ⟨hr2, hnI2, hnO2, hlab2, L2, hL2, hk2⟩ := netlist_gates hcI hcO hlen hnd hst2 hparse2
  subst hr1
  subst hr2
  have hkinds : kinds_agree s1.wires s2.wires :=
    grown_kinds_agree (parse_table_ok hparse1) (parse_table_ok hparse2) hL1 hL2 hk1 hk2
  have hsub : ∀ g1 ∈ s1.gates, ∃ g2 ∈ s2.gates,
      labelled s2.wires g2 = labelled s1.wires g1 := by
    intro g1 hg1
    have hm : some (labelled s1.wires g1) ∈ stmts1.map stmt_label := by
      rw [← hlab1]
      exact List.mem_map.2 ⟨g1, hg1, rfl⟩
    have hm2 : some (labelled s1.wires g1) ∈ stmts2.map stmt_label :=
      (List.Perm.mem_iff (List.Perm.map _ hperm)).1 hm
    rw [← hlab2] at hm2
    obtain ⟨g2, hg2, heq⟩ := List.mem_map.1 hm2
    exact ⟨g2, hg2, Option.some.inj heq⟩
  exact labelled_circuits_rows hparse1 hparse2 hgraph1 hac1 hw1 hgraph2 hac2 hw2
    (by rw [hnI2, hnI1]) (by rw [hnO2, hnO1]) hkinds hsub hdriven mem1 mem2

/-- C3 (witness): the half adder and the half adder with `AND` before `XOR`, the first
evaluated in zeroed blocks, the second in blocks of ones. -/
theorem order_independence_witness :
    ∃ rows, run (main_state (gate_netlist "2" "2" ["A", "B"] ["S", "C"]
          [["XOR", "A", "B", "S"], ["AND", "A", "B", "C"]]) 0 0 "") zero_mem
        = some (some rows) ∧
      run (main_state (gate_netlist "2" "2" ["A", "B"] ["S", "C"]
          [["AND", "A", "B", "C"], ["XOR", "A", "B", "S"]]) 0 0 "") ones_mem
        = some (some rows) := by
  have hgraph1 : build_graph (parsed half_adder).wires (parsed half_adder).gates
      = some [⟨0, type_t.XOR, 2, [none, none], [none]⟩,
              ⟨1, type_t.AND, 2, [none, none], [none]⟩] := rfl
  have hgraph2 : build_graph (parsed half_adder_swapped).wires
      (parsed half_adder_swapped).gates
      = some [⟨0, type_t.AND, 2, [none, none], [none]⟩,
              ⟨1, type_t.XOR, 2, [none, none], [none]⟩] := rfl
  have hac1 : acyclic [⟨0, type_t.XOR, 2, [none, none], [none]⟩,
      ⟨1, type_t.AND, 2, [none, none], [none]⟩] := by
    apply acyclic_of_increasing
    rintro x y ⟨node, hx, hy⟩
    match x, hx with
    | 0, hx => simp at hx; subst hx; simp at hy
    | 1, hx => simp at hx; subst hx; simp at hy
    | (k + 2), hx => simp at hx
  have hac2 : acyclic [⟨0, type_t.AND, 2, [none, none], [none]⟩,
      ⟨1, type_t.XOR, 2, [none, none], [none]⟩] := by
    apply acyclic_of_increasing
    rintro x y ⟨node, hx, hy⟩
    match x, hx with
    | 0, hx => simp at hx; subst hx; simp at hy
    | 1, hx => simp at hx; subst hx; simp at hy
    | (k + 2), hx => simp at hx
  exact @order_independence "2" "2" ["A", "B"] ["S", "C"]
    [["XOR", "A", "B", "S"], ["AND", "A", "B", "C"]]
    [["AND", "A", "B", "C"], ["XOR", "A", "B", "S"]] 0 0 0 0 "" "" 0 0
    (parsed half_adder) (parsed half_adder_swapped) _ _ (by decide!) (by decide!)
    (by decide!) (by decide!) (by decide!) (by decide!) rfl rfl hgraph1 hac1 (by decide!)
    hgraph2 hac2 (by decide!) (by decide!) zero_mem ones_mem

theorem hash_step {h c : Int} (h0 : 0 ≤ h) (h1 : h < 256) (c0 : 0 ≤ c) (c1 : c ≤ 127) :
    Int.tmod (wrap32 (wrap32 (h * 31) + c)) (MAX_VARS : Nat) = (h * 31 + c) % 256 := by
  have e1 : wrap32 (h * 31) = h * 31 := wrap32_eq (by omega) (by omega)
  rw [e1]
  have e2 : wrap32 (h * 31 + c) = h * 31 + c := wrap32_eq (by omega) (by omega)
  rw [e2]
  show Int.tmod (h * 31 + c) 256 = _
  exact Int.tmod_eq_emod (by omega) (by decide)

theorem hash_loop_range (key : List Int) (hk : ∀ c ∈ key, 0 ≤ c ∧ c ≤ 127) :
    ∀ (n : Nat) (h : Int), 0 ≤ h → h < 256 →
      0 ≤ hash_loop key n h ∧ hash_loop key n h < 256 := by
  intro n
  induction n with
  | zero => intro h h0 h1; exact ⟨h0, h1⟩
  | succ n ih =>
    intro h h0 h1
    unfold hash_loop
    have hc : 0 ≤ key.getD n 0 ∧ key.getD n 0 ≤ 127 := by
      by_cases hn : n < key.length
      · rw [List.getD_eq_getElem _ _ hn]
        exact hk _ (List.getElem_mem _)
      · rw [List.getD_eq_default _ _ (by omega)]
        exact ⟨le_refl _, by decide⟩
    rw [hash_step h0 h1 hc.1 hc.2]
    exact ih _ (Int.emod_nonneg _ (by decide)) (Int.emod_lt_of_pos _ (by decide))

theorem hash_loop_fold (cs : List Char) (hk : ∀ c ∈ cs, c.toNat ≤ 127) :
    ∀ (n : Nat) (a : Nat), n ≤ cs.length → a < 256 →
      hash_loop (cs.map (fun c => (c.toNat : Int))) n (a : Int)
        = (((cs.take n).reverse.foldl (fun h c => (h * 31 + c.toNat) % MAX_VARS) a : Nat)
            : Int) := by
  intro n
  induction n with
  | zero => intro a _ _; rfl
  | succ n ih =>
    intro a hn ha
    have hlt : n < cs.length := hn
    unfold hash_loop
    have hg : (cs.map (fun c => (c.toNat : Int))).getD n 0 = ((cs[n]).toNat : Int) := by
      rw [List.getD_eq_getElem _ _ (by rw [List.length_map]; exact hlt), List.getElem_map]
    have hc := hk cs[n] (List.getElem_mem _)
    rw [hg, hash_step (by omega) (by omega) (by omega) (by omega)]
    have hcast : ((a : Int) * 31 + ((cs[n]).toNat : Int)) % 256
        = (((a * 31 + (cs[n]).toNat) % MAX_VARS : Nat) : Int) := by
      show _ = (((a * 31 + (cs[n]).toNat) % 256 : Nat) : Int)
      push_cast
      rfl
    rw [hcast, ih ((a * 31 + (cs[n]).toNat) % MAX_VARS) (by omega) (Nat.mod_lt _ (by decide))]
    rw [List.take_succ, List.getElem?_eq_getElem hlt]
    simp only [Option.toList_some, List.reverse_append, List.reverse_singleton,
      List.singleton_append, List.foldl_cons]

/-- On a label of ASCII characters the `int` computation of `hash` is the value used by
the table model. -/
theorem hash_int_eq (key : String) (hk : ∀ c ∈ key.data, c.toNat ≤ 127) :
    hash_int (key.data.map (fun c => (c.toNat : Int))) = (hash key : Int) := by
  unfold hash_int hash
  rw [List.length_map]
  have := hash_loop_fold key.data hk key.data.length 0 (le_refl _) (by decide)
  rw [List.take_length] at this
  exact this

theorem probe_int_eq {h : Int} {i : Nat} (h0 : 0 ≤ h) (h1 : h < 256) (hi : i ≤ 46340) :
    probe_int h i = (probe h.toNat i : Int) := by
  unfold probe_int probe
  have hsq : (i : Int) * i ≤ 46340 * 46340 := by
    have : i * i ≤ 46340 * 46340 := Nat.mul_le_mul hi hi
    exact_mod_cast this
  have hsq0 : 0 ≤ (i : Int) * i := by positivity
  have e1 : wrap32 ((i : Int) * i) = (i : Int) * i := wrap32_eq (by omega) (by omega)
  rw [e1]
  have e2 : wrap32 (h + (i : Int) * i) = h + (i : Int) * i := wrap32_eq (by omega) (by omega)
  rw [e2]
  show Int.tmod _ 256 = (((h.toNat + i * i) % 256 : Nat) : Int)
  rw [Int.tmod_eq_emod (by omega) (by decide)]
  push_cast
  rw [Int.toNat_of_nonneg h0]

/-- A character outside ASCII, read as a negative `char`, gives a negative hash value:
the byte `0xC3` has the `char` value -61. -/
theorem hash_int_negative : hash_int [-61] = -61 := by decide

/-- The bound 46340 is the last `i` whose square fits an `int`; with the low 32 bits of
the next square the index expression is negative. -/
theorem probe_int_overflow :
    (46340 : Int) * 46340 + 255 ≤ 2147483647 ∧ 2147483647 < (46341 : Int) * 46341 ∧
    probe_int 65 46341 = -166 := by decide

/-- While the probed slots are occupied and the squares fit, the loop goes on. -/
theorem add_probe_int_skip {map : Nat → Option wire_t} {h : Int} (h0 : 0 ≤ h) (h1 : h < 256) :
    ∀ (n i fuel : Nat), i + n ≤ 46341 →
      (∀ j, i ≤ j → j < i + n → map (probe h.toNat j) ≠ none) →
      add_probe_int map h (n + fuel) (i : Int) = add_probe_int map h fuel ((i + n : Nat) : Int) := by
  intro n
  induction n with
  | zero => intro i fuel _ _; simp
  | succ n ih =>
    intro i fuel hle hocc
    have e := probe_int_eq h0 h1 (show i ≤ 46340 by omega)
    have hb : ¬ (probe_int h i < 0 ∨ ((MAX_VARS : Nat) : Int) ≤ probe_int h i) := by
      rw [e]
      have := probe_lt h.toNat i
      have h2 : ((probe h.toNat i : Nat) : Int) < ((MAX_VARS : Nat) : Int) := by exact_mod_cast this
      have h3 : (0 : Int) ≤ ((probe h.toNat i : Nat) : Int) := Int.natCast_nonneg _
      omega
    have hs : n + 1 + fuel = (n + fuel) + 1 := by omega
    rw [hs]
    show (if probe_int h i < 0 ∨ ((MAX_VARS : Nat) : Int) ≤ probe_int h i then _ else _) = _
    rw [if_neg hb, e, Int.toNat_natCast]
    cases hm : map (probe h.toNat i) with
    | none => exact absurd hm (hocc i (le_refl i) (by omega))
    | some w =>
      simp only [Option.isNone_some, Bool.false_eq_true, if_false]
      have := ih (i + 1) fuel (by omega) (fun j hj1 hj2 => hocc j (by omega) (by omega))
      have hc : ((i : Int) + 1) = ((i + 1 : Nat) : Int) := by push_cast; rfl
      rw [hc, this]
      congr 2
      omega

/-- The loop exits at the least `i` in `1..128` whose slot is empty, all its accesses in
bounds. -/
theorem add_probe_int_exits {map : Nat → Option wire_t} {h : Int} (h0 : 0 ≤ h) (h1 : h < 256)
    {i : Nat} (hi1 : 1 ≤ i) (hi2 : i ≤ 128) (hfree : map (probe h.toNat i) = none)
    (hocc : ∀ j, 1 ≤ j → j < i → map (probe h.toNat j) ≠ none) (fuel : Nat) (hf : i ≤ fuel) :
    add_probe_int map h fuel 1 = some (probe_end.exits i) := by
  obtain ⟨m, hm⟩ : ∃ m, fuel = (i - 1) + (m + 1) := ⟨fuel - i, by omega⟩
  have := @add_probe_int_skip map h h0 h1 (i - 1) 1 (m + 1) (by omega)
    (fun j hj1 hj2 => hocc j hj1 (by omega))
  rw [hm]
  have h11 : ((1 : Nat) : Int) = 1 := rfl
  rw [h11] at this
  rw [this]
  have hi : 1 + (i - 1) = i := by omega
  rw [hi]
  have e := probe_int_eq h0 h1 (show i ≤ 46340 by omega)
  have hb : ¬ (probe_int h i < 0 ∨ ((MAX_VARS : Nat) : Int) ≤ probe_int h i) := by
    rw [e]
    have := probe_lt h.toNat i
    have h2 : ((probe h.toNat i : Nat) : Int) < ((MAX_VARS : Nat) : Int) := by exact_mod_cast this
    have h3 : (0 : Int) ≤ ((probe h.toNat i : Nat) : Int) := Int.natCast_nonneg _
    omega
  show (if probe_int h i < 0 ∨ ((MAX_VARS : Nat) : Int) ≤ probe_int h i then _ else _) = _
  rw [if_neg hb, e, Int.toNat_natCast, hfree]
  rfl

/-- C32 (counterexample): the label `OEW` has the `char` values 79, 69, 87, all in
0..127, and the hash value 65. In the table of the forty-four labels of
`crowded_labels` the slot 65 holds the label `A`, so `hashtable_add` enters the probe
loop for `OEW`; the slots probed at `i = 1..46340` are all occupied, the square of 46341
does not fit an `int`, and with its low 32 bits the loop reads `map[-166]`. -/
theorem hash_range_counterexample :
    "OEW".data.map (fun c => (c.toNat : Int)) = [79, 69, 87] ∧
    (∀ c ∈ [(79 : Int), 69, 87], 0 ≤ c ∧ c ≤ 127) ∧
    hash_int [79, 69, 87] = 65 ∧
    (∃ s, declare_all crowded_labels (main_state [] 0 0 "") = some s ∧
      crowded_table = s.wires) ∧
    crowded_table.list.length = 44 ∧
    (crowded_table.map 65).map (fun w => w.key) = some "A" ∧
    (∀ i : Nat, 1 ≤ i → i ≤ 46340 →
      0 ≤ probe_int 65 i ∧ probe_int 65 i < 256 ∧
      (crowded_table.map (probe_int 65 i).toNat).isSome = true) ∧
    2147483647 < (46341 : Int) * 46341 ∧
    add_probe_int crowded_table.map 65 46341 1 = some (probe_end.out_of_bounds (-166)) := by
  have hocc128 : ∀ i, 1 ≤ i → i ≤ 128 → crowded_table.map (probe 65 i) ≠ none := by
    have h : ∀ i ∈ List.range' 1 128, (crowded_table.map (probe 65 i)).isSome = true := by
      decide!
    intro i hi1 hi2 hn
    have := h i (by rw [List.mem_range'_1]; omega)
    rw [hn] at this
    cases this
  have hocc := probe_all_occupied hocc128
  have hreach : ∃ s, declare_all crowded_labels (main_state [] 0 0 "") = some s ∧
      crowded_table = s.wires := by
    have h : (declare_all crowded_labels (main_state [] 0 0 "")).isSome = true := by decide!
    obtain ⟨s, hs⟩ := Option.isSome_iff_exists.1 h
    refine ⟨s, hs, ?_⟩
    unfold crowded_table
    rw [hs]
  refine ⟨by decide, by decide, by decide, hreach, by decide!, by decide!, ?_, by decide, ?_⟩
  · intro i hi1 hi2
    have e := @probe_int_eq 65 i (by decide) (by decide) hi2
    have := probe_lt (Int.toNat 65) i
    have h2 : ((probe (Int.toNat 65) i : Nat) : Int) < 256 := by exact_mod_cast this
    rw [e]
    refine ⟨Int.natCast_nonneg _, h2, ?_⟩
    rw [Int.toNat_natCast]
    cases hm : crowded_table.map (probe (Int.toNat 65) i) with
    | none => exact absurd hm (hocc i hi1)
    | some w => rfl
  · have := @add_probe_int_skip crowded_table.map 65 (by decide) (by decide) 46340 1 1
      (by decide) (fun j hj1 _ => hocc j hj1)
    have h11 : ((1 : Nat) : Int) = 1 := rfl
    rw [h11] at this
    rw [this]
    decide

/-- C32 (amended): for every label of characters with values in 0..127, the empty label
included, `hash` computed in `int` arithmetic returns `h` with `0 ≤ h < 256`, the value
used by the table model; the index `(h + i * i) % 256` of the probe with counter `i` is
in `0..255` as long as `i * i` fits an `int` (`i ≤ 46340`); and whenever one of the
slots probed at `i = 1..128` is empty, the probe loop exits at the least such `i`, all
its accesses in bounds. -/
theorem hash_range (key : List Int) (hascii : ∀ c ∈ key, 0 ≤ c ∧ c ≤ 127) :
    0 ≤ hash_int key ∧ hash_int key < (MAX_VARS : Nat) ∧
    (∀ i : Nat, i ≤ 46340 →
      0 ≤ probe_int (hash_int key) i ∧ probe_int (hash_int key) i < (MAX_VARS : Nat) ∧
      probe_int (hash_int key) i = (probe (hash_int key).toNat i : Int)) ∧
    (∀ (map : Nat → Option wire_t) (i : Nat), 1 ≤ i → i ≤ 128 →
      map (probe (hash_int key).toNat i) = none →
      (∀ j, 1 ≤ j → j < i → map (probe (hash_int key).toNat j) ≠ none) →
      ∀ fuel, i ≤ fuel →
        add_probe_int map (hash_int key) fuel 1 = some (probe_end.exits i)) ∧
    (∀ label : String, label.data.map (fun c => (c.toNat : Int)) = key →
      hash_int key = (hash label : Int)) := by
  obtain ⟨h0, h1⟩ : 0 ≤ hash_int key ∧ hash_int key < 256 :=
    hash_loop_range key hascii key.length 0 (le_refl _) (by decide)
  refine ⟨h0, h1, ?_, ?_, ?_⟩
  · intro i hi
    have e := probe_int_eq h0 h1 hi
    refine ⟨?_, ?_, e⟩
    · rw [e]; exact Int.natCast_nonneg _
    · rw [e]; exact_mod_cast probe_lt _ _
  · intro map i hi1 hi2 hfree hocc fuel hf
    exact add_probe_int_exits h0 h1 hi1 hi2 hfree hocc fuel hf
  · intro label hl
    rw [← hl]
    apply hash_int_eq
    intro c hc
    have := hascii (c.toNat : Int) (by rw [← hl]; exact List.mem_map.2 ⟨c, hc, rfl⟩)
    omega

/-- C32 (witness): the label `OEW`, and the empty label, whose hash is 0. -/
theorem hash_range_witness :
    hash_int [] = 0 ∧ hash_int [79, 69, 87] = 65 ∧
    0 ≤ hash_int [79, 69, 87] ∧ hash_int [79, 69, 87] < (MAX_VARS : Nat) ∧
    (∀ i : Nat, i ≤ 46340 →
      0 ≤ probe_int (hash_int [79, 69, 87]) i ∧
      probe_int (hash_int [79, 69, 87]) i < (MAX_VARS : Nat) ∧
      probe_int (hash_int [79, 69, 87]) i = (probe (hash_int [79, 69, 87]).toNat i : Int)) ∧
    (∀ (map : Nat → Option wire_t) (i : Nat), 1 ≤ i → i ≤ 128 →
      map (probe (hash_int [79, 69, 87]).toNat i) = none →
      (∀ j, 1 ≤ j → j < i → map (probe (hash_int [79, 69, 87]).toNat j) ≠ none) →
      ∀ fuel, i ≤ fuel →
        add_probe_int map (hash_int [79, 69, 87]) fuel 1 = some (probe_end.exits i)) ∧
    (∀ label : String, label.data.map (fun c => (c.toNat : Int)) = [79, 69, 87] →
      hash_int [79, 69, 87] = (hash label : Int)) :=
  ⟨by decide, by decide, hash_range [79, 69, 87] (by decide)⟩

/-- One declaration: the label joins the labels of the list in first-seen order. -/
theorem declare_seen {s s1 : pstate} {ty : var_type_t} (hok : table_ok s.wires s.wireId)
    (h : declare s ty = some s1) :
    table_ok s1.wires s1.wireId ∧
    s1.wires.list.map (fun w => w.key)
      = see_label (s.wires.list.map (fun w => w.key)) s.token := by
  obtain ⟨hok1, _, _, _, _, _, _, _, hcase⟩ := declare_table hok h
  refine ⟨hok1, ?_⟩
  unfold see_label
  rcases hcase with ⟨hc, heq⟩ | ⟨hc, hlist, _⟩
  · rw [if_pos (known_of_contains hok hc), heq]
  · have hnot : s.token ∉ s.wires.list.map (fun w => w.key) := by
      intro hm
      obtain ⟨w, hw, hk⟩ := List.mem_map.1 hm
      have := (hok.found w hw).1
      rw [hk, hc] at this
      cases this
    rw [if_neg hnot, hlist, List.map_append]
    rfl

theorem read_param_seen {s s1 : pstate} {id : Nat} (hok : table_ok s.wires s.wireId)
    (h : read_param s = some (s1, id)) :
    table_ok s1.wires s1.wireId ∧
    s1.wires.list.map (fun w => w.key)
      = see_label (s.wires.list.map (fun w => w.key)) (next_token s).token := by
  unfold read_param at h
  split at h
  · cases h
  · rename_i s2 hd
    split at h
    · cases h
    · cases h
      have hf := next_token_fields s
      have hok0 : table_ok (next_token s).wires (next_token s).wireId := by
        rw [hf.1, hf.2.2.2.1]; exact hok
      have := declare_seen hok0 hd
      rw [hf.1] at this
      exact this

theorem read_params_seen_spec : ∀ (n : Nat) (s s1 : pstate) (ids : List Nat),
    table_ok s.wires s.wireId → read_params n s = some (s1, ids) →
    table_ok s1.wires s1.wireId ∧
    s1.wires.list.map (fun w => w.key)
      = (read_params_seen n s).foldl see_label (s.wires.list.map (fun w => w.key)) := by
  intro n
  induction n with
  | zero =>
    intro s s1 ids hok hr
    simp only [read_params] at hr
    cases hr
    exact ⟨hok, rfl⟩
  | succ n ih =>
    intro s s1 ids hok hr
    simp only [read_params] at hr
    split at hr
    · cases hr
    · rename_i s2 id hp
      split at hr
      · cases hr
      · rename_i s3 ids1 hps
        cases hr
        obtain ⟨hok2, hk2⟩ := read_param_seen hok hp
        obtain ⟨hok3, hk3⟩ := ih s2 _ ids1 hok2 hps
        refine ⟨hok3, ?_⟩
        rw [hk3, hk2]
        simp only [read_params_seen, hp, List.foldl_cons]

theorem read_inputs_seen_spec : ∀ (n : Nat) (s s1 : pstate),
    table_ok s.wires s.wireId → read_inputs n s = some s1 →
    table_ok s1.wires s1.wireId ∧
    s1.wires.list.map (fun w => w.key)
      = (read_inputs_seen n s).foldl see_label (s.wires.list.map (fun w => w.key)) := by
  intro n
  induction n with
  | zero =>
    intro s s1 hok hr
    simp only [read_inputs] at hr
    cases hr
    exact ⟨hok, rfl⟩
  | succ n ih =>
    intro s s1 hok hr
    simp only [read_inputs] at hr
    split at hr
    · cases hr
    · rename_i s2 hd
      have hf := next_token_fields s
      have hok0 : table_ok (next_token s).wires (next_token s).wireId := by
        rw [hf.1, hf.2.2.2.1]; exact hok
      obtain ⟨hok2, hk2⟩ := declare_seen hok0 hd
      rw [hf.1] at hk2
      obtain ⟨hok3, hk3⟩ := ih s2 s1 hok2 hr
      refine ⟨hok3, ?_⟩
      rw [hk3, hk2]
      simp only [read_inputs_seen, hd, List.foldl_cons]

theorem read_outputs_seen_spec : ∀ (n : Nat) (s s1 : pstate),
    table_ok s.wires s.wireId → read_outputs n s = some s1 →
    table_ok s1.wires s1.wireId ∧
    s1.wires.list.map (fun w => w.key)
      = (read_outputs_seen n s).foldl see_label (s.wires.list.map (fun w => w.key)) := by
  intro n
  induction n with
  | zero =>
    intro s s1 hok hr
    simp only [read_outputs] at hr
    cases hr
    exact ⟨hok, rfl⟩
  | succ n ih =>
    intro s s1 hok hr
    simp only [read_outputs] at hr
    split at hr
    · cases hr
    · rename_i s2 hd
      have hf := next_token_fields s
      have hok0 : table_ok (next_token s).wires (next_token s).wireId := by
        rw [hf.1, hf.2.2.2.1]; exact hok
      obtain ⟨hok2, hk2⟩ := declare_seen hok0 hd
      rw [hf.1] at hk2
      obtain ⟨hok3, hk3⟩ := ih s2 s1 hok2 hr
      refine ⟨hok3, ?_⟩
      rw [hk3, hk2]
      simp only [read_outputs_seen, hd, List.foldl_cons]

theorem read_gate_seen {s s1 : pstate} {type : type_t} {size : Int} {count : Nat}
    (hok : table_ok s.wires s.wireId) (hr : read_gate s type size count = some s1) :
    table_ok s1.wires s1.wireId ∧
    s1.wires.list.map (fun w => w.key)
      = (read_params_seen count s).foldl see_label (s.wires.list.map (fun w => w.key)) := by
  unfold read_gate at hr
  split at hr
  · cases hr
  · rename_i s2 params hps
    cases hr
    exact read_params_seen_spec count s s2 params hok hps

theorem statement_seen_spec {s s1 : pstate} (hok : table_ok s.wires s.wireId)
    (hr : statement s = some (some s1)) :
    table_ok s1.wires s1.wireId ∧
    s1.wires.list.map (fun w => w.key)
      = (statement_seen s).foldl see_label (s.wires.list.map (fun w => w.key)) := by
  have hmap : ∀ {o : Option pstate}, o.map some = some (some s1) → o = some s1 := by
    intro o ho
    cases o with
    | none => cases ho
    | some x => simp only [Option.map_some', Option.some.injEq] at ho; rw [ho]
  unfold statement at hr
  unfold statement_seen
  by_cases h0 : s.token = "INPUT"
  · rw [if_pos h0] at hr
    rw [if_pos h0]
    have hr1 := hmap hr
    exact read_inputs_seen_spec _ _ _ (by exact hok) hr1
  rw [if_neg h0] at hr
  rw [if_neg h0]
  by_cases h1 : s.token = "OUTPUT"
  · rw [if_pos h1] at hr
    rw [if_pos h1]
    have hr1 := hmap hr
    exact read_outputs_seen_spec _ _ _ (by exact hok) hr1
  rw [if_neg h1] at hr
  rw [if_neg h1]
  by_cases h2 : s.token = "AND"
  · rw [if_pos h2] at hr
    rw [if_pos h2]
    exact read_gate_seen hok (hmap hr)
  rw [if_neg h2] at hr
  rw [if_neg h2]
  by_cases h3 : s.token = "OR"
  · rw [if_pos h3] at hr
    rw [if_pos h3]
    exact read_gate_seen hok (hmap hr)
  rw [if_neg h3] at hr
  rw [if_neg h3]
  by_cases h4 : s.token = "NAND"
  · rw [if_pos h4] at hr
    rw [if_pos h4]
    exact read_gate_seen hok (hmap hr)
  rw [if_neg h4] at hr
  rw [if_neg h4]
  by_cases h5 : s.token = "NOR"
  · rw [if_pos h5] at hr
    rw [if_pos h5]
    exact read_gate_seen hok (hmap hr)
  rw [if_neg h5] at hr
  rw [if_neg h5]
  by_cases h6 : s.token = "XOR"
  · rw [if_pos h6] at hr
    rw [if_pos h6]
    exact read_gate_seen hok (hmap hr)
  rw [if_neg h6] at hr
  rw [if_neg h6]
  by_cases h7 : s.token = "NOT"
  · rw [if_pos h7] at hr
    rw [if_pos h7]
    exact read_gate_seen hok (hmap hr)
  rw [if_neg h7] at hr
  rw [if_neg h7]
  by_cases h8 : s.token = "PASS"
  · rw [if_pos h8] at hr
    rw [if_pos h8]
    exact read_gate_seen hok (hmap hr)
  rw [if_neg h8] at hr
  rw [if_neg h8]
  have hf := next_token_fields s
  have hokn : table_ok (next_token s).wires (next_token s).wireId := by
    rw [hf.1, hf.2.2.2.1]; exact hok
  by_cases h9 : s.token = "DECODER"
  · rw [if_pos h9] at hr
    rw [if_pos h9]
    have hr1 := hmap hr
    unfold read_decoder at hr1
    unfold read_decoder_seen
    simp only at hr1 ⊢
    by_cases c1 : atoi (next_token s).token < 0 ∧ 0 < shl32 1 (atoi (next_token s).token)
    · rw [if_pos c1] at hr1; cases hr1
    rw [if_neg c1] at hr1
    rw [if_neg c1]
    by_cases c2 : wrap32 (shl32 1 (atoi (next_token s).token) + atoi (next_token s).token) < 0 ∧
        0 < (atoi (next_token s).token).toNat + (shl32 1 (atoi (next_token s).token)).toNat
    · rw [if_pos c2] at hr1; cases hr1
    rw [if_neg c2] at hr1
    rw [if_neg c2]
    have := read_gate_seen hokn hr1
    rw [hf.1] at this
    exact this
  rw [if_neg h9] at hr
  rw [if_neg h9]
  by_cases h10 : s.token = "MULTIPLEXER"
  · rw [if_pos h10] at hr
    rw [if_pos h10]
    have hr1 := hmap hr
    unfold read_multiplexer at hr1
    unfold read_multiplexer_seen
    have := read_gate_seen hokn hr1
    rw [hf.1] at this
    exact this
  rw [if_neg h10] at hr
  cases hr

theorem statement_seen_unknown {s : pstate} (h : statement s = some none) :
    statement_seen s = [] := by
  have hk := (statement_unknown s).1 h
  unfold keywords at hk
  simp only [List.mem_cons, List.mem_singleton, List.not_mem_nil, or_false, not_or] at hk
  obtain ⟨h0, h1, h2, h3, h4, h5, h6, h7, h8, h9, h10⟩ := hk
  unfold statement_seen
  rw [if_neg h0, if_neg h1, if_neg h2, if_neg h3, if_neg h4, if_neg h5, if_neg h6, if_neg h7,
    if_neg h8, if_neg h9, if_neg h10]

theorem parse_loop_seen_spec : ∀ (fuel : Nat) (s s1 : pstate) (res : Int),
    table_ok s.wires s.wireId → parse_loop fuel s = some (res, s1) →
    table_ok s1.wires s1.wireId ∧
    s1.wires.list.map (fun w => w.key)
      = (parse_loop_seen fuel s).foldl see_label (s.wires.list.map (fun w => w.key)) := by
  intro fuel
  induction fuel with
  | zero => intro s s1 res _ hr; simp [parse_loop] at hr
  | succ fuel ih =>
    intro s s1 res hok hr
    simp only [parse_loop] at hr
    simp only [parse_loop_seen]
    cases hrt : read_token s with
    | none =>
      rw [hrt] at hr
      simp only at hr
      cases hr
      exact ⟨hok, rfl⟩
    | some s2 =>
      rw [hrt] at hr
      simp only at hr ⊢
      have hf := read_token_fields hrt
      have hok2 : table_ok s2.wires s2.wireId := by
        rw [hf.1, hf.2.2.2.1]; exact hok
      by_cases hend : s2.token = "END"
      · rw [if_pos hend] at hr
        rw [if_pos hend]
        cases hr
        exact ⟨hok2, by rw [hf.1]; rfl⟩
      · rw [if_neg hend] at hr
        rw [if_neg hend]
        cases hst : statement s2 with
        | none => rw [hst] at hr; cases hr
        | some r =>
          cases r with
          | none =>
            rw [hst] at hr
            simp only at hr
            cases hr
            have hnil : statement_seen s1 = [] := statement_seen_unknown hst
            rw [hnil]
            exact ⟨hok2, by rw [hf.1]; rfl⟩
          | some s3 =>
            rw [hst] at hr
            simp only at hr ⊢
            obtain ⟨hok3, hk3⟩ := statement_seen_spec hok2 hst
            obtain ⟨hok4, hk4⟩ := ih s3 s1 res hok3 hr
            refine ⟨hok4, ?_⟩
            rw [hk4, hk3, hf.1, List.foldl_append]

theorem mem_foldl_see (x : String) : ∀ (ls acc : List String),
    x ∈ ls.foldl see_label acc ↔ x ∈ acc ∨ x ∈ ls := by
  intro ls
  induction ls with
  | nil => intro acc; simp
  | cons a ls ih =>
    intro acc
    rw [List.foldl_cons, ih]
    unfold see_label
    by_cases ha : a ∈ acc
    · rw [if_pos ha]
      constructor
      · rintro (h | h)
        · exact Or.inl h
        · exact Or.inr (List.mem_cons_of_mem _ h)
      · rintro (h | h)
        · exact Or.inl h
        · rcases List.mem_cons.1 h with h | h
          · exact Or.inl (h ▸ ha)
          · exact Or.inr h
    · rw [if_neg ha]
      constructor
      · rintro (h | h)
        · rcases List.mem_append.1 h with h | h
          · exact Or.inl h
          · exact Or.inr (by rw [List.mem_singleton.1 h]; exact List.mem_cons_self _ _)
        · exact Or.inr (List.mem_cons_of_mem _ h)
      · rintro (h | h)
        · exact Or.inl (List.mem_append_left _ h)
        · rcases List.mem_cons.1 h with h | h
          · exact Or.inl (List.mem_append_right _ (by rw [h]; exact List.mem_singleton_self _))
          · exact Or.inr h

/-- C15: after `parse_circuit` returns, on any token stream and with either result,
the labels of the wire list are the labels read by the parser in the order of their
first appearance, each once; the wire at position `k` of the list, that of the `k`-th
distinct label read, has the identity `k`, so the identities are 0, 1, ..., size - 1 and
the next identity is the size; every label read has a wire; no label occurs twice,
wires with distinct labels have distinct identities, and every label is mapped to its
wire by the slot table. -/
theorem dense_identities {input : List String} {nI nO : Int} {tok : String} {res : Int}
    {s : pstate} (h : parse_circuit (main_state input nI nO tok) = some (res, s)) :
    s.wires.list.map (fun w => w.key)
      = first_seen (labels_seen (main_state input nI nO tok)) ∧
    s.wires.list.map (fun w => w.id) = List.range s.wires.list.length ∧
    (∀ (k : Nat) (l : String),
      (first_seen (labels_seen (main_state input nI nO tok)))[k]? = some l →
      ∃ w, s.wires.list[k]? = some w ∧ w.key = l ∧ w.id = k ∧
        hashtable_get_by_key s.wires l = some (some w)) ∧
    (∀ l ∈ labels_seen (main_state input nI nO tok), ∃ w ∈ s.wires.list, w.key = l) ∧
    s.wires.size = s.wires.list.length ∧ s.wireId = s.wires.list.length ∧
    (s.wires.list.map (fun w => w.key)).Nodup ∧
    (∀ w1 ∈ s.wires.list, ∀ w2 ∈ s.wires.list, w1.key ≠ w2.key → w1.id ≠ w2.id) ∧
    (∀ w ∈ s.wires.list, hashtable_get_by_key s.wires w.key = some (some w)) := by
  have hseen := parse_loop_seen_spec _ _ _ _ table_ok_init h
  obtain ⟨hok, hkeys⟩ := hseen
  have hkeys2 : s.wires.list.map (fun w => w.key)
      = first_seen (labels_seen (main_state input nI nO tok)) := hkeys
  have hlen : s.wires.list.length = s.wireId := by
    have := congrArg List.length hok.ids
    simpa using this
  have hids : s.wires.list.map (fun w => w.id) = List.range s.wires.list.length := by
    rw [hlen]; exact hok.ids
  refine ⟨hkeys2, hids, ?_, ?_, by rw [hlen]; exact hok.size, hlen.symm, hok.keys, ?_,
    fun w hw => (hok.found w hw).2⟩
  · intro k l hk
    rw [← hkeys2, List.getElem?_map] at hk
    cases hw : s.wires.list[k]? with
    | none => rw [hw] at hk; cases hk
    | some w =>
      rw [hw] at hk
      simp only [Option.map_some', Option.some.injEq] at hk
      obtain ⟨hklt, hget⟩ := List.getElem?_eq_some_iff.1 hw
      have hmem : w ∈ s.wires.list := by rw [← hget]; exact List.getElem_mem _
      have hid : (s.wires.list.map (fun w => w.id))[k]? = some w.id := by
        rw [List.getElem?_map, hw]; rfl
      rw [hids, List.getElem?_range hklt] at hid
      refine ⟨w, rfl, hk, (Option.some.inj hid).symm, ?_⟩
      rw [← hk]
      exact (hok.found w hmem).2
  · intro l hl
    have : l ∈ s.wires.list.map (fun w => w.key) := by
      rw [hkeys2]
      unfold first_seen
      exact (mem_foldl_see l _ _).2 (Or.inr hl)
    obtain ⟨w, hw, hk⟩ := List.mem_map.1 this
    exact ⟨w, hw, hk⟩
  · intro w1 h1 w2 h2 hne hid
    apply hne
    obtain ⟨i, hi, hwi⟩ := List.getElem_of_mem h1
    obtain ⟨j, hj, hwj⟩ := List.getElem_of_mem h2
    have hidi : (s.wires.list.map (fun w => w.id))[i]? = some w1.id := by
      rw [List.getElem?_map, List.getElem?_eq_getElem hi, hwi]; rfl
    have hidj : (s.wires.list.map (fun w => w.id))[j]? = some w2.id := by
      rw [List.getElem?_map, List.getElem?_eq_getElem hj, hwj]; rfl
    rw [hok.ids, List.getElem?_range (by omega)] at hidi hidj
    have hij : i = j := by
      simp only [Option.some.injEq] at hidi hidj
      omega
    subst hij
    rw [← hwi, ← hwj]

/-- C15 (witness): the half adder: the parser reads `A B S C A B S A B C`, and the wire
list holds `A`, `B`, `S`, `C` with the identities 0, 1, 2, 3. -/
theorem dense_identities_witness :
    labels_seen (main_state half_adder 0 0 "")
      = ["A", "B", "S", "C", "A", "B", "S", "A", "B", "C"] ∧
    first_seen (labels_seen (main_state half_adder 0 0 "")) = ["A", "B", "S", "C"] ∧
    (parsed half_adder).wires.list.map (fun w => (w.key, w.id))
      = [("A", 0), ("B", 1), ("S", 2), ("C", 3)] ∧
    (parsed half_adder).wires.list.map (fun w => w.key)
      = first_seen (labels_seen (main_state half_adder 0 0 "")) ∧
    (parsed half_adder).wires.list.map (fun w => w.id)
      = List.range (parsed half_adder).wires.list.length ∧
    (∀ (k : Nat) (l : String),
      (first_seen (labels_seen (main_state half_adder 0 0 "")))[k]? = some l →
      ∃ w, (parsed half_adder).wires.list[k]? = some w ∧ w.key = l ∧ w.id = k ∧
        hashtable_get_by_key (parsed half_adder).wires l = some (some w)) ∧
    (∀ l ∈ labels_seen (main_state half_adder 0 0 ""),
      ∃ w ∈ (parsed half_adder).wires.list, w.key = l) ∧
    (parsed half_adder).wires.size = (parsed half_adder).wires.list.length ∧
    (parsed half_adder).wireId = (parsed half_adder).wires.list.length ∧
    ((parsed half_adder).wires.list.map (fun w => w.key)).Nodup ∧
    (∀ w1 ∈ (parsed half_adder).wires.list, ∀ w2 ∈ (parsed half_adder).wires.list,
      w1.key ≠ w2.key → w1.id ≠ w2.id) ∧
    (∀ w ∈ (parsed half_adder).wires.list,
      hashtable_get_by_key (parsed half_adder).wires w.key = some (some w)) :=
  ⟨by decide!, by decide!, by decide!,
    @dense_identities half_adder 0 0 "" 0 (parsed half_adder) rfl⟩

end TruthTable

namespace CacheSim

/-! ## Theorems on the cache simulator -/

theorem land_zero_right (x : Int) : Int.land x 0 = 0 := by
  cases x with
  | ofNat m => show ((m &&& 0 : Nat) : Int) = 0; simp
  | negSucc m => show ((Nat.ldiff 0 m : Nat) : Int) = 0; simp [Nat.ldiff]

theorem land_zero_left (x : Int) : Int.land 0 x = 0 := by
  cases x with
  | ofNat m => show ((0 &&& m : Nat) : Int) = 0; simp
  | negSucc m => show ((Nat.ldiff 0 m : Nat) : Int) = 0; simp [Nat.ldiff]

/-- The operand `x & !x` is zero for every `x`. -/
theorem land_lnot (x : Int) : Int.land x (lnot x) = 0 := by
  unfold lnot
  by_cases h : x = 0
  · rw [if_pos h, h]
    exact land_zero_left 1
  · rw [if_neg h]
    exact land_zero_right x

theorem size_test_zero {x t : Int} (h : size_test x = some t) : t = 0 := by
  unfold size_test at h
  split at h
  · cases h
  · cases h
    rw [land_lnot]
    exact land_zero_left _

theorem usage_ne_pow2 (argv0 : String) : usage_msg argv0 ≠ pow2_msg := by
  intro h
  have := congrArg (fun s => s.data.head?) h
  simp only [usage_msg, String.data_append, pow2_msg, List.append_assoc] at this
  have e : (("Usage: " : String).data ++ (argv0.data ++
      (" <cache size> <associativity> <replacement policy> <block size> <trace file>\n"
        : String).data)).head? = some (Char.ofNat 85) := rfl
  rw [e] at this
  revert this
  decide

/-- C31 (code bug): the size test is vacuous. Whatever the arguments, `main` does not
return with the text `Cache size and block size must be powers of 2`; with six
arguments, whenever the conversions, the division and the subtractions are defined,
execution continues past the test with the converted sizes. With cache size 3 and block
size 3, neither a power of 2, `main` continues with associativity 1; with cache size 48
and block size 12 it continues with associativity 4. -/
theorem size_check_vacuous :
    (∀ x t, size_test x = some t → t = 0) ∧
    (∀ argv code, main argv ≠ some (outcome.returned pow2_msg code)) ∧
    (∀ argv, argv.length = 6 → ∀ r, main argv = some r →
      ∃ a, div32 (atoi (argv.getD 1 "")) (atoi (argv.getD 4 "")) = some a ∧
        r = outcome.continues (atoi (argv.getD 1 "")) (atoi (argv.getD 4 "")) a) ∧
    ¬ is_pow2 3 ∧ ¬ is_pow2 48 ∧ ¬ is_pow2 12 ∧
    main ["cachesim", "3", "direct", "fifo", "3", "trace.txt"]
      = some (outcome.continues 3 3 1) ∧
    main ["cachesim", "48", "assoc:2", "lru", "12", "trace.txt"]
      = some (outcome.continues 48 12 4) := by
  have hmain : ∀ argv r, main argv = some r →
      (∃ a0, argv.length ≠ 6 ∧ r = outcome.returned (usage_msg a0) 1) ∨
      (argv.length = 6 ∧
        ∃ a, div32 (atoi (argv.getD 1 "")) (atoi (argv.getD 4 "")) = some a ∧
        r = outcome.continues (atoi (argv.getD 1 "")) (atoi (argv.getD 4 "")) a) := by
    intro argv r h
    unfold main at h
    cases argv with
    | nil => cases h
    | cons a0 rest =>
      simp only at h
      by_cases hl : (a0 :: rest).length ≠ 6
      · rw [if_pos hl] at h
        cases h
        exact Or.inl ⟨a0, hl, rfl⟩
      · rw [if_neg hl] at h
        right
        refine ⟨not_not.1 hl, ?_⟩
        cases hd : div32 (atoi ((a0 :: rest).getD 1 "")) (atoi ((a0 :: rest).getD 4 "")) with
        | none => rw [hd] at h; cases h
        | some a =>
          rw [hd] at h
          simp only at h
          cases h1 : size_test (atoi ((a0 :: rest).getD 1 "")) with
          | none => rw [h1] at h; cases h
          | some t1 =>
            rw [h1] at h
            simp only at h
            have z1 := size_test_zero h1
            rw [if_neg (not_not.2 z1)] at h
            cases h2 : size_test (atoi ((a0 :: rest).getD 4 "")) with
            | none => rw [h2] at h; cases h
            | some t2 =>
              rw [h2] at h
              simp only at h
              have z2 := size_test_zero h2
              rw [if_neg (not_not.2 z2)] at h
              cases h
              exact ⟨a, rfl, rfl⟩
  refine ⟨fun x t h => size_test_zero h, ?_, ?_, by decide, by decide, by decide, by decide,
    by decide⟩
  · intro argv code h
    rcases hmain argv _ h with ⟨a0, _, hr⟩ | ⟨_, a, _, hr⟩
    · injection hr with h1 _
      exact usage_ne_pow2 a0 h1.symm
    · cases hr
  · intro argv hl r h
    rcases hmain argv r h with ⟨a0, hn, _⟩ | ⟨_, a, hd, hr⟩
    · exact absurd hl hn
    · exact ⟨a, hd, hr⟩

end CacheSim
